import Mathlib

/-!
# Elemental: Cholesky kernels and the [MC,*] distribution layer

A shallow embedding of

* `include/elemental/lapack-like/Cholesky/UVar3.hpp` (unblocked and blocked upper
  Cholesky, forward and reverse),
* `include/elemental/lapack-like/Cholesky/LVar2.hpp` (blocked left-looking lower Cholesky),
* `src/core/DistMatrix/Base_MC_Star.cpp` (the `[MC,*]` distributed matrix),

followed by the theorems about them.

Conventions.  A `Matrix<F>` with buffer `ABuffer` and leading dimension `lda` is the
function `A : Nat → Nat → F` with `A i k = ABuffer[i + k*lda]`; the loops of the
source are sequential state transformers over it.  A thrown `LogicError` is the
outcome `logicError B`, where `B` is the buffer as the throw leaves it.
-/

namespace Elemental

/-! ## Scalars, local matrices and loops -/

/-- The scalar operations the Cholesky kernels use on `F` with `BASE(F) = R`:
`RealPart`, `Sqrt`, the conversion of an `R` to an `F`, and `Conj`. -/
structure Scalars (F R : Type) where
  RealPart : F → R
  Sqrt : R → R
  ofBase : R → F
  Conj : F → F

/-- A local matrix: entry `(i,k)` is `ABuffer[i + k*lda]`. -/
abbrev Mat (F : Type) := Nat → Nat → F

/-- The write `ABuffer[i + k*lda] = v`. -/
def Mat.set {F : Type} (A : Mat F) (i k : Nat) (v : F) : Mat F :=
  fun a b => if a = i ∧ b = k then v else A a b

/-- How a kernel ends: normally, or by throwing `LogicError` with the buffer as it is
at the throw. -/
inductive Outcome (α : Type) where
  | done (A : α)
  | logicError (A : α)

/-- The buffer an outcome carries. -/
def Outcome.buffer {α : Type} : Outcome α → α
  | .done A => A
  | .logicError A => A

/-- Whether the outcome is a thrown `LogicError`. -/
def Outcome.failed {α : Type} : Outcome α → Bool
  | .done _ => false
  | .logicError _ => true

/-- Sequencing of a kernel with what follows it; a throw propagates. -/
def Outcome.andThen {α : Type} (o : Outcome α) (f : α → Outcome α) : Outcome α :=
  match o with
  | .done A => f A
  | .logicError A => .logicError A

/-- The loop `for( k=lo; count iterations; ++k ) body(k)`. -/
def forLoop {σ : Type} (body : Nat → σ → σ) : Nat → Nat → σ → σ
  | 0, _, s => s
  | c + 1, lo, s => forLoop body c (lo + 1) (body lo s)

/-- The loop `for( k=lo; k<hi; ++k ) body(k)`. -/
def forRange {σ : Type} (lo hi : Nat) (body : Nat → σ → σ) (s : σ) : σ :=
  forLoop body (hi - lo) lo s

/-! ## `cholesky::UVar3Unb` and `cholesky::ReverseUVar3Unb` -/

section Unblocked

variable {F R : Type} [Field F] [LinearOrderedField R]

/-- The loop of `UVar3Unb` that scales row `j` right of the diagonal:
`for k in j+1..n-1: A[j,k] /= alpha`. -/
def UVar3Unb.scaleRow (S : Scalars F R) (n j : Nat) (alpha : R) (A : Mat F) : Mat F :=
  forRange (j + 1) n (fun k B => B.set j k (B j k / S.ofBase alpha)) A

/-- The double loop of `UVar3Unb`:
`for k in j+1..n-1: for i in j+1..k: A[i,k] -= Conj(A[j,i])*A[j,k]`. -/
def UVar3Unb.update (S : Scalars F R) (n j : Nat) (A : Mat F) : Mat F :=
  forRange (j + 1) n
    (fun k B => forRange (j + 1) (k + 1)
      (fun i C => C.set i k (C i k - S.Conj (C j i) * C j k)) B) A

/-- One iteration `j` of the outer loop of `UVar3Unb`. -/
def UVar3Unb.iter (S : Scalars F R) (n j : Nat) (A : Mat F) : Outcome (Mat F) :=
  let alpha := S.RealPart (A j j)
  if alpha ≤ 0 then .logicError A
  else
    let alpha := S.Sqrt alpha
    let A1 := A.set j j (S.ofBase alpha)
    let A2 := UVar3Unb.scaleRow S n j alpha A1
    .done (UVar3Unb.update S n j A2)

/-- The first `count` iterations `j = 0, …, count-1` of the outer loop of `UVar3Unb`
on an `n×n` matrix. -/
def UVar3Unb.run (S : Scalars F R) (n : Nat) : Nat → Mat F → Outcome (Mat F)
  | 0, A => .done A
  | c + 1, A => (UVar3Unb.run S n c A).andThen (UVar3Unb.iter S n c)

/-- The kernel `cholesky::UVar3Unb` on an `n×n` matrix. -/
def UVar3Unb (S : Scalars F R) (n : Nat) (A : Mat F) : Outcome (Mat F) :=
  UVar3Unb.run S n n A

/-- The loop of `ReverseUVar3Unb` that scales column `j` above the diagonal:
`for i in 0..j-1: A[i,j] /= alpha`. -/
def ReverseUVar3Unb.scaleCol (S : Scalars F R) (j : Nat) (alpha : R) (A : Mat F) : Mat F :=
  forRange 0 j (fun i B => B.set i j (B i j / S.ofBase alpha)) A

/-- The double loop of `ReverseUVar3Unb`:
`for i in 0..j-1: for k in i..j-1: A[i,k] -= Conj(A[k,j])*A[i,j]`. -/
def ReverseUVar3Unb.update (S : Scalars F R) (j : Nat) (A : Mat F) : Mat F :=
  forRange 0 j
    (fun i B => forRange i j
      (fun k C => C.set i k (C i k - S.Conj (C k j) * C i j)) B) A

/-- One iteration `j` of the outer loop of `ReverseUVar3Unb`. -/
def ReverseUVar3Unb.iter (S : Scalars F R) (j : Nat) (A : Mat F) : Outcome (Mat F) :=
  let alpha := S.RealPart (A j j)
  if alpha ≤ 0 then .logicError A
  else
    let alpha := S.Sqrt alpha
    let A1 := A.set j j (S.ofBase alpha)
    let A2 := ReverseUVar3Unb.scaleCol S j alpha A1
    .done (ReverseUVar3Unb.update S j A2)

/-- The first `count` iterations `j = n-1, …, n-count` of the outer loop of
`ReverseUVar3Unb` on an `n×n` matrix. -/
def ReverseUVar3Unb.run (S : Scalars F R) (n : Nat) : Nat → Mat F → Outcome (Mat F)
  | 0, A => .done A
  | c + 1, A => (ReverseUVar3Unb.run S n c A).andThen (ReverseUVar3Unb.iter S (n - 1 - c))

/-- The kernel `cholesky::ReverseUVar3Unb` on an `n×n` matrix. -/
def ReverseUVar3Unb (S : Scalars F R) (n : Nat) (A : Mat F) : Outcome (Mat F) :=
  ReverseUVar3Unb.run S n n A

/-- Closed form of a successful iteration `j` of `UVar3Unb` with pivot root `a`. -/
def UVar3Unb.after (S : Scalars F R) (n j : Nat) (a : F) (A : Mat F) : Mat F :=
  fun i k =>
    if i = j ∧ k = j then a
    else if i = j ∧ j < k ∧ k < n then A j k / a
    else if j < i ∧ i ≤ k ∧ k < n then A i k - S.Conj (A j i / a) * (A j k / a)
    else A i k

/-- Closed form of a successful iteration `j` of `ReverseUVar3Unb` with pivot root `a`. -/
def ReverseUVar3Unb.after (S : Scalars F R) (j : Nat) (a : F) (A : Mat F) : Mat F :=
  fun i k =>
    if i = j ∧ k = j then a
    else if k = j ∧ i < j then A i j / a
    else if i ≤ k ∧ k < j then A i k - S.Conj (A k j / a) * (A i j / a)
    else A i k

end Unblocked

/-- Exact real or complex arithmetic: `RealPart`, the real square root, the inclusion
of the reals and complex conjugation on a field `K` that is `ℝ` or `ℂ`. -/
noncomputable def exact (K : Type) [RCLike K] : Scalars K ℝ where
  RealPart := fun z => RCLike.re z
  Sqrt := Real.sqrt
  ofBase := fun x => (x : K)
  Conj := fun z => (starRingEnd K) z

/-! ## Matrices of the specification -/

section SpecMatrices
variable {K : Type}

/-- The `n×n` matrix a buffer holds. -/
def Mat.toMatrix (n : Nat) (A : Mat K) : Matrix (Fin n) (Fin n) K :=
  Matrix.of fun i k => A i k

/-- The upper triangle (entries `i ≤ k`) of the `n×n` matrix a buffer holds, with zeros
below the diagonal. -/
def Mat.upper [Zero K] (n : Nat) (A : Mat K) : Matrix (Fin n) (Fin n) K :=
  Matrix.of fun i k => if (i : Nat) ≤ (k : Nat) then A i k else 0

/-- The lower triangle (entries `k ≤ i`) of the `n×n` matrix a buffer holds, with zeros
above the diagonal. -/
def Mat.lower [Zero K] (n : Nat) (A : Mat K) : Matrix (Fin n) (Fin n) K :=
  Matrix.of fun i k => if (k : Nat) ≤ (i : Nat) then A i k else 0

/-- The quadratic form `xᴴ·H·x` over the index range `[lo, n)`. -/
def qform [RCLike K] (H : Mat K) (lo n : Nat) (x : Nat → K) : K :=
  ∑ i ∈ Finset.Ico lo n, ∑ k ∈ Finset.Ico lo n, (starRingEnd K) (x i) * H i k * x k

/-- The kernel `H` is Hermitian positive definite on the index range `[lo, n)`. -/
def PDOn [RCLike K] (H : Mat K) (lo n : Nat) : Prop :=
  (∀ i k, lo ≤ i → i < n → lo ≤ k → k < n → H k i = (starRingEnd K) (H i k)) ∧
  ∀ x : Nat → K, (∃ i, lo ≤ i ∧ i < n ∧ x i ≠ 0) → 0 < RCLike.re (qform H lo n x)

/-- The Schur complement left of `H` once rows `0..j-1` of a factor `G` are known:
`H[i,k] - Σ_{q<j} conj(G[q,i])·G[q,k]`. -/
def schur [RCLike K] (H G : Mat K) (j : Nat) : Mat K :=
  fun i k => H i k - ∑ q ∈ Finset.range j, (starRingEnd K) (G q i) * G q k

/-- Two buffers with the same upper triangle (entries `i ≤ k`). -/
def UpperEq (A B : Mat K) : Prop := ∀ i k, i ≤ k → A i k = B i k

/-- Two outcomes of the same kind whose buffers have the same upper triangle. -/
def Outcome.UpperEq (o o' : Outcome (Mat K)) : Prop :=
  o.failed = o'.failed ∧ Elemental.UpperEq o.buffer o'.buffer

/-- The state of `UVar3Unb` before iteration `j`: rows `0..j-1` are rows of the factor,
their diagonal is real positive, and the upper triangle of the trailing block is the
Schur complement. -/
def UVar3Unb.Inv [RCLike K] (n : Nat) (A0 A : Mat K) (j : Nat) : Prop :=
  (∀ p, p < j → ∀ i, p ≤ i → i < n →
      ∑ q ∈ Finset.range (p + 1), (starRingEnd K) (A q p) * A q i = A0 p i) ∧
  (∀ p, p < j → ∃ d : ℝ, 0 < d ∧ A p p = (d : K)) ∧
  (∀ i k, j ≤ i → i ≤ k → k < n → A i k = schur A0 A j i k)

/-- The unblocked lower kernel returns the lower Cholesky factor of a block: when the
Hermitian matrix given by the lower triangle of the `nb×nb` block `B` is positive
definite, the kernel runs through and leaves `L` with a real positive diagonal and
`L·Lᴴ = B` on the lower triangle. -/
def LowerCholesky [RCLike K] (kernel : Nat → Mat K → Outcome (Mat K)) : Prop :=
  ∀ (nb : Nat) (B : Mat K),
    PDOn (fun i k => if k ≤ i then B i k else (starRingEnd K) (B k i)) 0 nb →
    ∃ L, kernel nb B = .done L ∧
      (∀ i, i < nb → ∃ d : ℝ, 0 < d ∧ L i i = (d : K)) ∧
      (∀ i j, j ≤ i → i < nb →
        ∑ p ∈ Finset.range (j + 1), L i p * (starRingEnd K) (L j p) = B i j)

end SpecMatrices

/-! ## Matrices of the scenarios -/

/-- The identity matrix (scenario S1). -/
def identity (K : Type) [Zero K] [One K] : Mat K := fun i k => if i = k then 1 else 0

/-- The matrix `tridiag(-1, 2, -1)` (scenario S2). -/
def tridiag (K : Type) [Field K] : Mat K :=
  fun i k => if i = k then 2 else if i + 1 = k ∨ k + 1 = i then -1 else 0

/-- The matrix `[[1,0],[0,-1]]` (scenario S4). -/
def indefinite2 : Mat ℝ := fun i k => if i = k then (if i = 0 then 1 else -1) else 0

/-- The Hermitian positive definite matrix `[[25,20],[20,25]]`. -/
def hpd2 : Mat ℝ := fun i k => if i = k then 25 else 20

/-- The index mirror of an `n×n` matrix: `flip(M)[i,k] = conj(M[n-1-k, n-1-i])`. -/
def Mat.flip {F R : Type} (S : Scalars F R) (n : Nat) (M : Mat F) : Mat F :=
  fun i k => S.Conj (M (n - 1 - k) (n - 1 - i))

/-- The upper triangle of `B` is the upper triangle of the index mirror of `B'`. -/
def Mirror {F R : Type} (S : Scalars F R) (n : Nat) (B B' : Mat F) : Prop :=
  ∀ i k, i ≤ k → k < n → B i k = Mat.flip S n B' i k

/-- The pivot `(j+2)/(j+1)` that `UVar3Unb` meets at iteration `j` on `tridiag(-1,2,-1)`. -/
noncomputable def tridiagPivot (j : Nat) : ℝ := ((j : ℝ) + 2) / ((j : ℝ) + 1)

/-- The buffer of `UVar3Unb` on the `n×n` matrix `tridiag(-1,2,-1)` before iteration `j`:
rows `0..j-1` hold the factor, entry `(j,j)` holds the pivot, the rest is as given. -/
noncomputable def tridiagState (K : Type) [RCLike K] (n j : Nat) : Mat K :=
  fun i k =>
    if i < j then
      if k = i then ((Real.sqrt (tridiagPivot i) : ℝ) : K)
      else if k = i + 1 ∧ k < n then ((-(Real.sqrt (tridiagPivot i))⁻¹ : ℝ) : K)
      else tridiag K i k
    else if i = j ∧ k = j ∧ j < n then ((tridiagPivot j : ℝ) : K)
    else tridiag K i k

/-! ## Views and the level-3 kernels -/

/-- The arguments of `View( A, i, j, height, width )`. -/
structure ViewArgs where
  i : Nat
  j : Nat
  height : Nat
  width : Nat
  deriving DecidableEq

/-- `LEFT` or `RIGHT`. -/
inductive Side where
  | LEFT
  | RIGHT
  deriving DecidableEq

/-- `LOWER` or `UPPER`. -/
inductive UpperOrLower where
  | LOWER
  | UPPER
  deriving DecidableEq

/-- `NORMAL`, `TRANSPOSE` or `ADJOINT`. -/
inductive Orientation where
  | NORMAL
  | TRANSPOSE
  | ADJOINT
  deriving DecidableEq

/-- `NON_UNIT` or `UNIT`. -/
inductive UnitOrNonUnit where
  | NON_UNIT
  | UNIT
  deriving DecidableEq

section Kernels
variable {F R : Type} [Field F]

/-- Entry `(a,b)` of the view `View( A, i, j, ·, · )`: it aliases `A[i+a, j+b]`. -/
def Mat.view (A : Mat F) (i j : Nat) : Mat F := fun a b => A (i + a) (j + b)

/-- The parent buffer once a kernel has left `V` in the view `View( A, i, j, h, w )`. -/
def Mat.store (A : Mat F) (i j h w : Nat) (V : Mat F) : Mat F :=
  fun a b => if (i ≤ a ∧ a < i + h) ∧ (j ≤ b ∧ b < j + w) then V (a - i) (b - j) else A a b

/-- The parent buffer once a kernel has ended with outcome `o` on the view
`View( A, i, j, h, w )`. -/
def Outcome.store (A : Mat F) (i j h w : Nat) : Outcome (Mat F) → Outcome (Mat F)
  | .done V => .done (A.store i j h w V)
  | .logicError V => .logicError (A.store i j h w V)

/-- The matrix `op(A)` of the kernel table. -/
def Orientation.op (S : Scalars F R) (o : Orientation) (A : Mat F) : Mat F :=
  match o with
  | .NORMAL => A
  | .TRANSPOSE => fun i k => A k i
  | .ADJOINT => fun i k => S.Conj (A k i)

/-- Whether `(i,k)` lies in the `uplo` triangle, diagonal included. -/
def UpperOrLower.has (uplo : UpperOrLower) (i k : Nat) : Bool :=
  match uplo with
  | .LOWER => decide (k ≤ i)
  | .UPPER => decide (i ≤ k)

/-- Modelled from the spec: `Gemm(opA, opB, α, A, B, β, C)` of the kernel table (its
source is not part of the repository's files here), `C ← α·op(A)·op(B) + β·C` for an `m×n`
matrix `C` and inner dimension `k`. -/
def Gemm (S : Scalars F R) (oA oB : Orientation) (alpha : F) (m n k : Nat) (A B : Mat F)
    (beta : F) (C : Mat F) : Mat F :=
  fun i j =>
    if i < m ∧ j < n then
      alpha * (∑ p ∈ Finset.range k, oA.op S A i p * oB.op S B p j) + beta * C i j
    else C i j

/-- Modelled from the spec: `Herk(uplo, op, α, A, β, C)` of the kernel table (its source
is not part of the repository's files here), `C ← α·op(A)·op(A)ᴴ + β·C` on the `uplo`
half of the `n×n` matrix `C` only, with inner dimension `k`. -/
def Herk (S : Scalars F R) (uplo : UpperOrLower) (o : Orientation) (alpha : F) (n k : Nat)
    (A : Mat F) (beta : F) (C : Mat F) : Mat F :=
  fun i j =>
    if (i < n ∧ j < n) ∧ uplo.has i j = true then
      alpha * (∑ p ∈ Finset.range k, o.op S A i p * S.Conj (o.op S A j p)) + beta * C i j
    else C i j

/-- The type of `Trsm(side, uplo, op, diag, α, A, B)` for an `m×n` matrix `B`; the result
is the new content of `B`. -/
abbrev TrsmKernel (F : Type) :=
  Side → UpperOrLower → Orientation → UnitOrNonUnit → F → Nat → Nat → Mat F → Mat F → Mat F

/-- The triangular matrix `Trsm` reads from `A`: the `uplo` triangle, with a unit diagonal
for `UNIT`. -/
def triangle (uplo : UpperOrLower) (diag : UnitOrNonUnit) (A : Mat F) : Mat F :=
  fun i k =>
    if i = k then (match diag with | .UNIT => 1 | .NON_UNIT => A i i)
    else if uplo.has i k = true then A i k else 0

/-- The kernel table's `Trsm`, "solve triangular system in place", for the three calls
the Cholesky drivers make (`α = 1`, `NON_UNIT`, a triangle with non-zero diagonal):
`RIGHT, LOWER, ADJOINT` leaves `X` with `X·Aᴴ = B`, `LEFT, UPPER, ADJOINT` leaves `X` with
`Aᴴ·X = B`, and `RIGHT, UPPER, NORMAL` leaves `X` with `X·A = B`. -/
def TrsmSolves (S : Scalars F R) (Trsm : TrsmKernel F) : Prop :=
  (∀ (m n : Nat) (A B : Mat F), (∀ p, p < n → A p p ≠ 0) →
    ∀ i c, i < m → c < n →
      ∑ p ∈ Finset.range (c + 1),
        Trsm .RIGHT .LOWER .ADJOINT .NON_UNIT 1 m n A B i p * S.Conj (A c p) = B i c) ∧
  (∀ (m n : Nat) (A B : Mat F), (∀ p, p < m → A p p ≠ 0) →
    ∀ i c, i < m → c < n →
      ∑ p ∈ Finset.range (i + 1),
        S.Conj (A p i) * Trsm .LEFT .UPPER .ADJOINT .NON_UNIT 1 m n A B p c = B i c) ∧
  (∀ (m n : Nat) (A B : Mat F), (∀ p, p < n → A p p ≠ 0) →
    ∀ i c, i < m → c < n →
      ∑ p ∈ Finset.range (c + 1),
        Trsm .RIGHT .UPPER .NORMAL .NON_UNIT 1 m n A B i p * A p c = B i c)

/-- Forward substitution over the columns for `X·T = α·B` with `T` upper triangular:
after `c` steps the columns `0..c-1` of the buffer hold `X`. -/
def solveCols (T : Mat F) (alpha : F) (m : Nat) (B : Mat F) : Nat → Mat F
  | 0 => B
  | c + 1 =>
    let X := solveCols T alpha m B c
    fun i k =>
      if i < m ∧ k = c then
        (alpha * B i c - ∑ p ∈ Finset.range c, X i p * T p c) / T c c
      else X i k

/-- Forward substitution over the rows for `T·X = α·B` with `T` lower triangular:
after `r` steps the rows `0..r-1` of the buffer hold `X`. -/
def solveRows (T : Mat F) (alpha : F) (n : Nat) (B : Mat F) : Nat → Mat F
  | 0 => B
  | r + 1 =>
    let X := solveRows T alpha n B r
    fun i k =>
      if i = r ∧ k < n then
        (alpha * B r k - ∑ p ∈ Finset.range r, T r p * X p k) / T r r
      else X i k

/-- Backward substitution over the columns for `X·T = α·B` with `T` lower triangular:
after `s` steps the columns `n-s..n-1` of the buffer hold `X`. -/
def solveColsBack (T : Mat F) (alpha : F) (m n : Nat) (B : Mat F) : Nat → Mat F
  | 0 => B
  | s + 1 =>
    let X := solveColsBack T alpha m n B s
    fun i k =>
      if i < m ∧ k = n - 1 - s then
        (alpha * B i k - ∑ p ∈ Finset.Ico (k + 1) n, X i p * T p k) / T k k
      else X i k

/-- Backward substitution over the rows for `T·X = α·B` with `T` upper triangular:
after `s` steps the rows `m-s..m-1` of the buffer hold `X`. -/
def solveRowsBack (T : Mat F) (alpha : F) (m n : Nat) (B : Mat F) : Nat → Mat F
  | 0 => B
  | s + 1 =>
    let X := solveRowsBack T alpha m n B s
    fun i k =>
      if i = m - 1 - s ∧ k < n then
        (alpha * B i k - ∑ p ∈ Finset.Ico (i + 1) m, T i p * X p k) / T i i
      else X i k

/-- Modelled from the spec: `Trsm(side, uplo, op, diag, α, A, B)` of the kernel table
(its source is not part of the repository's files here), "solve triangular system in
place": `B ← α·op(A)⁻¹·B` for `LEFT` and `B ← α·B·op(A)⁻¹` for `RIGHT`, by substitution
in the order the shape of `op(A)` asks for. -/
def trsm (S : Scalars F R) : TrsmKernel F :=
  fun side uplo o diag alpha m n A B =>
    let T := o.op S (triangle uplo diag A)
    match side, uplo, o with
    | .RIGHT, .UPPER, .NORMAL => solveCols T alpha m B n
    | .RIGHT, .LOWER, .TRANSPOSE => solveCols T alpha m B n
    | .RIGHT, .LOWER, .ADJOINT => solveCols T alpha m B n
    | .RIGHT, .LOWER, .NORMAL => solveColsBack T alpha m n B n
    | .RIGHT, .UPPER, .TRANSPOSE => solveColsBack T alpha m n B n
    | .RIGHT, .UPPER, .ADJOINT => solveColsBack T alpha m n B n
    | .LEFT, .LOWER, .NORMAL => solveRows T alpha n B m
    | .LEFT, .UPPER, .TRANSPOSE => solveRows T alpha n B m
    | .LEFT, .UPPER, .ADJOINT => solveRows T alpha n B m
    | .LEFT, .UPPER, .NORMAL => solveRowsBack T alpha m n B m
    | .LEFT, .LOWER, .TRANSPOSE => solveRowsBack T alpha m n B m
    | .LEFT, .LOWER, .ADJOINT => solveRowsBack T alpha m n B m

/-! ## The blocked serial drivers -/

/-- The views `A10`, `A11`, `A20`, `A21` of an iteration of the serial `LVar2`. -/
def LVar2.A10 (k nb : Nat) : ViewArgs := ⟨k, 0, nb, k⟩
/-- See `LVar2.A10`. -/
def LVar2.A11 (k nb : Nat) : ViewArgs := ⟨k, k, nb, nb⟩
/-- See `LVar2.A10`. -/
def LVar2.A20 (n k nb : Nat) : ViewArgs := ⟨k + nb, 0, n - (k + nb), k⟩
/-- See `LVar2.A10`. -/
def LVar2.A21 (n k nb : Nat) : ViewArgs := ⟨k + nb, k, n - (k + nb), nb⟩

/-- The view `A21` of an iteration of the distributed `LVar2`, as the source takes it. -/
def LVar2.distA21 (n k nb : Nat) : ViewArgs := ⟨k + nb, k + nb, n - (k + nb), n - (k + nb)⟩

/-- The views `A11`, `A12`, `A22` of an iteration of the serial `UVar3`. -/
def UVar3.A11 (k nb : Nat) : ViewArgs := ⟨k, k, nb, nb⟩
/-- See `UVar3.A11`. -/
def UVar3.A12 (n k nb : Nat) : ViewArgs := ⟨k, k + nb, nb, n - (k + nb)⟩
/-- See `UVar3.A11`. -/
def UVar3.A22 (n k nb : Nat) : ViewArgs := ⟨k + nb, k + nb, n - (k + nb), n - (k + nb)⟩

/-- The views `A00`, `A01`, `A11` of an iteration of the serial `ReverseUVar3`. -/
def ReverseUVar3.A00 (n k nb : Nat) : ViewArgs := ⟨0, 0, n - (k + nb), n - (k + nb)⟩
/-- See `ReverseUVar3.A00`. -/
def ReverseUVar3.A01 (n k nb : Nat) : ViewArgs := ⟨0, n - (k + nb), n - (k + nb), nb⟩
/-- See `ReverseUVar3.A00`. -/
def ReverseUVar3.A11 (n k nb : Nat) : ViewArgs := ⟨n - (k + nb), n - (k + nb), nb, nb⟩

/-- The content of the view `v` of `A`. -/
def Mat.sub (A : Mat F) (v : ViewArgs) : Mat F := A.view v.i v.j

/-- The parent buffer once a kernel has left `V` in the view `v` of `A`. -/
def Mat.put (A : Mat F) (v : ViewArgs) (V : Mat F) : Mat F :=
  A.store v.i v.j v.height v.width V

/-- The parent buffer once a kernel has ended with outcome `o` on the view `v` of `A`. -/
def Outcome.put (A : Mat F) (v : ViewArgs) (o : Outcome (Mat F)) : Outcome (Mat F) :=
  Outcome.store A v.i v.j v.height v.width o

/-- The loop `for( k=0; k<n; k+=bsize )` with `nb = min(bsize,n-k)`, run from `k` for at
most `fuel` iterations; `none` when the iterations do not suffice. -/
def blockLoop (iter : Nat → Nat → Mat F → Outcome (Mat F)) (bsize n : Nat) :
    Nat → Nat → Mat F → Option (Outcome (Mat F))
  | 0, k, A => if k < n then none else some (.done A)
  | fuel + 1, k, A =>
    if k < n then
      match iter k (min bsize (n - k)) A with
      | .done B => blockLoop iter bsize n fuel (k + bsize) B
      | .logicError B => some (.logicError B)
    else some (.done A)

variable [LinearOrderedField R]

/-- One iteration of the serial `cholesky::LVar2` on an `n×n` matrix. -/
def LVar2.iter (S : Scalars F R) (Trsm : TrsmKernel F)
    (LVar3Unb : Nat → Mat F → Outcome (Mat F)) (n k nb : Nat) (A : Mat F) :
    Outcome (Mat F) :=
  let A10 := LVar2.A10 k nb
  let A11 := LVar2.A11 k nb
  let A20 := LVar2.A20 n k nb
  let A21 := LVar2.A21 n k nb
  let A1 := A.put A11 (Herk S .LOWER .NORMAL (-1) A11.height A10.width (A.sub A10) 1 (A.sub A11))
  (Outcome.put A1 A11 (LVar3Unb A11.height (A1.sub A11))).andThen fun A2 =>
    let A3 := A2.put A21 (Gemm S .NORMAL .ADJOINT (-1) A21.height A21.width A20.width
      (A2.sub A20) (A2.sub A10) 1 (A2.sub A21))
    .done (A3.put A21 (Trsm .RIGHT .LOWER .ADJOINT .NON_UNIT 1 A21.height A21.width
      (A3.sub A11) (A3.sub A21)))

/-- The serial `cholesky::LVar2` on an `n×n` matrix with `Blocksize() = bsize`. -/
def LVar2 (S : Scalars F R) (Trsm : TrsmKernel F) (LVar3Unb : Nat → Mat F → Outcome (Mat F))
    (bsize n : Nat) (A : Mat F) (fuel : Nat) : Option (Outcome (Mat F)) :=
  blockLoop (LVar2.iter S Trsm LVar3Unb n) bsize n fuel 0 A

/-- One iteration of the serial `cholesky::UVar3` on an `n×n` matrix. -/
def UVar3.iter (S : Scalars F R) (Trsm : TrsmKernel F) (n k nb : Nat) (A : Mat F) :
    Outcome (Mat F) :=
  let A11 := UVar3.A11 k nb
  let A12 := UVar3.A12 n k nb
  let A22 := UVar3.A22 n k nb
  (Outcome.put A A11 (UVar3Unb S A11.height (A.sub A11))).andThen fun A1 =>
    let A2 := A1.put A12 (Trsm .LEFT .UPPER .ADJOINT .NON_UNIT 1 A12.height A12.width
      (A1.sub A11) (A1.sub A12))
    .done (A2.put A22 (Herk S .UPPER .ADJOINT (-1) A22.height A12.height (A2.sub A12) 1
      (A2.sub A22)))

/-- The serial `cholesky::UVar3` on an `n×n` matrix with `Blocksize() = bsize`. -/
def UVar3 (S : Scalars F R) (Trsm : TrsmKernel F) (bsize n : Nat) (A : Mat F) (fuel : Nat) :
    Option (Outcome (Mat F)) :=
  blockLoop (UVar3.iter S Trsm n) bsize n fuel 0 A

/-- One iteration of the serial `cholesky::ReverseUVar3` on an `n×n` matrix. -/
def ReverseUVar3.iter (S : Scalars F R) (Trsm : TrsmKernel F) (n k nb : Nat) (A : Mat F) :
    Outcome (Mat F) :=
  let A00 := ReverseUVar3.A00 n k nb
  let A01 := ReverseUVar3.A01 n k nb
  let A11 := ReverseUVar3.A11 n k nb
  (Outcome.put A A11 (ReverseUVar3Unb S A11.height (A.sub A11))).andThen fun A1 =>
    let A2 := A1.put A01 (Trsm .RIGHT .UPPER .NORMAL .NON_UNIT 1 A01.height A01.width
      (A1.sub A11) (A1.sub A01))
    .done (A2.put A00 (Herk S .UPPER .NORMAL (-1) A00.height A01.width (A2.sub A01) 1
      (A2.sub A00)))

/-- The serial `cholesky::ReverseUVar3` on an `n×n` matrix with `Blocksize() = bsize`. -/
def ReverseUVar3 (S : Scalars F R) (Trsm : TrsmKernel F) (bsize n : Nat) (A : Mat F)
    (fuel : Nat) : Option (Outcome (Mat F)) :=
  blockLoop (ReverseUVar3.iter S Trsm n) bsize n fuel 0 A

/-- The Hermitian matrix whose lower triangle is the lower triangle of `B`. -/
def Mat.hermLower (S : Scalars F R) (B : Mat F) : Mat F :=
  fun i k => if k ≤ i then B i k else S.Conj (B k i)

/-- The Hermitian matrix whose upper triangle is the upper triangle of `B`. -/
def Mat.hermUpper (S : Scalars F R) (B : Mat F) : Mat F :=
  fun i k => if i ≤ k then B i k else S.Conj (B k i)

/-- The adjoint of a buffer, `adj(B)[i,k] = conj(B[k,i])`. -/
def Mat.adj (S : Scalars F R) (B : Mat F) : Mat F := fun i k => S.Conj (B k i)

/-- Modelled from the spec: `cholesky::LVar3Unb` (its source, `LVar3.hpp`, is not part of
the repository's files here), "UVar3Unb, lower variant symmetric": the lower kernel does
on the lower triangle what `UVar3Unb` does on the upper triangle of the adjoint. -/
def LVar3Unb (S : Scalars F R) (n : Nat) (A : Mat F) : Outcome (Mat F) :=
  match UVar3Unb S n (A.adj S) with
  | .done U => .done (U.adj S)
  | .logicError U => .logicError (U.adj S)

end Kernels

section BlockedInvariants
variable {K : Type} [RCLike K]

/-- The state of the serial `LVar2` before the block that starts at `k`: columns `0..k-1`
of the lower triangle are columns of the factor, the later columns are as given. -/
def LVar2.Inv (n : Nat) (A0 A : Mat K) (k : Nat) : Prop :=
  (∀ j, j < k → ∀ i, j ≤ i → i < n →
      ∑ p ∈ Finset.range (j + 1), A i p * (starRingEnd K) (A j p) = A0 i j) ∧
  (∀ i j, k ≤ j → j ≤ i → i < n → A i j = A0 i j)

end BlockedInvariants

/-! ## The distribution layer: `DistMatrixBase<T,MC,Star>`

The processes of the `r×c` grid run the same program; a process is named by its
`MCRank < r` and `MRRank < c`.  The members every process holds with the same value
(sizes, alignments, flags) are single fields, the members that differ per process (shifts,
local tiles) are functions of `(MCRank, MRRank)`.  A scratch or message buffer is a function
`Nat → T`, a local tile a `Mat T` with entry `(iLoc,jLoc)` at `buffer[iLoc + jLoc*ldim]`. -/

/-- The process grid: its `Height()` `r` and `Width()` `c`. -/
structure Grid where
  Height : Nat
  Width : Nat

/-- Modelled from the spec: the utility `Shift` (its source is not part of the repository's
files here), `Shift(rank, alignment, modulus) = (rank − alignment + modulus) mod modulus`. -/
def Shift (rank alignment modulus : Nat) : Nat := (rank + modulus - alignment) % modulus

/-- Modelled from the spec: the utility `RawShift`, `Shift` without its debug checks. -/
def RawShift (rank alignment modulus : Nat) : Nat := (rank + modulus - alignment) % modulus

/-- Modelled from the spec: the utility `LocalLength` (its source is not part of the
repository's files here): a local tile "is sized exactly to the process's owned slice", the
indices `shift, shift + modulus, …` below `n`. -/
def LocalLength (n shift modulus : Nat) : Nat :=
  if shift < n then (n - shift - 1) / modulus + 1 else 0

/-- Modelled from the spec: the utility `RawLocalLength`, `LocalLength` without its debug
checks. -/
def RawLocalLength (n shift modulus : Nat) : Nat :=
  if shift < n then (n - shift - 1) / modulus + 1 else 0

/-- Modelled from the spec: the utility `MaxLocalLength`, the largest local length over the
shifts, that of shift `0`. -/
def MaxLocalLength (n modulus : Nat) : Nat :=
  if 0 < n then (n - 1) / modulus + 1 else 0

section Dist
variable {T : Type}

/-- A `DistMatrixBase<T,MC,MR>` on the whole grid. -/
structure DistMatrix_MC_MR (T : Type) where
  height : Nat
  width : Nat
  colAlignment : Nat
  rowAlignment : Nat
  colShift : Nat → Nat → Nat
  rowShift : Nat → Nat → Nat
  localHeight : Nat → Nat → Nat
  localWidth : Nat → Nat → Nat
  localMatrix : Nat → Nat → Mat T

/-- A `DistMatrixBase<T,MC,Star>` on the whole grid. -/
structure DistMatrix_MC_Star (T : Type) where
  viewing : Bool
  lockedView : Bool
  height : Nat
  width : Nat
  constrainedColAlignment : Bool
  colAlignment : Nat
  colShift : Nat → Nat → Nat
  localHeight : Nat → Nat → Nat
  localWidth : Nat → Nat → Nat
  localMatrix : Nat → Nat → Mat T

/-- Modelled from the spec: the global entry `(i,j)` of a `[MC,MR]` matrix (the source of
`[MC,MR]` is not part of the repository's files here): it lives on the process with
`MCRank = (i + colAlignment) mod r` and `MRRank = (j + rowAlignment) mod c`, at the local
position `((i − colShift)/r, (j − rowShift)/c)`. -/
def DistMatrix_MC_MR.entry (g : Grid) (A : DistMatrix_MC_MR T) (i j : Nat) : T :=
  let ownerRow := (i + A.colAlignment) % g.Height
  let ownerCol := (j + A.rowAlignment) % g.Width
  A.localMatrix ownerRow ownerCol ((i - A.colShift ownerRow ownerCol) / g.Height)
    ((j - A.rowShift ownerRow ownerCol) / g.Width)

/-- `memcpy( &dst[off], src, count*sizeof(T) )`. -/
def memcpy (dst : Nat → T) (off : Nat) (src : Nat → T) (count : Nat) : Nat → T :=
  fun t => if off ≤ t ∧ t < off + count then src (t - off) else dst t

/-- The column `&localBuffer[jLoc*ldim]` of a local tile, as a buffer. -/
def Mat.col (M : Mat T) (jLoc : Nat) : Nat → T := fun iLoc => M iLoc jLoc

/-- `memcpy( &localBuffer[jLoc*ldim], src, count*sizeof(T) )` into a column of a tile. -/
def Mat.memcpyCol (M : Mat T) (jLoc : Nat) (src : Nat → T) (count : Nat) : Mat T :=
  fun i j => if j = jLoc ∧ i < count then src i else M i j

/-- `mpi::AllGather( sbuf, n, rbuf, n, comm )` on a communicator of `size` ranks: block `k`
of the receive buffer gets the `n` elements that rank `k` sends. -/
def AllGather (sbuf : Nat → Nat → T) (n size : Nat) (rbuf : Nat → T) : Nat → T :=
  fun t => if t < size * n then sbuf (t / n) (t % n) else rbuf t

/-- `mpi::Broadcast( buf, n, root, comm )` on a rank that holds `buf`: the first `n`
elements become those of the root. -/
def Broadcast (rootBuf : Nat → T) (n : Nat) (buf : Nat → T) : Nat → T :=
  fun t => if t < n then rootBuf t else buf t

/-- `mpi::SendRecv( sbuf, n, dest, 0, rbuf, n, source, ANY_TAG, comm )` seen from one rank:
the first `n` elements of `rbuf` become what the rank `source` sends. -/
def SendRecv (sourceBuf : Nat → T) (n : Nat) (rbuf : Nat → T) : Nat → T :=
  fun t => if t < n then sourceBuf t else rbuf t

/-- Every rank of a communicator of `size` ranks receives from the rank that sends to it:
the `SendRecv` calls match and complete. -/
def sendRecvMatches (size : Nat) (dest source : Nat → Nat) : Bool :=
  (List.range size).all fun rank =>
    decide (source rank < size ∧ dest rank < size ∧
      dest (source rank) = rank ∧ source (dest rank) = rank)

/-- `[MC,* ]::ResizeTo( height, width )`. -/
def DistMatrix_MC_Star.ResizeTo (g : Grid) (M : DistMatrix_MC_Star T) (height width : Nat) :
    DistMatrix_MC_Star T :=
  { M with
    height := height
    width := width
    localHeight := fun row col => LocalLength height (M.colShift row col) g.Height
    localWidth := fun _ _ => width }

/-- The header of `[MC,* ] = [MC,MR]`: an owning destination adopts the alignment of the
source unless its own is constrained, and is resized to the source. -/
def DistMatrix_MC_Star.adopt (g : Grid) (M : DistMatrix_MC_Star T) (A : DistMatrix_MC_MR T) :
    DistMatrix_MC_Star T :=
  if M.viewing then M
  else
    let M1 : DistMatrix_MC_Star T :=
      if M.constrainedColAlignment then M
      else { M with
        colAlignment := A.colAlignment
        colShift := fun row _ => Shift row A.colAlignment g.Height }
    M1.ResizeTo g A.height A.width

/-- The pack loop: `for jLocal < localWidthOfA: memcpy( &buf[jLocal*stride],
&ALocalBuffer[jLocal*ALDim], stride )`. -/
def packColumns (stride localWidthOfA : Nat) (ALocal : Mat T) (buf : Nat → T) : Nat → T :=
  forRange 0 localWidthOfA
    (fun jLocal b => memcpy b (jLocal * stride) (ALocal.col jLocal) stride) buf

/-- The unpack loop over the `c` blocks of the gathered data. -/
def unpackColumns (c width localHeight rowAlignmentOfA portionSize : Nat) (gathered : Nat → T)
    (thisLocal : Mat T) : Mat T :=
  forRange 0 c
    (fun k M =>
      let rowShift := RawShift k rowAlignmentOfA c
      let localWidth := RawLocalLength width rowShift c
      forRange 0 localWidth
        (fun jLocal M' =>
          M'.memcpyCol (rowShift + jLocal * c)
            (fun i => gathered (k * portionSize + jLocal * localHeight + i)) localHeight) M)
    thisLocal

/-- The assignment `[MC,* ] = [MC,MR]` (`operator=`) on the whole grid.  `aux row col` is
the content of the scratch buffer the process gets from `_auxMemory.Require`.  The result
is `none` when the `SendRecv` calls of the unaligned branch do not match. -/
def DistMatrix_MC_Star.assign_MC_MR (g : Grid) (MIN_COLL_MSG : Nat) (aux : Nat → Nat → Nat → T)
    (self : DistMatrix_MC_Star T) (A : DistMatrix_MC_MR T) : Option (DistMatrix_MC_Star T) :=
  let M := self.adopt g A
  let r := g.Height
  let c := g.Width
  if M.colAlignment = A.colAlignment then
    if A.width = 1 then
      -- the process column that owns the column copies its tile, then broadcasts it
      let copiedHeight : Nat → Nat → Nat := fun row col =>
        if col = A.rowAlignment then A.localHeight row col else M.localHeight row col
      let copiedWidth : Nat → Nat → Nat := fun row col =>
        if col = A.rowAlignment then A.localWidth row col else M.localWidth row col
      let copied : Nat → Nat → Mat T := fun row col =>
        if col = A.rowAlignment then A.localMatrix row col else M.localMatrix row col
      some { M with
        localHeight := copiedHeight
        localWidth := copiedWidth
        localMatrix := fun row col =>
          (copied row col).memcpyCol 0
            (Broadcast ((copied row A.rowAlignment).col 0) (copiedHeight row col)
              ((copied row col).col 0))
            (copiedHeight row col) }
    else
      let width := M.width
      let maxLocalWidth := MaxLocalLength width c
      let portionSize : Nat → Nat → Nat := fun row col =>
        max (M.localHeight row col * maxLocalWidth) MIN_COLL_MSG
      let originalData : Nat → Nat → Nat → T := fun row col =>
        packColumns (M.localHeight row col) (A.localWidth row col) (A.localMatrix row col)
          (aux row col)
      let gatheredData : Nat → Nat → Nat → T := fun row col =>
        AllGather (fun k => originalData row k) (portionSize row col) c
          (fun t => aux row col (portionSize row col + t))
      some { M with
        localMatrix := fun row col =>
          unpackColumns c width (M.localHeight row col) A.rowAlignment (portionSize row col)
            (gatheredData row col) (M.localMatrix row col) }
  else
    let sendRow : Nat → Nat := fun row => (row + r + M.colAlignment - A.colAlignment) % r
    let recvRow : Nat → Nat := fun row => (row + r + A.colAlignment - M.colAlignment) % r
    if sendRecvMatches r sendRow recvRow then
      if A.width = 1 then
        let received : Nat → Nat → Mat T := fun row col =>
          if col = A.rowAlignment then
            (M.localMatrix row col).memcpyCol 0
              (SendRecv (memcpy (aux (recvRow row) col) 0 ((A.localMatrix (recvRow row) col).col 0)
                  (A.localHeight (recvRow row) col))
                (M.localHeight row col) ((M.localMatrix row col).col 0))
              (M.localHeight row col)
          else M.localMatrix row col
        some { M with
          localMatrix := fun row col =>
            (received row col).memcpyCol 0
              (Broadcast ((received row A.rowAlignment).col 0) (M.localHeight row col)
                ((received row col).col 0))
              (M.localHeight row col) }
      else
        let height := M.height
        let width := M.width
        let maxLocalHeight := MaxLocalLength height r
        let maxLocalWidth := MaxLocalLength width c
        let portionSize := max (maxLocalHeight * maxLocalWidth) MIN_COLL_MSG
        let secondBuffer : Nat → Nat → Nat → T := fun row col =>
          packColumns (A.localHeight row col) (A.localWidth row col) (A.localMatrix row col)
            (fun t => aux row col (portionSize + t))
        let firstBuffer : Nat → Nat → Nat → T := fun row col =>
          SendRecv (secondBuffer (recvRow row) col) portionSize (aux row col)
        let gathered : Nat → Nat → Nat → T := fun row col =>
          AllGather (fun k => firstBuffer row k) portionSize c (secondBuffer row col)
        some { M with
          localMatrix := fun row col =>
            unpackColumns c width (M.localHeight row col) A.rowAlignment portionSize
              (gathered row col) (M.localMatrix row col) }
    else none

end Dist

section DistInvariants
variable {T : Type}

/-- The invariants of a `[MC,MR]` matrix on the grid: alignments inside the grid, shifts
derived from them, local tiles sized to the owned slice. -/
def DistMatrix_MC_MR.Valid (g : Grid) (A : DistMatrix_MC_MR T) : Prop :=
  A.colAlignment < g.Height ∧ A.rowAlignment < g.Width ∧
  ∀ row col, row < g.Height → col < g.Width →
    A.colShift row col = Shift row A.colAlignment g.Height ∧
    A.rowShift row col = Shift col A.rowAlignment g.Width ∧
    A.localHeight row col = LocalLength A.height (A.colShift row col) g.Height ∧
    A.localWidth row col = LocalLength A.width (A.rowShift row col) g.Width

/-- The column alignment of a `[MC,*]` matrix is inside the grid and its shifts are derived
from it. -/
def DistMatrix_MC_Star.Aligned (g : Grid) (M : DistMatrix_MC_Star T) : Prop :=
  M.colAlignment < g.Height ∧
  ∀ row col, row < g.Height → col < g.Width →
    M.colShift row col = Shift row M.colAlignment g.Height

/-- A `3×3` `[MC,MR]` matrix on the `2×2` grid with alignments `(1,1)` whose global entry
`(i,j)` is `10·i + j`. -/
def demoSource : DistMatrix_MC_MR Nat where
  height := 3
  width := 3
  colAlignment := 1
  rowAlignment := 1
  colShift := fun row _ => Shift row 1 2
  rowShift := fun _ col => Shift col 1 2
  localHeight := fun row _ => LocalLength 3 (Shift row 1 2) 2
  localWidth := fun _ col => LocalLength 3 (Shift col 1 2) 2
  localMatrix := fun row col iLoc jLoc =>
    10 * (Shift row 1 2 + iLoc * 2) + (Shift col 1 2 + jLoc * 2)

/-- An empty owning `[MC,*]` matrix on the `2×2` grid, constrained to column alignment `0`. -/
def demoTarget : DistMatrix_MC_Star Nat where
  viewing := false
  lockedView := false
  height := 0
  width := 0
  constrainedColAlignment := true
  colAlignment := 0
  colShift := fun row _ => Shift row 0 2
  localHeight := fun _ _ => 0
  localWidth := fun _ _ => 0
  localMatrix := fun _ _ _ _ => 0

end DistInvariants

/-! ## Alignment, views and element access of `DistMatrixBase<T,MC,Star>`

The operations below carry the flag `RELEASE` of the build: the source runs its assertions
only under `#ifndef RELEASE`.  A throw is the outcome `logicError M`, with `M` the matrix as
the throw leaves it.  Only the processes inside the grid are modelled (`InGrid()` holds). -/

section DistOps
variable {T : Type}

/-- The members that the matrices of the other distributions (`[MR,MC]`, `[* ,MC]`,
`[VC,* ]`, `[* ,VC]`, `[* ,* ]`) show to `[MC,* ]`; the shifts and the local tiles are
per process `(MCRank, MRRank)`. -/
structure AbstractDistMatrix (T : Type) where
  height : Nat
  width : Nat
  colAlignment : Nat
  rowAlignment : Nat
  colShift : Nat → Nat → Nat
  rowShift : Nat → Nat → Nat
  localHeight : Nat → Nat → Nat
  localWidth : Nat → Nat → Nat
  localMatrix : Nat → Nat → Mat T

/-- Modelled from the spec: `Grid::VCRank` (the grid class is not among the source files
here), `VCRank = MCRank + r·MRRank`. -/
def Grid.VCRank (g : Grid) (MCRank MRRank : Nat) : Nat := MCRank + g.Height * MRRank

/-- The assertion helpers of the base class that the operations call under
`#ifndef RELEASE` and whose code is not among the source files here; the operations take
them as parameters.  `AssertSameGrid` is left out: all matrices live on the one grid. -/
structure Assertions (T : Type) where
  FreeColAlignment : DistMatrix_MC_Star T → Bool
  NotStoringData : DistMatrix_MC_Star T → Bool
  ValidSubmatrix : DistMatrix_MC_Star T → Nat → Nat → Nat → Nat → Bool
  Conforming1x2 : DistMatrix_MC_Star T → DistMatrix_MC_Star T → Bool
  Conforming2x1 : DistMatrix_MC_Star T → DistMatrix_MC_Star T → Bool
  Conforming2x2 : DistMatrix_MC_Star T → DistMatrix_MC_Star T → DistMatrix_MC_Star T →
    DistMatrix_MC_Star T → Bool

/-- Modelled from the spec: the contract of the assertion `AssertFreeColAlignment` as far
as the spec fixes it, "Views may not be re-aligned": the assertion fails on a viewing
matrix. -/
def Assertions.RejectsViews (chk : Assertions T) : Prop :=
  ∀ M : DistMatrix_MC_Star T, M.viewing = true → chk.FreeColAlignment M = false

/-- Modelled from the spec: the assertion `AssertValidEntry` (not among the source files
here), "Element-access errors outside [0,h)×[0,w) are preconditions". -/
def DistMatrix_MC_Star.AssertValidEntry (M : DistMatrix_MC_Star T) (i j : Nat) : Bool :=
  decide (i < M.height ∧ j < M.width)

/-- Modelled from the spec: `_localMatrix.ResizeTo( 0, 0 )` (the local matrix class is not
among the source files here): an owned tile becomes `0×0`, and "a view must refuse to
resize". -/
def DistMatrix_MC_Star.emptyLocal (M : DistMatrix_MC_Star T) : Outcome (DistMatrix_MC_Star T) :=
  if M.viewing then .logicError M
  else .done { M with localHeight := fun _ _ => 0, localWidth := fun _ _ => 0 }

/-- `[MC,* ]::AlignCols( colAlignment )`.  The argument is an `int`; the field is a natural
number, so a negative argument, which only a `RELEASE` build lets through the range test,
is stored as `0`: the model says nothing about the alignment after such a call. -/
def DistMatrix_MC_Star.AlignCols (g : Grid) (RELEASE : Bool) (chk : Assertions T)
    (M : DistMatrix_MC_Star T) (colAlignment : Int) : Outcome (DistMatrix_MC_Star T) :=
  if !RELEASE && !chk.FreeColAlignment M then .logicError M
  else if !RELEASE && decide (colAlignment < 0 ∨ colAlignment ≥ g.Height) then .logicError M
  else
    DistMatrix_MC_Star.emptyLocal
      { M with
        colAlignment := colAlignment.toNat
        constrainedColAlignment := true
        height := 0
        width := 0
        colShift := fun row _ => Shift row colAlignment.toNat g.Height }

/-- `[MC,* ]::Align( colAlignment )`. -/
def DistMatrix_MC_Star.Align (g : Grid) (RELEASE : Bool) (chk : Assertions T)
    (M : DistMatrix_MC_Star T) (colAlignment : Int) : Outcome (DistMatrix_MC_Star T) :=
  if !RELEASE && !chk.FreeColAlignment M then .logicError M
  else M.AlignCols g RELEASE chk colAlignment

/-- `[MC,* ]::AlignWith( [MC,MR] A )`. -/
def DistMatrix_MC_Star.AlignWith_MC_MR (RELEASE : Bool) (chk : Assertions T)
    (M : DistMatrix_MC_Star T) (A : DistMatrix_MC_MR T) : Outcome (DistMatrix_MC_Star T) :=
  if !RELEASE && !chk.FreeColAlignment M then .logicError M
  else
    DistMatrix_MC_Star.emptyLocal
      { M with
        colAlignment := A.colAlignment
        constrainedColAlignment := true
        height := 0
        width := 0
        colShift := A.colShift }

/-- `[MC,* ]::AlignWith( [MC,* ] A )`. -/
def DistMatrix_MC_Star.AlignWith_MC_Star (RELEASE : Bool) (chk : Assertions T)
    (M : DistMatrix_MC_Star T) (A : DistMatrix_MC_Star T) : Outcome (DistMatrix_MC_Star T) :=
  if !RELEASE && !chk.FreeColAlignment M then .logicError M
  else
    DistMatrix_MC_Star.emptyLocal
      { M with
        colAlignment := A.colAlignment
        constrainedColAlignment := true
        height := 0
        width := 0
        colShift := A.colShift }

/-- The body shared by `AlignWith( [MR,MC] A )` and `AlignWith( [* ,MC] A )`: the tile is
emptied before the shift is taken from the row shift of `A`. -/
def DistMatrix_MC_Star.alignWithRows (RELEASE : Bool) (chk : Assertions T)
    (M : DistMatrix_MC_Star T) (A : AbstractDistMatrix T) : Outcome (DistMatrix_MC_Star T) :=
  if !RELEASE && !chk.FreeColAlignment M then .logicError M
  else
    (DistMatrix_MC_Star.emptyLocal
      { M with
        colAlignment := A.rowAlignment
        constrainedColAlignment := true
        height := 0
        width := 0 }).andThen
      (fun M1 => .done { M1 with colShift := A.rowShift })

/-- `[MC,* ]::AlignWith( [MR,MC] A )`. -/
def DistMatrix_MC_Star.AlignWith_MR_MC (RELEASE : Bool) (chk : Assertions T)
    (M : DistMatrix_MC_Star T) (A : AbstractDistMatrix T) : Outcome (DistMatrix_MC_Star T) :=
  M.alignWithRows RELEASE chk A

/-- `[MC,* ]::AlignWith( [* ,MC] A )`. -/
def DistMatrix_MC_Star.AlignWith_Star_MC (RELEASE : Bool) (chk : Assertions T)
    (M : DistMatrix_MC_Star T) (A : AbstractDistMatrix T) : Outcome (DistMatrix_MC_Star T) :=
  M.alignWithRows RELEASE chk A

/-- The body shared by `AlignWith( [VC,* ] A )` and `AlignWith( [* ,VC] A )`, with
`alignmentOfA` the `ColAlignment()`, respectively the `RowAlignment()`, of `A`. -/
def DistMatrix_MC_Star.alignWithVector (g : Grid) (RELEASE : Bool) (chk : Assertions T)
    (M : DistMatrix_MC_Star T) (alignmentOfA : Nat) : Outcome (DistMatrix_MC_Star T) :=
  if !RELEASE && !chk.FreeColAlignment M then .logicError M
  else
    (DistMatrix_MC_Star.emptyLocal
      { M with
        colAlignment := alignmentOfA % g.Height
        constrainedColAlignment := true
        height := 0
        width := 0 }).andThen
      (fun M1 => .done { M1 with colShift := fun row _ => Shift row M1.colAlignment g.Height })

/-- `[MC,* ]::AlignWith( [VC,* ] A )`. -/
def DistMatrix_MC_Star.AlignWith_VC_Star (g : Grid) (RELEASE : Bool) (chk : Assertions T)
    (M : DistMatrix_MC_Star T) (A : AbstractDistMatrix T) : Outcome (DistMatrix_MC_Star T) :=
  M.alignWithVector g RELEASE chk A.colAlignment

/-- `[MC,* ]::AlignWith( [* ,VC] A )`. -/
def DistMatrix_MC_Star.AlignWith_Star_VC (g : Grid) (RELEASE : Bool) (chk : Assertions T)
    (M : DistMatrix_MC_Star T) (A : AbstractDistMatrix T) : Outcome (DistMatrix_MC_Star T) :=
  M.alignWithVector g RELEASE chk A.rowAlignment

/-- `[MC,* ]::AlignColsWith( [MC,MR] A )`. -/
def DistMatrix_MC_Star.AlignColsWith_MC_MR (RELEASE : Bool) (chk : Assertions T)
    (M : DistMatrix_MC_Star T) (A : DistMatrix_MC_MR T) : Outcome (DistMatrix_MC_Star T) :=
  M.AlignWith_MC_MR RELEASE chk A

/-- `[MC,* ]::AlignColsWith( [MC,* ] A )`. -/
def DistMatrix_MC_Star.AlignColsWith_MC_Star (RELEASE : Bool) (chk : Assertions T)
    (M : DistMatrix_MC_Star T) (A : DistMatrix_MC_Star T) : Outcome (DistMatrix_MC_Star T) :=
  M.AlignWith_MC_Star RELEASE chk A

/-- `[MC,* ]::AlignColsWith( [MR,MC] A )`. -/
def DistMatrix_MC_Star.AlignColsWith_MR_MC (RELEASE : Bool) (chk : Assertions T)
    (M : DistMatrix_MC_Star T) (A : AbstractDistMatrix T) : Outcome (DistMatrix_MC_Star T) :=
  M.AlignWith_MR_MC RELEASE chk A

/-- `[MC,* ]::AlignColsWith( [* ,MC] A )`. -/
def DistMatrix_MC_Star.AlignColsWith_Star_MC (RELEASE : Bool) (chk : Assertions T)
    (M : DistMatrix_MC_Star T) (A : AbstractDistMatrix T) : Outcome (DistMatrix_MC_Star T) :=
  M.AlignWith_Star_MC RELEASE chk A

/-- `[MC,* ]::AlignColsWith( [VC,* ] A )`. -/
def DistMatrix_MC_Star.AlignColsWith_VC_Star (g : Grid) (RELEASE : Bool) (chk : Assertions T)
    (M : DistMatrix_MC_Star T) (A : AbstractDistMatrix T) : Outcome (DistMatrix_MC_Star T) :=
  M.AlignWith_VC_Star g RELEASE chk A

/-- `[MC,* ]::AlignColsWith( [* ,VC] A )`. -/
def DistMatrix_MC_Star.AlignColsWith_Star_VC (g : Grid) (RELEASE : Bool) (chk : Assertions T)
    (M : DistMatrix_MC_Star T) (A : AbstractDistMatrix T) : Outcome (DistMatrix_MC_Star T) :=
  M.AlignWith_Star_VC g RELEASE chk A

end DistOps

/-! ### Views

The views of the local tile (`Matrix::View` and `Matrix::LockedView` of the local matrix
class, which is not among the source files here) are modelled from the spec: the tile of a
view is the viewed part of the tile of the source. -/

section DistViews
variable {T : Type}

/-- Modelled from the spec: `Matrix::View1x2` of the local matrix class (not among the
source files here), the view of two "abutting blocks" side by side; `widthL` is the width of
the left block. -/
def Mat.view1x2 (AL : Mat T) (widthL : Nat) (AR : Mat T) : Mat T :=
  fun i j => if j < widthL then AL i j else AR i (j - widthL)

/-- Modelled from the spec: `Matrix::View2x1` of the local matrix class, the view of two
"abutting blocks" on top of each other; `heightT` is the height of the top block. -/
def Mat.view2x1 (AT : Mat T) (heightT : Nat) (AB : Mat T) : Mat T :=
  fun i j => if i < heightT then AT i j else AB (i - heightT) j

/-- The body shared by `[MC,* ]::View( A )` and `[MC,* ]::LockedView( A )`; `locked` is
the value given to `_lockedView`. -/
def DistMatrix_MC_Star.viewWhole (locked : Bool) (RELEASE : Bool) (chk : Assertions T)
    (M A : DistMatrix_MC_Star T) : Outcome (DistMatrix_MC_Star T) :=
  if !RELEASE && !(chk.FreeColAlignment M && chk.NotStoringData M) then .logicError M
  else
    .done { M with
      height := A.height
      width := A.width
      colAlignment := A.colAlignment
      viewing := true
      lockedView := locked
      colShift := A.colShift
      localHeight := A.localHeight
      localWidth := A.localWidth
      localMatrix := A.localMatrix }

/-- `[MC,* ]::View( A )`. -/
def DistMatrix_MC_Star.View (RELEASE : Bool) (chk : Assertions T)
    (M A : DistMatrix_MC_Star T) : Outcome (DistMatrix_MC_Star T) :=
  DistMatrix_MC_Star.viewWhole false RELEASE chk M A

/-- `[MC,* ]::LockedView( A )`. -/
def DistMatrix_MC_Star.LockedView (RELEASE : Bool) (chk : Assertions T)
    (M A : DistMatrix_MC_Star T) : Outcome (DistMatrix_MC_Star T) :=
  DistMatrix_MC_Star.viewWhole true RELEASE chk M A

/-- The body shared by `[MC,* ]::View( A, i, j, height, width )` and
`[MC,* ]::LockedView( A, i, j, height, width )`. -/
def DistMatrix_MC_Star.viewBlock (locked : Bool) (g : Grid) (RELEASE : Bool)
    (chk : Assertions T) (M A : DistMatrix_MC_Star T) (i j height width : Nat) :
    Outcome (DistMatrix_MC_Star T) :=
  if !RELEASE && !(chk.FreeColAlignment M && chk.NotStoringData M &&
      chk.ValidSubmatrix A i j height width) then .logicError M
  else
    let r := g.Height
    let colAlignment := (A.colAlignment + i) % r
    let colShift : Nat → Nat → Nat := fun row _ => Shift row colAlignment r
    .done { M with
      height := height
      width := width
      viewing := true
      lockedView := locked
      colAlignment := colAlignment
      colShift := colShift
      localHeight := fun row col => LocalLength height (colShift row col) r
      localWidth := fun _ _ => width
      localMatrix := fun row col =>
        (A.localMatrix row col).view (LocalLength i (A.colShift row col) r) j }

/-- `[MC,* ]::View( A, i, j, height, width )`. -/
def DistMatrix_MC_Star.View_sub (g : Grid) (RELEASE : Bool) (chk : Assertions T)
    (M A : DistMatrix_MC_Star T) (i j height width : Nat) : Outcome (DistMatrix_MC_Star T) :=
  DistMatrix_MC_Star.viewBlock false g RELEASE chk M A i j height width

/-- `[MC,* ]::LockedView( A, i, j, height, width )`. -/
def DistMatrix_MC_Star.LockedView_sub (g : Grid) (RELEASE : Bool) (chk : Assertions T)
    (M A : DistMatrix_MC_Star T) (i j height width : Nat) : Outcome (DistMatrix_MC_Star T) :=
  DistMatrix_MC_Star.viewBlock true g RELEASE chk M A i j height width

/-- The body shared by `[MC,* ]::View1x2( AL, AR )` and `[MC,* ]::LockedView1x2`. -/
def DistMatrix_MC_Star.viewRow (locked : Bool) (RELEASE : Bool) (chk : Assertions T)
    (M AL AR : DistMatrix_MC_Star T) : Outcome (DistMatrix_MC_Star T) :=
  if !RELEASE && !(chk.FreeColAlignment M && chk.NotStoringData M &&
      chk.Conforming1x2 AL AR) then .logicError M
  else
    .done { M with
      height := AL.height
      width := AL.width + AR.width
      colAlignment := AL.colAlignment
      viewing := true
      lockedView := locked
      colShift := AL.colShift
      localHeight := AL.localHeight
      localWidth := fun row col => AL.localWidth row col + AR.localWidth row col
      localMatrix := fun row col =>
        (AL.localMatrix row col).view1x2 (AL.localWidth row col) (AR.localMatrix row col) }

/-- `[MC,* ]::View1x2( AL, AR )`. -/
def DistMatrix_MC_Star.View1x2 (RELEASE : Bool) (chk : Assertions T)
    (M AL AR : DistMatrix_MC_Star T) : Outcome (DistMatrix_MC_Star T) :=
  DistMatrix_MC_Star.viewRow false RELEASE chk M AL AR

/-- `[MC,* ]::LockedView1x2( AL, AR )`. -/
def DistMatrix_MC_Star.LockedView1x2 (RELEASE : Bool) (chk : Assertions T)
    (M AL AR : DistMatrix_MC_Star T) : Outcome (DistMatrix_MC_Star T) :=
  DistMatrix_MC_Star.viewRow true RELEASE chk M AL AR

/-- The body shared by `[MC,* ]::View2x1( AT, AB )` and `[MC,* ]::LockedView2x1`. -/
def DistMatrix_MC_Star.viewCol (locked : Bool) (RELEASE : Bool) (chk : Assertions T)
    (M AT AB : DistMatrix_MC_Star T) : Outcome (DistMatrix_MC_Star T) :=
  if !RELEASE && !(chk.FreeColAlignment M && chk.NotStoringData M &&
      chk.Conforming2x1 AT AB) then .logicError M
  else
    .done { M with
      height := AT.height + AB.height
      width := AT.width
      colAlignment := AT.colAlignment
      viewing := true
      lockedView := locked
      colShift := AT.colShift
      localHeight := fun row col => AT.localHeight row col + AB.localHeight row col
      localWidth := AT.localWidth
      localMatrix := fun row col =>
        (AT.localMatrix row col).view2x1 (AT.localHeight row col) (AB.localMatrix row col) }

/-- `[MC,* ]::View2x1( AT, AB )`. -/
def DistMatrix_MC_Star.View2x1 (RELEASE : Bool) (chk : Assertions T)
    (M AT AB : DistMatrix_MC_Star T) : Outcome (DistMatrix_MC_Star T) :=
  DistMatrix_MC_Star.viewCol false RELEASE chk M AT AB

/-- `[MC,* ]::LockedView2x1( AT, AB )`. -/
def DistMatrix_MC_Star.LockedView2x1 (RELEASE : Bool) (chk : Assertions T)
    (M AT AB : DistMatrix_MC_Star T) : Outcome (DistMatrix_MC_Star T) :=
  DistMatrix_MC_Star.viewCol true RELEASE chk M AT AB

/-- The body shared by `[MC,* ]::View2x2( ATL, ATR, ABL, ABR )` and
`[MC,* ]::LockedView2x2`. -/
def DistMatrix_MC_Star.viewQuad (locked : Bool) (RELEASE : Bool) (chk : Assertions T)
    (M ATL ATR ABL ABR : DistMatrix_MC_Star T) : Outcome (DistMatrix_MC_Star T) :=
  if !RELEASE && !(chk.FreeColAlignment M && chk.NotStoringData M &&
      chk.Conforming2x2 ATL ATR ABL ABR) then .logicError M
  else
    .done { M with
      height := ATL.height + ABL.height
      width := ATL.width + ATR.width
      colAlignment := ATL.colAlignment
      viewing := true
      lockedView := locked
      colShift := ATL.colShift
      localHeight := fun row col => ATL.localHeight row col + ABL.localHeight row col
      localWidth := fun row col => ATL.localWidth row col + ATR.localWidth row col
      localMatrix := fun row col =>
        Mat.view2x1
          ((ATL.localMatrix row col).view1x2 (ATL.localWidth row col) (ATR.localMatrix row col))
          (ATL.localHeight row col)
          ((ABL.localMatrix row col).view1x2 (ABL.localWidth row col)
            (ABR.localMatrix row col)) }

/-- `[MC,* ]::View2x2( ATL, ATR, ABL, ABR )`. -/
def DistMatrix_MC_Star.View2x2 (RELEASE : Bool) (chk : Assertions T)
    (M ATL ATR ABL ABR : DistMatrix_MC_Star T) : Outcome (DistMatrix_MC_Star T) :=
  DistMatrix_MC_Star.viewQuad false RELEASE chk M ATL ATR ABL ABR

/-- `[MC,* ]::LockedView2x2( ATL, ATR, ABL, ABR )`. -/
def DistMatrix_MC_Star.LockedView2x2 (RELEASE : Bool) (chk : Assertions T)
    (M ATL ATR ABL ABR : DistMatrix_MC_Star T) : Outcome (DistMatrix_MC_Star T) :=
  DistMatrix_MC_Star.viewQuad true RELEASE chk M ATL ATR ABL ABR

/-! ### Element access -/

/-- `[MC,* ]::Get( i, j )`: the value each process `(MCRank, MRRank)` returns; `u0` is the
uninitialised local `T u` of each process.  The process whose `VCRank` is `ownerRow` reads
its local entry, and the broadcast over the viewing communicator is rooted at it.  The
result is `none` when the assertion throws.  `GetLocalEntry` (not among the source files
here) is the read of the local tile. -/
def DistMatrix_MC_Star.Get (g : Grid) (RELEASE : Bool) (M : DistMatrix_MC_Star T)
    (u0 : Nat → Nat → T) (i j : Nat) : Option (Nat → Nat → T) :=
  if !RELEASE && !M.AssertValidEntry i j then none
  else
    let ownerRow := (i + M.colAlignment) % g.Height
    let u : Nat → Nat → T := fun row col =>
      if g.VCRank row col = ownerRow then
        let iLoc := (i - M.colShift row col) / g.Height
        M.localMatrix row col iLoc j
      else u0 row col
    some fun row col =>
      Broadcast (fun _ => u (ownerRow % g.Height) (ownerRow / g.Height)) 1
        (fun _ => u row col) 0

/-- `[MC,* ]::Set( i, j, u )`.  `SetLocalEntry` (not among the source files here) is the
write of the local tile.  With integers `(i-colShift)/r` truncates towards zero, which is
what the truncated subtraction gives for `colShift < r`. -/
def DistMatrix_MC_Star.Set (g : Grid) (RELEASE : Bool) (M : DistMatrix_MC_Star T)
    (i j : Nat) (u : T) : Outcome (DistMatrix_MC_Star T) :=
  if !RELEASE && !M.AssertValidEntry i j then .logicError M
  else
    let ownerRow := (i + M.colAlignment) % g.Height
    .done { M with
      localMatrix := fun row col =>
        if row = ownerRow then
          let iLoc := (i - M.colShift row col) / g.Height
          (M.localMatrix row col).set iLoc j u
        else M.localMatrix row col }

/-- `[MC,* ]::Update( i, j, u )`.  `UpdateLocalEntry` (not among the source files here)
adds `u` to the entry of the local tile. -/
def DistMatrix_MC_Star.Update [Add T] (g : Grid) (RELEASE : Bool) (M : DistMatrix_MC_Star T)
    (i j : Nat) (u : T) : Outcome (DistMatrix_MC_Star T) :=
  if !RELEASE && !M.AssertValidEntry i j then .logicError M
  else
    let ownerRow := (i + M.colAlignment) % g.Height
    .done { M with
      localMatrix := fun row col =>
        if row = ownerRow then
          let iLoc := (i - M.colShift row col) / g.Height
          (M.localMatrix row col).set iLoc j (M.localMatrix row col iLoc j + u)
        else M.localMatrix row col }

/-- The invariants of a `[MC,*]` matrix on the grid: the column alignment is inside the
grid, the shifts are derived from it, and the local tiles are sized to the owned slice. -/
def DistMatrix_MC_Star.Valid (g : Grid) (M : DistMatrix_MC_Star T) : Prop :=
  M.Aligned g ∧
  ∀ row col, row < g.Height → col < g.Width →
    M.localHeight row col = LocalLength M.height (M.colShift row col) g.Height ∧
    M.localWidth row col = M.width

end DistViews

/-! ## The other assignments to `[MC,*]`

As for `[MC,* ] = [MC,MR]`, an assignment is modelled from the point after its debug
assertions (`AssertNotLockedView`, `AssertSameGrid`, `AssertSameSize`). -/

section Assignments
variable {T : Type}

/-- The calls of the message-passing interface an assignment makes. -/
inductive MpiCall where
  | Broadcast
  | AllGather
  | SendRecv
  deriving DecidableEq

/-- The calls `[MC,* ] = [MC,MR]` makes on a process of the grid column `MRRank`, in
order.  In the unaligned branch of a source of width `1` only the processes with
`MRRank == A.RowAlignment()` make the `SendRecv`. -/
def DistMatrix_MC_Star.calls_MC_MR (g : Grid) (self : DistMatrix_MC_Star T)
    (A : DistMatrix_MC_MR T) (MRRank : Nat) : List MpiCall :=
  let M := self.adopt g A
  if M.colAlignment = A.colAlignment then
    if A.width = 1 then [.Broadcast] else [.AllGather]
  else
    if A.width = 1 then
      if MRRank = A.rowAlignment then [.SendRecv, .Broadcast] else [.Broadcast]
    else [.SendRecv, .AllGather]

/-- The header of `[MC,* ] = [MC,* ]`: an owning destination takes the alignment and the
shift of the source unless its own alignment is constrained, and is resized to the
source. -/
def DistMatrix_MC_Star.adopt_MC_Star (g : Grid) (M A : DistMatrix_MC_Star T) :
    DistMatrix_MC_Star T :=
  if M.viewing then M
  else
    let M1 : DistMatrix_MC_Star T :=
      if M.constrainedColAlignment then M
      else { M with
        colAlignment := A.colAlignment
        colShift := A.colShift }
    M1.ResizeTo g A.height A.width

/-- The unpack loop of the unaligned `[MC,* ] = [MC,* ]`: `for j < width:
memcpy( &thisLocalBuffer[j*thisLDim], &recvBuffer[j*localHeight], localHeight )`. -/
def unpackPlain (width localHeight : Nat) (recvBuffer : Nat → T) (thisLocal : Mat T) : Mat T :=
  forRange 0 width
    (fun j M => M.memcpyCol j (fun i => recvBuffer (j * localHeight + i)) localHeight) thisLocal

/-- The assignment `[MC,* ] = [MC,* ]` (`operator=`) on the whole grid; `aux row col` is
the content of the scratch buffer of the process.  The result is `none` when the `SendRecv`
calls of the unaligned branch do not match, or a message is longer than the `recvSize` of
its receiver. -/
def DistMatrix_MC_Star.assign_MC_Star (g : Grid) (aux : Nat → Nat → Nat → T)
    (self A : DistMatrix_MC_Star T) : Option (DistMatrix_MC_Star T) :=
  let M := self.adopt_MC_Star g A
  if M.colAlignment = A.colAlignment then
    some { M with
      localHeight := A.localHeight
      localWidth := A.localWidth
      localMatrix := A.localMatrix }
  else
    let r := g.Height
    let colAlignment := M.colAlignment
    let colAlignmentOfA := A.colAlignment
    let sendRank : Nat → Nat := fun rank => (rank + r + colAlignment - colAlignmentOfA) % r
    let recvRank : Nat → Nat := fun rank => (rank + r + colAlignmentOfA - colAlignment) % r
    let width := M.width
    let sendSize : Nat → Nat → Nat := fun row col => A.localHeight row col * width
    let recvSize : Nat → Nat → Nat := fun row col => M.localHeight row col * width
    let sendBuffer : Nat → Nat → Nat → T := fun row col =>
      packColumns (A.localHeight row col) width (A.localMatrix row col) (aux row col)
    let recvBuffer : Nat → Nat → Nat → T := fun row col =>
      SendRecv (sendBuffer (recvRank row) col) (sendSize (recvRank row) col)
        (fun t => sendBuffer row col (sendSize row col + t))
    if sendRecvMatches r sendRank recvRank ∧
        ∀ row, row < r → ∀ col, col < g.Width →
          sendSize (recvRank row) col ≤ recvSize row col then
      some { M with
        localMatrix := fun row col =>
          unpackPlain width (M.localHeight row col) (recvBuffer row col)
            (M.localMatrix row col) }
    else none

/-- The calls `[MC,* ] = [MC,* ]` makes on a process, in order. -/
def DistMatrix_MC_Star.calls_MC_Star (g : Grid) (self A : DistMatrix_MC_Star T) :
    List MpiCall :=
  let M := self.adopt_MC_Star g A
  if M.colAlignment = A.colAlignment then [] else [.SendRecv]

/-- Modelled from the spec: the invariants of a `[VC,*]` matrix (its class is not among the
source files here): the column alignment is below `p = r·c`, the shift of the process with
`VCRank = MCRank + r·MRRank` is derived from it with period `p`, and the tile is sized to
the owned slice. -/
def AbstractDistMatrix.Valid_VC_Star (g : Grid) (A : AbstractDistMatrix T) : Prop :=
  A.colAlignment < g.Height * g.Width ∧
  ∀ row col, row < g.Height → col < g.Width →
    A.colShift row col = Shift (g.VCRank row col) A.colAlignment (g.Height * g.Width) ∧
    A.localHeight row col = LocalLength A.height (A.colShift row col) (g.Height * g.Width) ∧
    A.localWidth row col = A.width

/-- Modelled from the spec: the global entry `(i,j)` of a `[VC,*]` matrix: it lives on the
process with `VCRank = (i + colAlignment) mod p`, at the local position
`((i − colShift)/p, j)`. -/
def AbstractDistMatrix.entry_VC_Star (g : Grid) (A : AbstractDistMatrix T) (i j : Nat) : T :=
  let p := g.Height * g.Width
  let owner := (i + A.colAlignment) % p
  let ownerRow := owner % g.Height
  let ownerCol := owner / g.Height
  A.localMatrix ownerRow ownerCol ((i - A.colShift ownerRow ownerCol) / p) j

/-- The header of `[MC,* ] = [VC,* ]`. -/
def DistMatrix_MC_Star.adopt_VC_Star (g : Grid) (M : DistMatrix_MC_Star T)
    (A : AbstractDistMatrix T) : DistMatrix_MC_Star T :=
  if M.viewing then M
  else
    let M1 : DistMatrix_MC_Star T :=
      if M.constrainedColAlignment then M
      else { M with
        colAlignment := A.colAlignment % g.Height
        colShift := fun row _ => Shift row (A.colAlignment % g.Height) g.Height }
    M1.ResizeTo g A.height A.width

/-- The unpack loop of `[MC,* ] = [VC,* ]` on the process of grid row `row`: block `k` of
the gathered data holds the rows of the process with `VCRank = row + r·k`. -/
def unpackRows (r c height width colShift row alignment portionSize : Nat)
    (gathered : Nat → T) (thisLocal : Mat T) : Mat T :=
  forRange 0 c
    (fun k M =>
      let colShiftOfA := RawShift (row + r * k) alignment (r * c)
      let colOffset := (colShiftOfA - colShift) / r
      let localHeight := RawLocalLength height colShiftOfA (r * c)
      forRange 0 width
        (fun j M1 =>
          forRange 0 localHeight
            (fun iLocal M2 =>
              M2.set (colOffset + iLocal * c) j
                (gathered (k * portionSize + (iLocal + j * localHeight)))) M1) M)
    thisLocal

/-- The assignment `[MC,* ] = [VC,* ]` (`operator=`) on the whole grid; `aux row col` is
the content of the scratch buffer of the process.  The result is `none` when the `SendRecv`
calls of the unaligned branch do not match. -/
def DistMatrix_MC_Star.assign_VC_Star (g : Grid) (MIN_COLL_MSG : Nat)
    (aux : Nat → Nat → Nat → T) (self : DistMatrix_MC_Star T) (A : AbstractDistMatrix T) :
    Option (DistMatrix_MC_Star T) :=
  let M := self.adopt_VC_Star g A
  let r := g.Height
  let c := g.Width
  let p := r * c
  let height := M.height
  let width := M.width
  let maxLocalHeightOfA := MaxLocalLength height p
  let portionSize := max (maxLocalHeightOfA * width) MIN_COLL_MSG
  if M.colAlignment = A.colAlignment % r then
    let originalData : Nat → Nat → Nat → T := fun row col =>
      packColumns (A.localHeight row col) width (A.localMatrix row col) (aux row col)
    let gatheredData : Nat → Nat → Nat → T := fun row col =>
      AllGather (fun k => originalData row k) portionSize c
        (fun t => aux row col (portionSize + t))
    some { M with
      localMatrix := fun row col =>
        unpackRows r c height width (M.colShift row col) row A.colAlignment portionSize
          (gatheredData row col) (M.localMatrix row col) }
  else
    let colAlignment := M.colAlignment
    let colAlignmentOfA := A.colAlignment
    let sendRank : Nat → Nat := fun rank => (rank + p + colAlignment - colAlignmentOfA) % p
    let recvRank : Nat → Nat := fun rank => (rank + p + colAlignmentOfA - colAlignment) % p
    if sendRecvMatches p sendRank recvRank then
      let secondBuffer : Nat → Nat → Nat → T := fun row col =>
        packColumns (A.localHeight row col) width (A.localMatrix row col)
          (fun t => aux row col (portionSize + t))
      let firstBuffer : Nat → Nat → Nat → T := fun row col =>
        let source := recvRank (g.VCRank row col)
        SendRecv (secondBuffer (source % r) (source / r)) portionSize (aux row col)
      let gathered : Nat → Nat → Nat → T := fun row col =>
        AllGather (fun k => firstBuffer row k) portionSize c (secondBuffer row col)
      some { M with
        localMatrix := fun row col =>
          unpackRows r c height width (M.colShift row col) row colAlignment portionSize
            (gathered row col) (M.localMatrix row col) }
    else none

/-- The calls `[MC,* ] = [VC,* ]` makes on a process, in order. -/
def DistMatrix_MC_Star.calls_VC_Star (g : Grid) (self : DistMatrix_MC_Star T)
    (A : AbstractDistMatrix T) : List MpiCall :=
  let M := self.adopt_VC_Star g A
  if M.colAlignment = A.colAlignment % g.Height then [.AllGather] else [.SendRecv, .AllGather]

/-- The copy loop of `[MC,* ] = [* ,* ]`: `thisLocalBuffer[iLocal+j*thisLDim] =
ALocalBuffer[(colShift+iLocal*r)+j*ALDim]`. -/
def copyRows (r colShift localHeight width : Nat) (ALocal thisLocal : Mat T) : Mat T :=
  forRange 0 width
    (fun j M =>
      forRange 0 localHeight
        (fun iLocal M1 => M1.set iLocal j (ALocal (colShift + iLocal * r) j)) M)
    thisLocal

/-- The assignment `[MC,* ] = [* ,* ]`: no alignment is adopted. -/
def DistMatrix_MC_Star.assign_Star_Star (g : Grid) (self : DistMatrix_MC_Star T)
    (A : AbstractDistMatrix T) : DistMatrix_MC_Star T :=
  let M := if self.viewing then self else self.ResizeTo g A.height A.width
  { M with
    localMatrix := fun row col =>
      copyRows g.Height (M.colShift row col) (M.localHeight row col) M.width
        (A.localMatrix row col) (M.localMatrix row col) }

/-- The assignments `[MC,* ] = [MD,* ]` and `[MC,* ] = [* ,MD]`: they throw
"not yet implemented". -/
def DistMatrix_MC_Star.assign_MD (self : DistMatrix_MC_Star T) (_A : AbstractDistMatrix T) :
    Outcome (DistMatrix_MC_Star T) :=
  .logicError self

/-- The assignments `[MC,* ] = [* ,MR]`, `[MC,* ] = [* ,VC]` and `[MC,* ] = [* ,VR]`: they
end in `*this = A_MC_MR`, with `A_MC_MR` the `[MC,MR]` temporary as the assignments to it
(not among the source files here) leave it. -/
def DistMatrix_MC_Star.assign_via_MC_MR (g : Grid) (MIN_COLL_MSG : Nat)
    (aux : Nat → Nat → Nat → T) (self : DistMatrix_MC_Star T) (A_MC_MR : DistMatrix_MC_MR T) :
    Option (DistMatrix_MC_Star T) :=
  self.assign_MC_MR g MIN_COLL_MSG aux A_MC_MR

/-- The assignments `[MC,* ] = [MR,MC]`, `[MC,* ] = [MR,* ]`, `[MC,* ] = [* ,MC]` and
`[MC,* ] = [VR,* ]`: they end in `*this = A_VC_Star`, with `A_VC_Star` the `[VC,*]`
temporary as the assignments to it (not among the source files here) leave it. -/
def DistMatrix_MC_Star.assign_via_VC_Star (g : Grid) (MIN_COLL_MSG : Nat)
    (aux : Nat → Nat → Nat → T) (self : DistMatrix_MC_Star T)
    (A_VC_Star : AbstractDistMatrix T) : Option (DistMatrix_MC_Star T) :=
  self.assign_VC_Star g MIN_COLL_MSG aux A_VC_Star

end Assignments

section DistPredicates
variable {T : Type}

/-- The state after a change of alignment: the alignment is constrained, the global size is
`0×0` and every local tile is `0×0`. -/
def DistMatrix_MC_Star.Invalidated (M : DistMatrix_MC_Star T) : Prop :=
  M.constrainedColAlignment = true ∧ M.height = 0 ∧ M.width = 0 ∧
  ∀ row col, M.localHeight row col = 0 ∧ M.localWidth row col = 0

/-- The global entry `(i,j)` of a `[MC,*]` matrix as the process column `col` holds it: on
the process with `MCRank = (i + colAlignment) mod r`, at the local position
`((i − colShift)/r, j)` that `Get`, `Set` and `Update` use. -/
def DistMatrix_MC_Star.entry (g : Grid) (A : DistMatrix_MC_Star T) (col i j : Nat) : T :=
  let ownerRow := (i + A.colAlignment) % g.Height
  A.localMatrix ownerRow col ((i - A.colShift ownerRow col) / g.Height) j

/-- What an assignment asks of its destination: a destination that keeps its alignment
because it is constrained satisfies the alignment invariant, and a viewing destination
satisfies its invariants and has the size `height × width` of the source
(`AssertSameSize`). -/
def DistMatrix_MC_Star.Accepts (g : Grid) (self : DistMatrix_MC_Star T) (height width : Nat) :
    Prop :=
  (self.constrainedColAlignment = true → self.Aligned g) ∧
  (self.viewing = true → self.Valid g ∧ self.height = height ∧ self.width = width)

/-- Assertion helpers for the examples: the column alignment counts as free on a matrix
that is not a view, the other assertions pass. -/
def demoChecks : Assertions Nat where
  FreeColAlignment := fun M => !M.viewing
  NotStoringData := fun _ => true
  ValidSubmatrix := fun _ _ _ _ _ => true
  Conforming1x2 := fun _ _ => true
  Conforming2x1 := fun _ _ => true
  Conforming2x2 := fun _ _ _ _ => true

/-- A `3×2` owning `[MC,*]` matrix on the `2×2` grid with column alignment `1` whose global
entry `(i,j)` is `10·i + j`. -/
def demoStar : DistMatrix_MC_Star Nat where
  viewing := false
  lockedView := false
  height := 3
  width := 2
  constrainedColAlignment := false
  colAlignment := 1
  colShift := fun row _ => Shift row 1 2
  localHeight := fun row _ => LocalLength 3 (Shift row 1 2) 2
  localWidth := fun _ _ => 2
  localMatrix := fun row _ iLoc j => 10 * (Shift row 1 2 + iLoc * 2) + j

/-- A fresh `[MC,*]` matrix on the `2×2` grid: owning, unaligned, empty. -/
def demoFresh : DistMatrix_MC_Star Nat where
  viewing := false
  lockedView := false
  height := 0
  width := 0
  constrainedColAlignment := false
  colAlignment := 0
  colShift := fun row _ => Shift row 0 2
  localHeight := fun _ _ => 0
  localWidth := fun _ _ => 0
  localMatrix := fun _ _ _ _ => 0

/-- The view of `demoStar` that `View( demoStar )` leaves in a fresh matrix. -/
def demoView : DistMatrix_MC_Star Nat :=
  (demoFresh.View false demoChecks demoStar).buffer

/-- A `5×2` `[VC,*]` matrix on the `2×2` grid with column alignment `3` whose global entry
`(i,j)` is `10·i + j`. -/
def demoVector : AbstractDistMatrix Nat where
  height := 5
  width := 2
  colAlignment := 3
  rowAlignment := 0
  colShift := fun row col => Shift (row + 2 * col) 3 4
  rowShift := fun _ _ => 0
  localHeight := fun row col => LocalLength 5 (Shift (row + 2 * col) 3 4) 4
  localWidth := fun _ _ => 2
  localMatrix := fun row col iLoc j => 10 * (Shift (row + 2 * col) 3 4 + iLoc * 4) + j

end DistPredicates

/-! ## Resizing, the bulk utilities and the headers of the assignments

The sizes and offsets stay inside the range of `int`, so the integer arithmetic of the
source is that of `Int`. -/

section BulkOps
variable {T : Type}

/-- Modelled from the spec: the assertion `AssertNotLockedView` (not among the source files
here), "write to a locked view" is a precondition error: the assertion fails on a matrix
with `lockedView`. -/
def DistMatrix_MC_Star.AssertNotLockedView (M : DistMatrix_MC_Star T) : Bool := !M.lockedView

/-- Modelled from the spec: the assertion `AssertSameSize( A )` (not among the source files
here), "assignment to a viewing target of wrong size" is a precondition error. -/
def DistMatrix_MC_Star.AssertSameSize (M : DistMatrix_MC_Star T) (heightOfA widthOfA : Nat) :
    Bool :=
  decide (M.height = heightOfA ∧ M.width = widthOfA)

/-- Modelled from the spec: `_localMatrix.ResizeTo( localHeight, width )` (the local matrix
class is not among the source files here): an owned tile takes the size, and "a view must
refuse to resize". -/
def DistMatrix_MC_Star.resizeLocal (M : DistMatrix_MC_Star T) (localHeight : Nat → Nat → Nat)
    (width : Nat) : Outcome (DistMatrix_MC_Star T) :=
  if M.viewing then .logicError M
  else .done { M with localHeight := localHeight, localWidth := fun _ _ => width }

/-- `[MC,* ]::ResizeTo( height, width )` as a call with its assertions; `ResizeTo` above is
what the call leaves when nothing throws.  The sizes are natural numbers, so the check
`height < 0 || width < 0` cannot fail. -/
def DistMatrix_MC_Star.ResizeTo_call (g : Grid) (RELEASE : Bool) (M : DistMatrix_MC_Star T)
    (height width : Nat) : Outcome (DistMatrix_MC_Star T) :=
  if !RELEASE && !M.AssertNotLockedView then .logicError M
  else
    DistMatrix_MC_Star.resizeLocal { M with height := height, width := width }
      (fun row col => LocalLength height (M.colShift row col) g.Height) width

/-- The value `Left` of `Side`, as `Base_MC_Star.cpp` spells it. -/
@[reducible] def Side.Left : Side := Side.LEFT

/-- The value `Right` of `Side`, as `Base_MC_Star.cpp` spells it. -/
@[reducible] def Side.Right : Side := Side.RIGHT

/-- `Lower` or `Upper`, the `Shape` of `Base_MC_Star.cpp`. -/
inductive Shape where
  | Lower
  | Upper
  deriving DecidableEq

/-- `memset( &localBuffer[start + jLoc*ldim], 0, count*sizeof(T) )` on a column of a tile;
the all-zero bytes are the zero of `T`. -/
def Mat.memsetCol [Zero T] (M : Mat T) (jLoc start count : Nat) : Mat T :=
  fun i j => if j = jLoc ∧ start ≤ i ∧ i < start + count then 0 else M i j

/-- The value an `int` holds after an operation whose exact result is `x`: the result
wrapped to 32 bits in two's complement (what the compiled code does on overflow, which the
language leaves undefined). -/
def int32 (x : Int) : Int := (x + 2147483648) % 4294967296 - 2147483648

/-- The difference `a-b` of two `int`s. -/
def isub (a b : Int) : Int := int32 (a - b)

/-- The sum `a+b` of two `int`s. -/
def iadd (a b : Int) : Int := int32 (a + b)

/-- `lastZeroRow` of `MakeTrapezoidal`:
`side==Left ? j-offset-1 : j-offset+height-width-1`, on `int`s. -/
def lastZeroRow (side : Side) (offset height width j : Int) : Int :=
  if side = Side.Left then isub (isub j offset) 1
  else isub (isub (iadd (isub j offset) height) width) 1

/-- `firstZeroRow` of `MakeTrapezoidal`:
`side==Left ? max(j-offset+1,0) : max(j-offset+height-width+1,0)`, on `int`s. -/
def firstZeroRow (side : Side) (offset height width j : Int) : Int :=
  if side = Side.Left then max (iadd (isub j offset) 1) 0
  else max (iadd (isub (iadd (isub j offset) height) width) 1) 0

/-- `lastRow` of `ScaleTrapezoidal`: `side==Left ? j-offset : j-offset+height-width`, on
`int`s. -/
def lastRow (side : Side) (offset height width j : Int) : Int :=
  if side = Side.Left then isub j offset
  else isub (iadd (isub j offset) height) width

/-- `firstRow` of `ScaleTrapezoidal`:
`side==Left ? max(j-offset,0) : max(j+height-width-offset,0)`, on `int`s. -/
def firstRow (side : Side) (offset height width j : Int) : Int :=
  if side = Side.Left then max (isub j offset) 0
  else max (isub (isub (iadd j height) width) offset) 0

/-- `[MC,* ]::MakeTrapezoidal( side, shape, offset )`.  The `boundary` can be negative;
`RawLocalLength` of a length that is not positive is `0`.  The `offset` is an `int`: an
integer outside the range of `int` acts as the `int` it wraps to. -/
def DistMatrix_MC_Star.MakeTrapezoidal [Zero T] (g : Grid) (RELEASE : Bool)
    (M : DistMatrix_MC_Star T) (side : Side) (shape : Shape) (offset : Int) :
    Outcome (DistMatrix_MC_Star T) :=
  if !RELEASE && !M.AssertNotLockedView then .logicError M
  else
    let height : Int := M.height
    let width : Int := M.width
    let r := g.Height
    .done { M with
      localMatrix := fun row col =>
        let localHeight := M.localHeight row col
        let colShift := M.colShift row col
        if shape = Shape.Lower then
          forRange 0 M.width
            (fun j (L : Mat T) =>
              if lastZeroRow side offset height width j ≥ 0 then
                let boundary : Int := min (iadd (lastZeroRow side offset height width j) 1) height
                let numZeroRows := RawLocalLength boundary.toNat colShift r
                L.memsetCol j 0 numZeroRows
              else L)
            (M.localMatrix row col)
        else
          forRange 0 M.width
            (fun j (L : Mat T) =>
              let numNonzeroRows :=
                RawLocalLength (firstZeroRow side offset height width j).toNat colShift r
              if numNonzeroRows < localHeight then
                L.memsetCol j numNonzeroRows (localHeight - numNonzeroRows)
              else L)
            (M.localMatrix row col) }

/-- `[MC,* ]::ScaleTrapezoidal( alpha, side, shape, offset )`.  The `boundary` of the upper
shape can be negative; `RawLocalLength` of a length that is not positive is `0`.  The
`offset` is an `int`: an integer outside the range of `int` acts as the `int` it wraps
to. -/
def DistMatrix_MC_Star.ScaleTrapezoidal [Mul T] (g : Grid) (RELEASE : Bool)
    (M : DistMatrix_MC_Star T) (alpha : T) (side : Side) (shape : Shape) (offset : Int) :
    Outcome (DistMatrix_MC_Star T) :=
  if !RELEASE && !M.AssertNotLockedView then .logicError M
  else
    let height : Int := M.height
    let width : Int := M.width
    let r := g.Height
    .done { M with
      localMatrix := fun row col =>
        let localHeight := M.localHeight row col
        let colShift := M.colShift row col
        if shape = Shape.Upper then
          forRange 0 M.width
            (fun j (L : Mat T) =>
              let boundary : Int := min (iadd (lastRow side offset height width j) 1) height
              let numRows := RawLocalLength boundary.toNat colShift r
              forRange 0 numRows
                (fun iLocal (L1 : Mat T) => L1.set iLocal j (L1 iLocal j * alpha)) L)
            (M.localMatrix row col)
        else
          forRange 0 M.width
            (fun j (L : Mat T) =>
              let numZeroRows :=
                RawLocalLength (firstRow side offset height width j).toNat colShift r
              forRange 0 (localHeight - numZeroRows)
                (fun iLocal (L1 : Mat T) =>
                  L1.set (numZeroRows + iLocal) j (L1 (numZeroRows + iLocal) j * alpha)) L)
            (M.localMatrix row col) }

/-- The local rows `iLoc` of column `j` of a tile that the `memset` of
`MakeTrapezoidal( side, shape, offset )` covers, on a process with shift `colShift` and
local height `localHeight`. -/
def zeroedLocal (side : Side) (shape : Shape) (offset : Int)
    (height width colShift r localHeight iLoc j : Nat) : Prop :=
  if shape = Shape.Lower then
    (0 : Int) ≤ lastZeroRow side offset height width j ∧
    iLoc < RawLocalLength
      (min (iadd (lastZeroRow side offset height width j) 1) height).toNat colShift r
  else
    RawLocalLength (firstZeroRow side offset height width j).toNat colShift r ≤ iLoc ∧
    iLoc < localHeight

/-- Whether a local row is covered is decided by comparing integers. -/
instance zeroedLocal.decidable (side : Side) (shape : Shape) (offset : Int)
    (height width colShift r localHeight iLoc j : Nat) :
    Decidable (zeroedLocal side shape offset height width colShift r localHeight iLoc j) := by
  unfold zeroedLocal
  exact inferInstance

/-- The local rows `iLoc` of column `j` of a tile that the inner loop of
`ScaleTrapezoidal( alpha, side, shape, offset )` multiplies by `alpha`. -/
def scaledLocal (side : Side) (shape : Shape) (offset : Int)
    (height width colShift r localHeight iLoc j : Nat) : Prop :=
  if shape = Shape.Upper then
    iLoc < RawLocalLength
      (min (iadd (lastRow side offset height width j) 1) height).toNat colShift r
  else
    RawLocalLength (firstRow side offset height width j).toNat colShift r ≤ iLoc ∧
    iLoc < localHeight

/-- Whether a local row is scaled is decided by comparing integers. -/
instance scaledLocal.decidable (side : Side) (shape : Shape) (offset : Int)
    (height width colShift r localHeight iLoc j : Nat) :
    Decidable (scaledLocal side shape offset height width colShift r localHeight iLoc j) := by
  unfold scaledLocal
  exact inferInstance

/-- The row of the diagonal of the trapezoid in column `j`, as an exact integer:
`j-offset` for `Left`, `j-offset+height-width` for `Right`. -/
def diagonalRow (side : Side) (offset : Int) (height width j : Nat) : Int :=
  if side = Side.Left then (j : Int) - offset else (j : Int) - offset + height - width

/-- The offset arithmetic of `MakeTrapezoidal` and `ScaleTrapezoidal` stays inside `int` in
column `j`: the row of the diagonal and its two neighbours lie between `INT_MIN` and
`INT_MAX`. -/
def ColumnFits (side : Side) (offset : Int) (height width j : Nat) : Prop :=
  -2147483648 < diagonalRow side offset height width j ∧
  diagonalRow side offset height width j < 2147483647

/-- Whether the column fits is decided by comparing integers. -/
instance ColumnFits.decidable (side : Side) (offset : Int) (height width j : Nat) :
    Decidable (ColumnFits side offset height width j) := by
  unfold ColumnFits
  exact inferInstance

/-- Modelled from the spec: `_localMatrix.SetToZero()` (the local matrix class is not among
the source files here), the "zero-fill" of a `height × width` tile. -/
def Mat.SetToZero [Zero T] (M : Mat T) (height width : Nat) : Mat T :=
  fun i j => if i < height ∧ j < width then 0 else M i j

/-- `[MC,* ]::SetToIdentity()`. -/
def DistMatrix_MC_Star.SetToIdentity [Zero T] [One T] (g : Grid) (RELEASE : Bool)
    (M : DistMatrix_MC_Star T) : Outcome (DistMatrix_MC_Star T) :=
  if !RELEASE && !M.AssertNotLockedView then .logicError M
  else
    let width := M.width
    let r := g.Height
    .done { M with
      localMatrix := fun row col =>
        let localHeight := M.localHeight row col
        let colShift := M.colShift row col
        forRange 0 localHeight
          (fun iLocal (L : Mat T) =>
            let i := colShift + iLocal * r
            if i < width then L.set iLocal i 1 else L)
          ((M.localMatrix row col).SetToZero (M.localHeight row col) (M.localWidth row col)) }

/-- The fill loop of `SetToRandom` on one process, `for j < width: for iLocal < localHeight:
buffer[iLocal+j*localHeight] = Random<T>()`.  `draws n` is what the `n`-th call of
`Random<T>()` of this process returns (the generator is not among the source files here);
the state of the loop is the buffer and the number of calls made. -/
def fillRandom (width localHeight : Nat) (draws : Nat → T) (buffer : Nat → T) : Nat → T :=
  (forRange 0 width
    (fun j (s : (Nat → T) × Nat) =>
      forRange 0 localHeight
        (fun iLocal (s1 : (Nat → T) × Nat) =>
          (memcpy s1.1 (iLocal + j * localHeight) (fun _ => draws s1.2) 1, s1.2 + 1)) s)
    (buffer, 0)).1

/-- `[MC,* ]::SetToRandom()` on the whole grid.  `draws row col` is the stream of the
random generator of the process, `aux row col` the content of the scratch buffer it gets
from `_auxMemory.Require`. -/
def DistMatrix_MC_Star.SetToRandom (RELEASE : Bool) (draws : Nat → Nat → Nat → T)
    (aux : Nat → Nat → Nat → T) (M : DistMatrix_MC_Star T) : Outcome (DistMatrix_MC_Star T) :=
  if !RELEASE && !M.AssertNotLockedView then .logicError M
  else
    let width := M.width
    let bufSize : Nat → Nat → Nat := fun row col => M.localHeight row col * width
    let filled : Nat → Nat → Nat → T := fun row col =>
      if col = 0 then fillRandom width (M.localHeight row col) (draws row col) (aux row col)
      else aux row col
    let buffer : Nat → Nat → Nat → T := fun row col =>
      Broadcast (filled row 0) (bufSize row col) (filled row col)
    .done { M with
      localMatrix := fun row col =>
        unpackPlain width (M.localHeight row col) (buffer row col) (M.localMatrix row col) }

/-- `mpi::AllReduce( sbuf, rbuf, n, mpi::SUM, comm )` on a communicator of `size` ranks:
the first `n` elements of `rbuf` become the sums over the ranks. -/
def AllReduce [AddCommMonoid T] (sbuf : Nat → Nat → T) (n size : Nat) (rbuf : Nat → T) :
    Nat → T :=
  fun t => if t < n then (Finset.range size).sum (fun k => sbuf k t) else rbuf t

/-- `[MC,* ]::SumOverRow()` on the whole grid; `aux row col` is the content of the scratch
buffer of the process. -/
def DistMatrix_MC_Star.SumOverRow [AddCommMonoid T] (g : Grid) (RELEASE : Bool)
    (MIN_COLL_MSG : Nat) (aux : Nat → Nat → Nat → T) (M : DistMatrix_MC_Star T) :
    Outcome (DistMatrix_MC_Star T) :=
  if !RELEASE && !M.AssertNotLockedView then .logicError M
  else
    let localSize : Nat → Nat → Nat := fun row col =>
      max (M.localHeight row col * M.localWidth row col) MIN_COLL_MSG
    let sendBuf : Nat → Nat → Nat → T := fun row col =>
      packColumns (M.localHeight row col) (M.localWidth row col) (M.localMatrix row col)
        (aux row col)
    let recvBuf : Nat → Nat → Nat → T := fun row col =>
      AllReduce (fun k => sendBuf row k) (localSize row col) g.Width
        (fun t => aux row col (localSize row col + t))
    .done { M with
      localMatrix := fun row col =>
        unpackPlain (M.localWidth row col) (M.localHeight row col) (recvBuf row col)
          (M.localMatrix row col) }

/-- How an `operator=` of `[MC,* ]` ends on the grid: it returns, an assertion of its
header throws a precondition error, it throws "not yet implemented", or the `SendRecv`
calls of its processes do not match.  A throw carries the destination as it leaves it. -/
inductive Assigned (α : Type) where
  | done (M : α)
  | preconditionViolated (M : α)
  | unimplemented (M : α)
  | unmatched

/-- The matrix an assignment leaves, if it ends. -/
def Assigned.state {α : Type} : Assigned α → Option α
  | .done M => some M
  | .preconditionViolated M => some M
  | .unimplemented M => some M
  | .unmatched => none

/-- The header every `operator=` of `[MC,* ]` runs under `#ifndef RELEASE`:
`AssertNotLockedView(); AssertSameGrid( A ); if( Viewing() ) AssertSameSize( A );`.  All
matrices live on the one grid. -/
def DistMatrix_MC_Star.assertAssignable (RELEASE : Bool) (self : DistMatrix_MC_Star T)
    (heightOfA widthOfA : Nat) : Bool :=
  RELEASE ||
    (self.AssertNotLockedView && (!self.viewing || self.AssertSameSize heightOfA widthOfA))

/-- An `operator=` as a call: its header, then the assignment `body` from the point after
the header. -/
def DistMatrix_MC_Star.assignCall (RELEASE : Bool) (self : DistMatrix_MC_Star T)
    (heightOfA widthOfA : Nat) (body : Option (DistMatrix_MC_Star T)) :
    Assigned (DistMatrix_MC_Star T) :=
  if self.assertAssignable RELEASE heightOfA widthOfA then
    match body with
    | some M => .done M
    | none => .unmatched
  else .preconditionViolated self

/-- `[MC,* ]::operator=( [MC,MR] A )`. -/
def DistMatrix_MC_Star.call_MC_MR (g : Grid) (RELEASE : Bool) (MIN_COLL_MSG : Nat)
    (aux : Nat → Nat → Nat → T) (self : DistMatrix_MC_Star T) (A : DistMatrix_MC_MR T) :
    Assigned (DistMatrix_MC_Star T) :=
  self.assignCall RELEASE A.height A.width (self.assign_MC_MR g MIN_COLL_MSG aux A)

/-- `[MC,* ]::operator=( [MC,* ] A )`. -/
def DistMatrix_MC_Star.call_MC_Star (g : Grid) (RELEASE : Bool)
    (aux : Nat → Nat → Nat → T) (self A : DistMatrix_MC_Star T) :
    Assigned (DistMatrix_MC_Star T) :=
  self.assignCall RELEASE A.height A.width (self.assign_MC_Star g aux A)

/-- `[MC,* ]::operator=( [VC,* ] A )`. -/
def DistMatrix_MC_Star.call_VC_Star (g : Grid) (RELEASE : Bool) (MIN_COLL_MSG : Nat)
    (aux : Nat → Nat → Nat → T) (self : DistMatrix_MC_Star T) (A : AbstractDistMatrix T) :
    Assigned (DistMatrix_MC_Star T) :=
  self.assignCall RELEASE A.height A.width (self.assign_VC_Star g MIN_COLL_MSG aux A)

/-- `[MC,* ]::operator=( [* ,* ] A )`. -/
def DistMatrix_MC_Star.call_Star_Star (g : Grid) (RELEASE : Bool)
    (self : DistMatrix_MC_Star T) (A : AbstractDistMatrix T) :
    Assigned (DistMatrix_MC_Star T) :=
  self.assignCall RELEASE A.height A.width (some (self.assign_Star_Star g A))

/-- `[MC,* ]::operator=( [MD,* ] A )` and `[MC,* ]::operator=( [* ,MD] A )`: after the
header, `throw logic_error( "... not yet implemented." )`. -/
def DistMatrix_MC_Star.call_MD (RELEASE : Bool) (self : DistMatrix_MC_Star T)
    (A : AbstractDistMatrix T) : Assigned (DistMatrix_MC_Star T) :=
  if self.assertAssignable RELEASE A.height A.width then
    .unimplemented (self.assign_MD A).buffer
  else .preconditionViolated self

/-- `[MC,* ]::operator=( [MD,* ] A )`. -/
def DistMatrix_MC_Star.call_MD_Star (RELEASE : Bool) (self : DistMatrix_MC_Star T)
    (A : AbstractDistMatrix T) : Assigned (DistMatrix_MC_Star T) :=
  self.call_MD RELEASE A

/-- `[MC,* ]::operator=( [* ,MD] A )`. -/
def DistMatrix_MC_Star.call_Star_MD (RELEASE : Bool) (self : DistMatrix_MC_Star T)
    (A : AbstractDistMatrix T) : Assigned (DistMatrix_MC_Star T) :=
  self.call_MD RELEASE A

/-- `[MC,* ]::operator=( A )` for `A` a `[* ,MR]`, `[* ,VC]` or `[* ,VR]` matrix of size
`heightOfA × widthOfA`: the header, then the assignment through the `[MC,MR]` temporary
`A_MC_MR`. -/
def DistMatrix_MC_Star.call_via_MC_MR (g : Grid) (RELEASE : Bool) (MIN_COLL_MSG : Nat)
    (aux : Nat → Nat → Nat → T) (self : DistMatrix_MC_Star T) (heightOfA widthOfA : Nat)
    (A_MC_MR : DistMatrix_MC_MR T) : Assigned (DistMatrix_MC_Star T) :=
  self.assignCall RELEASE heightOfA widthOfA
    (self.assign_via_MC_MR g MIN_COLL_MSG aux A_MC_MR)

/-- `[MC,* ]::operator=( A )` for `A` a `[MR,MC]`, `[MR,* ]`, `[* ,MC]` or `[VR,* ]` matrix
of size `heightOfA × widthOfA`: the header, then the assignment through the `[VC,* ]`
temporary `A_VC_Star`. -/
def DistMatrix_MC_Star.call_via_VC_Star (g : Grid) (RELEASE : Bool) (MIN_COLL_MSG : Nat)
    (aux : Nat → Nat → Nat → T) (self : DistMatrix_MC_Star T) (heightOfA widthOfA : Nat)
    (A_VC_Star : AbstractDistMatrix T) : Assigned (DistMatrix_MC_Star T) :=
  self.assignCall RELEASE heightOfA widthOfA
    (self.assign_via_VC_Star g MIN_COLL_MSG aux A_VC_Star)

/-- The general path of `[MC,* ] = [MC,MR]`: the assignment with the test
`A.Width() == 1` taken as false, so that a source of any width is packed, gathered with
`AllGather` and unpacked (after the `SendRecv` of the unaligned branch). -/
def DistMatrix_MC_Star.assign_MC_MR_general (g : Grid) (MIN_COLL_MSG : Nat)
    (aux : Nat → Nat → Nat → T) (self : DistMatrix_MC_Star T) (A : DistMatrix_MC_MR T) :
    Option (DistMatrix_MC_Star T) :=
  let M := self.adopt g A
  let r := g.Height
  let c := g.Width
  if M.colAlignment = A.colAlignment then
    let width := M.width
    let maxLocalWidth := MaxLocalLength width c
    let portionSize : Nat → Nat → Nat := fun row col =>
      max (M.localHeight row col * maxLocalWidth) MIN_COLL_MSG
    let originalData : Nat → Nat → Nat → T := fun row col =>
      packColumns (M.localHeight row col) (A.localWidth row col) (A.localMatrix row col)
        (aux row col)
    let gatheredData : Nat → Nat → Nat → T := fun row col =>
      AllGather (fun k => originalData row k) (portionSize row col) c
        (fun t => aux row col (portionSize row col + t))
    some { M with
      localMatrix := fun row col =>
        unpackColumns c width (M.localHeight row col) A.rowAlignment (portionSize row col)
          (gatheredData row col) (M.localMatrix row col) }
  else
    let sendRow : Nat → Nat := fun row => (row + r + M.colAlignment - A.colAlignment) % r
    let recvRow : Nat → Nat := fun row => (row + r + A.colAlignment - M.colAlignment) % r
    if sendRecvMatches r sendRow recvRow then
      let height := M.height
      let width := M.width
      let maxLocalHeight := MaxLocalLength height r
      let maxLocalWidth := MaxLocalLength width c
      let portionSize := max (maxLocalHeight * maxLocalWidth) MIN_COLL_MSG
      let secondBuffer : Nat → Nat → Nat → T := fun row col =>
        packColumns (A.localHeight row col) (A.localWidth row col) (A.localMatrix row col)
          (fun t => aux row col (portionSize + t))
      let firstBuffer : Nat → Nat → Nat → T := fun row col =>
        SendRecv (secondBuffer (recvRow row) col) portionSize (aux row col)
      let gathered : Nat → Nat → Nat → T := fun row col =>
        AllGather (fun k => firstBuffer row k) portionSize c (secondBuffer row col)
      some { M with
        localMatrix := fun row col =>
          unpackColumns c width (M.localHeight row col) A.rowAlignment portionSize
            (gathered row col) (M.localMatrix row col) }
    else none

/-- The region of the global matrix that the spec gives for
`MakeTrapezoidal( side, shape, offset )` on a `height × width` matrix: for `Lower` the
entries `(i,j)` with `i ≤ lastZeroRow`, for `Upper` those with `i ≥ firstZeroRow`. -/
def zeroRegion (side : Side) (shape : Shape) (offset : Int) (height width i j : Nat) : Prop :=
  match shape with
  | .Lower =>
    (i : Int) ≤ (if side = Side.Left then (j : Int) - offset - 1
      else (j : Int) - offset + height - width - 1)
  | .Upper =>
    (i : Int) ≥ (if side = Side.Left then max ((j : Int) - offset + 1) 0
      else max ((j : Int) - offset + height - width + 1) 0)

/-- The region is decided by comparing integers. -/
instance zeroRegion.decidable (side : Side) (shape : Shape) (offset : Int)
    (height width i j : Nat) : Decidable (zeroRegion side shape offset height width i j) := by
  unfold zeroRegion
  cases shape <;> exact inferInstance

/-- The entries `(i,j)` that `MakeTrapezoidal( side, shape, offset )` zeroes, in global
indices and in the `int` arithmetic of the code: for `Lower` the rows below
`min(lastZeroRow+1, height)` of a column that passes the test `lastZeroRow >= 0`, for
`Upper` the rows from `firstZeroRow` on. -/
def wrappedRegion (side : Side) (shape : Shape) (offset : Int) (height width i j : Nat) :
    Prop :=
  match shape with
  | .Lower =>
    (0 : Int) ≤ lastZeroRow side offset height width j ∧
    (i : Int) < min (iadd (lastZeroRow side offset height width j) 1) height
  | .Upper => firstZeroRow side offset height width j ≤ (i : Int)

/-- The region of the code is decided by comparing integers. -/
instance wrappedRegion.decidable (side : Side) (shape : Shape) (offset : Int)
    (height width i j : Nat) : Decidable (wrappedRegion side shape offset height width i j) := by
  unfold wrappedRegion
  cases shape <;> exact inferInstance

/-- The locked view of `demoStar`. -/
def demoLocked : DistMatrix_MC_Star Nat := (demoFresh.LockedView false demoChecks demoStar).buffer

end BulkOps

/-! ## The operations of `[MC,* ]` as steps on its state -/

section Steps
variable {T : Type}

/-- What an operation of `[MC,* ]` is for the flags `_viewing` and `_lockedView`: a `View`
variant that returns, a `LockedView` variant that returns, or any other operation (a view
variant that throws included). -/
inductive OpKind where
  | View
  | LockedView
  | Other

/-- One call of an operation of `DistMatrixBase<T,MC,Star>`: `Step g chk kind M M'` holds
when a call of kind `kind` on the matrix `M`, in either build and with any arguments,
leaves the matrix `M'`, by returning or by throwing. -/
inductive DistMatrix_MC_Star.Step [Semiring T] (g : Grid) (chk : Assertions T) :
    OpKind → DistMatrix_MC_Star T → DistMatrix_MC_Star T → Prop where
  | View (RELEASE : Bool) (M A M' : DistMatrix_MC_Star T)
      (h : M.View RELEASE chk A = .done M') : Step g chk .View M M'
  | View_sub (RELEASE : Bool) (M A M' : DistMatrix_MC_Star T) (i j height width : Nat)
      (h : M.View_sub g RELEASE chk A i j height width = .done M') : Step g chk .View M M'
  | View1x2 (RELEASE : Bool) (M AL AR M' : DistMatrix_MC_Star T)
      (h : M.View1x2 RELEASE chk AL AR = .done M') : Step g chk .View M M'
  | View2x1 (RELEASE : Bool) (M AT AB M' : DistMatrix_MC_Star T)
      (h : M.View2x1 RELEASE chk AT AB = .done M') : Step g chk .View M M'
  | View2x2 (RELEASE : Bool) (M ATL ATR ABL ABR M' : DistMatrix_MC_Star T)
      (h : M.View2x2 RELEASE chk ATL ATR ABL ABR = .done M') : Step g chk .View M M'
  | LockedView (RELEASE : Bool) (M A M' : DistMatrix_MC_Star T)
      (h : M.LockedView RELEASE chk A = .done M') : Step g chk .LockedView M M'
  | LockedView_sub (RELEASE : Bool) (M A M' : DistMatrix_MC_Star T) (i j height width : Nat)
      (h : M.LockedView_sub g RELEASE chk A i j height width = .done M') :
      Step g chk .LockedView M M'
  | LockedView1x2 (RELEASE : Bool) (M AL AR M' : DistMatrix_MC_Star T)
      (h : M.LockedView1x2 RELEASE chk AL AR = .done M') : Step g chk .LockedView M M'
  | LockedView2x1 (RELEASE : Bool) (M AT AB M' : DistMatrix_MC_Star T)
      (h : M.LockedView2x1 RELEASE chk AT AB = .done M') : Step g chk .LockedView M M'
  | LockedView2x2 (RELEASE : Bool) (M ATL ATR ABL ABR M' : DistMatrix_MC_Star T)
      (h : M.LockedView2x2 RELEASE chk ATL ATR ABL ABR = .done M') :
      Step g chk .LockedView M M'
  | View_throws (RELEASE : Bool) (M A M' : DistMatrix_MC_Star T)
      (h : M.View RELEASE chk A = .logicError M') : Step g chk .Other M M'
  | View_sub_throws (RELEASE : Bool) (M A M' : DistMatrix_MC_Star T) (i j height width : Nat)
      (h : M.View_sub g RELEASE chk A i j height width = .logicError M') :
      Step g chk .Other M M'
  | View1x2_throws (RELEASE : Bool) (M AL AR M' : DistMatrix_MC_Star T)
      (h : M.View1x2 RELEASE chk AL AR = .logicError M') : Step g chk .Other M M'
  | View2x1_throws (RELEASE : Bool) (M AT AB M' : DistMatrix_MC_Star T)
      (h : M.View2x1 RELEASE chk AT AB = .logicError M') : Step g chk .Other M M'
  | View2x2_throws (RELEASE : Bool) (M ATL ATR ABL ABR M' : DistMatrix_MC_Star T)
      (h : M.View2x2 RELEASE chk ATL ATR ABL ABR = .logicError M') : Step g chk .Other M M'
  | LockedView_throws (RELEASE : Bool) (M A M' : DistMatrix_MC_Star T)
      (h : M.LockedView RELEASE chk A = .logicError M') : Step g chk .Other M M'
  | LockedView_sub_throws (RELEASE : Bool) (M A M' : DistMatrix_MC_Star T)
      (i j height width : Nat)
      (h : M.LockedView_sub g RELEASE chk A i j height width = .logicError M') :
      Step g chk .Other M M'
  | LockedView1x2_throws (RELEASE : Bool) (M AL AR M' : DistMatrix_MC_Star T)
      (h : M.LockedView1x2 RELEASE chk AL AR = .logicError M') : Step g chk .Other M M'
  | LockedView2x1_throws (RELEASE : Bool) (M AT AB M' : DistMatrix_MC_Star T)
      (h : M.LockedView2x1 RELEASE chk AT AB = .logicError M') : Step g chk .Other M M'
  | LockedView2x2_throws (RELEASE : Bool) (M ATL ATR ABL ABR M' : DistMatrix_MC_Star T)
      (h : M.LockedView2x2 RELEASE chk ATL ATR ABL ABR = .logicError M') :
      Step g chk .Other M M'
  | Align (RELEASE : Bool) (M : DistMatrix_MC_Star T) (colAlignment : Int) :
      Step g chk .Other M (M.Align g RELEASE chk colAlignment).buffer
  | AlignCols (RELEASE : Bool) (M : DistMatrix_MC_Star T) (colAlignment : Int) :
      Step g chk .Other M (M.AlignCols g RELEASE chk colAlignment).buffer
  | AlignWith_MC_MR (RELEASE : Bool) (M : DistMatrix_MC_Star T) (A : DistMatrix_MC_MR T) :
      Step g chk .Other M (M.AlignWith_MC_MR RELEASE chk A).buffer
  | AlignWith_MC_Star (RELEASE : Bool) (M A : DistMatrix_MC_Star T) :
      Step g chk .Other M (M.AlignWith_MC_Star RELEASE chk A).buffer
  | AlignWith_MR_MC (RELEASE : Bool) (M : DistMatrix_MC_Star T) (A : AbstractDistMatrix T) :
      Step g chk .Other M (M.AlignWith_MR_MC RELEASE chk A).buffer
  | AlignWith_Star_MC (RELEASE : Bool) (M : DistMatrix_MC_Star T) (A : AbstractDistMatrix T) :
      Step g chk .Other M (M.AlignWith_Star_MC RELEASE chk A).buffer
  | AlignWith_VC_Star (RELEASE : Bool) (M : DistMatrix_MC_Star T) (A : AbstractDistMatrix T) :
      Step g chk .Other M (M.AlignWith_VC_Star g RELEASE chk A).buffer
  | AlignWith_Star_VC (RELEASE : Bool) (M : DistMatrix_MC_Star T) (A : AbstractDistMatrix T) :
      Step g chk .Other M (M.AlignWith_Star_VC g RELEASE chk A).buffer
  | AlignColsWith_MC_MR (RELEASE : Bool) (M : DistMatrix_MC_Star T) (A : DistMatrix_MC_MR T) :
      Step g chk .Other M (M.AlignColsWith_MC_MR RELEASE chk A).buffer
  | AlignColsWith_MC_Star (RELEASE : Bool) (M A : DistMatrix_MC_Star T) :
      Step g chk .Other M (M.AlignColsWith_MC_Star RELEASE chk A).buffer
  | AlignColsWith_MR_MC (RELEASE : Bool) (M : DistMatrix_MC_Star T)
      (A : AbstractDistMatrix T) :
      Step g chk .Other M (M.AlignColsWith_MR_MC RELEASE chk A).buffer
  | AlignColsWith_Star_MC (RELEASE : Bool) (M : DistMatrix_MC_Star T)
      (A : AbstractDistMatrix T) :
      Step g chk .Other M (M.AlignColsWith_Star_MC RELEASE chk A).buffer
  | AlignColsWith_VC_Star (RELEASE : Bool) (M : DistMatrix_MC_Star T)
      (A : AbstractDistMatrix T) :
      Step g chk .Other M (M.AlignColsWith_VC_Star g RELEASE chk A).buffer
  | AlignColsWith_Star_VC (RELEASE : Bool) (M : DistMatrix_MC_Star T)
      (A : AbstractDistMatrix T) :
      Step g chk .Other M (M.AlignColsWith_Star_VC g RELEASE chk A).buffer
  | ResizeTo (RELEASE : Bool) (M : DistMatrix_MC_Star T) (height width : Nat) :
      Step g chk .Other M (M.ResizeTo_call g RELEASE height width).buffer
  | Get (M : DistMatrix_MC_Star T) : Step g chk .Other M M
  | Print (M : DistMatrix_MC_Star T) : Step g chk .Other M M
  | Set (RELEASE : Bool) (M : DistMatrix_MC_Star T) (i j : Nat) (u : T) :
      Step g chk .Other M (M.Set g RELEASE i j u).buffer
  | Update (RELEASE : Bool) (M : DistMatrix_MC_Star T) (i j : Nat) (u : T) :
      Step g chk .Other M (M.Update g RELEASE i j u).buffer
  | MakeTrapezoidal (RELEASE : Bool) (M : DistMatrix_MC_Star T) (side : Side) (shape : Shape)
      (offset : Int) :
      Step g chk .Other M (M.MakeTrapezoidal g RELEASE side shape offset).buffer
  | ScaleTrapezoidal (RELEASE : Bool) (M : DistMatrix_MC_Star T) (alpha : T) (side : Side)
      (shape : Shape) (offset : Int) :
      Step g chk .Other M (M.ScaleTrapezoidal g RELEASE alpha side shape offset).buffer
  | SetToIdentity (RELEASE : Bool) (M : DistMatrix_MC_Star T) :
      Step g chk .Other M (M.SetToIdentity g RELEASE).buffer
  | SetToRandom (RELEASE : Bool) (M : DistMatrix_MC_Star T) (draws aux : Nat → Nat → Nat → T) :
      Step g chk .Other M (M.SetToRandom RELEASE draws aux).buffer
  | SumOverRow (RELEASE : Bool) (M : DistMatrix_MC_Star T) (MIN_COLL_MSG : Nat)
      (aux : Nat → Nat → Nat → T) :
      Step g chk .Other M (M.SumOverRow g RELEASE MIN_COLL_MSG aux).buffer
  | call_MC_MR (RELEASE : Bool) (M M' : DistMatrix_MC_Star T) (MIN_COLL_MSG : Nat)
      (aux : Nat → Nat → Nat → T) (A : DistMatrix_MC_MR T)
      (h : (M.call_MC_MR g RELEASE MIN_COLL_MSG aux A).state = some M') :
      Step g chk .Other M M'
  | call_MC_Star (RELEASE : Bool) (M M' : DistMatrix_MC_Star T) (aux : Nat → Nat → Nat → T)
      (A : DistMatrix_MC_Star T) (h : (M.call_MC_Star g RELEASE aux A).state = some M') :
      Step g chk .Other M M'
  | call_VC_Star (RELEASE : Bool) (M M' : DistMatrix_MC_Star T) (MIN_COLL_MSG : Nat)
      (aux : Nat → Nat → Nat → T) (A : AbstractDistMatrix T)
      (h : (M.call_VC_Star g RELEASE MIN_COLL_MSG aux A).state = some M') :
      Step g chk .Other M M'
  | call_Star_Star (RELEASE : Bool) (M M' : DistMatrix_MC_Star T) (A : AbstractDistMatrix T)
      (h : (M.call_Star_Star g RELEASE A).state = some M') : Step g chk .Other M M'
  | call_MD_Star (RELEASE : Bool) (M M' : DistMatrix_MC_Star T) (A : AbstractDistMatrix T)
      (h : (M.call_MD_Star RELEASE A).state = some M') : Step g chk .Other M M'
  | call_Star_MD (RELEASE : Bool) (M M' : DistMatrix_MC_Star T) (A : AbstractDistMatrix T)
      (h : (M.call_Star_MD RELEASE A).state = some M') : Step g chk .Other M M'
  | call_via_MC_MR (RELEASE : Bool) (M M' : DistMatrix_MC_Star T) (MIN_COLL_MSG : Nat)
      (aux : Nat → Nat → Nat → T) (heightOfA widthOfA : Nat) (A_MC_MR : DistMatrix_MC_MR T)
      (h : (M.call_via_MC_MR g RELEASE MIN_COLL_MSG aux heightOfA widthOfA A_MC_MR).state
        = some M') : Step g chk .Other M M'
  | call_via_VC_Star (RELEASE : Bool) (M M' : DistMatrix_MC_Star T) (MIN_COLL_MSG : Nat)
      (aux : Nat → Nat → Nat → T) (heightOfA widthOfA : Nat) (A_VC_Star : AbstractDistMatrix T)
      (h : (M.call_via_VC_Star g RELEASE MIN_COLL_MSG aux heightOfA widthOfA A_VC_Star).state
        = some M') : Step g chk .Other M M'

/-- The flag invariant of the spec: `lockedView` implies `viewing`. -/
def DistMatrix_MC_Star.LockedImpliesViewing (M : DistMatrix_MC_Star T) : Prop :=
  M.lockedView = true → M.viewing = true

/-- A `3×1` `[MC,MR]` matrix on the `2×2` grid with alignments `(1,1)` whose global entry
`(i,0)` is `10·i`. -/
def demoColumn : DistMatrix_MC_MR Nat where
  height := 3
  width := 1
  colAlignment := 1
  rowAlignment := 1
  colShift := fun row _ => Shift row 1 2
  rowShift := fun _ col => Shift col 1 2
  localHeight := fun row _ => LocalLength 3 (Shift row 1 2) 2
  localWidth := fun _ col => LocalLength 1 (Shift col 1 2) 2
  localMatrix := fun row col iLoc jLoc =>
    10 * (Shift row 1 2 + iLoc * 2) + (Shift col 1 2 + jLoc * 2)

end Steps

/-! ## The rotation partners, the portion sizes and the block loop -/

section Partners

/-- The partner `sendRank = (rank+m+alignDst-alignSrc) % m` of the rotation (`sendRow` in
`[MC,* ] = [MC,MR]`), computed as the source does with `int`s: `%` truncates towards
zero. -/
def sendRank (rank m alignDst alignSrc : Int) : Int :=
  Int.tmod (rank + m + alignDst - alignSrc) m

/-- The partner `recvRank = (rank+m+alignSrc-alignDst) % m` of the rotation (`recvRow` in
`[MC,* ] = [MC,MR]`), computed with `int`s. -/
def recvRank (rank m alignDst alignSrc : Int) : Int :=
  Int.tmod (rank + m + alignSrc - alignDst) m

/-- `portionSize` of the aligned all-gather branch of `[MC,* ] = [MC,MR]`:
`max( localHeight*maxLocalWidth, MIN_COLL_MSG )` with
`maxLocalWidth = MaxLocalLength( width, c )`. -/
def portionSize_aligned (localHeight width c MIN_COLL_MSG : Nat) : Nat :=
  max (localHeight * MaxLocalLength width c) MIN_COLL_MSG

/-- `portionSize` of the unaligned all-gather branch of `[MC,* ] = [MC,MR]`:
`max( maxLocalHeight*maxLocalWidth, MIN_COLL_MSG )`. -/
def portionSize_unaligned (height width r c MIN_COLL_MSG : Nat) : Nat :=
  max (MaxLocalLength height r * MaxLocalLength width c) MIN_COLL_MSG

/-- `portionSize` of both branches of `[MC,* ] = [VC,* ]`:
`max( maxLocalHeightOfA*width, MIN_COLL_MSG )` with
`maxLocalHeightOfA = MaxLocalLength( height, p )`. -/
def portionSize_VC (height width p MIN_COLL_MSG : Nat) : Nat :=
  max (MaxLocalLength height p * width) MIN_COLL_MSG

end Partners

section Replicas
variable {T : Type}

/-- Replica agreement of a `[MC,* ]` matrix: the processes of each grid row hold the same
local tile. -/
def DistMatrix_MC_Star.Replicated (g : Grid) (M : DistMatrix_MC_Star T) : Prop :=
  ∀ row col col2 iLoc j, row < g.Height → col < g.Width → col2 < g.Width →
    iLoc < M.localHeight row col → j < M.localWidth row col →
    M.localMatrix row col iLoc j = M.localMatrix row col2 iLoc j

/-- The step from `M` to `M2` is local to the grid row: the sizes of the tiles stay, and
the new local entry `(iLoc, j)` of a process is computed from its `MCRank`, the position
and the old entry, by a rule `F` in which the `MRRank` does not occur. -/
def DistMatrix_MC_Star.RowLocal (g : Grid) (M M2 : DistMatrix_MC_Star T) : Prop :=
  M2.localHeight = M.localHeight ∧ M2.localWidth = M.localWidth ∧
  ∃ F : Nat → Nat → Nat → T → T, ∀ row col iLoc j, row < g.Height → col < g.Width →
    M2.localMatrix row col iLoc j = F row iLoc j (M.localMatrix row col iLoc j)

end Replicas

section BlockLoop

/-- The view `v` has its `height × width` block inside the `n × n` matrix. -/
def ViewArgs.Inside (n : Nat) (v : ViewArgs) : Prop :=
  v.i + v.height ≤ n ∧ v.j + v.width ≤ n

/-- Every view that an iteration `(k, nb)` of a blocked Cholesky variant takes of the
`n × n` matrix: `A10`, `A11`, `A20`, `A21` of the serial and the distributed `LVar2`,
`A11`, `A12`, `A22` of `UVar3` and `A00`, `A01`, `A11` of `ReverseUVar3`. -/
def blockViews (n k nb : Nat) : List ViewArgs :=
  [LVar2.A10 k nb, LVar2.A11 k nb, LVar2.A20 n k nb, LVar2.A21 n k nb, LVar2.distA21 n k nb,
    UVar3.A11 k nb, UVar3.A12 n k nb, UVar3.A22 n k nb,
    ReverseUVar3.A00 n k nb, ReverseUVar3.A01 n k nb, ReverseUVar3.A11 n k nb]

/-- The iterations `(k, nb)` of the loop `for( k=0; k<n; k+=bsize )` with
`nb = min(bsize,n-k)`, run from `k` for at most `fuel` iterations; `none` when the
iterations do not suffice. -/
def blockVisits (bsize n : Nat) : Nat → Nat → Option (List (Nat × Nat))
  | 0, k => if k < n then none else some []
  | fuel + 1, k =>
    if k < n then
      (blockVisits bsize n fuel (k + bsize)).map (fun l => (k, min bsize (n - k)) :: l)
    else some []

end BlockLoop

/-- The real matrix `[[2,1,1],[1,2,1],[1,1,1]]`, the product `V·Vᵀ` of the upper triangular
`V = [[1,0,1],[0,1,1],[0,0,1]]`. -/
def hpd3 : Mat ℝ := fun i k => if i = 2 ∨ k = 2 then 1 else if i = k then 2 else 1

/-- The state of `UVar3Unb` before iteration `j` on an arbitrary square matrix `A0`, in
terms of the input alone: the rows `0..j-1` right of the diagonal solve the triangular
systems of the factor, the diagonal of these rows is the positive root of the real part of
the Schur complement, the upper triangle of the trailing block is the Schur complement,
and nothing outside the upper triangle of the `n×n` matrix is written. -/
def UVar3Unb.Rel {K : Type} [RCLike K] (n : Nat) (A0 A : Mat K) (j : Nat) : Prop :=
  (∀ p, p < j → ∀ i, p < i → i < n →
      ∑ q ∈ Finset.range (p + 1), (starRingEnd K) (A q p) * A q i = A0 p i) ∧
  (∀ p, p < j → ∃ d : ℝ, 0 < d ∧ A p p = (d : K) ∧ d * d = RCLike.re (schur A0 A p p p)) ∧
  (∀ i k, j ≤ i → i ≤ k → k < n → A i k = schur A0 A j i k) ∧
  (∀ i k, ¬ (i ≤ k ∧ k < n) → A i k = A0 i k)

/-! # Theorems -/

section LoopLemmas
variable {F : Type}

theorem Mat.set_apply (A : Mat F) (i k : Nat) (v : F) (a b : Nat) :
    A.set i k v a b = if a = i ∧ b = k then v else A a b := rfl

/-- The loop that divides the cells `(j,k)` of row `j` by `d`. -/
theorem forLoop_row [Field F] (j : Nat) (d : F) (c : Nat) :
    ∀ (lo : Nat) (A : Mat F) (i k : Nat),
      forLoop (fun k (B : Mat F) => B.set j k (B j k / d)) c lo A i k
        = if i = j ∧ lo ≤ k ∧ k < lo + c then A j k / d else A i k := by
  induction c with
  | zero => intro lo A i k; rw [if_neg (by omega)]; rfl
  | succ c ih =>
    intro lo A i k
    rw [forLoop, ih]
    simp only [Mat.set_apply]
    by_cases hi : i = j
    · by_cases hk : k = lo
      · subst hi; subst hk; simp
      · have : (lo + 1 ≤ k ∧ k < lo + 1 + c) ↔ (lo ≤ k ∧ k < lo + (c + 1)) := by omega
        simp [hi, hk, this]
    · simp [hi]

/-- The loop that divides the cells `(i,k)` of column `k` by `d`. -/
theorem forLoop_col [Field F] (k : Nat) (d : F) (c : Nat) :
    ∀ (lo : Nat) (A : Mat F) (a b : Nat),
      forLoop (fun i (B : Mat F) => B.set i k (B i k / d)) c lo A a b
        = if b = k ∧ lo ≤ a ∧ a < lo + c then A a k / d else A a b := by
  induction c with
  | zero => intro lo A a b; rw [if_neg (by omega)]; rfl
  | succ c ih =>
    intro lo A a b
    rw [forLoop, ih]
    simp only [Mat.set_apply]
    by_cases hb : b = k
    · by_cases ha : a = lo
      · subst hb; subst ha; simp
      · have : (lo + 1 ≤ a ∧ a < lo + 1 + c) ↔ (lo ≤ a ∧ a < lo + (c + 1)) := by omega
        simp [hb, ha, this]
    · simp [hb]

/-- The inner loop of the update of `UVar3Unb`: column `k`, rows from `lo > j`. -/
theorem forLoop_updInner [Field F] (conj : F → F) (j k : Nat) (c : Nat) :
    ∀ (lo : Nat) (A : Mat F) (a b : Nat), j < lo →
      forLoop (fun i (C : Mat F) => C.set i k (C i k - conj (C j i) * C j k)) c lo A a b
        = if b = k ∧ lo ≤ a ∧ a < lo + c then A a k - conj (A j a) * A j k else A a b := by
  induction c with
  | zero => intro lo A a b _; rw [if_neg (by omega)]; rfl
  | succ c ih =>
    intro lo A a b hlo
    rw [forLoop, ih _ _ _ _ (by omega)]
    simp only [Mat.set_apply]
    split_ifs <;> first | rfl | (exfalso; omega) | simp_all

/-- The double loop of the update of `UVar3Unb`, columns from `lo`. -/
theorem forLoop_updOuter [Field F] (conj : F → F) (j : Nat) (c : Nat) :
    ∀ (lo : Nat) (A : Mat F) (a b : Nat),
      forLoop (fun k (B : Mat F) => forRange (j + 1) (k + 1)
          (fun i (C : Mat F) => C.set i k (C i k - conj (C j i) * C j k)) B) c lo A a b
        = if (lo ≤ b ∧ b < lo + c) ∧ j < a ∧ a ≤ b then A a b - conj (A j a) * A j b
          else A a b := by
  induction c with
  | zero => intro lo A a b; rw [if_neg (by omega)]; rfl
  | succ c ih =>
    intro lo A a b
    rw [forLoop, ih]
    simp only [forRange, forLoop_updInner conj j lo _ _ _ _ _ (Nat.lt_succ_self j)]
    split_ifs <;> first | rfl | (exfalso; omega) | simp_all

/-- The inner loop of the update of `ReverseUVar3Unb`: row `i`, columns below `j`. -/
theorem forLoop_revInner [Field F] (conj : F → F) (j i : Nat) (c : Nat) :
    ∀ (lo : Nat) (A : Mat F) (a b : Nat), lo + c ≤ j →
      forLoop (fun k (C : Mat F) => C.set i k (C i k - conj (C k j) * C i j)) c lo A a b
        = if a = i ∧ lo ≤ b ∧ b < lo + c then A i b - conj (A b j) * A i j else A a b := by
  induction c with
  | zero => intro lo A a b _; rw [if_neg (by omega)]; rfl
  | succ c ih =>
    intro lo A a b hlo
    rw [forLoop, ih _ _ _ _ (by omega)]
    simp only [Mat.set_apply]
    split_ifs <;> first | rfl | (exfalso; omega) | simp_all

/-- The double loop of the update of `ReverseUVar3Unb`, rows from `lo`. -/
theorem forLoop_revOuter [Field F] (conj : F → F) (j : Nat) (c : Nat) :
    ∀ (lo : Nat) (A : Mat F) (a b : Nat), lo + c ≤ j →
      forLoop (fun i (B : Mat F) => forRange i j
          (fun k (C : Mat F) => C.set i k (C i k - conj (C k j) * C i j)) B) c lo A a b
        = if (lo ≤ a ∧ a < lo + c) ∧ a ≤ b ∧ b < j then A a b - conj (A b j) * A a j
          else A a b := by
  induction c with
  | zero => intro lo A a b _; rw [if_neg (by omega)]; rfl
  | succ c ih =>
    intro lo A a b hlo
    rw [forLoop, ih _ _ _ _ (by omega)]
    simp only [forRange, forLoop_revInner conj j lo _ _ _ _ _ (by omega : lo + (j - lo) ≤ j)]
    split_ifs <;> first | rfl | (exfalso; omega) | simp_all

end LoopLemmas

section IterLemmas
variable {F R : Type} [Field F] [LinearOrderedField R]

theorem Outcome.andThen_done {α : Type} (A : α) (f : α → Outcome α) :
    (Outcome.done A).andThen f = f A := rfl

theorem Outcome.andThen_logicError {α : Type} (A : α) (f : α → Outcome α) :
    (Outcome.logicError A).andThen f = .logicError A := rfl

/-- Iteration `j` of `UVar3Unb` throws on a non-positive pivot and otherwise yields the
closed form. -/
theorem UVar3Unb.iter_eq (S : Scalars F R) (n j : Nat) (A : Mat F) :
    UVar3Unb.iter S n j A =
      if S.RealPart (A j j) ≤ 0 then .logicError A
      else .done (UVar3Unb.after S n j (S.ofBase (S.Sqrt (S.RealPart (A j j)))) A) := by
  unfold UVar3Unb.iter
  by_cases h : S.RealPart (A j j) ≤ 0
  · simp [h]
  · simp only [h, if_false]
    congr 1
    funext a b
    rw [UVar3Unb.update, forRange, forLoop_updOuter]
    simp only [UVar3Unb.scaleRow, forRange, forLoop_row, Mat.set_apply, UVar3Unb.after, true_and]
    split_ifs <;> first | rfl | (exfalso; omega)

/-- Iteration `j` of `ReverseUVar3Unb` throws on a non-positive pivot and otherwise
yields the closed form. -/
theorem ReverseUVar3Unb.rev_iter_eq (S : Scalars F R) (j : Nat) (A : Mat F) :
    ReverseUVar3Unb.iter S j A =
      if S.RealPart (A j j) ≤ 0 then .logicError A
      else .done (ReverseUVar3Unb.after S j (S.ofBase (S.Sqrt (S.RealPart (A j j)))) A) := by
  unfold ReverseUVar3Unb.iter
  by_cases h : S.RealPart (A j j) ≤ 0
  · simp [h]
  · simp only [h, if_false]
    congr 1
    funext a b
    rw [ReverseUVar3Unb.update, forRange,
      forLoop_revOuter _ j _ 0 _ _ _ (by omega : 0 + (j - 0) ≤ j)]
    simp only [ReverseUVar3Unb.scaleCol, forRange, forLoop_col, Mat.set_apply,
      ReverseUVar3Unb.after, true_and]
    split_ifs <;> first | rfl | (exfalso; omega)

end IterLemmas

section PosDef
open scoped ComplexOrder
variable {K : Type} [RCLike K]

open Finset in
/-- Positive definiteness only looks at the kernel on `[lo, n)`. -/
theorem PDOn.congr {H H' : Mat K} {lo n : Nat} (h : PDOn H lo n)
    (e : ∀ i k, lo ≤ i → i < n → lo ≤ k → k < n → H' i k = H i k) : PDOn H' lo n := by
  refine ⟨fun i k h1 h2 h3 h4 => ?_, fun x hx => ?_⟩
  · rw [e i k h1 h2 h3 h4, e k i h3 h4 h1 h2]; exact h.1 i k h1 h2 h3 h4
  · have : qform H' lo n x = qform H lo n x := by
      unfold qform
      refine Finset.sum_congr rfl fun i hi => Finset.sum_congr rfl fun k hk => ?_
      rw [Finset.mem_Ico] at hi hk
      rw [e i k hi.1 hi.2 hk.1 hk.2]
    rw [this]; exact h.2 x hx

/-- The leading diagonal entry of a positive definite kernel is a positive real. -/
theorem PDOn.diag_pos {H : Mat K} {lo n : Nat} (h : PDOn H lo n) (hlo : lo < n) :
    0 < RCLike.re (H lo lo) ∧ (starRingEnd K) (H lo lo) = H lo lo := by
  constructor
  · have := h.2 (fun i => if i = lo then 1 else 0) ⟨lo, le_refl _, hlo, by simp⟩
    have e : qform H lo n (fun i => if i = lo then (1 : K) else 0) = H lo lo := by
      unfold qform
      rw [Finset.sum_eq_single lo]
      · rw [Finset.sum_eq_single lo]
        · simp
        · intro b _ hb; simp [hb]
        · intro hb; exact absurd (Finset.mem_Ico.2 ⟨le_refl _, hlo⟩) hb
      · intro b _ hb; simp [hb]
      · intro hb; exact absurd (Finset.mem_Ico.2 ⟨le_refl _, hlo⟩) hb
    rwa [e] at this
  · exact (h.1 lo lo (le_refl _) hlo (le_refl _) hlo).symm

/-- One elimination step keeps the trailing kernel positive definite. -/
theorem PDOn.step {H : Mat K} {lo n : Nat} (h : PDOn H lo n) (hlo : lo < n) :
    PDOn (fun i k => H i k - H i lo * H lo k / H lo lo) (lo + 1) n := by
  obtain ⟨hpos, hreal⟩ := h.diag_pos hlo
  have ha : H lo lo ≠ 0 := by
    intro h0; rw [h0] at hpos; simp at hpos
  refine ⟨fun i k h1 h2 h3 h4 => ?_, fun y hy => ?_⟩
  · simp only [map_sub, map_div₀, map_mul, hreal]
    rw [← h.1 i k (by omega) h2 (by omega) h4, ← h.1 i lo (by omega) h2 (le_refl _) hlo,
      ← h.1 lo k (le_refl _) hlo (by omega) h4]
    ring
  · set s : K := ∑ k ∈ Finset.Ico (lo + 1) n, H lo k * y k with hs
    set t : K := ∑ i ∈ Finset.Ico (lo + 1) n, (starRingEnd K) (y i) * H i lo with ht
    set W : K := ∑ i ∈ Finset.Ico (lo + 1) n, ∑ k ∈ Finset.Ico (lo + 1) n,
      (starRingEnd K) (y i) * H i k * y k with hW
    have hst : (starRingEnd K) s = t := by
      rw [hs, ht, map_sum]
      refine Finset.sum_congr rfl fun k hk => ?_
      rw [Finset.mem_Ico] at hk
      rw [map_mul, ← h.1 lo k (le_refl _) hlo (by omega) hk.2, mul_comm]
    -- the extension of `y` by the entry that cancels row `lo`
    let x : Nat → K := fun i => if i = lo then -s / H lo lo else y i
    have hxlo : x lo = -s / H lo lo := by simp [x]
    have hxi : ∀ i ∈ Finset.Ico (lo + 1) n, x i = y i := by
      intro i hi
      rw [Finset.mem_Ico] at hi
      have : i ≠ lo := by omega
      simp [x, this]
    have hx : ∃ i, lo ≤ i ∧ i < n ∧ x i ≠ 0 := by
      obtain ⟨i, h1, h2, h3⟩ := hy
      refine ⟨i, by omega, h2, ?_⟩
      rwa [hxi i (Finset.mem_Ico.2 ⟨h1, h2⟩)]
    have key : qform H lo n x = qform (fun i k => H i k - H i lo * H lo k / H lo lo) (lo + 1) n y := by
      have e1 : qform H lo n x
          = (starRingEnd K) (x lo) * H lo lo * x lo + (starRingEnd K) (x lo) * s
            + (t * x lo + W) := by
        unfold qform
        rw [Finset.sum_eq_sum_Ico_succ_bot hlo, Finset.sum_eq_sum_Ico_succ_bot hlo]
        congr 1
        · congr 1
          rw [hs, Finset.mul_sum]
          refine Finset.sum_congr rfl fun k hk => ?_
          rw [hxi k hk, mul_assoc]
        · have : ∀ i ∈ Finset.Ico (lo + 1) n,
              (∑ k ∈ Finset.Ico lo n, (starRingEnd K) (x i) * H i k * x k)
                = (starRingEnd K) (y i) * H i lo * x lo
                  + ∑ k ∈ Finset.Ico (lo + 1) n, (starRingEnd K) (y i) * H i k * y k := by
            intro i hi
            rw [Finset.sum_eq_sum_Ico_succ_bot hlo, hxi i hi]
            congr 1
            refine Finset.sum_congr rfl fun k hk => ?_
            rw [hxi k hk]
          rw [Finset.sum_congr rfl this, Finset.sum_add_distrib, ht, Finset.sum_mul]
      have e2 : qform (fun i k => H i k - H i lo * H lo k / H lo lo) (lo + 1) n y
          = W - t * s / H lo lo := by
        unfold qform
        rw [hW, ht, hs, Finset.sum_mul_sum, Finset.sum_div, ← Finset.sum_sub_distrib]
        refine Finset.sum_congr rfl fun i _ => ?_
        rw [Finset.sum_div, ← Finset.sum_sub_distrib]
        refine Finset.sum_congr rfl fun k _ => ?_
        field_simp
        ring
      rw [e1, e2, hxlo, map_div₀, map_neg, hst, hreal]
      field_simp
      ring
    rw [← key]
    exact h.2 x hx

/-- A Hermitian positive definite matrix gives a positive definite kernel on `[0, n)`. -/
theorem PDOn.of_posDef {n : Nat} {A : Mat K} (hA : (A.toMatrix n).PosDef) : PDOn A 0 n := by
  refine ⟨fun i k _ hi _ hk => ?_, fun x hx => ?_⟩
  · have := congrFun (congrFun hA.1 ⟨k, hk⟩) ⟨i, hi⟩
    simpa [Mat.toMatrix, Matrix.conjTranspose_apply] using this.symm
  · have hne : (fun i : Fin n => x i) ≠ 0 := by
      obtain ⟨i, _, hi, hxi⟩ := hx
      intro h0
      exact hxi (congrFun h0 ⟨i, hi⟩)
    have := hA.re_dotProduct_pos hne
    have e : Matrix.dotProduct (star fun i : Fin n => x i) ((A.toMatrix n).mulVec fun i : Fin n => x i)
        = qform A 0 n x := by
      unfold qform
      simp only [Nat.Ico_zero_eq_range, Finset.sum_range, Matrix.dotProduct, Matrix.mulVec,
        Mat.toMatrix, Matrix.of_apply, Pi.star_apply, Finset.mul_sum, mul_assoc]
      rfl
    rwa [e] at this

/-- Rows `0..j-1` of a Cholesky factor of a positive definite kernel leave a positive
definite Schur complement on `[j, n)`. -/
theorem PDOn.schur {H G : Mat K} {n : Nat} (h : PDOn H 0 n) :
    ∀ j, j ≤ n →
      (∀ p, p < j → ∀ i, p ≤ i → i < n →
        ∑ q ∈ Finset.range (p + 1), (starRingEnd K) (G q p) * G q i = H p i) →
      PDOn (schur H G j) j n := by
  intro j
  induction j with
  | zero =>
    intro _ _
    exact h.congr fun i k _ _ _ _ => by simp [Elemental.schur]
  | succ j ih =>
    intro hj hE
    have hS := ih (by omega) fun p hp => hE p (by omega)
    have hjn : j < n := by omega
    obtain ⟨hpos, _⟩ := hS.diag_pos hjn
    have hrow : ∀ i, j ≤ i → i < n → Elemental.schur H G j j i = (starRingEnd K) (G j j) * G j i := by
      intro i h1 h2
      have := hE j (by omega) i h1 h2
      rw [Finset.sum_range_succ] at this
      simp only [Elemental.schur]
      rw [← this]; ring
    have hjj : G j j ≠ 0 := by
      intro h0
      rw [hrow j (le_refl _) hjn, h0] at hpos
      simp at hpos
    have hcj : (starRingEnd K) (G j j) ≠ 0 := by
      simpa using hjj
    refine (hS.step hjn).congr fun i k h1 h2 h3 h4 => ?_
    have hcol : Elemental.schur H G j i j = G j j * (starRingEnd K) (G j i) := by
      rw [hS.1 j i (le_refl _) hjn (by omega) h2, hrow i (by omega) h2]
      simp
    rw [hcol, hrow k (by omega) h4, hrow j (le_refl _) hjn]
    simp only [Elemental.schur, Finset.sum_range_succ]
    field_simp
    ring

end PosDef

section Factor
open scoped ComplexOrder
variable {K : Type} [RCLike K]

@[simp] theorem exact_RealPart (z : K) : (exact K).RealPart z = RCLike.re z := rfl
@[simp] theorem exact_Sqrt (x : ℝ) : (exact K).Sqrt x = Real.sqrt x := rfl
@[simp] theorem exact_ofBase (x : ℝ) : (exact K).ofBase x = (x : K) := rfl
@[simp] theorem exact_Conj (z : K) : (exact K).Conj z = (starRingEnd K) z := rfl

theorem UVar3Unb.inv_step {n j : Nat} {A0 A : Mat K} (hPD : PDOn A0 0 n) (hj : j < n)
    (hI : UVar3Unb.Inv n A0 A j) :
    ∃ B, UVar3Unb.iter (exact K) n j A = .done B ∧ UVar3Unb.Inv n A0 B (j + 1) := by
  obtain ⟨hE, hD, hT⟩ := hI
  have hS := PDOn.schur (G := A) hPD j (by omega) hE
  obtain ⟨hpos, hreal⟩ := hS.diag_pos hj
  rw [← hT j j (le_refl _) (le_refl _) hj] at hpos hreal
  have hα : 0 < Real.sqrt (RCLike.re (A j j)) := Real.sqrt_pos.2 hpos
  have hαK : ((Real.sqrt (RCLike.re (A j j)) : ℝ) : K) ≠ 0 := by
    exact_mod_cast hα.ne'
  have hsq : ((Real.sqrt (RCLike.re (A j j)) : ℝ) : K) * ((Real.sqrt (RCLike.re (A j j)) : ℝ) : K)
      = A j j := by
    rw [← RCLike.ofReal_mul, Real.mul_self_sqrt hpos.le]
    exact RCLike.conj_eq_iff_re.1 hreal
  refine ⟨_, by rw [UVar3Unb.iter_eq, if_neg (by simpa using hpos)], ?_⟩
  set α : K := (exact K).ofBase ((exact K).Sqrt ((exact K).RealPart (A j j))) with hαdef
  have hα' : α = ((Real.sqrt (RCLike.re (A j j)) : ℝ) : K) := rfl
  have hcα : (starRingEnd K) α = α := by rw [hα']; exact RCLike.conj_ofReal _
  have hα0 : α ≠ 0 := by rw [hα']; exact hαK
  have hαα : α * α = A j j := by rw [hα']; exact hsq
  -- rows above `j` are not written
  have hrow : ∀ q, q < j → ∀ i, UVar3Unb.after (exact K) n j α A q i = A q i := by
    intro q hq i
    unfold UVar3Unb.after
    rw [if_neg (by omega), if_neg (by omega), if_neg (by omega)]
  have hjj : UVar3Unb.after (exact K) n j α A j j = α := by
    unfold UVar3Unb.after; rw [if_pos ⟨rfl, rfl⟩]
  have hji : ∀ i, j < i → i < n → UVar3Unb.after (exact K) n j α A j i = A j i / α := by
    intro i h1 h2
    unfold UVar3Unb.after
    rw [if_neg (by omega), if_pos ⟨rfl, h1, h2⟩]
  have hsum : ∀ (m : Nat) (a b : Nat), m ≤ j →
      ∑ q ∈ Finset.range m, (starRingEnd K) (UVar3Unb.after (exact K) n j α A q a)
          * UVar3Unb.after (exact K) n j α A q b
        = ∑ q ∈ Finset.range m, (starRingEnd K) (A q a) * A q b := by
    intro m a b hm
    refine Finset.sum_congr rfl fun q hq => ?_
    rw [Finset.mem_range] at hq
    rw [hrow q (by omega), hrow q (by omega)]
  refine ⟨fun p hp i h1 h2 => ?_, fun p hp => ?_, fun i k h1 h2 h3 => ?_⟩
  · by_cases hpj : p < j
    · rw [hsum (p + 1) p i (by omega)]
      exact hE p hpj i h1 h2
    · have hpe : p = j := by omega
      subst hpe
      rw [Finset.sum_range_succ, hsum p p i (le_refl _), hjj, hcα]
      have hTi := hT p i (le_refl _) h1 h2
      simp only [Elemental.schur] at hTi
      by_cases hip : i = p
      · subst hip
        rw [hjj, hαα, hTi]; ring
      · rw [hji i (by omega) h2, mul_div_cancel₀ _ hα0, hTi]; ring
  · by_cases hpj : p < j
    · rw [hrow p hpj]; exact hD p hpj
    · have hpe : p = j := by omega
      subst hpe
      exact ⟨_, hα, by rw [hjj, hα']⟩
  · have hik : UVar3Unb.after (exact K) n j α A i k
        = A i k - (starRingEnd K) (A j i / α) * (A j k / α) := by
      unfold UVar3Unb.after
      rw [if_neg (by omega), if_neg (by omega), if_pos ⟨by omega, h2, h3⟩]
      rfl
    simp only [Elemental.schur]
    rw [Finset.sum_range_succ, hsum j i k (le_refl _), hji i (by omega) (by omega),
      hji k (by omega) h3, hik, hT i k (by omega) h2 h3]
    simp only [Elemental.schur]
    ring

/-- Every prefix of the outer loop of `UVar3Unb` on a positive definite matrix runs
through and establishes the invariant. -/
theorem UVar3Unb.run_inv {n : Nat} {A0 A : Mat K} (hPD : PDOn A0 0 n)
    (hA : ∀ i k, i ≤ k → k < n → A i k = A0 i k) :
    ∀ j, j ≤ n → ∃ B, UVar3Unb.run (exact K) n j A = .done B ∧ UVar3Unb.Inv n A0 B j := by
  intro j
  induction j with
  | zero =>
    intro _
    refine ⟨A, rfl, fun p hp => absurd hp (by omega), fun p hp => absurd hp (by omega), ?_⟩
    intro i k _ hik hk
    simp [Elemental.schur, hA i k hik hk]
  | succ j ih =>
    intro hj
    obtain ⟨B, hB, hI⟩ := ih (by omega)
    obtain ⟨C, hC, hI'⟩ := UVar3Unb.inv_step hPD (by omega) hI
    exact ⟨C, by rw [UVar3Unb.run, hB, Outcome.andThen_done, hC], hI'⟩

/-- The invariant at `j = n` says `Uᴴ·U = A`. -/
theorem UVar3Unb.inv_final {n : Nat} {A0 U : Mat K} (hPD : PDOn A0 0 n)
    (hI : UVar3Unb.Inv n A0 U n) :
    (U.upper n).conjTranspose * U.upper n = A0.toMatrix n := by
  obtain ⟨hE, -, -⟩ := hI
  have key : ∀ i k, i ≤ k → k < n →
      ∑ q ∈ Finset.range n, (starRingEnd K) (if q ≤ i then U q i else 0)
          * (if q ≤ k then U q k else 0) = A0 i k := by
    intro i k hik hk
    rw [← hE i (by omega) k hik hk]
    rw [← Finset.sum_subset (Finset.range_subset.2 (by omega : i + 1 ≤ n))]
    · refine Finset.sum_congr rfl fun q hq => ?_
      rw [Finset.mem_range] at hq
      rw [if_pos (by omega), if_pos (by omega)]
    · intro q _ hq
      rw [Finset.mem_range] at hq
      rw [if_neg (by omega)]; simp
  ext i k
  simp only [Matrix.mul_apply, Matrix.conjTranspose_apply, Mat.upper, Mat.toMatrix,
    Matrix.of_apply]
  have e := Finset.sum_range (n := n) fun q => (starRingEnd K) (if q ≤ (i : Nat) then U q i else 0)
          * (if q ≤ (k : Nat) then U q k else 0)
  rcases le_total (i : Nat) (k : Nat) with hik | hik
  · rw [← key i k hik k.2, e]; rfl
  · have h2 := key k i hik i.2
    rw [hPD.1 k i (Nat.zero_le _) k.2 (Nat.zero_le _) i.2, ← h2, map_sum, Finset.sum_range]
    refine Finset.sum_congr rfl fun q _ => ?_
    simp only [map_mul, RCLike.conj_conj, RCLike.star_def]
    rw [mul_comm]

end Factor

section RunLemmas
variable {F R : Type} [Field F] [LinearOrderedField R]

theorem UVar3Unb.run_succ (S : Scalars F R) (n c : Nat) (A : Mat F) :
    UVar3Unb.run S n (c + 1) A = (UVar3Unb.run S n c A).andThen (UVar3Unb.iter S n c) := rfl

theorem ReverseUVar3Unb.rev_run_succ (S : Scalars F R) (n c : Nat) (A : Mat F) :
    ReverseUVar3Unb.run S n (c + 1) A
      = (ReverseUVar3Unb.run S n c A).andThen (ReverseUVar3Unb.iter S (n - 1 - c)) := rfl

/-- Once an iteration has thrown, the later iterations do not run. -/
theorem UVar3Unb.run_logicError (S : Scalars F R) (n : Nat) (A B : Mat F) (j : Nat)
    (h : UVar3Unb.run S n j A = .logicError B) :
    ∀ c, j ≤ c → UVar3Unb.run S n c A = .logicError B := by
  intro c hc
  induction c with
  | zero =>
    have : j = 0 := by omega
    subst this; exact h
  | succ c ih =>
    by_cases hj : j = c + 1
    · subst hj; exact h
    · rw [UVar3Unb.run_succ, ih (by omega)]; rfl

/-- A throw at the end of the loop happened at some iteration `j` that began. -/
theorem UVar3Unb.run_failed (S : Scalars F R) (n : Nat) (A : Mat F) :
    ∀ c, (UVar3Unb.run S n c A).failed = true →
      ∃ j B, j < c ∧ UVar3Unb.run S n j A = .done B ∧ S.RealPart (B j j) ≤ 0 := by
  intro c
  induction c with
  | zero => intro h; simp [UVar3Unb.run, Outcome.failed] at h
  | succ c ih =>
    intro h
    cases hr : UVar3Unb.run S n c A with
    | logicError B =>
      obtain ⟨j, B', hj, h1, h2⟩ := ih (by rw [hr]; rfl)
      exact ⟨j, B', by omega, h1, h2⟩
    | done B =>
      refine ⟨c, B, by omega, hr, ?_⟩
      rw [UVar3Unb.run_succ, hr, Outcome.andThen_done, UVar3Unb.iter_eq] at h
      by_contra hneg
      rw [if_neg hneg] at h
      simp [Outcome.failed] at h

/-- An iteration of `UVar3Unb` leaves the strict lower triangle as it is. -/
theorem UVar3Unb.iter_lower (S : Scalars F R) (n j : Nat) (A : Mat F) (i k : Nat) (h : k < i) :
    (UVar3Unb.iter S n j A).buffer i k = A i k := by
  rw [UVar3Unb.iter_eq]
  split_ifs
  · rfl
  · simp only [Outcome.buffer, UVar3Unb.after]
    rw [if_neg (by omega), if_neg (by omega), if_neg (by omega)]

/-- An iteration of `ReverseUVar3Unb` leaves the strict lower triangle as it is. -/
theorem ReverseUVar3Unb.rev_iter_lower (S : Scalars F R) (j : Nat) (A : Mat F) (i k : Nat)
    (h : k < i) : (ReverseUVar3Unb.iter S j A).buffer i k = A i k := by
  rw [ReverseUVar3Unb.rev_iter_eq]
  split_ifs
  · rfl
  · simp only [Outcome.buffer, ReverseUVar3Unb.after]
    rw [if_neg (by omega), if_neg (by omega), if_neg (by omega)]

theorem Outcome.buffer_andThen_of {α : Type} (o : Outcome α) (f : α → Outcome α) (P : α → Prop)
    (h0 : P o.buffer) (h1 : ∀ A, P A → P (f A).buffer) : P (o.andThen f).buffer := by
  cases o with
  | done A => exact h1 A h0
  | logicError A => exact h0

theorem UVar3Unb.run_lower (S : Scalars F R) (n : Nat) (A : Mat F) (i k : Nat) (h : k < i) :
    ∀ c, (UVar3Unb.run S n c A).buffer i k = A i k := by
  intro c
  induction c with
  | zero => rfl
  | succ c ih =>
    rw [UVar3Unb.run_succ]
    exact Outcome.buffer_andThen_of _ _ (fun B : Mat F => B i k = A i k) ih
      fun B hB => (UVar3Unb.iter_lower S n c B i k h).trans hB

theorem ReverseUVar3Unb.rev_run_lower (S : Scalars F R) (n : Nat) (A : Mat F) (i k : Nat)
    (h : k < i) : ∀ c, (ReverseUVar3Unb.run S n c A).buffer i k = A i k := by
  intro c
  induction c with
  | zero => rfl
  | succ c ih =>
    rw [ReverseUVar3Unb.rev_run_succ]
    exact Outcome.buffer_andThen_of _ _ (fun B : Mat F => B i k = A i k) ih
      fun B hB => (ReverseUVar3Unb.rev_iter_lower S _ B i k h).trans hB

theorem UVar3Unb.iter_upperEq (S : Scalars F R) (n j : Nat) (A A' : Mat F)
    (h : UpperEq A A') : (UVar3Unb.iter S n j A).UpperEq (UVar3Unb.iter S n j A') := by
  rw [UVar3Unb.iter_eq, UVar3Unb.iter_eq, ← h j j (le_refl _)]
  split_ifs
  · exact ⟨rfl, h⟩
  · refine ⟨rfl, fun i k hik => ?_⟩
    simp only [Outcome.buffer, UVar3Unb.after]
    split_ifs with h1 h2 h3
    · rfl
    · rw [h j k (by omega)]
    · rw [h i k hik, h j i (by omega), h j k (by omega)]
    · exact h i k hik

theorem ReverseUVar3Unb.rev_iter_upperEq (S : Scalars F R) (j : Nat) (A A' : Mat F)
    (h : UpperEq A A') :
    (ReverseUVar3Unb.iter S j A).UpperEq (ReverseUVar3Unb.iter S j A') := by
  rw [ReverseUVar3Unb.rev_iter_eq, ReverseUVar3Unb.rev_iter_eq, ← h j j (le_refl _)]
  split_ifs
  · exact ⟨rfl, h⟩
  · refine ⟨rfl, fun i k hik => ?_⟩
    simp only [Outcome.buffer, ReverseUVar3Unb.after]
    split_ifs with h1 h2 h3
    · rfl
    · rw [h i j (by omega)]
    · rw [h i k hik, h k j (by omega), h i j (by omega)]
    · exact h i k hik

omit [Field F] in
theorem Outcome.UpperEq.andThen {o o' : Outcome (Mat F)} (h : o.UpperEq o')
    (f : Mat F → Outcome (Mat F))
    (hf : ∀ A A', Elemental.UpperEq A A' → (f A).UpperEq (f A')) :
    (o.andThen f).UpperEq (o'.andThen f) := by
  cases o with
  | done A =>
    cases o' with
    | done A' => exact hf A A' h.2
    | logicError A' => exact absurd h.1 (by simp [Outcome.failed])
  | logicError A =>
    cases o' with
    | done A' => exact absurd h.1 (by simp [Outcome.failed])
    | logicError A' => exact h

theorem UVar3Unb.run_upperEq (S : Scalars F R) (n : Nat) (A A' : Mat F) (h : UpperEq A A') :
    ∀ c, (UVar3Unb.run S n c A).UpperEq (UVar3Unb.run S n c A') := by
  intro c
  induction c with
  | zero => exact ⟨rfl, h⟩
  | succ c ih => exact ih.andThen _ (UVar3Unb.iter_upperEq S n c)

theorem ReverseUVar3Unb.rev_run_upperEq (S : Scalars F R) (n : Nat) (A A' : Mat F)
    (h : UpperEq A A') :
    ∀ c, (ReverseUVar3Unb.run S n c A).UpperEq (ReverseUVar3Unb.run S n c A') := by
  intro c
  induction c with
  | zero => exact ⟨rfl, h⟩
  | succ c ih => exact ih.andThen _ (ReverseUVar3Unb.rev_iter_upperEq S _)

end RunLemmas

section Factorization
open scoped ComplexOrder

/-- The matrix `[[25,20],[20,25]]` is Hermitian positive definite. -/
theorem hpd2_posDef : (hpd2.toMatrix 2).PosDef := by
  refine ⟨?_, fun x hx => ?_⟩
  · ext i k; fin_cases i <;> fin_cases k <;> simp [Mat.toMatrix, hpd2, Matrix.conjTranspose_apply]
  · have hx' : x 0 ≠ 0 ∨ x 1 ≠ 0 := by
      by_contra h
      push_neg at h
      apply hx
      ext i; fin_cases i
      · exact h.1
      · exact h.2
    simp [Matrix.dotProduct, Matrix.mulVec, Fin.sum_univ_two, Mat.toMatrix, hpd2]
    rcases hx' with h | h
    · nlinarith [sq_nonneg (x 0 + x 1), sq_nonneg (x 1), mul_self_pos.2 h]
    · nlinarith [sq_nonneg (x 0 + x 1), sq_nonneg (x 0), mul_self_pos.2 h]

/-- C1. In exact real or complex arithmetic, for every `n` and every `n×n` Hermitian
positive definite `A`, `UVar3Unb(A)` does not throw, and the upper triangle `U` it leaves
in the buffer has a real positive diagonal and satisfies `Uᴴ·U = A`. -/
theorem UVar3Unb_factors (K : Type) [RCLike K] (n : Nat) (A : Mat K)
    (hA : (A.toMatrix n).PosDef) :
    ∃ U, UVar3Unb (exact K) n A = .done U ∧
      (∀ i, i < n → ∃ d : ℝ, 0 < d ∧ U i i = (d : K)) ∧
      (U.upper n).conjTranspose * U.upper n = A.toMatrix n := by
  obtain ⟨U, hU, hI⟩ :=
    UVar3Unb.run_inv (PDOn.of_posDef hA) (fun _ _ _ _ => rfl) n (le_refl _)
  exact ⟨U, hU, hI.2.1, UVar3Unb.inv_final (PDOn.of_posDef hA) hI⟩

/-- Instance: the kernel factors the real matrix `[[25,20],[20,25]]`. -/
theorem UVar3Unb_factors_witness :
    (hpd2.toMatrix 2).PosDef ∧
    ∃ U, UVar3Unb (exact ℝ) 2 hpd2 = .done U ∧
      (∀ i, i < 2 → ∃ d : ℝ, 0 < d ∧ U i i = (d : ℝ)) ∧
      (U.upper 2).conjTranspose * U.upper 2 = hpd2.toMatrix 2 :=
  ⟨hpd2_posDef, UVar3Unb_factors ℝ 2 hpd2 hpd2_posDef⟩

end Factorization

section Failure
variable {F R : Type} [Field F] [LinearOrderedField R]

/-- C2. `UVar3Unb` throws if and only if some iteration `j` begins (iterations
`0..j-1` ran through, leaving `B`) with `RealPart(B[j,j]) ≤ 0`; it then stops at once,
so the buffer it leaves is exactly `B`: `B[j,j]` keeps its non-positive value and rows
`0..j-1` keep their factored values. -/
theorem UVar3Unb_notHPD (S : Scalars F R) (n : Nat) (A : Mat F) :
    ((UVar3Unb S n A).failed = true ↔
      ∃ j B, j < n ∧ UVar3Unb.run S n j A = .done B ∧ S.RealPart (B j j) ≤ 0) ∧
    (∀ j B, j < n → UVar3Unb.run S n j A = .done B → S.RealPart (B j j) ≤ 0 →
      UVar3Unb S n A = .logicError B) := by
  have h2 : ∀ j B, j < n → UVar3Unb.run S n j A = .done B → S.RealPart (B j j) ≤ 0 →
      UVar3Unb S n A = .logicError B := by
    intro j B hj hrun hneg
    refine UVar3Unb.run_logicError S n A B (j + 1) ?_ n (by omega)
    rw [UVar3Unb.run_succ, hrun, Outcome.andThen_done, UVar3Unb.iter_eq, if_pos hneg]
  refine ⟨⟨UVar3Unb.run_failed S n A n, ?_⟩, h2⟩
  rintro ⟨j, B, hj, hrun, hneg⟩
  rw [h2 j B hj hrun hneg]; rfl

/-- C3. Whether they run through or throw, `UVar3Unb` and `ReverseUVar3Unb` leave every
entry strictly below the diagonal at its input value, and the outcome and the upper
triangle they leave depend only on the upper triangle of the input: no entry below the
diagonal is read. -/
theorem unblocked_lower_untouched (S : Scalars F R) (n : Nat) (A : Mat F) :
    (∀ i k, k < i → (UVar3Unb S n A).buffer i k = A i k) ∧
    (∀ i k, k < i → (ReverseUVar3Unb S n A).buffer i k = A i k) ∧
    (∀ A', UpperEq A A' → (UVar3Unb S n A).UpperEq (UVar3Unb S n A')) ∧
    (∀ A', UpperEq A A' → (ReverseUVar3Unb S n A).UpperEq (ReverseUVar3Unb S n A')) :=
  ⟨fun i k h => UVar3Unb.run_lower S n A i k h n,
   fun i k h => ReverseUVar3Unb.rev_run_lower S n A i k h n,
   fun A' h => UVar3Unb.run_upperEq S n A A' h n,
   fun A' h => ReverseUVar3Unb.rev_run_upperEq S n A A' h n⟩

end Failure

section FailureExamples

/-- Instance (scenario S4): on `[[1,0],[0,-1]]` the kernel throws at `j = 1` and leaves
`A[0,0] = 1`, `A[1,1] = -1`. -/
theorem UVar3Unb_notHPD_witness :
    ∃ B, UVar3Unb (exact ℝ) 2 indefinite2 = .logicError B ∧ B 0 0 = 1 ∧ B 1 1 = -1 := by
  have hrun : UVar3Unb.run (exact ℝ) 2 1 indefinite2
      = .done (UVar3Unb.after (exact ℝ) 2 0 1 indefinite2) := by
    rw [UVar3Unb.run_succ, UVar3Unb.run, Outcome.andThen_done, UVar3Unb.iter_eq]
    simp [indefinite2]
  refine ⟨_, (UVar3Unb_notHPD (exact ℝ) 2 indefinite2).2 1 _ (by decide) hrun ?_, ?_, ?_⟩
  · simp [UVar3Unb.after, indefinite2]
  · simp [UVar3Unb.after]
  · simp [UVar3Unb.after, indefinite2]

/-- Instance: filling the strict lower triangle of `[[1,0],[0,-1]]` with `7` changes
neither the outcome nor the upper triangle. -/
theorem unblocked_lower_untouched_witness :
    UpperEq indefinite2 (fun i k => if i ≤ k then indefinite2 i k else 7) ∧
    (UVar3Unb (exact ℝ) 2 indefinite2).UpperEq
      (UVar3Unb (exact ℝ) 2 (fun i k => if i ≤ k then indefinite2 i k else 7)) :=
  ⟨fun i k h => by simp [h],
   (unblocked_lower_untouched (exact ℝ) 2 indefinite2).2.2.1 _ (fun i k h => by simp [h])⟩

end FailureExamples

section Identity
variable {K : Type} [RCLike K]

theorem UVar3Unb.iter_identity (n j : Nat) :
    UVar3Unb.iter (exact K) n j (identity K) = .done (identity K) := by
  rw [UVar3Unb.iter_eq]
  have h1 : ¬ (exact K).RealPart (identity K j j) ≤ 0 := by simp [identity]
  rw [if_neg h1]
  congr 1
  funext i k
  simp only [UVar3Unb.after, identity, exact_RealPart, exact_Sqrt, exact_ofBase, exact_Conj,
    if_true, RCLike.one_re, Real.sqrt_one, RCLike.ofReal_one, div_one]
  split_ifs <;> first | rfl | (exfalso; omega) | simp_all

theorem ReverseUVar3Unb.rev_iter_identity (j : Nat) :
    ReverseUVar3Unb.iter (exact K) j (identity K) = .done (identity K) := by
  rw [ReverseUVar3Unb.rev_iter_eq]
  have h1 : ¬ (exact K).RealPart (identity K j j) ≤ 0 := by simp [identity]
  rw [if_neg h1]
  congr 1
  funext i k
  simp only [ReverseUVar3Unb.after, identity, exact_RealPart, exact_Sqrt, exact_ofBase,
    exact_Conj, if_true, RCLike.one_re, Real.sqrt_one, RCLike.ofReal_one, div_one]
  split_ifs <;> first | rfl | (exfalso; omega) | simp_all

theorem UVar3Unb.run_identity (n : Nat) :
    ∀ c, UVar3Unb.run (exact K) n c (identity K) = .done (identity K) := by
  intro c
  induction c with
  | zero => rfl
  | succ c ih => rw [UVar3Unb.run_succ, ih, Outcome.andThen_done, UVar3Unb.iter_identity]

theorem ReverseUVar3Unb.rev_run_identity (n : Nat) :
    ∀ c, ReverseUVar3Unb.run (exact K) n c (identity K) = .done (identity K) := by
  intro c
  induction c with
  | zero => rfl
  | succ c ih =>
    rw [ReverseUVar3Unb.rev_run_succ, ih, Outcome.andThen_done, ReverseUVar3Unb.rev_iter_identity]

/-- C8. For every `n`, in exact real or complex arithmetic, `UVar3Unb` and
`ReverseUVar3Unb` applied to the `n×n` identity run through and leave the identity. -/
theorem unblocked_identity (K : Type) [RCLike K] (n : Nat) :
    UVar3Unb (exact K) n (identity K) = .done (identity K) ∧
    ReverseUVar3Unb (exact K) n (identity K) = .done (identity K) :=
  ⟨UVar3Unb.run_identity n n, ReverseUVar3Unb.rev_run_identity n n⟩

end Identity

section MirrorProof
variable {K : Type} [RCLike K]

theorem Mirror.start (n : Nat) (A : Mat K) : Mirror (exact K) n A (A.flip (exact K) n) := by
  intro i k hik hk
  simp only [Mat.flip, exact_Conj, RCLike.conj_conj]
  rw [show n - 1 - (n - 1 - i) = i by omega, show n - 1 - (n - 1 - k) = k by omega]

theorem Mirror.after {n c : Nat} {B B' : Mat K} (h : Mirror (exact K) n B B') (hc : c < n)
    (a : ℝ) :
    Mirror (exact K) n (ReverseUVar3Unb.after (exact K) (n - 1 - c) (a : K) B)
      (UVar3Unb.after (exact K) n c (a : K) B') := by
  intro i k hik hk
  have hB : ∀ i k, i ≤ k → k < n → B i k = (starRingEnd K) (B' (n - 1 - k) (n - 1 - i)) := h
  have hcc : n - 1 - (n - 1 - c) = c := by omega
  simp only [Mat.flip, ReverseUVar3Unb.after, UVar3Unb.after, exact_Conj]
  by_cases h1 : i = n - 1 - c ∧ k = n - 1 - c
  · rw [if_pos h1, if_pos (by omega)]; simp
  · rw [if_neg h1]
    by_cases h2 : k = n - 1 - c ∧ i < n - 1 - c
    · rw [if_pos h2, if_neg (by omega), if_pos (by omega)]
      rw [hB i (n - 1 - c) (by omega) (by omega), hcc]
      simp
    · rw [if_neg h2]
      by_cases h3 : i ≤ k ∧ k < n - 1 - c
      · rw [if_pos h3, if_neg (by omega), if_neg (by omega), if_pos (by omega)]
        rw [hB i k hik hk, hB k (n - 1 - c) (by omega) (by omega),
          hB i (n - 1 - c) (by omega) (by omega), hcc]
        simp only [map_sub, map_mul, map_div₀, RCLike.conj_conj, RCLike.conj_ofReal]
      · rw [if_neg h3, if_neg (by omega), if_neg (by omega), if_neg (by omega)]
        exact hB i k hik hk

theorem Mirror.iter {n c : Nat} {B B' : Mat K} (h : Mirror (exact K) n B B') (hc : c < n) :
    (ReverseUVar3Unb.iter (exact K) (n - 1 - c) B).failed
        = (UVar3Unb.iter (exact K) n c B').failed ∧
    Mirror (exact K) n (ReverseUVar3Unb.iter (exact K) (n - 1 - c) B).buffer
      (UVar3Unb.iter (exact K) n c B').buffer := by
  have hp : B (n - 1 - c) (n - 1 - c) = (starRingEnd K) (B' c c) := by
    have := h (n - 1 - c) (n - 1 - c) (le_refl _) (by omega)
    simp only [Mat.flip, exact_Conj] at this
    rwa [show n - 1 - (n - 1 - c) = c by omega] at this
  have hre : (exact K).RealPart (B (n - 1 - c) (n - 1 - c)) = (exact K).RealPart (B' c c) := by
    rw [hp]; simp
  rw [ReverseUVar3Unb.rev_iter_eq, UVar3Unb.iter_eq, hre]
  split_ifs
  · exact ⟨rfl, h⟩
  · exact ⟨rfl, h.after hc _⟩

theorem Mirror.run (n : Nat) (A : Mat K) :
    ∀ c, c ≤ n →
      (ReverseUVar3Unb.run (exact K) n c A).failed
          = (UVar3Unb.run (exact K) n c (A.flip (exact K) n)).failed ∧
      Mirror (exact K) n (ReverseUVar3Unb.run (exact K) n c A).buffer
        (UVar3Unb.run (exact K) n c (A.flip (exact K) n)).buffer := by
  intro c
  induction c with
  | zero => intro _; exact ⟨rfl, Mirror.start n A⟩
  | succ c ih =>
    intro hc
    obtain ⟨hf, hm⟩ := ih (by omega)
    rw [ReverseUVar3Unb.rev_run_succ, UVar3Unb.run_succ]
    cases hr : ReverseUVar3Unb.run (exact K) n c A with
    | done B =>
      cases hu : UVar3Unb.run (exact K) n c (A.flip (exact K) n) with
      | done B' =>
        rw [hr, hu] at hm
        exact Mirror.iter hm (by omega)
      | logicError B' => rw [hr, hu] at hf; simp [Outcome.failed] at hf
    | logicError B =>
      cases hu : UVar3Unb.run (exact K) n c (A.flip (exact K) n) with
      | done B' => rw [hr, hu] at hf; simp [Outcome.failed] at hf
      | logicError B' =>
        rw [hr, hu] at hm
        exact ⟨rfl, hm⟩

/-- C9. `ReverseUVar3Unb` is `UVar3Unb` with indices mirrored: in exact real or complex
arithmetic, for every `n×n` `A`, `ReverseUVar3Unb(A)` throws exactly when
`UVar3Unb(flip(A))` throws, and the upper triangle (`i ≤ k < n`) it leaves is the upper
triangle of `flip` of what `UVar3Unb(flip(A))` leaves. -/
theorem ReverseUVar3Unb_mirror (K : Type) [RCLike K] (n : Nat) (A : Mat K) :
    (ReverseUVar3Unb (exact K) n A).failed
        = (UVar3Unb (exact K) n (A.flip (exact K) n)).failed ∧
    ∀ i k, i ≤ k → k < n →
      (ReverseUVar3Unb (exact K) n A).buffer i k
        = (UVar3Unb (exact K) n (A.flip (exact K) n)).buffer.flip (exact K) n i k :=
  Mirror.run n A n (le_refl _)

/-- Instance: entry `(0,1)` for the real matrix `[[25,20],[20,25]]`. -/
theorem ReverseUVar3Unb_mirror_witness :
    (0 : Nat) ≤ 1 ∧ 1 < 2 ∧
    (ReverseUVar3Unb (exact ℝ) 2 hpd2).buffer 0 1
      = (UVar3Unb (exact ℝ) 2 (hpd2.flip (exact ℝ) 2)).buffer.flip (exact ℝ) 2 0 1 :=
  ⟨by decide, by decide, (ReverseUVar3Unb_mirror ℝ 2 hpd2).2 0 1 (by decide) (by decide)⟩

end MirrorProof

section Tridiag
variable {K : Type} [RCLike K]

theorem tridiagPivot_pos (j : Nat) : 0 < tridiagPivot j := by
  unfold tridiagPivot; positivity

theorem tridiagPivot_succ (j : Nat) :
    tridiagPivot (j + 1) = 2 - (tridiagPivot j)⁻¹ := by
  unfold tridiagPivot
  have h1 : ((j : ℝ) + 1) ≠ 0 := by positivity
  have h2 : ((j : ℝ) + 2) ≠ 0 := by positivity
  push_cast
  field_simp
  ring

theorem tridiagState_zero (n : Nat) : tridiagState K n 0 = tridiag K := by
  funext i k
  unfold tridiagState
  rw [if_neg (by omega)]
  by_cases h : i = 0 ∧ k = 0 ∧ 0 < n
  · rw [if_pos h]
    obtain ⟨rfl, rfl, -⟩ := h
    unfold tridiag tridiagPivot
    rw [if_pos rfl]
    norm_num
    exact RCLike.ofReal_ofNat 2
  · rw [if_neg h]

theorem tridiagState_step (n j : Nat) (hj : j < n) :
    UVar3Unb.iter (exact K) n j (tridiagState K n j) = .done (tridiagState K n (j + 1)) := by
  have hjj : tridiagState K n j j j = ((tridiagPivot j : ℝ) : K) := by
    unfold tridiagState; rw [if_neg (by omega), if_pos ⟨rfl, rfl, hj⟩]
  have hrow : ∀ k, k ≠ j → tridiagState K n j j k = tridiag K j k := by
    intro k hk
    unfold tridiagState; rw [if_neg (by omega), if_neg (by omega)]
  have hbelow : ∀ i k, j < i → tridiagState K n j i k = tridiag K i k := by
    intro i k hi
    unfold tridiagState; rw [if_neg (by omega), if_neg (by omega)]
  have hs : 0 < Real.sqrt (tridiagPivot j) := Real.sqrt_pos.2 (tridiagPivot_pos j)
  have hsK : ((Real.sqrt (tridiagPivot j) : ℝ) : K) ≠ 0 := by exact_mod_cast hs.ne'
  rw [UVar3Unb.iter_eq, hjj]
  have hre : ¬ (exact K).RealPart ((tridiagPivot j : ℝ) : K) ≤ 0 := by
    simp only [exact_RealPart, RCLike.ofReal_re, not_le]; exact tridiagPivot_pos j
  rw [if_neg hre]
  simp only [exact_RealPart, exact_Sqrt, exact_ofBase, RCLike.ofReal_re]
  congr 1
  funext i k
  unfold UVar3Unb.after
  rcases lt_trichotomy i j with hi | hi | hi
  · rw [if_neg (by omega), if_neg (by omega), if_neg (by omega)]
    unfold tridiagState
    rw [if_pos hi, if_pos (show i < j + 1 by omega)]
  · subst hi
    by_cases hk : k = i
    · subst hk
      rw [if_pos ⟨rfl, rfl⟩]
      unfold tridiagState
      rw [if_pos (by omega), if_pos rfl]
    · rw [if_neg (by omega)]
      by_cases hk2 : i < k ∧ k < n
      · rw [if_pos ⟨rfl, hk2⟩, hrow k hk]
        unfold tridiagState
        rw [if_pos (by omega), if_neg hk]
        by_cases hk3 : k = i + 1
        · rw [if_pos ⟨hk3, hk2.2⟩]
          subst hk3
          have : tridiag K i (i + 1) = -1 := by
            unfold tridiag; rw [if_neg (by omega), if_pos (Or.inl rfl)]
          rw [this]
          push_cast
          field_simp
        · rw [if_neg (by omega)]
          have : tridiag K i k = 0 := by
            unfold tridiag; rw [if_neg (by omega), if_neg (by omega)]
          rw [this, zero_div]
      · rw [if_neg (by omega), if_neg (by omega), hrow k hk]
        unfold tridiagState
        rw [if_pos (by omega), if_neg hk, if_neg (by omega)]
  · rw [if_neg (by omega), if_neg (by omega)]
    by_cases hik : i ≤ k ∧ k < n
    · rw [if_pos ⟨hi, hik⟩, hbelow i k hi, hrow i (by omega), hrow k (by omega)]
      unfold tridiagState
      rw [if_neg (by omega)]
      by_cases h1 : i = j + 1
      · subst h1
        by_cases h2 : k = j + 1
        · subst h2
          rw [if_pos ⟨rfl, rfl, hik.2⟩]
          have e1 : tridiag K j (j + 1) = -1 := by
            unfold tridiag; rw [if_neg (by omega), if_pos (Or.inl rfl)]
          have e2 : tridiag K (j + 1) (j + 1) = 2 := by
            unfold tridiag; rw [if_pos rfl]
          rw [e1, e2, tridiagPivot_succ]
          have hsq : ((Real.sqrt (tridiagPivot j) : ℝ) : K) * ((Real.sqrt (tridiagPivot j) : ℝ) : K)
              = ((tridiagPivot j : ℝ) : K) := by
            rw [← RCLike.ofReal_mul, Real.mul_self_sqrt (tridiagPivot_pos j).le]
          have hp : ((tridiagPivot j : ℝ) : K) ≠ 0 := by
            exact_mod_cast (tridiagPivot_pos j).ne'
          simp only [exact_Conj, map_div₀, map_neg, map_one, RCLike.conj_ofReal]
          have e3 : -1 / ((Real.sqrt (tridiagPivot j) : ℝ) : K)
              * (-1 / ((Real.sqrt (tridiagPivot j) : ℝ) : K))
              = (((tridiagPivot j : ℝ) : K))⁻¹ := by
            rw [← hsq]; field_simp
          rw [e3]
          push_cast
          rfl
        · rw [if_neg (by omega)]
          have e1 : tridiag K j k = 0 := by
            unfold tridiag; rw [if_neg (by omega), if_neg (by omega)]
          rw [e1]; simp
      · rw [if_neg (by omega)]
        have e1 : tridiag K j i = 0 := by
          unfold tridiag; rw [if_neg (by omega), if_neg (by omega)]
        rw [e1]; simp
    · rw [if_neg (by omega), hbelow i k hi]
      unfold tridiagState
      rw [if_neg (by omega), if_neg (by omega)]

theorem tridiagState_run (n : Nat) :
    ∀ j, j ≤ n → UVar3Unb.run (exact K) n j (tridiag K) = .done (tridiagState K n j) := by
  intro j
  induction j with
  | zero => intro _; rw [tridiagState_zero n]; rfl
  | succ j ih =>
    intro hj
    rw [UVar3Unb.run_succ, ih (by omega), Outcome.andThen_done, tridiagState_step n j (by omega)]

/-- C7. For every `n` (so for every `n ≥ 1`), in exact real or complex arithmetic,
`UVar3Unb` applied to the `n×n` matrix `tridiag(-1,2,-1)` runs through and leaves
`U[i,i] = √((i+2)/(i+1))` for `i < n`, `U[i,i+1] = -√((i+1)/(i+2))` for `i < n-1`, and `0`
in every other entry above the diagonal. -/
theorem UVar3Unb_tridiag (K : Type) [RCLike K] (n : Nat) :
    ∃ U, UVar3Unb (exact K) n (tridiag K) = .done U ∧
      (∀ i, i < n → U i i = ((Real.sqrt (((i : ℝ) + 2) / ((i : ℝ) + 1)) : ℝ) : K)) ∧
      (∀ i, i + 1 < n →
        U i (i + 1) = ((-Real.sqrt (((i : ℝ) + 1) / ((i : ℝ) + 2)) : ℝ) : K)) ∧
      (∀ i k, i + 1 < k → k < n → U i k = 0) := by
  refine ⟨_, tridiagState_run n n (le_refl _), fun i hi => ?_, fun i hi => ?_,
    fun i k h1 h2 => ?_⟩
  · unfold tridiagState
    rw [if_pos hi, if_pos rfl]; rfl
  · unfold tridiagState
    rw [if_pos (by omega), if_neg (by omega), if_pos ⟨rfl, hi⟩]
    congr 2
    rw [← Real.sqrt_inv]
    unfold tridiagPivot
    rw [inv_div]
  · unfold tridiagState
    rw [if_pos (by omega), if_neg (by omega), if_neg (by omega)]
    unfold tridiag
    rw [if_neg (by omega), if_neg (by omega)]

/-- Instance (scenario S2, upper mirror): `n = 4` over the reals. -/
theorem UVar3Unb_tridiag_witness :
    (1 : Nat) < 4 ∧ ∃ U, UVar3Unb (exact ℝ) 4 (tridiag ℝ) = .done U ∧
      (∀ i, i < 4 → U i i = ((Real.sqrt (((i : ℝ) + 2) / ((i : ℝ) + 1)) : ℝ) : ℝ)) ∧
      (∀ i, i + 1 < 4 →
        U i (i + 1) = ((-Real.sqrt (((i : ℝ) + 1) / ((i : ℝ) + 2)) : ℝ) : ℝ)) ∧
      (∀ i k, i + 1 < k → k < 4 → U i k = 0) :=
  ⟨by decide, UVar3Unb_tridiag ℝ 4⟩

end Tridiag

section BlockTools
variable {F : Type}

theorem Mat.view_apply (A : Mat F) (i j a b : Nat) : A.view i j a b = A (i + a) (j + b) := rfl

theorem Mat.store_apply (A : Mat F) (i j h w : Nat) (V : Mat F) (a b : Nat) :
    A.store i j h w V a b
      = if (i ≤ a ∧ a < i + h) ∧ (j ≤ b ∧ b < j + w) then V (a - i) (b - j) else A a b := rfl

theorem Mat.store_inside (A : Mat F) (i j h w : Nat) (V : Mat F) (a b : Nat)
    (ha : a < h) (hb : b < w) : A.store i j h w V (i + a) (j + b) = V a b := by
  rw [Mat.store_apply, if_pos (by omega), Nat.add_sub_cancel_left, Nat.add_sub_cancel_left]

theorem Mat.store_outside (A : Mat F) (i j h w : Nat) (V : Mat F) (a b : Nat)
    (hab : ¬ ((i ≤ a ∧ a < i + h) ∧ (j ≤ b ∧ b < j + w))) : A.store i j h w V a b = A a b := by
  rw [Mat.store_apply, if_neg hab]

/-- The block loop runs through and carries an invariant of its iterations to the end. -/
theorem blockLoop_inv (iter : Nat → Nat → Mat F → Outcome (Mat F)) (bsize n : Nat)
    (hb : 0 < bsize) (P : Nat → Mat F → Prop)
    (hstep : ∀ k A, k < n → P k A →
      ∃ B, iter k (min bsize (n - k)) A = .done B ∧ P (k + min bsize (n - k)) B) :
    ∀ fuel k A, n ≤ k + fuel → P (min k n) A →
      ∃ L, blockLoop iter bsize n fuel k A = some (.done L) ∧ P n L := by
  intro fuel
  induction fuel with
  | zero =>
    intro k A hk hP
    have hkn : ¬ k < n := by omega
    refine ⟨A, by rw [blockLoop, if_neg hkn], ?_⟩
    rwa [Nat.min_eq_right (by omega)] at hP
  | succ fuel ih =>
    intro k A hk hP
    by_cases hkn : k < n
    · rw [Nat.min_eq_left (by omega)] at hP
      obtain ⟨B, hB, hPB⟩ := hstep k A hkn hP
      have e : k + min bsize (n - k) = min (k + bsize) n := by omega
      rw [e] at hPB
      obtain ⟨L, hL, hPL⟩ := ih (k + bsize) B (by omega) hPB
      exact ⟨L, by rw [blockLoop, if_pos hkn, hB]; exact hL, hPL⟩
    · refine ⟨A, by rw [blockLoop, if_neg hkn], ?_⟩
      rwa [Nat.min_eq_right (by omega)] at hP

end BlockTools

section Shift
variable {K : Type} [RCLike K]

/-- A positive definite kernel on `[k, n)` is positive definite on every leading block
`[k, k+nb)`, read with indices from `0`. -/
theorem PDOn.shift {H : Mat K} {k n : Nat} (h : PDOn H k n) (nb : Nat) (hnb : k + nb ≤ n) :
    PDOn (fun a b => H (k + a) (k + b)) 0 nb := by
  refine ⟨fun a b _ ha _ hb => h.1 (k + a) (k + b) (by omega) (by omega) (by omega) (by omega),
    fun x hx => ?_⟩
  let y : Nat → K := fun i => if k ≤ i ∧ i < k + nb then x (i - k) else 0
  have hy : ∃ i, k ≤ i ∧ i < n ∧ y i ≠ 0 := by
    obtain ⟨a, _, ha, hxa⟩ := hx
    refine ⟨k + a, by omega, by omega, ?_⟩
    simp only [y]
    rw [if_pos (by omega), Nat.add_sub_cancel_left]
    exact hxa
  have key : qform H k n y = qform (fun a b => H (k + a) (k + b)) 0 nb x := by
    have hsum : ∀ f : Nat → K, (∀ i, k + nb ≤ i → f i = 0) →
        ∑ i ∈ Finset.Ico k n, f i = ∑ a ∈ Finset.range nb, f (k + a) := by
      intro f hf
      rw [Finset.range_eq_Ico, Finset.sum_Ico_add f 0 nb k, zero_add]
      symm
      apply Finset.sum_subset
      · intro i hi
        rw [Finset.mem_Ico] at hi ⊢
        omega
      · intro i hi hi'
        rw [Finset.mem_Ico] at hi hi'
        exact hf i (by omega)
    unfold qform
    rw [Nat.Ico_zero_eq_range, hsum]
    · refine Finset.sum_congr rfl fun a ha => ?_
      rw [Finset.mem_range] at ha
      rw [hsum]
      · refine Finset.sum_congr rfl fun b hb => ?_
        rw [Finset.mem_range] at hb
        simp only [y]
        rw [if_pos (by omega), if_pos (by omega), Nat.add_sub_cancel_left,
          Nat.add_sub_cancel_left]
      · intro i hi
        simp only [y]
        rw [if_neg (by omega : ¬ (k ≤ i ∧ i < k + nb))]
        simp
    · intro i hi
      apply Finset.sum_eq_zero
      intro b _
      simp only [y]
      rw [if_neg (by omega : ¬ (k ≤ i ∧ i < k + nb))]
      simp
  rw [← key]
  exact h.2 y hy

end Shift

section LVar2Proof
open scoped ComplexOrder
variable {K : Type} [RCLike K]

/-- The Schur complement in terms of the columns of a lower factor. -/
theorem schur_adj (A0 A : Mat K) (k i c : Nat) :
    schur A0 (fun q i => (starRingEnd K) (A i q)) k i c
      = A0 i c - ∑ q ∈ Finset.range k, A i q * (starRingEnd K) (A c q) := by
  simp only [schur, RCLike.conj_conj]

/-- Under the invariant of `LVar2` the Schur complement is positive definite. -/
theorem LVar2.lvar2_inv_schur {n k : Nat} {A0 A : Mat K} (hPD : PDOn A0 0 n) (hk : k ≤ n)
    (hI : LVar2.Inv n A0 A k) :
    PDOn (schur A0 (fun q i => (starRingEnd K) (A i q)) k) k n := by
  refine PDOn.schur hPD k hk fun p hp i h1 h2 => ?_
  have := hI.1 p hp i h1 h2
  rw [hPD.1 i p (Nat.zero_le _) h2 (Nat.zero_le _) (by omega), ← this, map_sum]
  refine Finset.sum_congr rfl fun q _ => ?_
  simp only [map_mul, RCLike.conj_conj]
  ring

theorem LVar2.lvar2_inv_step {Trsm : TrsmKernel K} {kernel : Nat → Mat K → Outcome (Mat K)}
    (hT : TrsmSolves (exact K) Trsm) (hC : LowerCholesky kernel)
    {n k nb : Nat} {A0 A : Mat K} (hPD : PDOn A0 0 n) (hk : k + nb ≤ n)
    (hI : LVar2.Inv n A0 A k) :
    ∃ B, LVar2.iter (exact K) Trsm kernel n k nb A = .done B ∧ LVar2.Inv n A0 B (k + nb) := by
  have hS := LVar2.lvar2_inv_schur hPD (by omega : k ≤ n) hI
  obtain ⟨hE, hU⟩ := hI
  set Sc : Mat K := schur A0 (fun q i => (starRingEnd K) (A i q)) k with hSc
  have hScv : ∀ i c, Sc i c = A0 i c - ∑ q ∈ Finset.range k, A i q * (starRingEnd K) (A c q) :=
    fun i c => schur_adj A0 A k i c
  -- after `Herk`
  obtain ⟨A1, hA1⟩ : ∃ A1 : Mat K, A1 = A.store k k nb nb
      (Herk (exact K) .LOWER .NORMAL (-1) nb k (A.view k 0) 1 (A.view k k)) := ⟨_, rfl⟩
  have a1 : ∀ a b, b ≤ a → a < nb → A1 (k + a) (k + b) = Sc (k + a) (k + b) := by
    intro a b hba ha
    rw [hA1, Mat.store_inside _ _ _ _ _ _ _ _ ha (by omega)]
    simp only [Herk, UpperOrLower.has, Orientation.op, Mat.view_apply, exact_Conj, zero_add]
    rw [if_pos ⟨⟨ha, by omega⟩, by simpa using hba⟩, hScv,
      hU (k + a) (k + b) (by omega) (by omega) (by omega)]
    ring
  have a2 : ∀ i j, ¬ ((k ≤ i ∧ i < k + nb) ∧ (k ≤ j ∧ j < k + nb)) → A1 i j = A i j := by
    intro i j hij
    rw [hA1, Mat.store_outside _ _ _ _ _ _ _ _ hij]
  -- the diagonal block is positive definite
  have hblock : PDOn (fun i c => if c ≤ i then (A1.view k k) i c
      else (starRingEnd K) ((A1.view k k) c i)) 0 nb := by
    refine (hS.shift nb hk).congr fun a b _ ha _ hb => ?_
    simp only [Mat.view_apply]
    by_cases hba : b ≤ a
    · rw [if_pos hba, a1 a b hba ha]
    · rw [if_neg hba, a1 b a (by omega) hb]
      exact (hS.1 (k + b) (k + a) (by omega) (by omega) (by omega) (by omega)).symm
  obtain ⟨L, hL, hLd, hLL⟩ := hC nb _ hblock
  obtain ⟨A2, hA2⟩ : ∃ A2 : Mat K, A2 = A1.store k k nb nb L := ⟨_, rfl⟩
  have b1 : ∀ a b, a < nb → b < nb → A2 (k + a) (k + b) = L a b := by
    intro a b ha hb
    rw [hA2, Mat.store_inside _ _ _ _ _ _ _ _ ha hb]
  have b2 : ∀ i j, ¬ ((k ≤ i ∧ i < k + nb) ∧ (k ≤ j ∧ j < k + nb)) → A2 i j = A i j := by
    intro i j hij
    rw [hA2, Mat.store_outside _ _ _ _ _ _ _ _ hij, a2 i j hij]
  -- after `Gemm`
  obtain ⟨A3, hA3⟩ : ∃ A3 : Mat K, A3 = A2.store (k + nb) k (n - (k + nb)) nb
      (Gemm (exact K) .NORMAL .ADJOINT (-1) (n - (k + nb)) nb k (A2.view (k + nb) 0)
        (A2.view k 0) 1 (A2.view (k + nb) k)) := ⟨_, rfl⟩
  have c1 : ∀ a b, a < n - (k + nb) → b < nb →
      A3 (k + nb + a) (k + b) = Sc (k + nb + a) (k + b) := by
    intro a b ha hb
    rw [hA3, Mat.store_inside _ _ _ _ _ _ _ _ ha hb]
    simp only [Gemm, Orientation.op, Mat.view_apply, exact_Conj, zero_add]
    rw [if_pos ⟨ha, hb⟩, hScv, b2 _ _ (by omega),
      hU (k + nb + a) (k + b) (by omega) (by omega) (by omega)]
    have : ∑ p ∈ Finset.range k, A2 (k + nb + a) p * (starRingEnd K) (A2 (k + b) p)
        = ∑ q ∈ Finset.range k, A (k + nb + a) q * (starRingEnd K) (A (k + b) q) := by
      refine Finset.sum_congr rfl fun q hq => ?_
      rw [Finset.mem_range] at hq
      rw [b2 _ _ (by omega), b2 _ _ (by omega)]
    rw [this]
    ring
  have c2 : ∀ i j, ¬ ((k + nb ≤ i ∧ i < k + nb + (n - (k + nb))) ∧ (k ≤ j ∧ j < k + nb)) →
      A3 i j = A2 i j := by
    intro i j hij
    rw [hA3, Mat.store_outside _ _ _ _ _ _ _ _ hij]
  -- after `Trsm`
  obtain ⟨X, hX⟩ : ∃ X : Mat K, X = Trsm .RIGHT .LOWER .ADJOINT .NON_UNIT 1 (n - (k + nb)) nb
      (A3.view k k) (A3.view (k + nb) k) := ⟨_, rfl⟩
  have hA11 : ∀ a b, a < nb → b < nb → (A3.view k k) a b = L a b := by
    intro a b ha hb
    simp only [Mat.view_apply]
    rw [c2 _ _ (by omega), b1 a b ha hb]
  have hdiag : ∀ p, p < nb → (A3.view k k) p p ≠ 0 := by
    intro p hp
    obtain ⟨d, hd, hde⟩ := hLd p hp
    rw [hA11 p p hp hp, hde]
    exact_mod_cast hd.ne'
  have d1 : ∀ a c, a < n - (k + nb) → c < nb →
      ∑ p ∈ Finset.range (c + 1), X a p * (starRingEnd K) (L c p) = Sc (k + nb + a) (k + c) := by
    intro a c ha hc
    have := hT.1 (n - (k + nb)) nb (A3.view k k) (A3.view (k + nb) k) hdiag a c ha hc
    rw [← hX] at this
    rw [← c1 a c ha hc]
    simp only [exact_Conj] at this
    rw [show A3 (k + nb + a) (k + c) = (A3.view (k + nb) k) a c from rfl, ← this]
    refine Finset.sum_congr rfl fun p hp => ?_
    rw [Finset.mem_range] at hp
    rw [hA11 c p hc (by omega)]
  obtain ⟨A4, hA4⟩ : ∃ A4 : Mat K, A4 = A3.store (k + nb) k (n - (k + nb)) nb X := ⟨_, rfl⟩
  have e1 : ∀ a b, a < n - (k + nb) → b < nb → A4 (k + nb + a) (k + b) = X a b := by
    intro a b ha hb
    rw [hA4, Mat.store_inside _ _ _ _ _ _ _ _ ha hb]
  have e2 : ∀ i j, ¬ ((k + nb ≤ i ∧ i < k + nb + (n - (k + nb))) ∧ (k ≤ j ∧ j < k + nb)) →
      A4 i j = A2 i j := by
    intro i j hij
    rw [hA4, Mat.store_outside _ _ _ _ _ _ _ _ hij, c2 i j hij]
  have hiter : LVar2.iter (exact K) Trsm kernel n k nb A = .done A4 := by
    unfold LVar2.iter
    simp only [LVar2.A10, LVar2.A11, LVar2.A20, LVar2.A21, Mat.put, Mat.sub, Outcome.put]
    rw [← hA1, hL]
    simp only [Outcome.store, Outcome.andThen]
    rw [← hA2, ← hA3, ← hX, ← hA4]
  refine ⟨A4, hiter, fun j hj i h1 h2 => ?_, fun i j h1 h2 h3 => ?_⟩
  · by_cases hjk : j < k
    · rw [← hE j hjk i h1 h2]
      refine Finset.sum_congr rfl fun p hp => ?_
      rw [Finset.mem_range] at hp
      rw [e2 _ _ (by omega), e2 _ _ (by omega), b2 _ _ (by omega), b2 _ _ (by omega)]
    · obtain ⟨b, rfl⟩ : ∃ b, j = k + b := ⟨j - k, by omega⟩
      have hb : b < nb := by omega
      rw [show k + b + 1 = k + (b + 1) by ring, Finset.sum_range_add]
      have h1st : ∑ p ∈ Finset.range k, A4 i p * (starRingEnd K) (A4 (k + b) p)
          = ∑ q ∈ Finset.range k, A i q * (starRingEnd K) (A (k + b) q) := by
        refine Finset.sum_congr rfl fun p hp => ?_
        rw [Finset.mem_range] at hp
        rw [e2 _ _ (by omega), e2 _ _ (by omega), b2 _ _ (by omega), b2 _ _ (by omega)]
      have hrowb : ∀ p, p < b + 1 → A4 (k + b) (k + p) = L b p := by
        intro p hp
        rw [e2 _ _ (by omega), b1 b p hb (by omega)]
      have h2nd : ∑ p ∈ Finset.range (b + 1), A4 i (k + p) * (starRingEnd K) (A4 (k + b) (k + p))
          = Sc i (k + b) := by
        by_cases hi : i < k + nb
        · obtain ⟨a, rfl⟩ : ∃ a, i = k + a := ⟨i - k, by omega⟩
          rw [← a1 a b (by omega) (by omega)]
          rw [show A1 (k + a) (k + b) = (A1.view k k) a b from rfl,
            ← hLL a b (by omega) (by omega)]
          refine Finset.sum_congr rfl fun p hp => ?_
          rw [Finset.mem_range] at hp
          rw [hrowb p hp, e2 _ _ (by omega), b1 a p (by omega) (by omega)]
        · obtain ⟨a, rfl⟩ : ∃ a, i = k + nb + a := ⟨i - (k + nb), by omega⟩
          rw [← d1 a b (by omega) hb]
          refine Finset.sum_congr rfl fun p hp => ?_
          rw [Finset.mem_range] at hp
          rw [hrowb p hp, e1 a p (by omega) (by omega)]
      rw [h1st, h2nd, hScv]
      ring
  · rw [e2 _ _ (by omega), b2 _ _ (by omega)]
    exact hU i j (by omega) h2 h3

end LVar2Proof

section Solve
variable {F : Type} [Field F]

theorem solveCols_stable (T : Mat F) (alpha : F) (m : Nat) (B : Mat F) (i k : Nat) :
    ∀ c, k + 1 ≤ c → solveCols T alpha m B c i k = solveCols T alpha m B (k + 1) i k := by
  intro c hc
  induction c with
  | zero => omega
  | succ c ih =>
    by_cases h : c = k
    · subst h; rfl
    · rw [solveCols]
      simp only []
      rw [if_neg (by omega), ih (by omega)]

/-- Forward substitution over the columns solves `X·T = α·B` for upper triangular `T`. -/
theorem solveCols_solves (T : Mat F) (alpha : F) (m n : Nat) (B : Mat F)
    (hT : ∀ p, p < n → T p p ≠ 0) (i c : Nat) (hi : i < m) (hc : c < n) :
    ∑ p ∈ Finset.range (c + 1), solveCols T alpha m B n i p * T p c = alpha * B i c := by
  rw [Finset.sum_range_succ, solveCols_stable T alpha m B i c n (by omega)]
  have h1 : ∑ p ∈ Finset.range c, solveCols T alpha m B n i p * T p c
      = ∑ p ∈ Finset.range c, solveCols T alpha m B c i p * T p c := by
    refine Finset.sum_congr rfl fun p hp => ?_
    rw [Finset.mem_range] at hp
    rw [solveCols_stable T alpha m B i p n (by omega),
      solveCols_stable T alpha m B i p c (by omega)]
  rw [h1, solveCols]
  simp only []
  rw [if_pos (by simp [hi]), div_mul_cancel₀ _ (hT c hc)]
  ring

theorem solveRows_stable (T : Mat F) (alpha : F) (n : Nat) (B : Mat F) (i k : Nat) :
    ∀ r, i + 1 ≤ r → solveRows T alpha n B r i k = solveRows T alpha n B (i + 1) i k := by
  intro r hr
  induction r with
  | zero => omega
  | succ r ih =>
    by_cases h : r = i
    · subst h; rfl
    · rw [solveRows]
      simp only []
      rw [if_neg (by omega), ih (by omega)]

/-- Forward substitution over the rows solves `T·X = α·B` for lower triangular `T`. -/
theorem solveRows_solves (T : Mat F) (alpha : F) (m n : Nat) (B : Mat F)
    (hT : ∀ p, p < m → T p p ≠ 0) (i c : Nat) (hi : i < m) (hc : c < n) :
    ∑ p ∈ Finset.range (i + 1), T i p * solveRows T alpha n B m p c = alpha * B i c := by
  rw [Finset.sum_range_succ, solveRows_stable T alpha n B i c m (by omega)]
  have h1 : ∑ p ∈ Finset.range i, T i p * solveRows T alpha n B m p c
      = ∑ p ∈ Finset.range i, T i p * solveRows T alpha n B i p c := by
    refine Finset.sum_congr rfl fun p hp => ?_
    rw [Finset.mem_range] at hp
    rw [solveRows_stable T alpha n B p c m (by omega),
      solveRows_stable T alpha n B p c i (by omega)]
  rw [h1, solveRows]
  simp only []
  rw [if_pos (by simp [hc]), mul_div_cancel₀ _ (hT i hi)]
  ring

end Solve

section Contracts
variable {K : Type} [RCLike K]

/-- The substitution model of `Trsm` solves the three systems of the Cholesky drivers. -/
theorem trsm_solves : TrsmSolves (exact K) (trsm (exact K)) := by
  refine ⟨fun m n A B hA i c hi hc => ?_, fun m n A B hA i c hi hc => ?_,
    fun m n A B hA i c hi hc => ?_⟩
  · have hT : ∀ p, p < n →
        (Orientation.ADJOINT.op (exact K) (triangle .LOWER .NON_UNIT A)) p p ≠ 0 := by
      intro p hp
      simpa [Orientation.op, triangle] using hA p hp
    have := solveCols_solves _ 1 m n B hT i c hi hc
    rw [one_mul] at this
    rw [← this]
    refine Finset.sum_congr rfl fun p hp => ?_
    rw [Finset.mem_range] at hp
    simp only [trsm, Orientation.op, triangle, UpperOrLower.has, exact_Conj]
    by_cases hpc : c = p
    · subst hpc; simp
    · rw [if_neg hpc, if_pos (by simpa using (by omega : p ≤ c))]
  · have hT : ∀ p, p < m →
        (Orientation.ADJOINT.op (exact K) (triangle .UPPER .NON_UNIT A)) p p ≠ 0 := by
      intro p hp
      simpa [Orientation.op, triangle] using hA p hp
    have := solveRows_solves _ 1 m n B hT i c hi hc
    rw [one_mul] at this
    rw [← this]
    refine Finset.sum_congr rfl fun p hp => ?_
    rw [Finset.mem_range] at hp
    simp only [trsm, Orientation.op, triangle, UpperOrLower.has, exact_Conj]
    by_cases hpc : p = i
    · subst hpc; simp
    · rw [if_neg hpc, if_pos (by simpa using (by omega : p ≤ i))]
  · have hT : ∀ p, p < n →
        (Orientation.NORMAL.op (exact K) (triangle .UPPER .NON_UNIT A)) p p ≠ 0 := by
      intro p hp
      simpa [Orientation.op, triangle] using hA p hp
    have := solveCols_solves _ 1 m n B hT i c hi hc
    rw [one_mul] at this
    rw [← this]
    refine Finset.sum_congr rfl fun p hp => ?_
    rw [Finset.mem_range] at hp
    simp only [trsm, Orientation.op, triangle, UpperOrLower.has]
    by_cases hpc : p = c
    · subst hpc; simp
    · rw [if_neg hpc, if_pos (by simpa using (by omega : p ≤ c))]

/-- The lower kernel modelled on `UVar3Unb` returns the lower Cholesky factor. -/
theorem LVar3Unb_lowerCholesky : LowerCholesky (LVar3Unb (exact K)) := by
  intro nb B hB
  have hup : ∀ i k, i ≤ k → k < nb →
      (B.adj (exact K)) i k = (fun i k => if k ≤ i then B i k else (starRingEnd K) (B k i)) i k := by
    intro i k hik hk
    simp only [Mat.adj, exact_Conj]
    by_cases h : k ≤ i
    · have hki : k = i := by omega
      subst hki
      rw [if_pos (le_refl _)]
      have := hB.1 k k (Nat.zero_le _) hk (Nat.zero_le _) hk
      simp only [if_pos (le_refl _)] at this
      exact this.symm
    · rw [if_neg h]
  obtain ⟨U, hU, hE, hD, -⟩ := UVar3Unb.run_inv hB hup nb (le_refl _)
  refine ⟨U.adj (exact K), ?_, fun i hi => ?_, fun i j hji hi => ?_⟩
  · unfold LVar3Unb UVar3Unb
    rw [hU]
  · obtain ⟨d, hd, hde⟩ := hD i hi
    exact ⟨d, hd, by simp [Mat.adj, hde]⟩
  · have h1 := hE j (by omega) i hji hi
    simp only [] at h1
    have h2 := hB.1 j i (Nat.zero_le _) (by omega) (Nat.zero_le _) hi
    simp only [if_pos hji] at h2
    rw [h2, ← h1, map_sum]
    refine Finset.sum_congr rfl fun p _ => ?_
    simp only [Mat.adj, exact_Conj, map_mul, RCLike.conj_conj]
    rw [mul_comm]

end Contracts

section LVar2Theorem
open scoped ComplexOrder
variable {K : Type} [RCLike K]

/-- The invariant of `LVar2` at `k = n` says `L·Lᴴ = A`. -/
theorem LVar2.lvar2_inv_final {n : Nat} {A0 L : Mat K} (hPD : PDOn A0 0 n)
    (hI : LVar2.Inv n A0 L n) :
    L.lower n * (L.lower n).conjTranspose = A0.toMatrix n := by
  obtain ⟨hE, -⟩ := hI
  have key : ∀ i j, j ≤ i → i < n →
      ∑ p ∈ Finset.range n, (if p ≤ i then L i p else 0)
          * (starRingEnd K) (if p ≤ j then L j p else 0) = A0 i j := by
    intro i j hji hi
    rw [← hE j (by omega) i hji hi]
    rw [← Finset.sum_subset (Finset.range_subset.2 (by omega : j + 1 ≤ n))]
    · refine Finset.sum_congr rfl fun p hp => ?_
      rw [Finset.mem_range] at hp
      rw [if_pos (by omega), if_pos (by omega)]
    · intro p _ hp
      rw [Finset.mem_range] at hp
      rw [if_neg (by omega : ¬ p ≤ j)]; simp
  ext i j
  simp only [Matrix.mul_apply, Matrix.conjTranspose_apply, Mat.lower, Mat.toMatrix,
    Matrix.of_apply]
  rcases le_total (j : Nat) (i : Nat) with hji | hij
  · rw [← key i j hji i.2, Finset.sum_range]; rfl
  · have h2 := key j i hij j.2
    rw [hPD.1 j i (Nat.zero_le _) j.2 (Nat.zero_le _) i.2, ← h2, map_sum, Finset.sum_range]
    refine Finset.sum_congr rfl fun p _ => ?_
    simp only [map_mul, RCLike.conj_conj, RCLike.star_def]
    rw [mul_comm]

/-- C5. In exact real or complex arithmetic, for every Hermitian positive definite `n×n`
`A` and every blocksize `≥ 1`, the serial `LVar2`, with `Herk` and `Gemm` of the kernel
table, a `Trsm` that solves the triangular system and an unblocked kernel that returns
the lower Cholesky factor of each diagonal block, runs through (within `n` iterations)
and overwrites the lower triangle of `A` with `L` such that `L·Lᴴ = A`. -/
theorem LVar2_factors (K : Type) [RCLike K] (Trsm : TrsmKernel K)
    (kernel : Nat → Mat K → Outcome (Mat K)) (hT : TrsmSolves (exact K) Trsm)
    (hC : LowerCholesky kernel) (n bsize : Nat) (hb : 1 ≤ bsize) (A : Mat K)
    (hA : (A.toMatrix n).PosDef) (fuel : Nat) (hf : n ≤ fuel) :
    ∃ L, LVar2 (exact K) Trsm kernel bsize n A fuel = some (.done L) ∧
      L.lower n * (L.lower n).conjTranspose = A.toMatrix n := by
  have hPD := PDOn.of_posDef hA
  have h0 : LVar2.Inv n A A (min 0 n) := by
    rw [Nat.zero_min]
    exact ⟨fun j hj => absurd hj (by omega), fun _ _ _ _ _ => rfl⟩
  obtain ⟨L, hL, hI⟩ := blockLoop_inv (LVar2.iter (exact K) Trsm kernel n) bsize n hb
    (fun k B => LVar2.Inv n A B k)
    (fun k B hk hI => LVar2.lvar2_inv_step hT hC hPD (by omega) hI) fuel 0 A (by omega) h0
  exact ⟨L, hL, LVar2.lvar2_inv_final hPD hI⟩

/-- Instance: blocksize `1` on the real matrix `[[25,20],[20,25]]`, with the substitution
model of `Trsm` and the lower kernel modelled on `UVar3Unb`. -/
theorem LVar2_factors_witness :
    TrsmSolves (exact ℝ) (trsm (exact ℝ)) ∧ LowerCholesky (LVar3Unb (exact ℝ)) ∧
    (hpd2.toMatrix 2).PosDef ∧
    ∃ L, LVar2 (exact ℝ) (trsm (exact ℝ)) (LVar3Unb (exact ℝ)) 1 2 hpd2 2 = some (.done L) ∧
      L.lower 2 * (L.lower 2).conjTranspose = hpd2.toMatrix 2 :=
  ⟨trsm_solves, LVar3Unb_lowerCholesky, hpd2_posDef,
    LVar2_factors ℝ (trsm (exact ℝ)) (LVar3Unb (exact ℝ)) trsm_solves LVar3Unb_lowerCholesky
      2 1 (le_refl _) hpd2 hpd2_posDef 2 (le_refl _)⟩

end LVar2Theorem

section DistView

/-- C6, as the code has it. In the distributed `LVar2` the view `A21` is taken with
`View( A, k+nb, k+nb, n-(k+nb), n-(k+nb) )`: it starts at column `k+nb`, never at column
`k` where the serial `LVar2` takes it (`nb ≥ 1`), and for `n = 4`, `k = 0`, `nb = 1` it is
the `3×3` trailing block instead of the `3×1` panel that `X21` has the shape of. -/
theorem LVar2_distA21_differs :
    (∀ n k nb, 1 ≤ nb → (LVar2.distA21 n k nb).j ≠ (LVar2.A21 n k nb).j) ∧
    LVar2.distA21 4 0 1 = ⟨1, 1, 3, 3⟩ ∧ LVar2.A21 4 0 1 = ⟨1, 0, 3, 1⟩ := by
  refine ⟨fun n k nb h => ?_, rfl, rfl⟩
  simp only [LVar2.distA21, LVar2.A21]
  omega

end DistView

section UVar3Proof
open scoped ComplexOrder
variable {K : Type} [RCLike K]

theorem UVar3.uvar3_inv_step {Trsm : TrsmKernel K} (hT : TrsmSolves (exact K) Trsm)
    {n k nb : Nat} {A0 A : Mat K} (hPD : PDOn A0 0 n) (hk : k + nb ≤ n)
    (hI : UVar3Unb.Inv n A0 A k) :
    ∃ B, UVar3.iter (exact K) Trsm n k nb A = .done B ∧ UVar3Unb.Inv n A0 B (k + nb) := by
  obtain ⟨hE, hD, hTr⟩ := hI
  have hS := PDOn.schur (G := A) hPD k (by omega) hE
  set Sc : Mat K := schur A0 A k with hSc
  have hScv : ∀ i c, Sc i c = A0 i c - ∑ q ∈ Finset.range k, (starRingEnd K) (A q i) * A q c :=
    fun i c => rfl
  -- the diagonal block
  have hup : ∀ a b, a ≤ b → b < nb → (A.view k k) a b = (fun a b => Sc (k + a) (k + b)) a b := by
    intro a b hab hb
    exact hTr (k + a) (k + b) (by omega) (by omega) (by omega)
  obtain ⟨U1, hU1, hE1, hD1, -⟩ := UVar3Unb.run_inv (hS.shift nb hk) hup nb (le_refl _)
  simp only [] at hE1
  obtain ⟨A1, hA1⟩ : ∃ A1 : Mat K, A1 = A.store k k nb nb U1 := ⟨_, rfl⟩
  have a1 : ∀ a b, a < nb → b < nb → A1 (k + a) (k + b) = U1 a b := by
    intro a b ha hb
    rw [hA1, Mat.store_inside _ _ _ _ _ _ _ _ ha hb]
  have a2 : ∀ i j, ¬ ((k ≤ i ∧ i < k + nb) ∧ (k ≤ j ∧ j < k + nb)) → A1 i j = A i j := by
    intro i j hij
    rw [hA1, Mat.store_outside _ _ _ _ _ _ _ _ hij]
  -- after `Trsm`
  obtain ⟨X, hX⟩ : ∃ X : Mat K, X = Trsm .LEFT .UPPER .ADJOINT .NON_UNIT 1 nb (n - (k + nb))
      (A1.view k k) (A1.view k (k + nb)) := ⟨_, rfl⟩
  have hdiag : ∀ p, p < nb → (A1.view k k) p p ≠ 0 := by
    intro p hp
    obtain ⟨d, hd, hde⟩ := hD1 p hp
    rw [Mat.view_apply, a1 p p hp hp, hde]
    exact_mod_cast hd.ne'
  have x1 : ∀ a c, a < nb → c < n - (k + nb) →
      ∑ p ∈ Finset.range (a + 1), (starRingEnd K) (U1 p a) * X p c
        = Sc (k + a) (k + nb + c) := by
    intro a c ha hc
    have := hT.2.1 nb (n - (k + nb)) (A1.view k k) (A1.view k (k + nb)) hdiag a c ha hc
    rw [← hX] at this
    simp only [exact_Conj, Mat.view_apply] at this
    rw [a2 _ _ (by omega), hTr (k + a) (k + nb + c) (by omega) (by omega) (by omega)] at this
    rw [← this]
    refine Finset.sum_congr rfl fun p hp => ?_
    rw [Finset.mem_range] at hp
    rw [a1 p a (by omega) ha]
  obtain ⟨A2, hA2⟩ : ∃ A2 : Mat K, A2 = A1.store k (k + nb) nb (n - (k + nb)) X := ⟨_, rfl⟩
  have b1 : ∀ a c, a < nb → c < n - (k + nb) → A2 (k + a) (k + nb + c) = X a c := by
    intro a c ha hc
    rw [hA2, Mat.store_inside _ _ _ _ _ _ _ _ ha hc]
  have b2 : ∀ i j, ¬ ((k ≤ i ∧ i < k + nb) ∧ (k + nb ≤ j ∧ j < k + nb + (n - (k + nb)))) →
      A2 i j = A1 i j := by
    intro i j hij
    rw [hA2, Mat.store_outside _ _ _ _ _ _ _ _ hij]
  -- after `Herk`
  obtain ⟨A3, hA3⟩ : ∃ A3 : Mat K, A3 = A2.store (k + nb) (k + nb) (n - (k + nb)) (n - (k + nb))
      (Herk (exact K) .UPPER .ADJOINT (-1) (n - (k + nb)) nb (A2.view k (k + nb)) 1
        (A2.view (k + nb) (k + nb))) := ⟨_, rfl⟩
  have c1 : ∀ a b, a ≤ b → b < n - (k + nb) →
      A3 (k + nb + a) (k + nb + b)
        = Sc (k + nb + a) (k + nb + b) - ∑ p ∈ Finset.range nb, (starRingEnd K) (X p a) * X p b := by
    intro a b hab hb
    rw [hA3, Mat.store_inside _ _ _ _ _ _ _ _ (by omega) hb]
    simp only [Herk, UpperOrLower.has, Orientation.op, Mat.view_apply, exact_Conj]
    rw [if_pos ⟨⟨by omega, hb⟩, by simpa using hab⟩, b2 _ _ (by omega), a2 _ _ (by omega),
      hTr (k + nb + a) (k + nb + b) (by omega) (by omega) (by omega)]
    have : ∑ p ∈ Finset.range nb, (starRingEnd K) (A2 (k + p) (k + nb + a))
          * (starRingEnd K) ((starRingEnd K) (A2 (k + p) (k + nb + b)))
        = ∑ p ∈ Finset.range nb, (starRingEnd K) (X p a) * X p b := by
      refine Finset.sum_congr rfl fun p hp => ?_
      rw [Finset.mem_range] at hp
      rw [b1 p a hp (by omega), b1 p b hp hb, RCLike.conj_conj]
    rw [this]
    ring
  have c2 : ∀ i j, ¬ ((k + nb ≤ i ∧ i < k + nb + (n - (k + nb)))
      ∧ (k + nb ≤ j ∧ j < k + nb + (n - (k + nb)))) → A3 i j = A2 i j := by
    intro i j hij
    rw [hA3, Mat.store_outside _ _ _ _ _ _ _ _ hij]
  have hiter : UVar3.iter (exact K) Trsm n k nb A = .done A3 := by
    unfold UVar3.iter
    simp only [UVar3.A11, UVar3.A12, UVar3.A22, Mat.put, Mat.sub, Outcome.put]
    rw [show UVar3Unb (exact K) nb (A.view k k) = .done U1 from hU1]
    simp only [Outcome.store, Outcome.andThen]
    rw [← hA1, ← hX, ← hA2, ← hA3]
  -- the rows of the result
  have rAbove : ∀ q, q < k → ∀ i, A3 q i = A q i := by
    intro q hq i
    rw [c2 _ _ (by omega), b2 _ _ (by omega), a2 _ _ (by omega)]
  have rBlock : ∀ a b, a < nb → b < nb → A3 (k + a) (k + b) = U1 a b := by
    intro a b ha hb
    rw [c2 _ _ (by omega), b2 _ _ (by omega), a1 a b ha hb]
  have rRight : ∀ a c, a < nb → c < n - (k + nb) → A3 (k + a) (k + nb + c) = X a c := by
    intro a c ha hc
    rw [c2 _ _ (by omega), b1 a c ha hc]
  have hsumAbove : ∀ i j, ∑ q ∈ Finset.range k, (starRingEnd K) (A3 q i) * A3 q j
      = ∑ q ∈ Finset.range k, (starRingEnd K) (A q i) * A q j := by
    intro i j
    refine Finset.sum_congr rfl fun q hq => ?_
    rw [Finset.mem_range] at hq
    rw [rAbove q hq, rAbove q hq]
  refine ⟨A3, hiter, fun p hp i h1 h2 => ?_, fun p hp => ?_, fun i j h1 h2 h3 => ?_⟩
  · by_cases hpk : p < k
    · rw [← hE p hpk i h1 h2]
      refine Finset.sum_congr rfl fun q hq => ?_
      rw [Finset.mem_range] at hq
      rw [rAbove q (by omega), rAbove q (by omega)]
    · obtain ⟨a, rfl⟩ : ∃ a, p = k + a := ⟨p - k, by omega⟩
      have ha : a < nb := by omega
      rw [show k + a + 1 = k + (a + 1) by ring, Finset.sum_range_add, hsumAbove]
      have h2nd : ∑ q ∈ Finset.range (a + 1),
          (starRingEnd K) (A3 (k + q) (k + a)) * A3 (k + q) i = Sc (k + a) i := by
        by_cases hi : i < k + nb
        · obtain ⟨b, rfl⟩ : ∃ b, i = k + b := ⟨i - k, by omega⟩
          rw [← hE1 a ha b (by omega) (by omega)]
          refine Finset.sum_congr rfl fun q hq => ?_
          rw [Finset.mem_range] at hq
          rw [rBlock q a (by omega) ha, rBlock q b (by omega) (by omega)]
        · obtain ⟨c, rfl⟩ : ∃ c, i = k + nb + c := ⟨i - (k + nb), by omega⟩
          rw [← x1 a c ha (by omega)]
          refine Finset.sum_congr rfl fun q hq => ?_
          rw [Finset.mem_range] at hq
          rw [rBlock q a (by omega) ha, rRight q c (by omega) (by omega)]
      rw [h2nd, hScv]
      ring
  · by_cases hpk : p < k
    · rw [rAbove p hpk]; exact hD p hpk
    · obtain ⟨a, rfl⟩ : ∃ a, p = k + a := ⟨p - k, by omega⟩
      rw [rBlock a a (by omega) (by omega)]
      exact hD1 a (by omega)
  · obtain ⟨a, rfl⟩ : ∃ a, i = k + nb + a := ⟨i - (k + nb), by omega⟩
    obtain ⟨b, rfl⟩ : ∃ b, j = k + nb + b := ⟨j - (k + nb), by omega⟩
    rw [c1 a b (by omega) (by omega)]
    simp only [schur]
    rw [Finset.sum_range_add, hsumAbove, hScv]
    have : ∑ q ∈ Finset.range nb, (starRingEnd K) (A3 (k + q) (k + nb + a)) * A3 (k + q) (k + nb + b)
        = ∑ p ∈ Finset.range nb, (starRingEnd K) (X p a) * X p b := by
      refine Finset.sum_congr rfl fun q hq => ?_
      rw [Finset.mem_range] at hq
      rw [rRight q a hq (by omega), rRight q b hq (by omega)]
    rw [this]
    ring

end UVar3Proof

section SingleBlock
variable {F R : Type} [Field F] [LinearOrderedField R]

omit [Field F] in
theorem Mat.view_zero (A : Mat F) : A.view 0 0 = A := by
  funext a b
  rw [Mat.view_apply, Nat.zero_add, Nat.zero_add]

omit [Field F] in
theorem Mat.store_empty_height (A : Mat F) (i j w : Nat) (V : Mat F) :
    A.store i j 0 w V = A := by
  funext a b
  rw [Mat.store_outside _ _ _ _ _ _ _ _ (by omega)]

omit [Field F] in
theorem Mat.store_empty_width (A : Mat F) (i j h : Nat) (V : Mat F) :
    A.store i j h 0 V = A := by
  funext a b
  rw [Mat.store_outside _ _ _ _ _ _ _ _ (by omega)]

omit [Field F] in
theorem blockLoop_past (iter : Nat → Nat → Mat F → Outcome (Mat F)) (bsize n fuel k : Nat)
    (A : Mat F) (hk : n ≤ k) : blockLoop iter bsize n fuel k A = some (.done A) := by
  cases fuel with
  | zero => rw [blockLoop, if_neg (by omega)]
  | succ fuel => rw [blockLoop, if_neg (by omega)]

omit [Field F] in
theorem Outcome.store_empty (A : Mat F) (o : Outcome (Mat F)) (ho : o.buffer = A) (hf : o.failed = false) :
    Outcome.store A 0 0 0 0 o = .done A := by
  cases o with
  | done V => simp only [Outcome.store, Mat.store_empty_height]
  | logicError V => simp [Outcome.failed] at hf

/-- With a blocksize of at least `n` the serial `UVar3` is one call of `UVar3Unb` on the
whole matrix. -/
theorem UVar3_single (S : Scalars F R) (Trsm : TrsmKernel F) (n bsize : Nat) (hn : n ≤ bsize)
    (hn0 : 0 < n) (A : Mat F) (fuel : Nat) (hf : 1 ≤ fuel) :
    UVar3 S Trsm bsize n A fuel = some (Outcome.store A 0 0 n n (UVar3Unb S n A)) := by
  obtain ⟨fuel, rfl⟩ : ∃ f, fuel = f + 1 := ⟨fuel - 1, by omega⟩
  have hiter : UVar3.iter S Trsm n 0 n A = Outcome.store A 0 0 n n (UVar3Unb S n A) := by
    unfold UVar3.iter
    simp only [UVar3.A11, UVar3.A12, UVar3.A22, Mat.put, Mat.sub, Outcome.put, Mat.view_zero,
      Nat.zero_add, Nat.sub_self, Mat.store_empty_width, Mat.store_empty_height]
    cases UVar3Unb S n A <;> rfl
  rw [UVar3, blockLoop, if_pos hn0, Nat.sub_zero, Nat.min_eq_right hn, hiter]
  cases UVar3Unb S n A with
  | done U => simp only [Outcome.store]; exact blockLoop_past _ _ _ _ _ _ (by omega)
  | logicError U => rfl

/-- With a blocksize of at least `n` the serial `ReverseUVar3` is one call of
`ReverseUVar3Unb` on the whole matrix. -/
theorem ReverseUVar3_single (S : Scalars F R) (Trsm : TrsmKernel F) (n bsize : Nat)
    (hn : n ≤ bsize) (hn0 : 0 < n) (A : Mat F) (fuel : Nat) (hf : 1 ≤ fuel) :
    ReverseUVar3 S Trsm bsize n A fuel
      = some (Outcome.store A 0 0 n n (ReverseUVar3Unb S n A)) := by
  obtain ⟨fuel, rfl⟩ : ∃ f, fuel = f + 1 := ⟨fuel - 1, by omega⟩
  have hiter : ReverseUVar3.iter S Trsm n 0 n A
      = Outcome.store A 0 0 n n (ReverseUVar3Unb S n A) := by
    unfold ReverseUVar3.iter
    simp only [ReverseUVar3.A00, ReverseUVar3.A01, ReverseUVar3.A11, Mat.put, Mat.sub,
      Outcome.put, Mat.view_zero, Nat.zero_add, Nat.sub_self, Mat.store_empty_width,
      Mat.store_empty_height]
    cases ReverseUVar3Unb S n A <;> rfl
  rw [ReverseUVar3, blockLoop, if_pos hn0, Nat.sub_zero, Nat.min_eq_right hn, hiter]
  cases ReverseUVar3Unb S n A with
  | done U => simp only [Outcome.store]; exact blockLoop_past _ _ _ _ _ _ (by omega)
  | logicError U => rfl

end SingleBlock

section ReverseProof
open scoped ComplexOrder
variable {K : Type} [RCLike K]

/-- The index mirror of a positive definite kernel is positive definite. -/
theorem PDOn.flip {n : Nat} {A : Mat K} (h : PDOn A 0 n) : PDOn (A.flip (exact K) n) 0 n := by
  refine ⟨fun i k _ hi _ hk => ?_, fun x hx => ?_⟩
  · simp only [Mat.flip, exact_Conj, RCLike.conj_conj]
    exact (h.1 (n - 1 - i) (n - 1 - k) (Nat.zero_le _) (by omega) (Nat.zero_le _) (by omega)).symm
  · have hz : ∃ i, 0 ≤ i ∧ i < n ∧ (fun m => x (n - 1 - m)) i ≠ 0 := by
      obtain ⟨i, _, hi, hxi⟩ := hx
      refine ⟨n - 1 - i, Nat.zero_le _, by omega, ?_⟩
      simp only []
      rwa [show n - 1 - (n - 1 - i) = i by omega]
    have key : qform (A.flip (exact K) n) 0 n x = qform A 0 n (fun m => x (n - 1 - m)) := by
      unfold qform
      rw [Nat.Ico_zero_eq_range]
      rw [← Finset.sum_range_reflect
        (fun i => ∑ k ∈ Finset.range n, (starRingEnd K) (x i) * A.flip (exact K) n i k * x k) n]
      refine Finset.sum_congr rfl fun i hi => ?_
      rw [Finset.mem_range] at hi
      rw [← Finset.sum_range_reflect
        (fun k => (starRingEnd K) (x (n - 1 - i)) * A.flip (exact K) n (n - 1 - i) k * x k) n]
      refine Finset.sum_congr rfl fun k hk => ?_
      rw [Finset.mem_range] at hk
      simp only [Mat.flip, exact_Conj]
      rw [show n - 1 - (n - 1 - i) = i by omega, show n - 1 - (n - 1 - k) = k by omega,
        ← h.1 k i (Nat.zero_le _) hk (Nat.zero_le _) hi]
    rw [key]
    exact h.2 _ hz

/-- On a positive definite matrix `ReverseUVar3Unb` runs through and leaves `U` with a
real positive diagonal and `U·Uᴴ = A`. -/
theorem ReverseUVar3Unb_posDef {n : Nat} {A : Mat K} (hPD : PDOn A 0 n) :
    ∃ U, ReverseUVar3Unb (exact K) n A = .done U ∧
      U.upper n * (U.upper n).conjTranspose = A.toMatrix n := by
  obtain ⟨U', hU', hE, -, -⟩ :=
    UVar3Unb.run_inv (A := A.flip (exact K) n) hPD.flip (fun _ _ _ _ => rfl) n (le_refl _)
  obtain ⟨hf, hm⟩ := Mirror.run n A n (le_refl _)
  rw [hU'] at hf hm
  cases hr : ReverseUVar3Unb.run (exact K) n n A with
  | logicError U => rw [hr] at hf; simp [Outcome.failed] at hf
  | done U =>
    rw [hr] at hm
    have hM : ∀ i k, i ≤ k → k < n → U i k = (starRingEnd K) (U' (n - 1 - k) (n - 1 - i)) := hm
    refine ⟨U, hr, ?_⟩
    have key : ∀ i k, i ≤ k → k < n →
        ∑ q ∈ Finset.range n, (if i ≤ q then U i q else 0)
            * (starRingEnd K) (if k ≤ q then U k q else 0) = A i k := by
      intro i k hik hk
      have hEp := hE (n - 1 - k) (by omega) (n - 1 - i) (by omega) (by omega)
      simp only [Mat.flip, exact_Conj] at hEp
      rw [show n - 1 - (n - 1 - i) = i by omega, show n - 1 - (n - 1 - k) = k by omega] at hEp
      have hEc := congrArg (starRingEnd K) hEp
      rw [RCLike.conj_conj, map_sum] at hEc
      rw [← hEc, ← Finset.sum_range_reflect _ n,
        ← Finset.sum_subset (Finset.range_subset.2 (by omega : n - 1 - k + 1 ≤ n))]
      · refine Finset.sum_congr rfl fun q hq => ?_
        rw [Finset.mem_range] at hq
        rw [if_pos (by omega), if_pos (by omega), hM i (n - 1 - q) (by omega) (by omega),
          hM k (n - 1 - q) (by omega) (by omega),
          show n - 1 - (n - 1 - q) = q by omega]
        simp only [map_mul, RCLike.conj_conj]
        rw [mul_comm]
      · intro q hq hq'
        rw [Finset.mem_range] at hq hq'
        rw [if_neg (by omega : ¬ k ≤ n - 1 - q)]
        simp
    have hH := hPD.1
    ext i k
    simp only [Matrix.mul_apply, Matrix.conjTranspose_apply, Mat.upper, Mat.toMatrix,
      Matrix.of_apply]
    rcases le_total (i : Nat) (k : Nat) with hik | hki
    · rw [← key i k hik k.2, Finset.sum_range]; rfl
    · have h2 := key k i hki i.2
      rw [hH k i (Nat.zero_le _) k.2 (Nat.zero_le _) i.2, ← h2, map_sum, Finset.sum_range]
      refine Finset.sum_congr rfl fun q _ => ?_
      simp only [map_mul, RCLike.conj_conj, RCLike.star_def]
      rw [mul_comm]

end ReverseProof

section Variants
open scoped ComplexOrder

/-- The square root of `25`. -/
theorem sqrt_25 : Real.sqrt 25 = 5 := by
  rw [show (25 : ℝ) = 5 * 5 by norm_num]; exact Real.sqrt_mul_self (by norm_num)

/-- The square root of `9`. -/
theorem sqrt_9 : Real.sqrt 9 = 3 := by
  rw [show (9 : ℝ) = 3 * 3 by norm_num]; exact Real.sqrt_mul_self (by norm_num)

/-- `UVar3Unb` on `[[25,20],[20,25]]` leaves `5` in the corner `(0,0)`. -/
theorem UVar3Unb_hpd2 : ∃ U, UVar3Unb (exact ℝ) 2 hpd2 = .done U ∧ U 0 0 = 5 := by
  have h1 : UVar3Unb.run (exact ℝ) 2 1 hpd2 = .done (UVar3Unb.after (exact ℝ) 2 0 5 hpd2) := by
    rw [UVar3Unb.run_succ, UVar3Unb.run, Outcome.andThen_done, UVar3Unb.iter_eq]
    simp [hpd2, sqrt_25]
  have hp : UVar3Unb.after (exact ℝ) 2 0 5 hpd2 1 1 = 9 := by
    simp [UVar3Unb.after, hpd2]; norm_num
  have h2 : UVar3Unb (exact ℝ) 2 hpd2
      = .done (UVar3Unb.after (exact ℝ) 2 1 3 (UVar3Unb.after (exact ℝ) 2 0 5 hpd2)) := by
    rw [UVar3Unb, UVar3Unb.run_succ, h1, Outcome.andThen_done, UVar3Unb.iter_eq, hp]
    simp [sqrt_9]
  exact ⟨_, h2, by simp [UVar3Unb.after]⟩

/-- `ReverseUVar3Unb` on `[[25,20],[20,25]]` leaves `3` in the corner `(0,0)`. -/
theorem ReverseUVar3Unb_hpd2 : ∃ V, ReverseUVar3Unb (exact ℝ) 2 hpd2 = .done V ∧ V 0 0 = 3 := by
  have h1 : ReverseUVar3Unb.run (exact ℝ) 2 1 hpd2
      = .done (ReverseUVar3Unb.after (exact ℝ) 1 5 hpd2) := by
    rw [ReverseUVar3Unb.rev_run_succ, ReverseUVar3Unb.run, Outcome.andThen_done,
      ReverseUVar3Unb.rev_iter_eq]
    simp [hpd2, sqrt_25]
  have hp : ReverseUVar3Unb.after (exact ℝ) 1 5 hpd2 0 0 = 9 := by
    simp [ReverseUVar3Unb.after, hpd2]; norm_num
  have h2 : ReverseUVar3Unb (exact ℝ) 2 hpd2
      = .done (ReverseUVar3Unb.after (exact ℝ) 0 3 (ReverseUVar3Unb.after (exact ℝ) 1 5 hpd2)) := by
    rw [ReverseUVar3Unb, ReverseUVar3Unb.rev_run_succ, h1, Outcome.andThen_done,
      ReverseUVar3Unb.rev_iter_eq, hp]
    simp [sqrt_9]
  exact ⟨_, h2, by simp [ReverseUVar3Unb.after]⟩

/-- C4, counterexample. On the Hermitian positive definite matrix `[[25,20],[20,25]]`
with blocksize `2`, whatever `Trsm` is, the serial `UVar3` leaves `5` and the serial
`ReverseUVar3` leaves `3` in the corner `(0,0)` of the upper triangle. -/
theorem UVar3_ReverseUVar3_differ :
    (hpd2.toMatrix 2).PosDef ∧
    ∀ Trsm : TrsmKernel ℝ, ∃ U V,
      UVar3 (exact ℝ) Trsm 2 2 hpd2 2 = some (.done U) ∧
      ReverseUVar3 (exact ℝ) Trsm 2 2 hpd2 2 = some (.done V) ∧
      U 0 0 = 5 ∧ V 0 0 = 3 ∧ U 0 0 ≠ V 0 0 := by
  refine ⟨hpd2_posDef, fun Trsm => ?_⟩
  obtain ⟨U, hU, hU0⟩ := UVar3Unb_hpd2
  obtain ⟨V, hV, hV0⟩ := ReverseUVar3Unb_hpd2
  have eU : (hpd2.store 0 0 2 2 U) 0 0 = 5 := by
    rw [Mat.store_inside _ 0 0 2 2 _ 0 0 (by decide) (by decide)]; exact hU0
  have eV : (hpd2.store 0 0 2 2 V) 0 0 = 3 := by
    rw [Mat.store_inside _ 0 0 2 2 _ 0 0 (by decide) (by decide)]; exact hV0
  refine ⟨hpd2.store 0 0 2 2 U, hpd2.store 0 0 2 2 V, ?_, ?_, eU, eV, ?_⟩
  · rw [UVar3_single _ _ 2 2 (le_refl _) (by decide) _ 2 (by decide), hU]; rfl
  · rw [ReverseUVar3_single _ _ 2 2 (le_refl _) (by decide) _ 2 (by decide), hV]; rfl
  · rw [eU, eV]; norm_num

variable {K : Type} [RCLike K]

theorem Mat.upper_store (n : Nat) (A U : Mat K) : (A.store 0 0 n n U).upper n = U.upper n := by
  ext i k
  simp only [Mat.upper, Matrix.of_apply]
  have := Mat.store_inside A 0 0 n n U i k i.2 k.2
  rw [Nat.zero_add, Nat.zero_add] at this
  rw [this]

end Variants

section ShiftArith

theorem Shift_lt (rank a m : Nat) (hm : 0 < m) : Shift rank a m < m :=
  Nat.mod_lt _ hm

theorem RawShift_eq_Shift (rank a m : Nat) : RawShift rank a m = Shift rank a m := rfl

theorem RawLocalLength_eq (n s m : Nat) : RawLocalLength n s m = LocalLength n s m := rfl

/-- The process whose shift is `Shift rank a m` owns the indices `shift + i·m`. -/
theorem Shift_owner (rank a m i : Nat) (hr : rank < m) (ha : a < m) :
    (Shift rank a m + i * m + a) % m = rank := by
  unfold Shift
  rw [add_right_comm, Nat.add_mul_mod_self_right, Nat.mod_add_mod,
    Nat.sub_add_cancel (by omega), Nat.add_mod_right, Nat.mod_eq_of_lt hr]

/-- The shift of the owner of index `j` is `j mod m`. -/
theorem Shift_of_owner (j a m : Nat) (hm : 0 < m) (ha : a < m) :
    Shift ((j + a) % m) a m = j % m := by
  unfold Shift
  have h1 : ((j + a) % m + m - a) + a = (j + a) % m + m := by
    have := Nat.mod_lt (j + a) hm
    omega
  have h2 : ((j + a) % m + m - a) + a ≡ j + a [MOD m] := by
    rw [h1]
    exact (Nat.add_mod_right _ _).trans (Nat.mod_mod _ _)
  exact Nat.ModEq.add_right_cancel' a h2

/-- Only the owner of `j` has shift `j mod m`. -/
theorem Shift_eq_iff (k j a m : Nat) (hk : k < m) (ha : a < m) :
    Shift k a m = j % m ↔ k = (j + a) % m := by
  have hm : 0 < m := by omega
  constructor
  · intro h
    have h1 : (Shift k a m + 0 * m + a) % m = k := Shift_owner k a m 0 hk ha
    rw [Nat.zero_mul, Nat.add_zero, h, Nat.mod_add_mod] at h1
    exact h1.symm
  · intro h
    rw [h]; exact Shift_of_owner j a m hm ha

theorem add_mul_div_self (s i m : Nat) (hs : s < m) : (s + i * m) / m = i := by
  rw [Nat.add_mul_div_right _ _ (by omega), Nat.div_eq_of_lt hs, Nat.zero_add]

theorem add_mul_mod_self (s i m : Nat) (hs : s < m) : (s + i * m) % m = s := by
  rw [Nat.add_mul_mod_self_right, Nat.mod_eq_of_lt hs]

/-- Below its local length a process owns indices below `n`, and only there. -/
theorem lt_LocalLength_iff (n s m q : Nat) (hm : 0 < m) :
    q < LocalLength n s m ↔ s + q * m < n := by
  unfold LocalLength
  by_cases hs : s < n
  · rw [if_pos hs, Nat.lt_succ_iff, Nat.le_div_iff_mul_le hm]
    omega
  · rw [if_neg hs]
    constructor
    · intro h; omega
    · intro h
      have : s ≤ s + q * m := Nat.le_add_right _ _
      omega

theorem LocalLength_le_Max (n s m : Nat) : LocalLength n s m ≤ MaxLocalLength n m := by
  unfold LocalLength MaxLocalLength
  by_cases hs : s < n
  · rw [if_pos hs, if_pos (by omega)]
    exact Nat.succ_le_succ (Nat.div_le_div_right (by omega))
  · rw [if_neg hs]; exact Nat.zero_le _

/-- A column index `j` is `s + q·m` exactly when `j mod m = s` and `j / m = q`. -/
theorem eq_add_mul_iff (j s q m : Nat) (hs : s < m) :
    j = s + q * m ↔ j % m = s ∧ j / m = q := by
  constructor
  · rintro rfl
    exact ⟨add_mul_mod_self s q m hs, add_mul_div_self s q m hs⟩
  · rintro ⟨h1, h2⟩
    have := Nat.mod_add_div j m
    rw [h1, h2, Nat.mul_comm] at this
    exact this.symm

/-- The partners of the rotation: the data a process receives was packed with its own
shift, and the two partners are inverse to each other. -/
theorem rotation_partner (row r aT aA : Nat) (hrow : row < r) (hT : aT < r) (hA : aA < r) :
    (row + r + aA - aT) % r < r ∧
    Shift ((row + r + aA - aT) % r) aA r = Shift row aT r ∧
    (((row + r + aA - aT) % r) + r + aT - aA) % r = row := by
  have hr : 0 < r := by omega
  have hlt := Nat.mod_lt (row + r + aA - aT) hr
  refine ⟨hlt, ?_, ?_⟩
  · unfold Shift
    have h1 : ((row + r + aA - aT) % r + r - aA) + (aA + aT) ≡ (row + r - aT) + (aA + aT) [MOD r] := by
      have e1 : ((row + r + aA - aT) % r + r - aA) + (aA + aT)
          = (row + r + aA - aT) % r + (r + aT) := by omega
      have e2 : (row + r - aT) + (aA + aT) = (row + r + aA - aT) + aT := by omega
      rw [e1, e2]
      have : (row + r + aA - aT) % r + (r + aT) ≡ (row + r + aA - aT) + (r + aT) [MOD r] :=
        Nat.ModEq.add_right _ (Nat.mod_modEq _ _)
      refine this.trans ?_
      have : (row + r + aA - aT) + (r + aT) = ((row + r + aA - aT) + aT) + r := by omega
      rw [this]
      exact Nat.add_mod_right _ _
    exact Nat.ModEq.add_right_cancel' _ h1
  · have h1 : (((row + r + aA - aT) % r) + r + aT - aA) + aA ≡ row + aA [MOD r] := by
      have e1 : (((row + r + aA - aT) % r) + r + aT - aA) + aA
          = (row + r + aA - aT) % r + (r + aT) := by omega
      rw [e1]
      have : (row + r + aA - aT) % r + (r + aT) ≡ (row + r + aA - aT) + (r + aT) [MOD r] :=
        Nat.ModEq.add_right _ (Nat.mod_modEq _ _)
      refine this.trans ?_
      have e2 : (row + r + aA - aT) + (r + aT) = (row + aA) + 2 * r := by omega
      rw [e2]
      exact (Nat.add_mul_mod_self_right _ _ _).trans rfl
    have h2 := Nat.ModEq.add_right_cancel' aA h1
    have h3 : (((row + r + aA - aT) % r) + r + aT - aA) % r = row % r := h2
    rw [h3, Nat.mod_eq_of_lt hrow]

end ShiftArith

section PackUnpack
variable {T : Type}

theorem memcpy_apply (dst : Nat → T) (off : Nat) (src : Nat → T) (count t : Nat) :
    memcpy dst off src count t = if off ≤ t ∧ t < off + count then src (t - off) else dst t :=
  rfl

theorem Mat.memcpyCol_apply (M : Mat T) (jLoc : Nat) (src : Nat → T) (count i j : Nat) :
    M.memcpyCol jLoc src count i j = if j = jLoc ∧ i < count then src i else M i j := rfl

/-- The pack loop leaves the part of the buffer below its first column as it is. -/
theorem pack_keep (s : Nat) (ALocal : Mat T) (c : Nat) :
    ∀ (lo : Nat) (b : Nat → T) (t : Nat), t < lo * s →
      forLoop (fun jLocal b => memcpy b (jLocal * s) (ALocal.col jLocal) s) c lo b t = b t := by
  induction c with
  | zero => intro lo b t _; rfl
  | succ c ih =>
    intro lo b t ht
    rw [forLoop, ih (lo + 1) _ t (by rw [Nat.add_mul]; omega), memcpy_apply,
      if_neg (by omega)]

/-- The pack loop puts entry `(i, jLocal)` of the tile at `jLocal·stride + i`. -/
theorem pack_get (s : Nat) (ALocal : Mat T) (c : Nat) :
    ∀ (lo : Nat) (b : Nat → T) (jLocal i : Nat), lo ≤ jLocal → jLocal < lo + c → i < s →
      forLoop (fun jLocal b => memcpy b (jLocal * s) (ALocal.col jLocal) s) c lo b
        (jLocal * s + i) = ALocal i jLocal := by
  induction c with
  | zero => intro lo b jLocal i h1 h2 _; omega
  | succ c ih =>
    intro lo b jLocal i h1 h2 hi
    rw [forLoop]
    by_cases hj : jLocal = lo
    · subst hj
      rw [pack_keep s ALocal c (jLocal + 1) _ _ (by rw [Nat.add_mul]; omega), memcpy_apply,
        if_pos (by omega), Nat.add_sub_cancel_left]
      rfl
    · exact ih (lo + 1) _ jLocal i (by omega) (by omega) hi

theorem packColumns_get (s lw : Nat) (ALocal : Mat T) (b : Nat → T) (jLocal i : Nat)
    (hj : jLocal < lw) (hi : i < s) :
    packColumns s lw ALocal b (jLocal * s + i) = ALocal i jLocal := by
  unfold packColumns forRange
  exact pack_get s ALocal (lw - 0) 0 b jLocal i (Nat.zero_le _) (by omega) hi

/-- The inner unpack loop of block `k`: it writes the columns `rs + jLocal·c`. -/
theorem unpack_inner (c lh rs : Nat) (hrs : rs < c) (src : Nat → Nat → T) (cnt : Nat) :
    ∀ (lo : Nat) (M : Mat T) (i j : Nat),
      forLoop (fun jLocal (M' : Mat T) =>
          M'.memcpyCol (rs + jLocal * c) (fun i => src jLocal i) lh) cnt lo M i j
        = if i < lh ∧ j % c = rs ∧ lo ≤ j / c ∧ j / c < lo + cnt then src (j / c) i
          else M i j := by
  induction cnt with
  | zero => intro lo M i j; rw [if_neg (by omega)]; rfl
  | succ cnt ih =>
    intro lo M i j
    rw [forLoop, ih, Mat.memcpyCol_apply]
    by_cases h1 : i < lh ∧ j % c = rs ∧ lo + 1 ≤ j / c ∧ j / c < lo + 1 + cnt
    · rw [if_pos h1, if_pos (by omega)]
    · rw [if_neg h1]
      by_cases h2 : j = rs + lo * c ∧ i < lh
      · rw [if_pos h2]
        have := (eq_add_mul_iff j rs lo c hrs).1 h2.1
        rw [if_pos ⟨h2.2, this.1, by omega, by omega⟩, this.2]
      · rw [if_neg h2]
        have : ¬ (i < lh ∧ j % c = rs ∧ lo ≤ j / c ∧ j / c < lo + (cnt + 1)) := by
          rintro ⟨a1, a2, a3, a4⟩
          by_cases h3 : j / c = lo
          · exact h2 ⟨(eq_add_mul_iff j rs lo c hrs).2 ⟨a2, h3⟩, a1⟩
          · exact h1 ⟨a1, a2, by omega, by omega⟩
        rw [if_neg this]

/-- The unpack loop writes column `j < width` of every local row from the block of the
process column that owns `j`, at the position of local column `j / c`. -/
theorem unpack_outer (c width lh aR ps : Nat) (haR : aR < c) (gathered : Nat → T) (cnt : Nat) :
    ∀ (lo : Nat) (M : Mat T) (i j : Nat), lo + cnt ≤ c →
      forLoop (fun k (M : Mat T) =>
          forRange 0 (RawLocalLength width (RawShift k aR c) c)
            (fun jLocal (M' : Mat T) =>
              M'.memcpyCol (RawShift k aR c + jLocal * c)
                (fun i => gathered (k * ps + jLocal * lh + i)) lh) M) cnt lo M i j
        = if (i < lh ∧ j < width) ∧ lo ≤ (j + aR) % c ∧ (j + aR) % c < lo + cnt then
            gathered ((j + aR) % c * ps + j / c * lh + i)
          else M i j := by
  have hc : 0 < c := by omega
  induction cnt with
  | zero => intro lo M i j _; rw [if_neg (by omega)]; rfl
  | succ cnt ih =>
    intro lo M i j hlo
    rw [forLoop, ih (lo + 1) _ i j (by omega)]
    have hrs : RawShift lo aR c < c := Shift_lt lo aR c hc
    have hin := unpack_inner c lh (RawShift lo aR c) hrs
      (fun jLocal i => gathered (lo * ps + jLocal * lh + i))
      (RawLocalLength width (RawShift lo aR c) c - 0) 0 M i j
    rw [forRange, hin]
    have hown : RawShift lo aR c = j % c ↔ lo = (j + aR) % c :=
      Shift_eq_iff lo j aR c (by omega) haR
    by_cases h1 : (i < lh ∧ j < width) ∧ lo + 1 ≤ (j + aR) % c ∧ (j + aR) % c < lo + 1 + cnt
    · rw [if_pos h1, if_pos ⟨h1.1, by omega, by omega⟩]
    · rw [if_neg h1]
      by_cases h2 : (i < lh ∧ j < width) ∧ lo = (j + aR) % c
      · obtain ⟨⟨a1, a2⟩, a3⟩ := h2
        have hsh : j % c = RawShift lo aR c := (hown.2 a3).symm
        have hll : j / c < RawLocalLength width (RawShift lo aR c) c := by
          rw [RawLocalLength_eq, lt_LocalLength_iff _ _ _ _ hc, ← hsh, Nat.mul_comm,
            Nat.mod_add_div]
          exact a2
        rw [if_pos ⟨a1, hsh, Nat.zero_le _, by omega⟩, if_pos ⟨⟨a1, a2⟩, by omega, by omega⟩,
          ← a3]
      · have h3 : ¬ (i < lh ∧ j % c = RawShift lo aR c ∧ 0 ≤ j / c
            ∧ j / c < 0 + (RawLocalLength width (RawShift lo aR c) c - 0)) := by
          rintro ⟨a1, a2, -, a4⟩
          have hj : j < width := by
            have := (lt_LocalLength_iff width (RawShift lo aR c) c (j / c) hc).1 (by
              rw [← RawLocalLength_eq]; omega)
            rwa [← a2, Nat.mul_comm, Nat.mod_add_div] at this
          exact h2 ⟨⟨a1, hj⟩, hown.1 a2.symm⟩
        rw [if_neg h3]
        have h4 : ¬ ((i < lh ∧ j < width) ∧ lo ≤ (j + aR) % c ∧ (j + aR) % c < lo + (cnt + 1)) := by
          rintro ⟨a1, a2, a3⟩
          by_cases h5 : lo = (j + aR) % c
          · exact h2 ⟨a1, h5⟩
          · exact h1 ⟨a1, by omega, by omega⟩
        rw [if_neg h4]

theorem unpackColumns_get (c width lh aR ps : Nat) (haR : aR < c) (gathered : Nat → T)
    (M : Mat T) (i j : Nat) (hi : i < lh) (hj : j < width) :
    unpackColumns c width lh aR ps gathered M i j
      = gathered ((j + aR) % c * ps + j / c * lh + i) := by
  have h := unpack_outer c width lh aR ps haR gathered (c - 0) 0 M i j (by omega)
  rw [if_pos ⟨⟨hi, hj⟩, Nat.zero_le _,
    by have := Nat.mod_lt (j + aR) (by omega : 0 < c); omega⟩] at h
  exact h

end PackUnpack

section Redistribution
variable {T : Type}

/-- The global entry of a valid `[MC,MR]` matrix, read through the shift of its owner. -/
theorem DistMatrix_MC_MR.entry_at (g : Grid) (A : DistMatrix_MC_MR T) (hA : A.Valid g)
    (ρ : Nat) (hρ : ρ < g.Height) (i j : Nat) :
    A.entry g (Shift ρ A.colAlignment g.Height + i * g.Height) j
      = A.localMatrix ρ ((j + A.rowAlignment) % g.Width) i (j / g.Width) := by
  obtain ⟨haC, haR, hloc⟩ := hA
  have hc : 0 < g.Width := by omega
  have hk : (j + A.rowAlignment) % g.Width < g.Width := Nat.mod_lt _ hc
  unfold DistMatrix_MC_MR.entry
  simp only []
  rw [Shift_owner ρ A.colAlignment g.Height i hρ haC]
  obtain ⟨h1, h2, -, -⟩ := hloc ρ _ hρ hk
  rw [h1, h2, Shift_of_owner j A.rowAlignment g.Width hc haR, Nat.add_sub_cancel_left,
    Nat.mul_div_cancel _ (by omega : 0 < g.Height)]
  congr 1
  have := Nat.mod_add_div j g.Width
  have e : j - j % g.Width = g.Width * (j / g.Width) := by omega
  rw [e, Nat.mul_div_cancel_left _ hc]

/-- The header of the assignment on an owning destination. -/
theorem DistMatrix_MC_Star.adopt_spec (g : Grid) (self : DistMatrix_MC_Star T)
    (A : DistMatrix_MC_MR T) (haC : A.colAlignment < g.Height) (hview : self.viewing = false)
    (hself : self.constrainedColAlignment = true → self.Aligned g) :
    (self.adopt g A).height = A.height ∧ (self.adopt g A).width = A.width ∧
    (self.adopt g A).colAlignment
      = (if self.constrainedColAlignment then self.colAlignment else A.colAlignment) ∧
    (self.adopt g A).colAlignment < g.Height ∧
    (self.adopt g A).constrainedColAlignment = self.constrainedColAlignment ∧
    ∀ row col, row < g.Height → col < g.Width →
      (self.adopt g A).colShift row col = Shift row (self.adopt g A).colAlignment g.Height ∧
      (self.adopt g A).localHeight row col
        = LocalLength A.height (Shift row (self.adopt g A).colAlignment g.Height) g.Height := by
  unfold DistMatrix_MC_Star.adopt
  rw [hview]
  simp only [Bool.false_eq_true, if_false]
  cases hcon : self.constrainedColAlignment with
  | true =>
    obtain ⟨h1, h2⟩ := hself hcon
    simp only [if_true, DistMatrix_MC_Star.ResizeTo]
    refine ⟨trivial, trivial, trivial, h1, hcon, fun row col hr hc => ?_⟩
    rw [h2 row col hr hc]
    exact ⟨rfl, rfl⟩
  | false =>
    simp only [Bool.false_eq_true, if_false, DistMatrix_MC_Star.ResizeTo]
    exact ⟨trivial, trivial, trivial, haC, trivial, fun row col _ _ => ⟨trivial, trivial⟩⟩

theorem sendRecvMatches_rotation (r aT aA : Nat) (hT : aT < r) (hA : aA < r) :
    sendRecvMatches r (fun row => (row + r + aT - aA) % r)
      (fun row => (row + r + aA - aT) % r) = true := by
  unfold sendRecvMatches
  rw [List.all_eq_true]
  intro row hrow
  rw [List.mem_range] at hrow
  rw [decide_eq_true_eq]
  obtain ⟨h1, -, h3⟩ := rotation_partner row r aT aA hrow hT hA
  obtain ⟨h4, -, h6⟩ := rotation_partner row r aA aT hrow hA hT
  exact ⟨h1, h4, h3, h6⟩

/-- A position inside a packed tile lies inside the portion. -/
theorem portion_bound (q lh i lw maxLW ps : Nat) (hq : q < lw) (hlw : lw ≤ maxLW) (hi : i < lh)
    (hps : lh * maxLW ≤ ps) : q * lh + i < ps := by
  have h1 : q * lh + i < (q + 1) * lh := by rw [Nat.add_mul]; omega
  have h2 : (q + 1) * lh ≤ maxLW * lh := Nat.mul_le_mul_right _ (by omega)
  rw [Nat.mul_comm maxLW lh] at h2
  omega

theorem AllGather_get (sbuf : Nat → Nat → T) (n size : Nat) (rbuf : Nat → T) (k t : Nat)
    (hk : k < size) (ht : t < n) : AllGather sbuf n size rbuf (k * n + t) = sbuf k t := by
  unfold AllGather
  have h1 : k * n + t < size * n := by
    have : (k + 1) * n ≤ size * n := Nat.mul_le_mul_right _ (by omega)
    rw [Nat.add_mul] at this
    omega
  rw [if_pos h1]
  have h2 : (k * n + t) / n = k := by
    rw [Nat.add_comm, add_mul_div_self t k n ht]
  have h3 : (k * n + t) % n = t := by
    rw [Nat.add_comm, add_mul_mod_self t k n ht]
  rw [h2, h3]

end Redistribution

section Faithful
variable {T : Type}

/-- The assignment `[MC,*] = [MC,MR]` completes and fills every local tile of the
destination with the global entries of the source that the process owns. -/
theorem assign_MC_MR_local (g : Grid) (MIN_COLL_MSG : Nat) (aux : Nat → Nat → Nat → T)
    (self : DistMatrix_MC_Star T) (A : DistMatrix_MC_MR T) (hA : A.Valid g)
    (hview : self.viewing = false)
    (hself : self.constrainedColAlignment = true → self.Aligned g) :
    ∃ M, self.assign_MC_MR g MIN_COLL_MSG aux A = some M ∧
      M.height = A.height ∧ M.width = A.width ∧
      M.colAlignment
        = (if self.constrainedColAlignment then self.colAlignment else A.colAlignment) ∧
      ∀ row col, row < g.Height → col < g.Width →
        M.colShift row col = Shift row M.colAlignment g.Height ∧
        M.localHeight row col = LocalLength A.height (M.colShift row col) g.Height ∧
        ∀ iLoc j, iLoc < M.localHeight row col → j < M.width →
          M.localMatrix row col iLoc j
            = A.entry g (M.colShift row col + iLoc * g.Height) j := by
  have hAv := hA
  obtain ⟨haC, haR, hloc⟩ := hA
  have hr : 0 < g.Height := by omega
  have hc : 0 < g.Width := by omega
  obtain ⟨e1, e2, e3, e4, -, e6⟩ := DistMatrix_MC_Star.adopt_spec g self A haC hview hself
  obtain ⟨M0, hM0⟩ : ∃ M0, M0 = self.adopt g A := ⟨_, rfl⟩
  rw [← hM0] at e1 e2 e3 e4 e6
  unfold DistMatrix_MC_Star.assign_MC_MR
  simp only []
  rw [← hM0]
  -- the tile of the source on the process that holds the data for `row`
  have hAh : ∀ ρ k, ρ < g.Height → k < g.Width →
      A.localHeight ρ k = LocalLength A.height (Shift ρ A.colAlignment g.Height) g.Height := by
    intro ρ k h1 h2
    obtain ⟨a1, -, a3, -⟩ := hloc ρ k h1 h2
    rw [a3, a1]
  have hAw : ∀ ρ k, ρ < g.Height → k < g.Width →
      A.localWidth ρ k = LocalLength A.width (Shift k A.rowAlignment g.Width) g.Width := by
    intro ρ k h1 h2
    obtain ⟨-, a2, -, a4⟩ := hloc ρ k h1 h2
    rw [a4, a2]
  have hkj : ∀ j, (j + A.rowAlignment) % g.Width < g.Width := fun j => Nat.mod_lt _ hc
  have hjloc : ∀ j, j < A.width →
      j / g.Width < LocalLength A.width (Shift ((j + A.rowAlignment) % g.Width)
        A.rowAlignment g.Width) g.Width := by
    intro j hj
    rw [lt_LocalLength_iff _ _ _ _ hc, Shift_of_owner j _ _ hc haR, Nat.mul_comm,
      Nat.mod_add_div]
    exact hj
  by_cases hal : M0.colAlignment = A.colAlignment
  · rw [if_pos hal]
    by_cases hw : A.width = 1
    · rw [if_pos hw]
      refine ⟨_, rfl, e1, e2, e3, fun row col hrow hcol => ?_⟩
      obtain ⟨s1, s2⟩ := e6 row col hrow hcol
      have hch : (if col = A.rowAlignment then A.localHeight row col else M0.localHeight row col)
          = LocalLength A.height (M0.colShift row col) g.Height := by
        split_ifs
        · rw [hAh row col hrow hcol, s1, hal]
        · rw [s2, s1]
      refine ⟨s1, hch, fun iLoc j hi hj => ?_⟩
      simp only [] at hi hj ⊢
      rw [e2, hw] at hj
      have hj0 : j = 0 := by omega
      subst hj0
      rw [s1, hal, DistMatrix_MC_MR.entry_at g A hAv row hrow, Mat.memcpyCol_apply,
        if_pos ⟨rfl, hi⟩]
      simp only [Broadcast, Mat.col, if_pos hi, if_true, Nat.zero_add, Nat.zero_div,
        Nat.mod_eq_of_lt haR]
    · rw [if_neg hw]
      refine ⟨_, rfl, e1, e2, e3, fun row col hrow hcol => ?_⟩
      obtain ⟨s1, s2⟩ := e6 row col hrow hcol
      refine ⟨s1, by rw [s2, s1], fun iLoc j hi hj => ?_⟩
      simp only [] at hi hj ⊢
      rw [e2] at hj
      rw [unpackColumns_get _ _ _ _ _ haR _ _ _ _ hi (by rw [e2]; exact hj)]
      have hk := hkj j
      obtain ⟨t1, t2⟩ := e6 row _ hrow hk
      have hlh : M0.localHeight row ((j + A.rowAlignment) % g.Width) = M0.localHeight row col := by
        rw [t2, s2]
      have hq := hjloc j hj
      have hbound : j / g.Width * M0.localHeight row col + iLoc
          < max (M0.localHeight row col * MaxLocalLength M0.width g.Width) MIN_COLL_MSG :=
        portion_bound _ _ _ _ _ _ hq (by rw [e2]; exact LocalLength_le_Max _ _ _) hi
          (Nat.le_max_left _ _)
      rw [Nat.add_assoc, AllGather_get _ _ _ _ _ _ hk hbound, ← hlh,
        packColumns_get _ _ _ _ _ _ (by rw [hAw row _ hrow hk]; exact hq) (by rw [hlh]; exact hi),
        s1, hal, DistMatrix_MC_MR.entry_at g A hAv row hrow]
  · rw [if_neg hal, sendRecvMatches_rotation g.Height M0.colAlignment A.colAlignment e4 haC]
    simp only [if_true]
    have hpart : ∀ row, row < g.Height →
        (row + g.Height + A.colAlignment - M0.colAlignment) % g.Height < g.Height ∧
        Shift ((row + g.Height + A.colAlignment - M0.colAlignment) % g.Height)
          A.colAlignment g.Height = Shift row M0.colAlignment g.Height :=
      fun row hrow => ⟨(rotation_partner row _ _ _ hrow e4 haC).1,
        (rotation_partner row _ _ _ hrow e4 haC).2.1⟩
    by_cases hw : A.width = 1
    · rw [if_pos hw]
      refine ⟨_, rfl, e1, e2, e3, fun row col hrow hcol => ?_⟩
      obtain ⟨s1, s2⟩ := e6 row col hrow hcol
      refine ⟨s1, by rw [s2, s1], fun iLoc j hi hj => ?_⟩
      simp only [] at hi hj ⊢
      rw [e2, hw] at hj
      have hj0 : j = 0 := by omega
      subst hj0
      obtain ⟨p1, p2⟩ := hpart row hrow
      obtain ⟨t1, t2⟩ := e6 row _ hrow haR
      have hlh : M0.localHeight row A.rowAlignment = M0.localHeight row col := by rw [t2, s2]
      have hsrc : iLoc < A.localHeight
          ((row + g.Height + A.colAlignment - M0.colAlignment) % g.Height) A.rowAlignment := by
        rw [hAh _ _ p1 haR, p2, ← s2]; exact hi
      rw [s1, ← p2, DistMatrix_MC_MR.entry_at g A hAv _ p1, Mat.memcpyCol_apply,
        if_pos ⟨rfl, hi⟩]
      simp only [Broadcast, SendRecv, Mat.col, if_pos hi, if_true, Mat.memcpyCol_apply,
        hlh, true_and, memcpy_apply, Nat.zero_le, Nat.zero_add, hsrc, Nat.sub_zero,
        Nat.zero_div, Nat.mod_eq_of_lt haR]
    · rw [if_neg hw]
      refine ⟨_, rfl, e1, e2, e3, fun row col hrow hcol => ?_⟩
      obtain ⟨s1, s2⟩ := e6 row col hrow hcol
      refine ⟨s1, by rw [s2, s1], fun iLoc j hi hj => ?_⟩
      simp only [] at hi hj ⊢
      rw [e2] at hj
      rw [unpackColumns_get _ _ _ _ _ haR _ _ _ _ hi (by rw [e2]; exact hj)]
      have hk := hkj j
      obtain ⟨p1, p2⟩ := hpart row hrow
      have hq := hjloc j hj
      have hlhA : A.localHeight ((row + g.Height + A.colAlignment - M0.colAlignment) % g.Height)
          ((j + A.rowAlignment) % g.Width) = M0.localHeight row col := by
        rw [hAh _ _ p1 hk, p2, s2]
      have hmax : M0.localHeight row col ≤ MaxLocalLength M0.height g.Height := by
        rw [s2, e1]; exact LocalLength_le_Max _ _ _
      have hbound : j / g.Width * M0.localHeight row col + iLoc
          < max (MaxLocalLength M0.height g.Height * MaxLocalLength M0.width g.Width)
              MIN_COLL_MSG := by
        have h1 := portion_bound _ _ _ _ (MaxLocalLength M0.width g.Width)
          (M0.localHeight row col * MaxLocalLength M0.width g.Width) hq
          (by rw [e2]; exact LocalLength_le_Max _ _ _) hi (le_refl _)
        have h2 : M0.localHeight row col * MaxLocalLength M0.width g.Width
            ≤ MaxLocalLength M0.height g.Height * MaxLocalLength M0.width g.Width :=
          Nat.mul_le_mul_right _ hmax
        have h3 := Nat.le_max_left
          (MaxLocalLength M0.height g.Height * MaxLocalLength M0.width g.Width) MIN_COLL_MSG
        omega
      rw [Nat.add_assoc ((j + A.rowAlignment) % g.Width * _)
        (j / g.Width * M0.localHeight row col) iLoc, AllGather_get _ _ _ _ _ _ hk hbound]
      simp only [SendRecv, if_pos hbound]
      rw [← hlhA,
        packColumns_get _ _ _ _ _ _ (by rw [hAw _ _ p1 hk]; exact hq) (by rw [hlhA]; exact hi),
        s1, ← p2, DistMatrix_MC_MR.entry_at g A hAv _ p1]

/-- C10. The redistribution `[MC,*] = [MC,MR]` is faithful for every alignment: on every
`r×c` grid, for every valid source (any alignments, height and width) and every owning
destination, whether it adopts the column alignment of the source or was constrained
beforehand to any alignment in `[0,r)`, the assignment completes, the destination takes
the size of the source, on each process its local entry `(iLoc, j)` equals the global
entry `(colShift + iLoc·r, j)` of the source, and so the destination holds the logical
matrix of the source: its entry `(i,j)`, read on any process of the owning grid row, is
the entry `(i,j)` of the source. -/
theorem assign_MC_MR_faithful (g : Grid) (MIN_COLL_MSG : Nat) (aux : Nat → Nat → Nat → T)
    (self : DistMatrix_MC_Star T) (A : DistMatrix_MC_MR T) (hA : A.Valid g)
    (hview : self.viewing = false)
    (hself : self.constrainedColAlignment = true → self.Aligned g) :
    ∃ M, self.assign_MC_MR g MIN_COLL_MSG aux A = some M ∧
      M.height = A.height ∧ M.width = A.width ∧
      M.colAlignment
        = (if self.constrainedColAlignment then self.colAlignment else A.colAlignment) ∧
      (∀ row col, row < g.Height → col < g.Width →
        M.colShift row col = Shift row M.colAlignment g.Height ∧
        M.localHeight row col = LocalLength A.height (M.colShift row col) g.Height ∧
        ∀ iLoc j, iLoc < M.localHeight row col → j < M.width →
          M.localMatrix row col iLoc j
            = A.entry g (M.colShift row col + iLoc * g.Height) j) ∧
      (∀ i j col, i < A.height → j < A.width → col < g.Width →
        M.localMatrix ((i + M.colAlignment) % g.Height) col
            ((i - M.colShift ((i + M.colAlignment) % g.Height) col) / g.Height) j
          = A.entry g i j) := by
  obtain ⟨M, hM, h1, h2, h3, h4⟩ :=
    assign_MC_MR_local g MIN_COLL_MSG aux self A hA hview hself
  refine ⟨M, hM, h1, h2, h3, h4, fun i j col hi hj hcol => ?_⟩
  have hr : 0 < g.Height := by have := hA.1; omega
  have hal : M.colAlignment < g.Height := by
    rw [h3]
    split_ifs with hcon
    · exact (hself hcon).1
    · exact hA.1
  have hrow : (i + M.colAlignment) % g.Height < g.Height := Nat.mod_lt _ hr
  obtain ⟨s1, s2, s3⟩ := h4 _ col hrow hcol
  have hsh : M.colShift ((i + M.colAlignment) % g.Height) col = i % g.Height := by
    rw [s1, Shift_of_owner i _ _ hr hal]
  have hdiv : (i - i % g.Height) / g.Height = i / g.Height := by
    have := Nat.mod_add_div i g.Height
    have e : i - i % g.Height = g.Height * (i / g.Height) := by omega
    rw [e, Nat.mul_div_cancel_left _ hr]
  have hi' : i % g.Height + i / g.Height * g.Height = i := by
    rw [Nat.mul_comm]; exact Nat.mod_add_div i g.Height
  have hloc : i / g.Height < M.localHeight ((i + M.colAlignment) % g.Height) col := by
    rw [s2, hsh, lt_LocalLength_iff _ _ _ _ hr, hi']
    exact hi
  have := s3 (i / g.Height) j hloc (by rw [h2]; exact hj)
  rw [hsh, hi'] at this
  rw [hsh, hdiv]
  exact this

/-- Instance: a `3×3` source with alignments `(1,1)` assigned to a destination constrained
to alignment `0` on the `2×2` grid (the unaligned branch). -/
theorem assign_MC_MR_faithful_witness :
    demoSource.Valid ⟨2, 2⟩ ∧ demoTarget.viewing = false ∧
    (demoTarget.constrainedColAlignment = true → demoTarget.Aligned ⟨2, 2⟩) ∧
    ∃ M, demoTarget.assign_MC_MR ⟨2, 2⟩ 1 (fun _ _ _ => 0) demoSource = some M ∧
      M.height = demoSource.height ∧ M.width = demoSource.width ∧
      M.colAlignment
        = (if demoTarget.constrainedColAlignment then demoTarget.colAlignment
            else demoSource.colAlignment) ∧
      (∀ row col, row < 2 → col < 2 →
        M.colShift row col = Shift row M.colAlignment 2 ∧
        M.localHeight row col = LocalLength demoSource.height (M.colShift row col) 2 ∧
        ∀ iLoc j, iLoc < M.localHeight row col → j < M.width →
          M.localMatrix row col iLoc j
            = demoSource.entry ⟨2, 2⟩ (M.colShift row col + iLoc * 2) j) ∧
      (∀ i j col, i < demoSource.height → j < demoSource.width → col < 2 →
        M.localMatrix ((i + M.colAlignment) % 2) col
            ((i - M.colShift ((i + M.colAlignment) % 2) col) / 2) j
          = demoSource.entry ⟨2, 2⟩ i j) :=
  ⟨⟨by decide, by decide, fun _ _ _ _ => ⟨rfl, rfl, rfl, rfl⟩⟩, rfl,
    fun _ => ⟨by decide, fun _ _ _ _ => rfl⟩,
    assign_MC_MR_faithful ⟨2, 2⟩ 1 (fun _ _ _ => 0) demoTarget demoSource
      ⟨by decide, by decide, fun _ _ _ _ => ⟨rfl, rfl, rfl, rfl⟩⟩ rfl
      (fun _ => ⟨by decide, fun _ _ _ _ => rfl⟩)⟩

end Faithful

section AlignmentOps
variable {T : Type}

theorem guard_passes (RELEASE b : Bool) (h : RELEASE = true ∨ b = true) :
    (!RELEASE && !b) = false := by
  rcases h with h | h <;> simp [h]

theorem guard_fails (b : Bool) (h : b = false) : (!false && !b) = true := by
  simp [h]

theorem argument_passes (g : Grid) (RELEASE : Bool) (a : Int)
    (ha : RELEASE = true ∨ (0 ≤ a ∧ a < g.Height)) :
    (!RELEASE && decide (a < 0 ∨ a ≥ g.Height)) = false := by
  rcases ha with h | h
  · simp [h]
  · simp only [Bool.and_eq_false_imp, Bool.not_eq_eq_eq_not, Bool.not_true,
      decide_eq_false_iff_not]
    intro _; omega

/-- `AlignCols` on an owning matrix whose assertions pass. -/
theorem DistMatrix_MC_Star.AlignCols_done (g : Grid) (RELEASE : Bool) (chk : Assertions T)
    (M : DistMatrix_MC_Star T) (hown : M.viewing = false)
    (hfree : RELEASE = true ∨ chk.FreeColAlignment M = true) (a : Int)
    (ha : RELEASE = true ∨ (0 ≤ a ∧ a < g.Height)) :
    M.AlignCols g RELEASE chk a = .done
      { M with
        colAlignment := a.toNat
        constrainedColAlignment := true
        height := 0
        width := 0
        colShift := fun row _ => Shift row a.toNat g.Height
        localHeight := fun _ _ => 0
        localWidth := fun _ _ => 0 } := by
  unfold DistMatrix_MC_Star.AlignCols DistMatrix_MC_Star.emptyLocal
  simp only [guard_passes _ _ hfree, argument_passes g RELEASE a ha, hown, Bool.false_eq_true,
    if_false]

theorem DistMatrix_MC_Star.Align_eq (g : Grid) (RELEASE : Bool) (chk : Assertions T)
    (M : DistMatrix_MC_Star T) (a : Int) :
    M.Align g RELEASE chk a = M.AlignCols g RELEASE chk a := by
  unfold DistMatrix_MC_Star.Align DistMatrix_MC_Star.AlignCols
  by_cases h : (!RELEASE && !chk.FreeColAlignment M) = true
  · simp only [h, if_true]
  · simp only [h, if_false, Bool.false_eq_true]

theorem DistMatrix_MC_Star.AlignWith_MC_MR_done (RELEASE : Bool) (chk : Assertions T)
    (M : DistMatrix_MC_Star T) (hown : M.viewing = false)
    (hfree : RELEASE = true ∨ chk.FreeColAlignment M = true) (A : DistMatrix_MC_MR T) :
    M.AlignWith_MC_MR RELEASE chk A = .done
      { M with
        colAlignment := A.colAlignment
        constrainedColAlignment := true
        height := 0
        width := 0
        colShift := A.colShift
        localHeight := fun _ _ => 0
        localWidth := fun _ _ => 0 } := by
  unfold DistMatrix_MC_Star.AlignWith_MC_MR DistMatrix_MC_Star.emptyLocal
  simp only [guard_passes _ _ hfree, hown, Bool.false_eq_true, if_false]

theorem DistMatrix_MC_Star.AlignWith_MC_Star_done (RELEASE : Bool) (chk : Assertions T)
    (M : DistMatrix_MC_Star T) (hown : M.viewing = false)
    (hfree : RELEASE = true ∨ chk.FreeColAlignment M = true) (A : DistMatrix_MC_Star T) :
    M.AlignWith_MC_Star RELEASE chk A = .done
      { M with
        colAlignment := A.colAlignment
        constrainedColAlignment := true
        height := 0
        width := 0
        colShift := A.colShift
        localHeight := fun _ _ => 0
        localWidth := fun _ _ => 0 } := by
  unfold DistMatrix_MC_Star.AlignWith_MC_Star DistMatrix_MC_Star.emptyLocal
  simp only [guard_passes _ _ hfree, hown, Bool.false_eq_true, if_false]

theorem DistMatrix_MC_Star.alignWithRows_done (RELEASE : Bool) (chk : Assertions T)
    (M : DistMatrix_MC_Star T) (hown : M.viewing = false)
    (hfree : RELEASE = true ∨ chk.FreeColAlignment M = true) (A : AbstractDistMatrix T) :
    M.alignWithRows RELEASE chk A = .done
      { M with
        colAlignment := A.rowAlignment
        constrainedColAlignment := true
        height := 0
        width := 0
        colShift := A.rowShift
        localHeight := fun _ _ => 0
        localWidth := fun _ _ => 0 } := by
  unfold DistMatrix_MC_Star.alignWithRows DistMatrix_MC_Star.emptyLocal
  simp only [guard_passes _ _ hfree, hown, Bool.false_eq_true, if_false, Outcome.andThen]

theorem DistMatrix_MC_Star.alignWithVector_done (g : Grid) (RELEASE : Bool)
    (chk : Assertions T) (M : DistMatrix_MC_Star T) (hown : M.viewing = false)
    (hfree : RELEASE = true ∨ chk.FreeColAlignment M = true) (alignmentOfA : Nat) :
    M.alignWithVector g RELEASE chk alignmentOfA = .done
      { M with
        colAlignment := alignmentOfA % g.Height
        constrainedColAlignment := true
        height := 0
        width := 0
        colShift := fun row _ => Shift row (alignmentOfA % g.Height) g.Height
        localHeight := fun _ _ => 0
        localWidth := fun _ _ => 0 } := by
  unfold DistMatrix_MC_Star.alignWithVector DistMatrix_MC_Star.emptyLocal
  simp only [guard_passes _ _ hfree, hown, Bool.false_eq_true, if_false, Outcome.andThen]

/-- The column alignment that a change of alignment leaves, whether the tile could be
emptied or not. -/
theorem DistMatrix_MC_Star.emptyLocal_colAlignment (M : DistMatrix_MC_Star T) :
    M.emptyLocal.buffer.colAlignment = M.colAlignment := by
  unfold DistMatrix_MC_Star.emptyLocal
  cases M.viewing <;> rfl

end AlignmentOps

section AlignmentClaims
variable {T : Type}

/-- C17: `AlignWith` on a `[MC,*]` destination follows the table.  When the assertion on
the destination does not throw, the column alignment after `AlignWith( A )` is
`A.ColAlignment` for `[MC,MR]` and `[MC,*]`, `A.RowAlignment` for `[MR,MC]` and `[*,MC]`,
`A.ColAlignment mod r` for `[VC,*]` and `A.RowAlignment mod r` for `[*,VC]`; on an owning
destination the call completes; and every `AlignColsWith` overload is the matching
`AlignWith`. -/
theorem AlignWith_table (g : Grid) (RELEASE : Bool) (chk : Assertions T)
    (M : DistMatrix_MC_Star T) (hfree : RELEASE = true ∨ chk.FreeColAlignment M = true) :
    (∀ A : DistMatrix_MC_MR T,
      (M.AlignWith_MC_MR RELEASE chk A).buffer.colAlignment = A.colAlignment ∧
      (M.viewing = false → (M.AlignWith_MC_MR RELEASE chk A).failed = false) ∧
      M.AlignColsWith_MC_MR RELEASE chk A = M.AlignWith_MC_MR RELEASE chk A) ∧
    (∀ A : DistMatrix_MC_Star T,
      (M.AlignWith_MC_Star RELEASE chk A).buffer.colAlignment = A.colAlignment ∧
      (M.viewing = false → (M.AlignWith_MC_Star RELEASE chk A).failed = false) ∧
      M.AlignColsWith_MC_Star RELEASE chk A = M.AlignWith_MC_Star RELEASE chk A) ∧
    (∀ A : AbstractDistMatrix T,
      (M.AlignWith_MR_MC RELEASE chk A).buffer.colAlignment = A.rowAlignment ∧
      (M.viewing = false → (M.AlignWith_MR_MC RELEASE chk A).failed = false) ∧
      M.AlignColsWith_MR_MC RELEASE chk A = M.AlignWith_MR_MC RELEASE chk A) ∧
    (∀ A : AbstractDistMatrix T,
      (M.AlignWith_Star_MC RELEASE chk A).buffer.colAlignment = A.rowAlignment ∧
      (M.viewing = false → (M.AlignWith_Star_MC RELEASE chk A).failed = false) ∧
      M.AlignColsWith_Star_MC RELEASE chk A = M.AlignWith_Star_MC RELEASE chk A) ∧
    (∀ A : AbstractDistMatrix T,
      (M.AlignWith_VC_Star g RELEASE chk A).buffer.colAlignment = A.colAlignment % g.Height ∧
      (M.viewing = false → (M.AlignWith_VC_Star g RELEASE chk A).failed = false) ∧
      M.AlignColsWith_VC_Star g RELEASE chk A = M.AlignWith_VC_Star g RELEASE chk A) ∧
    (∀ A : AbstractDistMatrix T,
      (M.AlignWith_Star_VC g RELEASE chk A).buffer.colAlignment = A.rowAlignment % g.Height ∧
      (M.viewing = false → (M.AlignWith_Star_VC g RELEASE chk A).failed = false) ∧
      M.AlignColsWith_Star_VC g RELEASE chk A = M.AlignWith_Star_VC g RELEASE chk A) := by
  have hg := guard_passes _ _ hfree
  refine ⟨fun A => ⟨?_, fun hown => ?_, rfl⟩, fun A => ⟨?_, fun hown => ?_, rfl⟩,
    fun A => ⟨?_, fun hown => ?_, rfl⟩, fun A => ⟨?_, fun hown => ?_, rfl⟩,
    fun A => ⟨?_, fun hown => ?_, rfl⟩, fun A => ⟨?_, fun hown => ?_, rfl⟩⟩
  · unfold DistMatrix_MC_Star.AlignWith_MC_MR
    simp only [hg, Bool.false_eq_true, if_false]
    exact DistMatrix_MC_Star.emptyLocal_colAlignment _
  · rw [DistMatrix_MC_Star.AlignWith_MC_MR_done RELEASE chk M hown hfree]; rfl
  · unfold DistMatrix_MC_Star.AlignWith_MC_Star
    simp only [hg, Bool.false_eq_true, if_false]
    exact DistMatrix_MC_Star.emptyLocal_colAlignment _
  · rw [DistMatrix_MC_Star.AlignWith_MC_Star_done RELEASE chk M hown hfree]; rfl
  · unfold DistMatrix_MC_Star.AlignWith_MR_MC DistMatrix_MC_Star.alignWithRows
    simp only [hg, Bool.false_eq_true, if_false, DistMatrix_MC_Star.emptyLocal]
    cases M.viewing <;> rfl
  · unfold DistMatrix_MC_Star.AlignWith_MR_MC
    rw [DistMatrix_MC_Star.alignWithRows_done RELEASE chk M hown hfree]; rfl
  · unfold DistMatrix_MC_Star.AlignWith_Star_MC DistMatrix_MC_Star.alignWithRows
    simp only [hg, Bool.false_eq_true, if_false, DistMatrix_MC_Star.emptyLocal]
    cases M.viewing <;> rfl
  · unfold DistMatrix_MC_Star.AlignWith_Star_MC
    rw [DistMatrix_MC_Star.alignWithRows_done RELEASE chk M hown hfree]; rfl
  · unfold DistMatrix_MC_Star.AlignWith_VC_Star DistMatrix_MC_Star.alignWithVector
    simp only [hg, Bool.false_eq_true, if_false, DistMatrix_MC_Star.emptyLocal]
    cases M.viewing <;> rfl
  · unfold DistMatrix_MC_Star.AlignWith_VC_Star
    rw [DistMatrix_MC_Star.alignWithVector_done g RELEASE chk M hown hfree]; rfl
  · unfold DistMatrix_MC_Star.AlignWith_Star_VC DistMatrix_MC_Star.alignWithVector
    simp only [hg, Bool.false_eq_true, if_false, DistMatrix_MC_Star.emptyLocal]
    cases M.viewing <;> rfl
  · unfold DistMatrix_MC_Star.AlignWith_Star_VC
    rw [DistMatrix_MC_Star.alignWithVector_done g RELEASE chk M hown hfree]; rfl

/-- The table of `AlignWith` on a fresh matrix of the `2×2` grid, with the `[VC,*]`
example of column alignment `3` among the sources. -/
theorem AlignWith_table_witness :
    (demoChecks.FreeColAlignment demoFresh = true) ∧
    (demoFresh.AlignWith_VC_Star ⟨2, 2⟩ false demoChecks demoVector).buffer.colAlignment
      = 3 % 2 :=
  ⟨rfl, ((AlignWith_table ⟨2, 2⟩ false demoChecks demoFresh (Or.inr rfl)).2.2.2.2.1
    demoVector).1⟩

/-- C18: changing the alignment constrains it and invalidates the tile.  On an owning
`[MC,*]` matrix whose assertion on the alignment does not throw, `Align` and `AlignCols`
(with an argument in `[0, r)` where the build checks it) and every `AlignWith` overload
complete and leave `constrainedColAlignment = true`, global size `0×0` and every local tile
`0×0`, whatever the matrix held before. -/
theorem align_invalidates (g : Grid) (RELEASE : Bool) (chk : Assertions T)
    (M : DistMatrix_MC_Star T) (hown : M.viewing = false)
    (hfree : RELEASE = true ∨ chk.FreeColAlignment M = true) :
    (∀ a : Int, RELEASE = true ∨ (0 ≤ a ∧ a < g.Height) →
      (∃ M', M.Align g RELEASE chk a = .done M' ∧ M'.Invalidated) ∧
      (∃ M', M.AlignCols g RELEASE chk a = .done M' ∧ M'.Invalidated)) ∧
    (∀ A : DistMatrix_MC_MR T,
      ∃ M', M.AlignWith_MC_MR RELEASE chk A = .done M' ∧ M'.Invalidated) ∧
    (∀ A : DistMatrix_MC_Star T,
      ∃ M', M.AlignWith_MC_Star RELEASE chk A = .done M' ∧ M'.Invalidated) ∧
    (∀ A : AbstractDistMatrix T,
      ∃ M', M.AlignWith_MR_MC RELEASE chk A = .done M' ∧ M'.Invalidated) ∧
    (∀ A : AbstractDistMatrix T,
      ∃ M', M.AlignWith_Star_MC RELEASE chk A = .done M' ∧ M'.Invalidated) ∧
    (∀ A : AbstractDistMatrix T,
      ∃ M', M.AlignWith_VC_Star g RELEASE chk A = .done M' ∧ M'.Invalidated) ∧
    (∀ A : AbstractDistMatrix T,
      ∃ M', M.AlignWith_Star_VC g RELEASE chk A = .done M' ∧ M'.Invalidated) := by
  have he : ∀ a : Int, M.Align g RELEASE chk a = M.AlignCols g RELEASE chk a :=
    DistMatrix_MC_Star.Align_eq g RELEASE chk M
  exact ⟨fun a ha =>
      ⟨⟨_, (he a).trans (DistMatrix_MC_Star.AlignCols_done g RELEASE chk M hown hfree a ha),
          rfl, rfl, rfl, fun _ _ => ⟨rfl, rfl⟩⟩,
        ⟨_, DistMatrix_MC_Star.AlignCols_done g RELEASE chk M hown hfree a ha,
          rfl, rfl, rfl, fun _ _ => ⟨rfl, rfl⟩⟩⟩,
    fun A => ⟨_, DistMatrix_MC_Star.AlignWith_MC_MR_done RELEASE chk M hown hfree A,
      rfl, rfl, rfl, fun _ _ => ⟨rfl, rfl⟩⟩,
    fun A => ⟨_, DistMatrix_MC_Star.AlignWith_MC_Star_done RELEASE chk M hown hfree A,
      rfl, rfl, rfl, fun _ _ => ⟨rfl, rfl⟩⟩,
    fun A => ⟨_, DistMatrix_MC_Star.alignWithRows_done RELEASE chk M hown hfree A,
      rfl, rfl, rfl, fun _ _ => ⟨rfl, rfl⟩⟩,
    fun A => ⟨_, DistMatrix_MC_Star.alignWithRows_done RELEASE chk M hown hfree A,
      rfl, rfl, rfl, fun _ _ => ⟨rfl, rfl⟩⟩,
    fun A => ⟨_, DistMatrix_MC_Star.alignWithVector_done g RELEASE chk M hown hfree
        A.colAlignment, rfl, rfl, rfl, fun _ _ => ⟨rfl, rfl⟩⟩,
    fun A => ⟨_, DistMatrix_MC_Star.alignWithVector_done g RELEASE chk M hown hfree
        A.rowAlignment, rfl, rfl, rfl, fun _ _ => ⟨rfl, rfl⟩⟩⟩

/-- Aligning the `3×2` example on the `2×2` grid to column alignment `0` empties it. -/
theorem align_invalidates_witness :
    demoStar.viewing = false ∧ demoChecks.FreeColAlignment demoStar = true ∧
    ∃ M', demoStar.Align ⟨2, 2⟩ false demoChecks 0 = .done M' ∧ M'.Invalidated :=
  ⟨rfl, rfl, ((align_invalidates ⟨2, 2⟩ false demoChecks demoStar rfl (Or.inr rfl)).1 0
    (Or.inr ⟨le_refl _, by decide⟩)).1⟩

/-- C19, as stated, fails in a build with `RELEASE` defined: no assertion runs, and
`Align( 0 )` on the view of the example, whose column alignment is `1`, overwrites the
alignment and the global size of the view. -/
theorem Align_view_release :
    demoView.viewing = true ∧ demoView.colAlignment = 1 ∧ demoView.height = 3 ∧
    (demoView.Align ⟨2, 2⟩ true demoChecks 0).buffer.colAlignment = 0 ∧
    (demoView.Align ⟨2, 2⟩ true demoChecks 0).buffer.height = 0 ∧
    (demoView.AlignWith_MC_Star true demoChecks demoFresh).buffer.colAlignment = 0 := by
  refine ⟨rfl, rfl, rfl, rfl, rfl, rfl⟩

/-- C19 (amended): in a build that runs the assertions (`RELEASE` not defined), with an
`AssertFreeColAlignment` that fails on views, `Align`, `AlignCols` and every `AlignWith`
and `AlignColsWith` overload on a viewing `[MC,*]` matrix throw before any write: the
alignment, shift, dimensions and viewed tile are unchanged. -/
theorem views_not_realigned (g : Grid) (chk : Assertions T) (hchk : chk.RejectsViews)
    (M : DistMatrix_MC_Star T) (hM : M.viewing = true) :
    (∀ a : Int, M.Align g false chk a = .logicError M ∧
      M.AlignCols g false chk a = .logicError M) ∧
    (∀ A : DistMatrix_MC_MR T, M.AlignWith_MC_MR false chk A = .logicError M ∧
      M.AlignColsWith_MC_MR false chk A = .logicError M) ∧
    (∀ A : DistMatrix_MC_Star T, M.AlignWith_MC_Star false chk A = .logicError M ∧
      M.AlignColsWith_MC_Star false chk A = .logicError M) ∧
    (∀ A : AbstractDistMatrix T, M.AlignWith_MR_MC false chk A = .logicError M ∧
      M.AlignColsWith_MR_MC false chk A = .logicError M) ∧
    (∀ A : AbstractDistMatrix T, M.AlignWith_Star_MC false chk A = .logicError M ∧
      M.AlignColsWith_Star_MC false chk A = .logicError M) ∧
    (∀ A : AbstractDistMatrix T, M.AlignWith_VC_Star g false chk A = .logicError M ∧
      M.AlignColsWith_VC_Star g false chk A = .logicError M) ∧
    (∀ A : AbstractDistMatrix T, M.AlignWith_Star_VC g false chk A = .logicError M ∧
      M.AlignColsWith_Star_VC g false chk A = .logicError M) := by
  have hg : (!false && !chk.FreeColAlignment M) = true := guard_fails _ (hchk M hM)
  refine ⟨fun a => ⟨?_, ?_⟩, fun A => ⟨?_, ?_⟩, fun A => ⟨?_, ?_⟩, fun A => ⟨?_, ?_⟩,
    fun A => ⟨?_, ?_⟩, fun A => ⟨?_, ?_⟩, fun A => ⟨?_, ?_⟩⟩
  · unfold DistMatrix_MC_Star.Align; rw [if_pos hg]
  · unfold DistMatrix_MC_Star.AlignCols; rw [if_pos hg]
  · unfold DistMatrix_MC_Star.AlignWith_MC_MR; rw [if_pos hg]
  · unfold DistMatrix_MC_Star.AlignColsWith_MC_MR DistMatrix_MC_Star.AlignWith_MC_MR
    rw [if_pos hg]
  · unfold DistMatrix_MC_Star.AlignWith_MC_Star; rw [if_pos hg]
  · unfold DistMatrix_MC_Star.AlignColsWith_MC_Star DistMatrix_MC_Star.AlignWith_MC_Star
    rw [if_pos hg]
  · unfold DistMatrix_MC_Star.AlignWith_MR_MC DistMatrix_MC_Star.alignWithRows; rw [if_pos hg]
  · unfold DistMatrix_MC_Star.AlignColsWith_MR_MC DistMatrix_MC_Star.AlignWith_MR_MC
      DistMatrix_MC_Star.alignWithRows
    rw [if_pos hg]
  · unfold DistMatrix_MC_Star.AlignWith_Star_MC DistMatrix_MC_Star.alignWithRows
    rw [if_pos hg]
  · unfold DistMatrix_MC_Star.AlignColsWith_Star_MC DistMatrix_MC_Star.AlignWith_Star_MC
      DistMatrix_MC_Star.alignWithRows
    rw [if_pos hg]
  · unfold DistMatrix_MC_Star.AlignWith_VC_Star DistMatrix_MC_Star.alignWithVector
    rw [if_pos hg]
  · unfold DistMatrix_MC_Star.AlignColsWith_VC_Star DistMatrix_MC_Star.AlignWith_VC_Star
      DistMatrix_MC_Star.alignWithVector
    rw [if_pos hg]
  · unfold DistMatrix_MC_Star.AlignWith_Star_VC DistMatrix_MC_Star.alignWithVector
    rw [if_pos hg]
  · unfold DistMatrix_MC_Star.AlignColsWith_Star_VC DistMatrix_MC_Star.AlignWith_Star_VC
      DistMatrix_MC_Star.alignWithVector
    rw [if_pos hg]

/-- The view of the example cannot be re-aligned in the checked build. -/
theorem views_not_realigned_witness :
    demoChecks.RejectsViews ∧ demoView.viewing = true ∧
    demoView.Align ⟨2, 2⟩ false demoChecks 0 = .logicError demoView :=
  have h : demoChecks.RejectsViews := fun M hM => by
    show (!M.viewing) = false
    rw [hM]; rfl
  ⟨h, rfl, ((views_not_realigned ⟨2, 2⟩ demoChecks h demoView rfl).1 0).1⟩

end AlignmentClaims

section ElementAccess
variable {T : Type}

theorem DistMatrix_MC_Star.entry_passes (RELEASE : Bool) (M : DistMatrix_MC_Star T) (i j : Nat)
    (hi : i < M.height) (hj : j < M.width) :
    (!RELEASE && !M.AssertValidEntry i j) = false := by
  have : M.AssertValidEntry i j = true := decide_eq_true ⟨hi, hj⟩
  rw [this]; cases RELEASE <;> rfl

/-- `Set` on a valid entry. -/
theorem DistMatrix_MC_Star.Set_done (g : Grid) (RELEASE : Bool) (M : DistMatrix_MC_Star T)
    (i j : Nat) (hi : i < M.height) (hj : j < M.width) (u : T) :
    M.Set g RELEASE i j u = .done
      { M with
        localMatrix := fun row col =>
          if row = (i + M.colAlignment) % g.Height then
            (M.localMatrix row col).set ((i - M.colShift row col) / g.Height) j u
          else M.localMatrix row col } := by
  unfold DistMatrix_MC_Star.Set
  rw [DistMatrix_MC_Star.entry_passes RELEASE M i j hi hj]
  rfl

/-- `Update` on a valid entry. -/
theorem DistMatrix_MC_Star.Update_done [Add T] (g : Grid) (RELEASE : Bool)
    (M : DistMatrix_MC_Star T) (i j : Nat) (hi : i < M.height) (hj : j < M.width) (u : T) :
    M.Update g RELEASE i j u = .done
      { M with
        localMatrix := fun row col =>
          if row = (i + M.colAlignment) % g.Height then
            (M.localMatrix row col).set ((i - M.colShift row col) / g.Height) j
              (M.localMatrix row col ((i - M.colShift row col) / g.Height) j + u)
          else M.localMatrix row col } := by
  unfold DistMatrix_MC_Star.Update
  rw [DistMatrix_MC_Star.entry_passes RELEASE M i j hi hj]
  rfl

/-- `Get` on a valid entry: every process returns the local entry of the process whose
`VCRank` is the owner row. -/
theorem DistMatrix_MC_Star.Get_done (g : Grid) (RELEASE : Bool) (M : DistMatrix_MC_Star T)
    (u0 : Nat → Nat → T) (i j : Nat) (hi : i < M.height) (hj : j < M.width) :
    M.Get g RELEASE u0 i j = some fun _ _ =>
      M.localMatrix ((i + M.colAlignment) % g.Height) 0
        ((i - M.colShift ((i + M.colAlignment) % g.Height) 0) / g.Height) j := by
  unfold DistMatrix_MC_Star.Get
  rw [DistMatrix_MC_Star.entry_passes RELEASE M i j hi hj]
  simp only [Bool.false_eq_true, if_false]
  have hdiv : (i + M.colAlignment) % g.Height / g.Height = 0 := by
    by_cases hr : g.Height = 0
    · rw [hr]; exact Nat.div_zero _
    · exact Nat.div_eq_of_lt (Nat.mod_lt _ (by omega))
  have hvc : ∀ x, g.VCRank x 0 = x := fun x => by
    unfold Grid.VCRank
    rw [Nat.mul_zero, Nat.add_zero]
  simp only [Broadcast, Nat.lt_one_iff, if_true, hdiv, hvc, Nat.mod_mod]

/-- A rank has global row `i` among the rows `shift + iLoc·r` of its tile exactly when it
is `(i + a) mod r`. -/
theorem owns_iff (r a i rank : Nat) (hrank : rank < r) (ha : a < r) :
    (∃ iLoc, i = Shift rank a r + iLoc * r) ↔ rank = (i + a) % r := by
  have hr : 0 < r := by omega
  have hs : Shift rank a r < r := Shift_lt rank a r hr
  rw [← Shift_eq_iff rank i a r hrank ha]
  constructor
  · rintro ⟨iLoc, h⟩
    exact ((eq_add_mul_iff i _ iLoc r hs).1 h).1.symm
  · intro h
    exact ⟨i / r, (eq_add_mul_iff i _ (i / r) r hs).2 ⟨h.symm, rfl⟩⟩

/-- On the owner of row `i` the local row index of `Get`, `Set` and `Update` is exact and
inside the tile. -/
theorem owner_local (r a i h : Nat) (ha : a < r) (hi : i < h) :
    Shift ((i + a) % r) a r ≤ i ∧ r ∣ i - Shift ((i + a) % r) a r ∧
    Shift ((i + a) % r) a r + (i - Shift ((i + a) % r) a r) / r * r = i ∧
    (i - Shift ((i + a) % r) a r) / r < LocalLength h (Shift ((i + a) % r) a r) r := by
  have hr : 0 < r := by omega
  have hs : Shift ((i + a) % r) a r = i % r := Shift_of_owner i a r hr ha
  have hmod := Nat.mod_add_div i r
  have hle : i % r ≤ i := Nat.mod_le i r
  have hsub : i - i % r = r * (i / r) := by omega
  rw [hs, hsub, Nat.mul_div_cancel_left _ hr, lt_LocalLength_iff _ _ _ _ hr]
  refine ⟨hle, Dvd.intro _ rfl, ?_, ?_⟩
  · rw [Nat.mul_comm]; exact hmod
  · rw [Nat.mul_comm]; omega

end ElementAccess

section ElementClaims
variable {T : Type}

/-- C13: owner uniqueness for `[MC,*]`.  For a matrix with column alignment `a` inside
`[0, r)` and a global row `i`, the rank `(i + a) mod r` that `Get`, `Set` and `Update` test
for is inside `[0, r)`; a rank has `i` among the rows `colShift + iLoc·r` of its tile
exactly when it is that rank, and exactly when `i` is congruent to its
`Shift(rank, a, r)` modulo `r`, so exactly one rank owns the row; and `Set` writes column
`j` of that row in every process column (the row axis is `STAR`) and on no other grid
row. -/
theorem owner_unique (g : Grid) (M : DistMatrix_MC_Star T) (hM : M.Aligned g) (i : Nat) :
    (i + M.colAlignment) % g.Height < g.Height ∧
    (∀ rank, rank < g.Height →
      ((∃ iLoc, i = Shift rank M.colAlignment g.Height + iLoc * g.Height) ↔
        rank = (i + M.colAlignment) % g.Height) ∧
      (i ≡ Shift rank M.colAlignment g.Height [MOD g.Height] ↔
        rank = (i + M.colAlignment) % g.Height)) ∧
    (∃! rank, rank < g.Height ∧
      ∃ iLoc, i = Shift rank M.colAlignment g.Height + iLoc * g.Height) ∧
    (∀ (RELEASE : Bool) (j : Nat) (u : T), i < M.height → j < M.width →
      ∃ M', M.Set g RELEASE i j u = .done M' ∧
        ∀ row col, row < g.Height → col < g.Width →
          (row = (i + M.colAlignment) % g.Height →
            M.colShift row col + (i - M.colShift row col) / g.Height * g.Height = i ∧
            M'.localMatrix row col ((i - M.colShift row col) / g.Height) j = u) ∧
          (row ≠ (i + M.colAlignment) % g.Height →
            M'.localMatrix row col = M.localMatrix row col)) := by
  obtain ⟨ha, hshift⟩ := hM
  have hr : 0 < g.Height := by omega
  have hown : (i + M.colAlignment) % g.Height < g.Height := Nat.mod_lt _ hr
  refine ⟨hown, fun rank hrank => ⟨owns_iff _ _ _ _ hrank ha, ?_⟩, ?_, ?_⟩
  · rw [← Shift_eq_iff rank i M.colAlignment g.Height hrank ha]
    unfold Nat.ModEq
    rw [Nat.mod_eq_of_lt (Shift_lt rank M.colAlignment g.Height hr)]
    exact eq_comm
  · refine ⟨(i + M.colAlignment) % g.Height,
      ⟨hown, (owns_iff _ _ _ _ hown ha).2 rfl⟩, ?_⟩
    rintro rank ⟨hrank, h⟩
    exact (owns_iff _ _ _ _ hrank ha).1 h
  · intro RELEASE j u hi hj
    refine ⟨_, DistMatrix_MC_Star.Set_done g RELEASE M i j hi hj u, ?_⟩
    intro row col hrow hcol
    constructor
    · intro h
      simp only [if_pos h]
      rw [hshift row col hrow hcol, h]
      exact ⟨(owner_local g.Height M.colAlignment i M.height ha hi).2.2.1, by
        simp [Mat.set]⟩
    · intro h
      simp only [if_neg h]

/-- The owner of row `1` of the `3×2` example on the `2×2` grid is grid row `0`. -/
theorem owner_unique_witness :
    demoStar.Aligned ⟨2, 2⟩ ∧ (1 + demoStar.colAlignment) % 2 < 2 :=
  have h : demoStar.Aligned ⟨2, 2⟩ := ⟨by decide, fun _ _ _ _ => rfl⟩
  ⟨h, (owner_unique ⟨2, 2⟩ demoStar h 1).1⟩

/-- C14: `Get`/`Set` consistency.  For a `[MC,*]` matrix satisfying its invariants and a
valid `(i,j)`, `Set( i, j, u )` completes, the following `Get( i, j )` completes and
returns `u` on every process, whatever the processes held in their local `u` before the
broadcast; the process that reads for the broadcast reads inside its tile. -/
theorem Get_after_Set (g : Grid) (RELEASE : Bool) (M : DistMatrix_MC_Star T)
    (hM : M.Valid g) (hc : 0 < g.Width) (i j : Nat) (hi : i < M.height) (hj : j < M.width)
    (u : T) (u0 : Nat → Nat → T) :
    ∃ M', M.Set g RELEASE i j u = .done M' ∧
      ∃ v, M'.Get g RELEASE u0 i j = some v ∧
        (∀ row col, v row col = u) ∧
        (i - M'.colShift ((i + M'.colAlignment) % g.Height) 0) / g.Height
          < M'.localHeight ((i + M'.colAlignment) % g.Height) 0 ∧
        j < M'.localWidth ((i + M'.colAlignment) % g.Height) 0 := by
  obtain ⟨⟨ha, hshift⟩, hloc⟩ := hM
  have hr : 0 < g.Height := by omega
  have hown : (i + M.colAlignment) % g.Height < g.Height := Nat.mod_lt _ hr
  refine ⟨_, DistMatrix_MC_Star.Set_done g RELEASE M i j hi hj u,
    _, DistMatrix_MC_Star.Get_done g RELEASE _ u0 i j hi hj, ?_, ?_, ?_⟩
  · intro row col
    simp [Mat.set]
  · obtain ⟨h1, -⟩ := hloc _ 0 hown hc
    rw [h1, hshift _ 0 hown hc]
    exact (owner_local g.Height M.colAlignment i M.height ha hi).2.2.2
  · obtain ⟨-, h2⟩ := hloc _ 0 hown hc
    rw [h2]; exact hj

/-- On the `3×2` example on the `2×2` grid, `Get( 2, 1 )` after `Set( 2, 1, 99 )` returns
`99` on every process. -/
theorem Get_after_Set_witness :
    demoStar.Valid ⟨2, 2⟩ ∧
    ∃ M', demoStar.Set ⟨2, 2⟩ false 2 1 99 = .done M' ∧
      ∃ v, M'.Get ⟨2, 2⟩ false (fun _ _ => 0) 2 1 = some v ∧ ∀ row col, v row col = 99 :=
  have h : demoStar.Valid ⟨2, 2⟩ :=
    ⟨⟨by decide, fun _ _ _ _ => rfl⟩, fun _ _ _ _ => ⟨rfl, rfl⟩⟩
  ⟨h, by
    obtain ⟨M', h1, v, h2, h3, -⟩ :=
      Get_after_Set ⟨2, 2⟩ false demoStar h (by decide) 2 1 (by decide) (by decide) 99
        (fun _ _ => 0)
    exact ⟨M', h1, v, h2, h3⟩⟩

/-- C15: `Set( i, j, u )` and `Update( i, j, u )` mutate only on the owning processes.
On a valid entry of a matrix satisfying its invariants both complete and change nothing
but local tiles; on a process with `MCRank ≠ (i + colAlignment) mod r` the tile is
unchanged; on a process with `MCRank = (i + colAlignment) mod r` only the local entry
`((i − colShift)/r, j)` changes, to `u`, respectively to its old value plus `u`; there
`i − colShift` is a non-negative multiple of `r` and the local entry is inside the tile. -/
theorem Set_Update_frame [Add T] (g : Grid) (RELEASE : Bool) (M : DistMatrix_MC_Star T)
    (hM : M.Valid g) (i j : Nat) (hi : i < M.height) (hj : j < M.width) (u : T) :
    ∃ S U, M.Set g RELEASE i j u = .done S ∧ M.Update g RELEASE i j u = .done U ∧
      S = { M with localMatrix := S.localMatrix } ∧
      U = { M with localMatrix := U.localMatrix } ∧
      ∀ row col, row < g.Height → col < g.Width →
        (row ≠ (i + M.colAlignment) % g.Height →
          S.localMatrix row col = M.localMatrix row col ∧
          U.localMatrix row col = M.localMatrix row col) ∧
        (row = (i + M.colAlignment) % g.Height →
          (∀ a b, ¬ (a = (i - M.colShift row col) / g.Height ∧ b = j) →
            S.localMatrix row col a b = M.localMatrix row col a b ∧
            U.localMatrix row col a b = M.localMatrix row col a b) ∧
          S.localMatrix row col ((i - M.colShift row col) / g.Height) j = u ∧
          U.localMatrix row col ((i - M.colShift row col) / g.Height) j
            = M.localMatrix row col ((i - M.colShift row col) / g.Height) j + u ∧
          M.colShift row col ≤ i ∧ g.Height ∣ i - M.colShift row col ∧
          (i - M.colShift row col) / g.Height < M.localHeight row col ∧
          j < M.localWidth row col) := by
  obtain ⟨⟨ha, hshift⟩, hloc⟩ := hM
  refine ⟨_, _, DistMatrix_MC_Star.Set_done g RELEASE M i j hi hj u,
    DistMatrix_MC_Star.Update_done g RELEASE M i j hi hj u, rfl, rfl, ?_⟩
  intro row col hrow hcol
  constructor
  · intro h
    simp only [if_neg h, and_self]
  · intro h
    obtain ⟨h1, h2⟩ := hloc row col hrow hcol
    have hs := hshift row col hrow hcol
    obtain ⟨o1, o2, -, o4⟩ := owner_local g.Height M.colAlignment i M.height ha hi
    simp only [if_pos h]
    refine ⟨fun a b hab => ?_, by simp [Mat.set], by simp [Mat.set], ?_, ?_, ?_, ?_⟩
    · simp only [Mat.set, if_neg hab, and_self]
    · rw [hs, h]; exact o1
    · rw [hs, h]; exact o2
    · rw [h1, hs, h]; exact o4
    · rw [h2]; exact hj

/-- On the `3×2` example on the `2×2` grid, `Set( 2, 1, 99 )` and `Update( 2, 1, 99 )`
complete. -/
theorem Set_Update_frame_witness :
    demoStar.Valid ⟨2, 2⟩ ∧
    ∃ S U, demoStar.Set ⟨2, 2⟩ false 2 1 99 = .done S ∧
      demoStar.Update ⟨2, 2⟩ false 2 1 99 = .done U :=
  have h : demoStar.Valid ⟨2, 2⟩ :=
    ⟨⟨by decide, fun _ _ _ _ => rfl⟩, fun _ _ _ _ => ⟨rfl, rfl⟩⟩
  ⟨h, by
    obtain ⟨S, U, h1, h2, -⟩ :=
      Set_Update_frame ⟨2, 2⟩ false demoStar h 2 1 (by decide) (by decide) 99
    exact ⟨S, U, h1, h2⟩⟩

end ElementClaims

section AssignStar
variable {T : Type}

/-- The unpack loop of the unaligned `[MC,* ] = [MC,* ]` writes the first `lh` rows of the
columns it has passed. -/
theorem unpackPlain_loop (lh : Nat) (recv : Nat → T) (cnt : Nat) :
    ∀ (lo : Nat) (M : Mat T) (i j : Nat),
      forLoop (fun j (M : Mat T) => M.memcpyCol j (fun i => recv (j * lh + i)) lh) cnt lo M i j
        = if i < lh ∧ lo ≤ j ∧ j < lo + cnt then recv (j * lh + i) else M i j := by
  induction cnt with
  | zero => intro lo M i j; rw [if_neg (by omega)]; rfl
  | succ cnt ih =>
    intro lo M i j
    rw [forLoop, ih, Mat.memcpyCol_apply]
    by_cases h1 : i < lh ∧ lo + 1 ≤ j ∧ j < lo + 1 + cnt
    · rw [if_pos h1, if_pos ⟨h1.1, by omega, by omega⟩]
    · rw [if_neg h1]
      by_cases h2 : j = lo ∧ i < lh
      · rw [if_pos h2, if_pos ⟨h2.2, by omega, by omega⟩, h2.1]
      · rw [if_neg h2, if_neg (by omega)]

theorem unpackPlain_get (width lh : Nat) (recv : Nat → T) (M : Mat T) (i j : Nat)
    (hi : i < lh) (hj : j < width) :
    unpackPlain width lh recv M i j = recv (j * lh + i) := by
  unfold unpackPlain forRange
  rw [unpackPlain_loop, if_pos ⟨hi, Nat.zero_le _, by omega⟩]

/-- The global entry of a valid `[MC,*]` matrix, read through the shift of its owner. -/
theorem DistMatrix_MC_Star.star_entry_at (g : Grid) (A : DistMatrix_MC_Star T) (hA : A.Aligned g)
    (ρ : Nat) (hρ : ρ < g.Height) (col : Nat) (hcol : col < g.Width) (iLoc j : Nat) :
    A.entry g col (Shift ρ A.colAlignment g.Height + iLoc * g.Height) j
      = A.localMatrix ρ col iLoc j := by
  obtain ⟨ha, hshift⟩ := hA
  unfold DistMatrix_MC_Star.entry
  simp only []
  rw [Shift_owner ρ A.colAlignment g.Height iLoc hρ ha, hshift ρ col hρ hcol,
    Nat.add_sub_cancel_left, Nat.mul_div_cancel _ (by omega : 0 < g.Height)]

/-- A destination that is not viewing is accepted when its constrained alignment is
inside the grid. -/
theorem DistMatrix_MC_Star.accepts_of_owning (g : Grid) (self : DistMatrix_MC_Star T)
    (height width : Nat) (hview : self.viewing = false)
    (hself : self.constrainedColAlignment = true → self.Aligned g) :
    self.Accepts g height width :=
  ⟨hself, fun h => by rw [hview] at h; exact Bool.noConfusion h⟩

/-- The header of `[MC,* ] = [MC,* ]`. -/
theorem DistMatrix_MC_Star.adopt_MC_Star_spec (g : Grid) (self A : DistMatrix_MC_Star T)
    (hA : A.Aligned g) (hacc : self.Accepts g A.height A.width) :
    (self.adopt_MC_Star g A).height = A.height ∧ (self.adopt_MC_Star g A).width = A.width ∧
    (self.adopt_MC_Star g A).colAlignment
      = (if self.viewing || self.constrainedColAlignment then self.colAlignment
          else A.colAlignment) ∧
    (self.adopt_MC_Star g A).viewing = self.viewing ∧
    (self.adopt_MC_Star g A).lockedView = self.lockedView ∧
    (self.adopt_MC_Star g A).constrainedColAlignment = self.constrainedColAlignment ∧
    (self.adopt_MC_Star g A).Valid g := by
  obtain ⟨hself, hview⟩ := hacc
  unfold DistMatrix_MC_Star.adopt_MC_Star
  cases hv : self.viewing with
  | true =>
    obtain ⟨h1, h2, h3⟩ := hview hv
    simp only [if_true, Bool.true_or]
    refine ⟨h2, h3, ?_, ?_, ?_, ?_, h1⟩ <;> trivial
  | false =>
    simp only [Bool.false_eq_true, if_false, Bool.false_or]
    cases hcon : self.constrainedColAlignment with
    | true =>
      obtain ⟨h1, h2⟩ := hself hcon
      simp only [if_true, DistMatrix_MC_Star.ResizeTo]
      refine ⟨?_, ?_, ?_, ?_, ?_, ?_, ⟨h1, h2⟩, fun row col _ _ => ⟨rfl, rfl⟩⟩ <;>
        trivial
    | false =>
      simp only [Bool.false_eq_true, if_false, DistMatrix_MC_Star.ResizeTo]
      refine ⟨?_, ?_, ?_, ?_, ?_, ?_, hA, fun row col _ _ => ⟨rfl, rfl⟩⟩ <;>
        trivial

end AssignStar

section AssignStarLocal
variable {T : Type}

/-- The assignment `[MC,*] = [MC,*]` completes on an accepted destination, leaves a matrix
that satisfies its invariants, and fills every local tile with the global entries of the
source that the process owns; in the aligned branch the tile is the tile of the source. -/
theorem assign_MC_Star_local (g : Grid) (aux : Nat → Nat → Nat → T)
    (self A : DistMatrix_MC_Star T) (hA : A.Valid g)
    (hacc : self.Accepts g A.height A.width) :
    ∃ M, self.assign_MC_Star g aux A = some M ∧
      M.height = A.height ∧ M.width = A.width ∧
      M.colAlignment
        = (if self.viewing || self.constrainedColAlignment then self.colAlignment
            else A.colAlignment) ∧
      M.viewing = self.viewing ∧ M.constrainedColAlignment = self.constrainedColAlignment ∧
      M.Valid g ∧
      (∀ row col, row < g.Height → col < g.Width →
        ∀ iLoc j, iLoc < M.localHeight row col → j < M.width →
          M.localMatrix row col iLoc j
            = A.entry g col (M.colShift row col + iLoc * g.Height) j) ∧
      (M.colAlignment = A.colAlignment → M.localMatrix = A.localMatrix) := by
  obtain ⟨hAa, hAloc⟩ := hA
  have haC : A.colAlignment < g.Height := hAa.1
  have hAs := hAa.2
  have hr : 0 < g.Height := by omega
  obtain ⟨e1, e2, e3, e4, -, e6, ⟨e7, e8⟩, e9⟩ :=
    DistMatrix_MC_Star.adopt_MC_Star_spec g self A hAa hacc
  obtain ⟨M0, hM0⟩ : ∃ M0, M0 = self.adopt_MC_Star g A := ⟨_, rfl⟩
  rw [← hM0] at e1 e2 e3 e4 e6 e7 e8 e9
  unfold DistMatrix_MC_Star.assign_MC_Star
  simp only []
  rw [← hM0]
  have hAh : ∀ ρ k, ρ < g.Height → k < g.Width →
      A.localHeight ρ k = LocalLength A.height (Shift ρ A.colAlignment g.Height) g.Height := by
    intro ρ k h1 h2
    rw [(hAloc ρ k h1 h2).1, hAs ρ k h1 h2]
  have hMh : ∀ ρ k, ρ < g.Height → k < g.Width →
      M0.localHeight ρ k = LocalLength A.height (Shift ρ M0.colAlignment g.Height) g.Height := by
    intro ρ k h1 h2
    rw [(e9 ρ k h1 h2).1, e8 ρ k h1 h2, e1]
  by_cases hal : M0.colAlignment = A.colAlignment
  · rw [if_pos hal]
    refine ⟨_, rfl, e1, e2, e3, e4, e6, ⟨⟨e7, e8⟩, fun row col hrow hcol => ?_⟩,
      fun row col hrow hcol iLoc j _ _ => ?_, fun _ => rfl⟩
    · simp only []
      rw [hAh row col hrow hcol, e8 row col hrow hcol, hal, e1, (hAloc row col hrow hcol).2, e2]
      exact ⟨rfl, rfl⟩
    · simp only []
      rw [e8 row col hrow hcol, hal,
        DistMatrix_MC_Star.star_entry_at g A hAa row hrow col hcol]
  · rw [if_neg hal]
    have hpart : ∀ row, row < g.Height →
        (row + g.Height + A.colAlignment - M0.colAlignment) % g.Height < g.Height ∧
        Shift ((row + g.Height + A.colAlignment - M0.colAlignment) % g.Height)
          A.colAlignment g.Height = Shift row M0.colAlignment g.Height :=
      fun row hrow => ⟨(rotation_partner row _ _ _ hrow e7 haC).1,
        (rotation_partner row _ _ _ hrow e7 haC).2.1⟩
    have hlh : ∀ row col, row < g.Height → col < g.Width →
        A.localHeight ((row + g.Height + A.colAlignment - M0.colAlignment) % g.Height) col
          = M0.localHeight row col := by
      intro row col hrow hcol
      obtain ⟨p1, p2⟩ := hpart row hrow
      rw [hAh _ _ p1 hcol, p2, hMh row col hrow hcol]
    have hcond : sendRecvMatches g.Height
          (fun rank => (rank + g.Height + M0.colAlignment - A.colAlignment) % g.Height)
          (fun rank => (rank + g.Height + A.colAlignment - M0.colAlignment) % g.Height) = true ∧
        ∀ row, row < g.Height → ∀ col, col < g.Width →
          A.localHeight ((row + g.Height + A.colAlignment - M0.colAlignment) % g.Height) col
              * M0.width ≤ M0.localHeight row col * M0.width :=
      ⟨sendRecvMatches_rotation g.Height M0.colAlignment A.colAlignment e7 haC,
        fun row hrow col hcol => by rw [hlh row col hrow hcol]⟩
    rw [if_pos hcond]
    refine ⟨_, rfl, e1, e2, e3, e4, e6, ⟨⟨e7, e8⟩, e9⟩,
      fun row col hrow hcol iLoc j hi hj => ?_, fun h => absurd h hal⟩
    simp only [] at hi hj ⊢
    obtain ⟨p1, p2⟩ := hpart row hrow
    have hl := hlh row col hrow hcol
    have hbound : j * M0.localHeight row col + iLoc
        < A.localHeight ((row + g.Height + A.colAlignment - M0.colAlignment) % g.Height) col
            * M0.width := by
      rw [hl]
      have h1 : j * M0.localHeight row col + iLoc < (j + 1) * M0.localHeight row col := by
        rw [Nat.add_mul]; omega
      have h2 : (j + 1) * M0.localHeight row col ≤ M0.width * M0.localHeight row col :=
        Nat.mul_le_mul_right _ (by omega)
      rw [Nat.mul_comm M0.width] at h2
      omega
    rw [unpackPlain_get _ _ _ _ _ _ hi hj]
    simp only [SendRecv, if_pos hbound]
    rw [← hl, packColumns_get _ _ _ _ _ _ hj (by rw [hl]; exact hi), e8 row col hrow hcol, ← p2,
      DistMatrix_MC_Star.star_entry_at g A hAa _ p1 col hcol]

end AssignStarLocal

section RoundTrip
variable {T : Type}

/-- C11: round trip between two `[MC,*]` layouts.  For a matrix `M` satisfying its
invariants with column alignment `a`, a destination `T2` constrained to an alignment `b`
and a destination `T3` constrained to `a` (both owning, alignments inside `[0, r)`): the
assignments `M2 = M` and `M3 = M2` complete, and every process ends with a tile of `M3` of
the size of its tile of `M` and with the same entries; when `a = b` neither assignment
makes a call of the message-passing interface and each copies the local tile. -/
theorem roundtrip_MC_Star (g : Grid) (aux2 aux3 : Nat → Nat → Nat → T)
    (M T2 T3 : DistMatrix_MC_Star T) (hM : M.Valid g)
    (h2 : T2.viewing = false ∧ T2.constrainedColAlignment = true ∧ T2.Aligned g)
    (h3 : T3.viewing = false ∧ T3.constrainedColAlignment = true ∧ T3.Aligned g)
    (hab : T3.colAlignment = M.colAlignment) :
    ∃ M2 M3, T2.assign_MC_Star g aux2 M = some M2 ∧ T3.assign_MC_Star g aux3 M2 = some M3 ∧
      M2.colAlignment = T2.colAlignment ∧ M3.colAlignment = M.colAlignment ∧
      M3.height = M.height ∧ M3.width = M.width ∧
      (∀ row col, row < g.Height → col < g.Width →
        M3.colShift row col = M.colShift row col ∧
        M3.localHeight row col = M.localHeight row col ∧
        M3.localWidth row col = M.localWidth row col ∧
        ∀ iLoc j, iLoc < M.localHeight row col → j < M.localWidth row col →
          M3.localMatrix row col iLoc j = M.localMatrix row col iLoc j) ∧
      (T2.colAlignment = M.colAlignment →
        T2.calls_MC_Star g M = [] ∧ T3.calls_MC_Star g M2 = [] ∧
        M2.localMatrix = M.localMatrix ∧ M3.localMatrix = M.localMatrix) := by
  obtain ⟨v2, c2, a2⟩ := h2
  obtain ⟨v3, c3, a3⟩ := h3
  obtain ⟨M2, s2, x1, x2, x3, -, -, x6, x7, x8⟩ :=
    assign_MC_Star_local g aux2 T2 M hM
      (DistMatrix_MC_Star.accepts_of_owning g T2 _ _ v2 (fun _ => a2))
  obtain ⟨M3, s3, y1, y2, y3, -, -, y6, y7, y8⟩ :=
    assign_MC_Star_local g aux3 T3 M2 x6
      (DistMatrix_MC_Star.accepts_of_owning g T3 _ _ v3 (fun _ => a3))
  rw [c2] at x3
  rw [c3] at y3
  simp only [Bool.or_true, if_true] at x3 y3
  have hMv := hM
  obtain ⟨⟨ha, hshift⟩, hloc⟩ := hM
  have hr : 0 < g.Height := by omega
  refine ⟨M2, M3, s2, s3, x3, y3.trans hab, y1.trans x1, y2.trans x2, ?_, ?_⟩
  · intro row col hrow hcol
    have hs3 : M3.colShift row col = M.colShift row col := by
      rw [y6.1.2 row col hrow hcol, y3, hab, hshift row col hrow hcol]
    have hh3 : M3.localHeight row col = M.localHeight row col := by
      rw [(y6.2 row col hrow hcol).1, hs3, y1, x1, (hloc row col hrow hcol).1]
    have hw3 : M3.localWidth row col = M.localWidth row col := by
      rw [(y6.2 row col hrow hcol).2, y2, x2, (hloc row col hrow hcol).2]
    refine ⟨hs3, hh3, hw3, fun iLoc j hi hj => ?_⟩
    have hj' : j < M.width := by rw [← (hloc row col hrow hcol).2]; exact hj
    have hi' : Shift row M.colAlignment g.Height + iLoc * g.Height < M.height := by
      rw [← lt_LocalLength_iff _ _ _ _ hr, ← hshift row col hrow hcol,
        ← (hloc row col hrow hcol).1]
      exact hi
    rw [y7 row col hrow hcol iLoc j (by rw [hh3]; exact hi) (by rw [y2, x2]; exact hj'), hs3,
      hshift row col hrow hcol]
    obtain ⟨o1, o2, o3, o4⟩ := owner_local g.Height M2.colAlignment
      (Shift row M.colAlignment g.Height + iLoc * g.Height) M.height x6.1.1 hi'
    have hρ : (Shift row M.colAlignment g.Height + iLoc * g.Height + M2.colAlignment) % g.Height
        < g.Height := Nat.mod_lt _ hr
    unfold DistMatrix_MC_Star.entry
    simp only []
    have hs2 := x6.1.2 _ col hρ hcol
    rw [x7 _ col hρ hcol _ j (by
        rw [(x6.2 _ col hρ hcol).1, hs2, x1]; exact o4) (by rw [x2]; exact hj'),
      hs2, o3, DistMatrix_MC_Star.star_entry_at g M hMv.1 row hrow col hcol]
  · intro h
    have e2 : M2.colAlignment = M.colAlignment := x3.trans h
    have e3 : M3.colAlignment = M2.colAlignment := (y3.trans hab).trans e2.symm
    have k2 := (DistMatrix_MC_Star.adopt_MC_Star_spec g T2 M hMv.1
      (DistMatrix_MC_Star.accepts_of_owning g T2 _ _ v2 (fun _ => a2))).2.2.1
    have k3 := (DistMatrix_MC_Star.adopt_MC_Star_spec g T3 M2 x6.1
      (DistMatrix_MC_Star.accepts_of_owning g T3 _ _ v3 (fun _ => a3))).2.2.1
    rw [c2] at k2
    rw [c3] at k3
    simp only [Bool.or_true, if_true] at k2 k3
    refine ⟨?_, ?_, x8 e2, (y8 e3).trans (x8 e2)⟩
    · unfold DistMatrix_MC_Star.calls_MC_Star
      simp only []
      rw [if_pos (k2.trans h)]
    · unfold DistMatrix_MC_Star.calls_MC_Star
      simp only []
      rw [if_pos ((k3.trans hab).trans e2.symm)]

/-- The round trip of the `3×2` example with column alignment `1` on the `2×2` grid through
the alignment `0` of `demoTarget` and back. -/
theorem roundtrip_MC_Star_witness :
    demoStar.Valid ⟨2, 2⟩ ∧
    ∃ M2 M3, demoTarget.assign_MC_Star ⟨2, 2⟩ (fun _ _ _ => 0) demoStar = some M2 ∧
      ({ demoTarget with colAlignment := 1, colShift := fun row _ => Shift row 1 2 } :
          DistMatrix_MC_Star Nat).assign_MC_Star ⟨2, 2⟩ (fun _ _ _ => 0) M2 = some M3 ∧
      M3.colAlignment = 1 :=
  have h : demoStar.Valid ⟨2, 2⟩ :=
    ⟨⟨by decide, fun _ _ _ _ => rfl⟩, fun _ _ _ _ => ⟨rfl, rfl⟩⟩
  ⟨h, by
    obtain ⟨M2, M3, h1, h2, -, h4, -⟩ :=
      roundtrip_MC_Star ⟨2, 2⟩ (fun _ _ _ => 0) (fun _ _ _ => 0) demoStar demoTarget
        { demoTarget with colAlignment := 1, colShift := fun row _ => Shift row 1 2 } h
        ⟨rfl, rfl, by decide, fun _ _ _ _ => rfl⟩
        ⟨rfl, rfl, by decide, fun _ _ _ _ => rfl⟩ rfl
    exact ⟨M2, M3, h1, h2, h4⟩⟩

end RoundTrip

section UnpackRows
variable {T : Type}

/-- The innermost unpack loop of `[MC,* ] = [VC,* ]`: it writes the rows `d + iLocal·c` of
column `j0`. -/
theorem unpackRows_inner (c d j0 : Nat) (hd : d < c) (v : Nat → T) (cnt : Nat) :
    ∀ (lo : Nat) (M : Mat T) (a b : Nat),
      forLoop (fun iLocal (M2 : Mat T) => M2.set (d + iLocal * c) j0 (v iLocal)) cnt lo M a b
        = if b = j0 ∧ a % c = d ∧ lo ≤ a / c ∧ a / c < lo + cnt then v (a / c) else M a b := by
  induction cnt with
  | zero => intro lo M a b; rw [if_neg (by omega)]; rfl
  | succ cnt ih =>
    intro lo M a b
    rw [forLoop, ih, Mat.set_apply]
    by_cases h1 : b = j0 ∧ a % c = d ∧ lo + 1 ≤ a / c ∧ a / c < lo + 1 + cnt
    · rw [if_pos h1, if_pos ⟨h1.1, h1.2.1, by omega, by omega⟩]
    · rw [if_neg h1]
      by_cases h2 : a = d + lo * c ∧ b = j0
      · have h3 := (eq_add_mul_iff a d lo c hd).1 h2.1
        rw [if_pos h2, if_pos ⟨h2.2, h3.1, by omega, by omega⟩, h3.2]
      · rw [if_neg h2]
        have : ¬ (b = j0 ∧ a % c = d ∧ lo ≤ a / c ∧ a / c < lo + (cnt + 1)) := by
          rintro ⟨a1, a2, a3, a4⟩
          by_cases h3 : a / c = lo
          · exact h2 ⟨(eq_add_mul_iff a d lo c hd).2 ⟨a2, h3⟩, a1⟩
          · exact h1 ⟨a1, a2, by omega, by omega⟩
        rw [if_neg this]

/-- The loops over `j` and `iLocal` of block `k`: they write the rows `d + iLocal·c`,
`iLocal < lh`, of the columns they pass. -/
theorem unpackRows_middle (c d lh : Nat) (hd : d < c) (v : Nat → Nat → T) (cnt : Nat) :
    ∀ (lo : Nat) (M : Mat T) (a b : Nat),
      forLoop (fun j (M1 : Mat T) =>
          forRange 0 lh (fun iLocal (M2 : Mat T) => M2.set (d + iLocal * c) j (v iLocal j)) M1)
        cnt lo M a b
        = if (lo ≤ b ∧ b < lo + cnt) ∧ a % c = d ∧ a / c < lh then v (a / c) b else M a b := by
  induction cnt with
  | zero => intro lo M a b; rw [if_neg (by omega)]; rfl
  | succ cnt ih =>
    intro lo M a b
    rw [forLoop, ih, forRange, unpackRows_inner c d lo hd (fun iLocal => v iLocal lo)]
    by_cases h1 : (lo + 1 ≤ b ∧ b < lo + 1 + cnt) ∧ a % c = d ∧ a / c < lh
    · rw [if_pos h1, if_pos ⟨by omega, h1.2⟩]
    · rw [if_neg h1]
      by_cases h2 : b = lo ∧ a % c = d ∧ 0 ≤ a / c ∧ a / c < 0 + (lh - 0)
      · rw [if_pos h2, if_pos ⟨by omega, h2.2.1, by omega⟩, h2.1]
      · rw [if_neg h2]
        have : ¬ ((lo ≤ b ∧ b < lo + (cnt + 1)) ∧ a % c = d ∧ a / c < lh) := by
          rintro ⟨a1, a2, a3⟩
          by_cases h3 : b = lo
          · exact h2 ⟨h3, a2, Nat.zero_le _, by omega⟩
          · exact h1 ⟨by omega, a2, a3⟩
        rw [if_neg this]

/-- The blocks that do not own the local row leave it as it is. -/
theorem unpackRows_keep (c width : Nat) (d lh : Nat → Nat) (v : Nat → Nat → Nat → T)
    (a b : Nat) (cnt : Nat) :
    ∀ (lo : Nat) (M : Mat T), lo + cnt ≤ c → (∀ k, k < c → d k < c) →
      (∀ k, lo ≤ k → k < lo + cnt → d k ≠ a % c) →
      forLoop (fun k (M : Mat T) =>
          forRange 0 width (fun j (M1 : Mat T) =>
            forRange 0 (lh k)
              (fun iLocal (M2 : Mat T) => M2.set (d k + iLocal * c) j (v k iLocal j)) M1) M)
        cnt lo M a b = M a b := by
  induction cnt with
  | zero => intro lo M _ _ _; rfl
  | succ cnt ih =>
    intro lo M hlo hd hne
    rw [forLoop, ih (lo + 1) _ (by omega) hd (fun k h1 h2 => hne k (by omega) (by omega)),
      forRange, unpackRows_middle c (d lo) (lh lo) (hd lo (by omega)) (v lo),
      if_neg (fun h => hne lo (le_refl _) (by omega) h.2.1.symm)]

/-- The unpack loop of `[MC,* ] = [VC,* ]` writes the local row `d k + iLocal·c` from
block `k`, when the offsets `d k` of the blocks are below `c` and distinct. -/
theorem unpackRows_get (c width : Nat) (d lh : Nat → Nat) (v : Nat → Nat → Nat → T)
    (hd : ∀ k, k < c → d k < c) (hinj : ∀ k k', k < c → k' < c → d k = d k' → k = k')
    (k0 a b : Nat) (ha : a % c = d k0) (hl : a / c < lh k0) (hb : b < width) (cnt : Nat) :
    ∀ (lo : Nat) (M : Mat T), lo + cnt ≤ c → lo ≤ k0 → k0 < lo + cnt →
      forLoop (fun k (M : Mat T) =>
          forRange 0 width (fun j (M1 : Mat T) =>
            forRange 0 (lh k)
              (fun iLocal (M2 : Mat T) => M2.set (d k + iLocal * c) j (v k iLocal j)) M1) M)
        cnt lo M a b = v k0 (a / c) b := by
  induction cnt with
  | zero => intro lo M _ h1 h2; omega
  | succ cnt ih =>
    intro lo M hlo h1 h2
    rw [forLoop]
    by_cases hk : k0 = lo
    · subst hk
      rw [unpackRows_keep c width d lh v a b cnt (k0 + 1) _ (by omega) hd
          (fun k h3 h4 h5 => by
            have := hinj k k0 (by omega) (by omega) (h5.trans ha)
            omega),
        forRange, unpackRows_middle c (d k0) (lh k0) (hd k0 (by omega)) (v k0),
        if_pos ⟨⟨Nat.zero_le _, by omega⟩, ha, hl⟩]
    · exact ih (lo + 1) _ (by omega) (by omega) (by omega)

end UnpackRows

section VectorShift

/-- The shift of a rank is taken by no other rank. -/
theorem Shift_injective (x y a m : Nat) (hx : x < m) (hy : y < m) (ha : a < m)
    (h : Shift x a m = Shift y a m) : x = y := by
  have h1 := Shift_owner x a m 0 hx ha
  have h2 := Shift_owner y a m 0 hy ha
  rw [h] at h1
  exact h1.symm.trans h2

theorem vcRank_lt (r c row k : Nat) (hrow : row < r) (hk : k < c) : row + r * k < r * c := by
  have : r * (k + 1) ≤ r * c := Nat.mul_le_mul_left _ (by omega)
  rw [Nat.mul_add, Nat.mul_one] at this
  omega

/-- The `[VC,*]` shift of the process `(row, k)` is congruent modulo `r` to the `[MC,*]`
shift of its grid row. -/
theorem vc_shift_mod (r c row k al : Nat) (hr : 0 < r) (hal : al < r * c) :
    Shift (row + r * k) al (r * c) % r = Shift row (al % r) r := by
  unfold Shift
  rw [Nat.mod_mod_of_dvd _ (Dvd.intro c rfl)]
  have hlt : al % r < r := Nat.mod_lt _ hr
  have h1 : (row + r * k + r * c - al) + al ≡ (row + r - al % r) + al [MOD r] := by
    have e1 : (row + r * k + r * c - al) + al = row + r * (k + c) := by
      rw [Nat.mul_add]; omega
    have e2 : (row + r - al % r) + al = row + r * (1 + al / r) := by
      have := Nat.mod_add_div al r
      rw [Nat.mul_add, Nat.mul_one]; omega
    rw [e1, e2]
    unfold Nat.ModEq
    rw [Nat.add_mul_mod_self_left, Nat.add_mul_mod_self_left]
  exact Nat.ModEq.add_right_cancel' al h1

/-- The offset `colShiftOfA − colShift` of block `k` is a non-negative multiple of `r`,
and the quotient `colOffset` is below `c`. -/
theorem vc_offset (r c row k al : Nat) (hr : 0 < r) (hal : al < r * c) :
    Shift row (al % r) r ≤ Shift (row + r * k) al (r * c) ∧
    r ∣ Shift (row + r * k) al (r * c) - Shift row (al % r) r ∧
    Shift (row + r * k) al (r * c)
      = Shift row (al % r) r
        + (Shift (row + r * k) al (r * c) - Shift row (al % r) r) / r * r ∧
    (Shift (row + r * k) al (r * c) - Shift row (al % r) r) / r < c := by
  have hp : 0 < r * c := by omega
  have hmod := vc_shift_mod r c row k al hr hal
  have hs : Shift (row + r * k) al (r * c) < r * c := Shift_lt _ _ _ hp
  have hdm := Nat.mod_add_div (Shift (row + r * k) al (r * c)) r
  rw [hmod] at hdm
  have hsub : Shift (row + r * k) al (r * c) - Shift row (al % r) r
      = r * (Shift (row + r * k) al (r * c) / r) := by omega
  rw [hsub, Nat.mul_div_cancel_left _ hr]
  refine ⟨by omega, Dvd.intro _ rfl, ?_, Nat.div_lt_of_lt_mul hs⟩
  rw [Nat.mul_comm (Shift (row + r * k) al (r * c) / r) r]; exact hdm.symm

/-- Distinct blocks have distinct offsets. -/
theorem vc_offset_injective (r c row k k' al : Nat) (hr : 0 < r) (hk : k < c) (hk' : k' < c)
    (hrow : row < r) (hal : al < r * c)
    (h : (Shift (row + r * k) al (r * c) - Shift row (al % r) r) / r
      = (Shift (row + r * k') al (r * c) - Shift row (al % r) r) / r) : k = k' := by
  obtain ⟨-, -, e1, -⟩ := vc_offset r c row k al hr hal
  obtain ⟨-, -, e2, -⟩ := vc_offset r c row k' al hr hal
  have hs : Shift (row + r * k) al (r * c) = Shift (row + r * k') al (r * c) := by
    rw [e1, e2, h]
  have := Shift_injective _ _ al (r * c) (vcRank_lt r c row k hrow hk)
    (vcRank_lt r c row k' hrow hk') hal hs
  have h3 : r * k = r * k' := by omega
  exact Nat.eq_of_mul_eq_mul_left hr h3

/-- The owner of global row `i = colShift + iLoc·r` among the processes of a `[VC,*]`
matrix with alignment `al` lies in grid row `row`; `iLoc` is its block offset plus `c`
times the local row of `i` on the owner. -/
theorem vc_owner (r c row al iLoc : Nat) (hr : 0 < r) (hc : 0 < c) (hrow : row < r)
    (hal : al < r * c) :
    let i := Shift row (al % r) r + iLoc * r
    let v := (i + al) % (r * c)
    v % r = row ∧ v / r < c ∧ v = row + r * (v / r) ∧
    Shift v al (r * c) = i % (r * c) ∧
    iLoc % c = (Shift (row + r * (v / r)) al (r * c) - Shift row (al % r) r) / r ∧
    iLoc / c = i / (r * c) := by
  intro i v
  have hp : 0 < r * c := Nat.mul_pos hr hc
  have hv : v < r * c := Nat.mod_lt _ hp
  have hvr : v % r = row := by
    show (i + al) % (r * c) % r = row
    rw [Nat.mod_mod_of_dvd _ (Dvd.intro c rfl)]
    have h1 : (i + al) % r = (i + al % r) % r := by
      rw [Nat.add_mod i al r, Nat.add_mod i (al % r) r, Nat.mod_mod]
    rw [h1]
    exact Shift_owner row (al % r) r iLoc hrow (Nat.mod_lt _ hr)
  have hvd : v / r < c := Nat.div_lt_of_lt_mul hv
  have hveq : v = row + r * (v / r) := by
    have := Nat.mod_add_div v r
    rw [hvr] at this
    exact this.symm
  have hsh : Shift v al (r * c) = i % (r * c) := Shift_of_owner i al (r * c) hp hal
  obtain ⟨-, -, e1, e2⟩ := vc_offset r c row (v / r) al hr hal
  rw [← hveq, hsh] at e1 e2
  obtain ⟨d, hd⟩ : ∃ d, d = (i % (r * c) - Shift row (al % r) r) / r := ⟨_, rfl⟩
  rw [← hd] at e1 e2
  have hi := Nat.mod_add_div i (r * c)
  have hrow_eq : iLoc * r = (d + i / (r * c) * c) * r := by
    have h3 : r * c * (i / (r * c)) = i / (r * c) * c * r := by ring
    have h4 : i = Shift row (al % r) r + iLoc * r := rfl
    rw [Nat.add_mul]
    omega
  have hiLoc : iLoc = d + i / (r * c) * c := Nat.eq_of_mul_eq_mul_right hr hrow_eq
  have h5 : iLoc % c = (Shift (row + r * (v / r)) al (r * c) - Shift row (al % r) r) / r := by
    rw [← hveq, hsh, ← hd, hiLoc]; exact add_mul_mod_self d _ c e2
  have h6 : iLoc / c = i / (r * c) := by
    rw [hiLoc]; exact add_mul_div_self d _ c e2
  exact ⟨hvr, hvd, hveq, hsh, h5, h6⟩

end VectorShift

section VectorUnpack
variable {T : Type}

/-- The unpack loop of `[MC,* ] = [VC,* ]` on a process of grid row `row`: when block `k`
of the gathered data holds the packed tile `tiles k` of the rows with shift
`Shift (row + r·k) al p`, the local row `iLoc` of the destination receives the global row
`colShift + iLoc·r` from the block of its owner. -/
theorem unpackRows_block (r c height width row al ps : Nat) (hr : 0 < r) (hc : 0 < c)
    (hrow : row < r) (hal : al < r * c) (hps : MaxLocalLength height (r * c) * width ≤ ps)
    (G : Nat → T) (tiles : Nat → Mat T) (bufs : Nat → Nat → T)
    (hG : ∀ k, k < c → ∀ t, t < ps →
      G (k * ps + t)
        = packColumns (LocalLength height (Shift (row + r * k) al (r * c)) (r * c)) width
            (tiles k) (bufs k) t)
    (M : Mat T) (iLoc j : Nat) (hj : j < width)
    (hi : Shift row (al % r) r + iLoc * r < height) :
    unpackRows r c height width (Shift row (al % r) r) row al ps G M iLoc j
      = tiles ((Shift row (al % r) r + iLoc * r + al) % (r * c) / r)
          ((Shift row (al % r) r + iLoc * r) / (r * c)) j := by
  have hp : 0 < r * c := Nat.mul_pos hr hc
  obtain ⟨-, h2, h3, h4, h5, h6⟩ := vc_owner r c row al iLoc hr hc hrow hal
  obtain ⟨i, hidef⟩ : ∃ i, i = Shift row (al % r) r + iLoc * r := ⟨_, rfl⟩
  rw [← hidef] at h2 h3 h4 h5 h6 hi ⊢
  obtain ⟨k0, hk0⟩ : ∃ k0, k0 = (i + al) % (r * c) / r := ⟨_, rfl⟩
  rw [← hk0] at h2 h3 h5 ⊢
  have hsh : Shift (row + r * k0) al (r * c) = i % (r * c) := by rw [← h3]; exact h4
  have hlh : iLoc / c < LocalLength height (Shift (row + r * k0) al (r * c)) (r * c) := by
    rw [lt_LocalLength_iff _ _ _ _ hp, hsh, h6, Nat.mul_comm (i / (r * c)) (r * c),
      Nat.mod_add_div]
    exact hi
  have hget := unpackRows_get c width
    (fun k => (RawShift (row + r * k) al (r * c) - Shift row (al % r) r) / r)
    (fun k => RawLocalLength height (RawShift (row + r * k) al (r * c)) (r * c))
    (fun k iLocal j => G (k * ps + (iLocal + j *
      RawLocalLength height (RawShift (row + r * k) al (r * c)) (r * c))))
    (fun k _ => (vc_offset r c row k al hr hal).2.2.2)
    (fun k k' hk hk' h => vc_offset_injective r c row k k' al hr hk hk' hrow hal h)
    k0 iLoc j h5 hlh hj (c - 0) 0 M (by omega) (Nat.zero_le _) (by omega)
  unfold unpackRows forRange
  refine hget.trans ?_
  simp only [RawLocalLength_eq, RawShift_eq_Shift]
  have hbound : j * LocalLength height (Shift (row + r * k0) al (r * c)) (r * c) + iLoc / c
      < ps := by
    have h7 := portion_bound j _ (iLoc / c) width width
      (LocalLength height (Shift (row + r * k0) al (r * c)) (r * c) * width) hj (le_refl _) hlh
      (le_refl _)
    have h8 : LocalLength height (Shift (row + r * k0) al (r * c)) (r * c) * width
        ≤ MaxLocalLength height (r * c) * width :=
      Nat.mul_le_mul_right _ (LocalLength_le_Max _ _ _)
    omega
  rw [Nat.add_comm (iLoc / c), hG k0 h2 _ hbound, packColumns_get _ _ _ _ _ _ hj hlh, h6]

end VectorUnpack

section AssignVector
variable {T : Type}

/-- The header of `[MC,* ] = [VC,* ]`. -/
theorem DistMatrix_MC_Star.adopt_VC_Star_spec (g : Grid) (self : DistMatrix_MC_Star T)
    (A : AbstractDistMatrix T) (hr : 0 < g.Height)
    (hacc : self.Accepts g A.height A.width) :
    (self.adopt_VC_Star g A).height = A.height ∧ (self.adopt_VC_Star g A).width = A.width ∧
    (self.adopt_VC_Star g A).colAlignment
      = (if self.viewing || self.constrainedColAlignment then self.colAlignment
          else A.colAlignment % g.Height) ∧
    (self.adopt_VC_Star g A).viewing = self.viewing ∧
    (self.adopt_VC_Star g A).lockedView = self.lockedView ∧
    (self.adopt_VC_Star g A).constrainedColAlignment = self.constrainedColAlignment ∧
    (self.adopt_VC_Star g A).Valid g := by
  obtain ⟨hself, hview⟩ := hacc
  unfold DistMatrix_MC_Star.adopt_VC_Star
  cases hv : self.viewing with
  | true =>
    obtain ⟨h1, h2, h3⟩ := hview hv
    simp only [if_true, Bool.true_or]
    refine ⟨h2, h3, ?_, ?_, ?_, ?_, h1⟩ <;> trivial
  | false =>
    simp only [Bool.false_eq_true, if_false, Bool.false_or]
    cases hcon : self.constrainedColAlignment with
    | true =>
      obtain ⟨h1, h2⟩ := hself hcon
      simp only [if_true, DistMatrix_MC_Star.ResizeTo]
      refine ⟨?_, ?_, ?_, ?_, ?_, ?_, ⟨h1, h2⟩, fun row col _ _ => ⟨rfl, rfl⟩⟩ <;>
        trivial
    | false =>
      simp only [Bool.false_eq_true, if_false, DistMatrix_MC_Star.ResizeTo]
      refine ⟨?_, ?_, ?_, ?_, ?_, ?_, ⟨Nat.mod_lt _ hr, fun row col _ _ => rfl⟩,
        fun row col _ _ => ⟨rfl, rfl⟩⟩ <;> trivial

/-- The global entry of a valid `[VC,*]` matrix, read on its owner. -/
theorem AbstractDistMatrix.entry_VC_Star_at (g : Grid) (A : AbstractDistMatrix T)
    (hA : A.Valid_VC_Star g) (i j : Nat) :
    A.entry_VC_Star g i j
      = A.localMatrix ((i + A.colAlignment) % (g.Height * g.Width) % g.Height)
          ((i + A.colAlignment) % (g.Height * g.Width) / g.Height)
          (i / (g.Height * g.Width)) j := by
  obtain ⟨ha, hloc⟩ := hA
  have hp : 0 < g.Height * g.Width := by omega
  have hr : 0 < g.Height := Nat.pos_of_mul_pos_right hp
  have hv : (i + A.colAlignment) % (g.Height * g.Width) < g.Height * g.Width :=
    Nat.mod_lt _ hp
  unfold AbstractDistMatrix.entry_VC_Star
  simp only []
  rw [(hloc _ _ (Nat.mod_lt _ hr) (Nat.div_lt_of_lt_mul hv)).1]
  unfold Grid.VCRank
  rw [Nat.mod_add_div, Shift_of_owner i _ _ hp ha]
  have := Nat.mod_add_div i (g.Height * g.Width)
  have e : i - i % (g.Height * g.Width) = g.Height * g.Width * (i / (g.Height * g.Width)) := by
    omega
  rw [e, Nat.mul_div_cancel_left _ hp]

/-- The assignment `[MC,*] = [VC,*]` completes on an accepted destination, leaves a matrix
that satisfies its invariants, and fills every local tile with the global entries of the
source that the process owns. -/
theorem assign_VC_Star_local (g : Grid) (MIN_COLL_MSG : Nat) (aux : Nat → Nat → Nat → T)
    (self : DistMatrix_MC_Star T) (A : AbstractDistMatrix T) (hA : A.Valid_VC_Star g)
    (hacc : self.Accepts g A.height A.width) :
    ∃ M, self.assign_VC_Star g MIN_COLL_MSG aux A = some M ∧
      M.height = A.height ∧ M.width = A.width ∧
      M.colAlignment
        = (if self.viewing || self.constrainedColAlignment then self.colAlignment
            else A.colAlignment % g.Height) ∧
      M.viewing = self.viewing ∧ M.constrainedColAlignment = self.constrainedColAlignment ∧
      M.Valid g ∧
      ∀ row col, row < g.Height → col < g.Width →
        ∀ iLoc j, iLoc < M.localHeight row col → j < M.width →
          M.localMatrix row col iLoc j
            = A.entry_VC_Star g (M.colShift row col + iLoc * g.Height) j := by
  have hAv := hA
  obtain ⟨haA, hAloc⟩ := hA
  have hp : 0 < g.Height * g.Width := by omega
  have hr : 0 < g.Height := Nat.pos_of_mul_pos_right hp
  have hc : 0 < g.Width := Nat.pos_of_mul_pos_left hp
  obtain ⟨e1, e2, e3, e4, -, e6, ⟨e7, e8⟩, e9⟩ :=
    DistMatrix_MC_Star.adopt_VC_Star_spec g self A hr hacc
  obtain ⟨M0, hM0⟩ : ∃ M0, M0 = self.adopt_VC_Star g A := ⟨_, rfl⟩
  rw [← hM0] at e1 e2 e3 e4 e6 e7 e8 e9
  unfold DistMatrix_MC_Star.assign_VC_Star
  simp only []
  rw [← hM0]
  have hps : MaxLocalLength M0.height (g.Height * g.Width) * M0.width
      ≤ max (MaxLocalLength M0.height (g.Height * g.Width) * M0.width) MIN_COLL_MSG :=
    Nat.le_max_left _ _
  have hAh : ∀ ρ κ, ρ < g.Height → κ < g.Width →
      A.localHeight ρ κ = LocalLength M0.height
        (Shift (ρ + g.Height * κ) A.colAlignment (g.Height * g.Width)) (g.Height * g.Width) := by
    intro ρ κ h1 h2
    rw [(hAloc ρ κ h1 h2).2.1, (hAloc ρ κ h1 h2).1, e1]
    rfl
  have hrows : ∀ row col, row < g.Height → col < g.Width → ∀ iLoc,
      iLoc < M0.localHeight row col →
        Shift row M0.colAlignment g.Height + iLoc * g.Height < M0.height := by
    intro row col hrow hcol iLoc hi
    rw [(e9 row col hrow hcol).1, e8 row col hrow hcol, lt_LocalLength_iff _ _ _ _ hr] at hi
    exact hi
  by_cases hal : M0.colAlignment = A.colAlignment % g.Height
  · rw [if_pos hal]
    refine ⟨_, rfl, e1, e2, e3, e4, e6, ⟨⟨e7, e8⟩, e9⟩,
      fun row col hrow hcol iLoc j hi hj => ?_⟩
    simp only [] at hi hj ⊢
    have hi' := hrows row col hrow hcol iLoc hi
    rw [hal] at hi'
    rw [e8 row col hrow hcol, hal,
      unpackRows_block g.Height g.Width M0.height M0.width row A.colAlignment _ hr hc hrow haA
        hps _ (fun k => A.localMatrix row k) (fun k => aux row k)
        (fun k hk t ht => by
          rw [AllGather_get _ _ _ _ _ _ hk ht, hAh row k hrow hk, e2])
        _ iLoc j hj hi',
      AbstractDistMatrix.entry_VC_Star_at g A hAv]
    obtain ⟨h1, -⟩ := vc_owner g.Height g.Width row A.colAlignment iLoc hr hc hrow haA
    rw [h1]
  · rw [if_neg hal]
    have haM : M0.colAlignment < g.Height * g.Width :=
      lt_of_lt_of_le e7 (Nat.le_mul_of_pos_right _ hc)
    have hmod : M0.colAlignment % g.Height = M0.colAlignment := Nat.mod_eq_of_lt e7
    rw [if_pos (sendRecvMatches_rotation (g.Height * g.Width) M0.colAlignment A.colAlignment
      haM haA)]
    refine ⟨_, rfl, e1, e2, e3, e4, e6, ⟨⟨e7, e8⟩, e9⟩,
      fun row col hrow hcol iLoc j hi hj => ?_⟩
    simp only [] at hi hj ⊢
    have hi' := hrows row col hrow hcol iLoc hi
    -- the process whose tile arrives in block `k`, and the shift of that tile
    have hsrc : ∀ k, k < g.Width →
        (row + g.Height * k + g.Height * g.Width + A.colAlignment - M0.colAlignment)
            % (g.Height * g.Width) < g.Height * g.Width ∧
        Shift ((row + g.Height * k + g.Height * g.Width + A.colAlignment - M0.colAlignment)
            % (g.Height * g.Width)) A.colAlignment (g.Height * g.Width)
          = Shift (row + g.Height * k) M0.colAlignment (g.Height * g.Width) :=
      fun k hk =>
        ⟨(rotation_partner _ _ _ _ (vcRank_lt _ _ row k hrow hk) haM haA).1,
          (rotation_partner _ _ _ _ (vcRank_lt _ _ row k hrow hk) haM haA).2.1⟩
    have hblock := unpackRows_block g.Height g.Width M0.height M0.width row M0.colAlignment
      (max (MaxLocalLength M0.height (g.Height * g.Width) * M0.width) MIN_COLL_MSG)
      hr hc hrow haM hps
      (AllGather
        (fun k => SendRecv
          (packColumns
            (A.localHeight
              ((g.VCRank row k + g.Height * g.Width + A.colAlignment - M0.colAlignment)
                % (g.Height * g.Width) % g.Height)
              ((g.VCRank row k + g.Height * g.Width + A.colAlignment - M0.colAlignment)
                % (g.Height * g.Width) / g.Height))
            M0.width
            (A.localMatrix
              ((g.VCRank row k + g.Height * g.Width + A.colAlignment - M0.colAlignment)
                % (g.Height * g.Width) % g.Height)
              ((g.VCRank row k + g.Height * g.Width + A.colAlignment - M0.colAlignment)
                % (g.Height * g.Width) / g.Height))
            (fun t => aux
              ((g.VCRank row k + g.Height * g.Width + A.colAlignment - M0.colAlignment)
                % (g.Height * g.Width) % g.Height)
              ((g.VCRank row k + g.Height * g.Width + A.colAlignment - M0.colAlignment)
                % (g.Height * g.Width) / g.Height)
              (max (MaxLocalLength M0.height (g.Height * g.Width) * M0.width) MIN_COLL_MSG
                + t)))
          (max (MaxLocalLength M0.height (g.Height * g.Width) * M0.width) MIN_COLL_MSG)
          (aux row k))
        (max (MaxLocalLength M0.height (g.Height * g.Width) * M0.width) MIN_COLL_MSG)
        g.Width
        (packColumns (A.localHeight row col) M0.width (A.localMatrix row col)
          (fun t => aux row col
            (max (MaxLocalLength M0.height (g.Height * g.Width) * M0.width) MIN_COLL_MSG
              + t))))
      (fun k => A.localMatrix
        ((row + g.Height * k + g.Height * g.Width + A.colAlignment - M0.colAlignment)
          % (g.Height * g.Width) % g.Height)
        ((row + g.Height * k + g.Height * g.Width + A.colAlignment - M0.colAlignment)
          % (g.Height * g.Width) / g.Height))
      (fun k t => aux
        ((row + g.Height * k + g.Height * g.Width + A.colAlignment - M0.colAlignment)
          % (g.Height * g.Width) % g.Height)
        ((row + g.Height * k + g.Height * g.Width + A.colAlignment - M0.colAlignment)
          % (g.Height * g.Width) / g.Height)
        (max (MaxLocalLength M0.height (g.Height * g.Width) * M0.width) MIN_COLL_MSG + t))
      (fun k hk t ht => by
        obtain ⟨s1, s2⟩ := hsrc k hk
        rw [AllGather_get _ _ _ _ _ _ hk ht]
        simp only [SendRecv, if_pos ht, Grid.VCRank]
        rw [hAh _ _ (Nat.mod_lt _ hr) (Nat.div_lt_of_lt_mul s1), Nat.mod_add_div, s2])
      (M0.localMatrix row col) iLoc j hj (by rw [hmod]; exact hi')
    rw [hmod] at hblock
    rw [e8 row col hrow hcol, hblock, AbstractDistMatrix.entry_VC_Star_at g A hAv]
    -- the owner of the row in the source is the process that sent the block
    obtain ⟨-, o2, o3, o4, -, -⟩ :=
      vc_owner g.Height g.Width row M0.colAlignment iLoc hr hc hrow haM
    rw [hmod] at o2 o3 o4
    obtain ⟨s1, s2⟩ := hsrc _ o2
    rw [← o3] at s1 s2
    have hown := (Shift_eq_iff _ (Shift row M0.colAlignment g.Height + iLoc * g.Height)
      A.colAlignment (g.Height * g.Width) s1 haA).1 (s2.trans o4)
    simp only []
    rw [← o3, hown]

end AssignVector

section VectorFaithful
variable {T : Type}

/-- The rows `colOffset + iLocal·c` that the unpack loop of `[MC,* ] = [VC,* ]` writes on a
process of grid row `row` are inside the local tile, and every local row of the tile is
written from exactly one block `k` and one `iLocal`. -/
theorem vc_cover (r c row al height : Nat) (hr : 0 < r) (hc : 0 < c) (hrow : row < r)
    (hal : al < r * c) :
    (∀ k, k < c → ∀ iLocal,
      iLocal < LocalLength height (Shift (row + r * k) al (r * c)) (r * c) ↔
        (Shift (row + r * k) al (r * c) - Shift row (al % r) r) / r + iLocal * c
          < LocalLength height (Shift row (al % r) r) r) ∧
    (∀ iLoc, iLoc < LocalLength height (Shift row (al % r) r) r →
      ∃! kl : Nat × Nat, kl.1 < c ∧
        kl.2 < LocalLength height (Shift (row + r * kl.1) al (r * c)) (r * c) ∧
        (Shift (row + r * kl.1) al (r * c) - Shift row (al % r) r) / r + kl.2 * c = iLoc) := by
  have hp : 0 < r * c := Nat.mul_pos hr hc
  have hcov : ∀ k, k < c → ∀ iLocal,
      iLocal < LocalLength height (Shift (row + r * k) al (r * c)) (r * c) ↔
        (Shift (row + r * k) al (r * c) - Shift row (al % r) r) / r + iLocal * c
          < LocalLength height (Shift row (al % r) r) r := by
    intro k _ iLocal
    obtain ⟨-, -, e1, -⟩ := vc_offset r c row k al hr hal
    rw [lt_LocalLength_iff _ _ _ _ hp, lt_LocalLength_iff _ _ _ _ hr]
    have e2 : Shift row (al % r) r
        + ((Shift (row + r * k) al (r * c) - Shift row (al % r) r) / r + iLocal * c) * r
        = Shift (row + r * k) al (r * c) + iLocal * (r * c) := by
      have e3 : iLocal * c * r = iLocal * (r * c) := by ring
      rw [Nat.add_mul, e3]
      omega
    rw [e2]
  refine ⟨hcov, fun iLoc hi => ?_⟩
  obtain ⟨-, o2, -, -, o5, -⟩ := vc_owner r c row al iLoc hr hc hrow hal
  obtain ⟨k0, hk0⟩ : ∃ k0, k0 = (Shift row (al % r) r + iLoc * r + al) % (r * c) / r :=
    ⟨_, rfl⟩
  rw [← hk0] at o2 o5
  have hsum : (Shift (row + r * k0) al (r * c) - Shift row (al % r) r) / r + iLoc / c * c
      = iLoc := by
    rw [← o5, Nat.mul_comm]; exact Nat.mod_add_div iLoc c
  refine ⟨(k0, iLoc / c), ⟨o2, ?_, hsum⟩, ?_⟩
  · show iLoc / c < LocalLength height (Shift (row + r * k0) al (r * c)) (r * c)
    rw [hcov k0 o2, hsum]; exact hi
  · rintro ⟨k, iLocal⟩ ⟨h1, -, h3⟩
    simp only [] at h1 h3
    have hd := (vc_offset r c row k al hr hal).2.2.2
    obtain ⟨h4, h5⟩ := (eq_add_mul_iff iLoc _ iLocal c hd).1 h3.symm
    have hk : k = k0 :=
      vc_offset_injective r c row k k0 al hr h1 o2 hrow hal (h4.symm.trans o5)
    rw [hk, h5]

/-- C12: the redistribution `[MC,*] = [VC,*]` is faithful in both branches.  On every
`r×c` grid, for every source satisfying its invariants (alignment in `[0, p)`) and every
owning destination (adopting the alignment of the source or constrained to one in
`[0, r)`), the assignment completes and each process's local entry `(iLoc, j)` equals the
global entry `(colShift + iLoc·r, j)` of the source; with `al` the alignment the unpack
loop of the branch taken passes to `RawShift`, for every block `k < c` the offset
`colShiftOfA − colShift` is a non-negative multiple of `r`, the rows
`colOffset + iLocal·c` written lie inside `[0, localHeight)`, and each row of
`[0, localHeight)` is written exactly once. -/
theorem assign_VC_Star_faithful (g : Grid) (MIN_COLL_MSG : Nat) (aux : Nat → Nat → Nat → T)
    (self : DistMatrix_MC_Star T) (A : AbstractDistMatrix T) (hA : A.Valid_VC_Star g)
    (hview : self.viewing = false)
    (hself : self.constrainedColAlignment = true → self.Aligned g) :
    ∃ M al, self.assign_VC_Star g MIN_COLL_MSG aux A = some M ∧
      M.height = A.height ∧ M.width = A.width ∧
      M.colAlignment
        = (if self.constrainedColAlignment then self.colAlignment
            else A.colAlignment % g.Height) ∧
      al = (if M.colAlignment = A.colAlignment % g.Height then A.colAlignment
            else M.colAlignment) ∧
      ∀ row col, row < g.Height → col < g.Width →
        M.colShift row col = Shift row M.colAlignment g.Height ∧
        M.localHeight row col = LocalLength A.height (M.colShift row col) g.Height ∧
        (∀ iLoc j, iLoc < M.localHeight row col → j < M.width →
          M.localMatrix row col iLoc j
            = A.entry_VC_Star g (M.colShift row col + iLoc * g.Height) j) ∧
        (∀ k, k < g.Width →
          M.colShift row col ≤ RawShift (row + g.Height * k) al (g.Height * g.Width) ∧
          g.Height ∣ RawShift (row + g.Height * k) al (g.Height * g.Width) - M.colShift row col ∧
          ∀ iLocal,
            iLocal < RawLocalLength M.height
                (RawShift (row + g.Height * k) al (g.Height * g.Width)) (g.Height * g.Width) →
              (RawShift (row + g.Height * k) al (g.Height * g.Width) - M.colShift row col)
                  / g.Height + iLocal * g.Width < M.localHeight row col) ∧
        (∀ iLoc, iLoc < M.localHeight row col →
          ∃! kl : Nat × Nat, kl.1 < g.Width ∧
            kl.2 < RawLocalLength M.height
              (RawShift (row + g.Height * kl.1) al (g.Height * g.Width))
              (g.Height * g.Width) ∧
            (RawShift (row + g.Height * kl.1) al (g.Height * g.Width) - M.colShift row col)
                / g.Height + kl.2 * g.Width = iLoc) := by
  obtain ⟨M, h1, h2, h3, h4, -, -, h7, h8⟩ :=
    assign_VC_Star_local g MIN_COLL_MSG aux self A hA
      (DistMatrix_MC_Star.accepts_of_owning g self _ _ hview hself)
  rw [hview, Bool.false_or] at h4
  have hp : 0 < g.Height * g.Width := by have := hA.1; omega
  have hr : 0 < g.Height := Nat.pos_of_mul_pos_right hp
  have hc : 0 < g.Width := Nat.pos_of_mul_pos_left hp
  obtain ⟨⟨ha, hshift⟩, hloc⟩ := h7
  obtain ⟨al, hal⟩ : ∃ al, al = (if M.colAlignment = A.colAlignment % g.Height
      then A.colAlignment else M.colAlignment) := ⟨_, rfl⟩
  have hal1 : al < g.Height * g.Width := by
    rw [hal]; split_ifs
    · exact hA.1
    · exact lt_of_lt_of_le ha (Nat.le_mul_of_pos_right _ hc)
  have hal2 : al % g.Height = M.colAlignment := by
    rw [hal]; split_ifs with h
    · exact h.symm
    · exact Nat.mod_eq_of_lt ha
  refine ⟨M, al, h1, h2, h3, h4, hal, fun row col hrow hcol => ?_⟩
  have hs := hshift row col hrow hcol
  have hh := (hloc row col hrow hcol).1
  obtain ⟨c1, c2⟩ := vc_cover g.Height g.Width row al M.height hr hc hrow hal1
  rw [hal2, ← hs, ← hh] at c1 c2
  refine ⟨hs, by rw [hh, h2], h8 row col hrow hcol, fun k hk => ?_, c2⟩
  obtain ⟨o1, o2, -, -⟩ := vc_offset g.Height g.Width row k al hr hal1
  rw [hal2, ← hs] at o1 o2
  exact ⟨o1, o2, fun iLocal hi => (c1 k hk iLocal).1 hi⟩

/-- The `5×2` `[VC,*]` example with column alignment `3` on the `2×2` grid, assigned to the
destination constrained to column alignment `0`: the unaligned branch. -/
theorem assign_VC_Star_faithful_witness :
    demoVector.Valid_VC_Star ⟨2, 2⟩ ∧ demoTarget.viewing = false ∧
    ∃ M, demoTarget.assign_VC_Star ⟨2, 2⟩ 0 (fun _ _ _ => 0) demoVector = some M ∧
      M.colAlignment = 0 ∧ M.height = 5 :=
  have h : demoVector.Valid_VC_Star ⟨2, 2⟩ :=
    ⟨by decide, fun _ _ _ _ => ⟨rfl, rfl, rfl⟩⟩
  ⟨h, rfl, by
    obtain ⟨M, -, h1, h2, -, h4, -⟩ :=
      assign_VC_Star_faithful ⟨2, 2⟩ 0 (fun _ _ _ => 0) demoTarget demoVector h rfl
        (fun _ => ⟨by decide, fun _ _ _ _ => rfl⟩)
    exact ⟨M, h1, h4, h2⟩⟩

end VectorFaithful

section Adoption
variable {T : Type}

/-- The header of `[MC,* ] = [MC,MR]` on an accepted destination. -/
theorem DistMatrix_MC_Star.adopt_accepts (g : Grid) (self : DistMatrix_MC_Star T)
    (A : DistMatrix_MC_MR T) (haC : A.colAlignment < g.Height)
    (hacc : self.Accepts g A.height A.width) :
    (self.adopt g A).height = A.height ∧ (self.adopt g A).width = A.width ∧
    (self.adopt g A).colAlignment
      = (if self.viewing || self.constrainedColAlignment then self.colAlignment
          else A.colAlignment) ∧
    (self.adopt g A).constrainedColAlignment = self.constrainedColAlignment ∧
    (self.adopt g A).Aligned g := by
  obtain ⟨hself, hview⟩ := hacc
  cases hv : self.viewing with
  | true =>
    obtain ⟨h1, h2, h3⟩ := hview hv
    unfold DistMatrix_MC_Star.adopt
    simp only [hv, if_true, Bool.true_or]
    exact ⟨h2, h3, trivial, trivial, h1.1⟩
  | false =>
    obtain ⟨e1, e2, e3, e4, e5, e6⟩ := DistMatrix_MC_Star.adopt_spec g self A haC hv hself
    simp only [Bool.false_or]
    exact ⟨e1, e2, e3, e5, e4, fun row col hrow hcol => (e6 row col hrow hcol).1⟩

/-- The assignment `[MC,* ] = [MC,MR]` completes when the alignments are inside the grid,
and changes only local tiles of the matrix its header leaves. -/
theorem assign_MC_MR_some (g : Grid) (MIN_COLL_MSG : Nat) (aux : Nat → Nat → Nat → T)
    (self : DistMatrix_MC_Star T) (A : DistMatrix_MC_MR T)
    (hM : (self.adopt g A).colAlignment < g.Height) (haC : A.colAlignment < g.Height) :
    ∃ M, self.assign_MC_MR g MIN_COLL_MSG aux A = some M ∧
      M.height = (self.adopt g A).height ∧ M.width = (self.adopt g A).width ∧
      M.colAlignment = (self.adopt g A).colAlignment ∧
      M.colShift = (self.adopt g A).colShift ∧
      M.constrainedColAlignment = (self.adopt g A).constrainedColAlignment ∧
      M.viewing = (self.adopt g A).viewing ∧ M.lockedView = (self.adopt g A).lockedView := by
  unfold DistMatrix_MC_Star.assign_MC_MR
  simp only []
  by_cases hal : (self.adopt g A).colAlignment = A.colAlignment
  · rw [if_pos hal]
    by_cases hw : A.width = 1
    · rw [if_pos hw]; exact ⟨_, rfl, rfl, rfl, rfl, rfl, rfl, rfl, rfl⟩
    · rw [if_neg hw]; exact ⟨_, rfl, rfl, rfl, rfl, rfl, rfl, rfl, rfl⟩
  · rw [if_neg hal, sendRecvMatches_rotation g.Height _ A.colAlignment hM haC]
    simp only [if_true]
    by_cases hw : A.width = 1
    · rw [if_pos hw]; exact ⟨_, rfl, rfl, rfl, rfl, rfl, rfl, rfl, rfl⟩
    · rw [if_neg hw]; exact ⟨_, rfl, rfl, rfl, rfl, rfl, rfl, rfl, rfl⟩

theorem sendRecv_not_mem_of_aligned (a b : Prop) [Decidable a] [Decidable b]
    (x y : MpiCall) (hx : x ≠ .SendRecv) (hy : y ≠ .SendRecv) (ha : a) :
    MpiCall.SendRecv ∉
      (if a then (if b then [x] else [y]) else
        (if b then [MpiCall.SendRecv, x] else [MpiCall.SendRecv, y])) := by
  rw [if_pos ha]
  split_ifs
  · simp only [List.mem_singleton]; exact fun h => hx h.symm
  · simp only [List.mem_singleton]; exact fun h => hy h.symm

/-- C20: alignment adoption on assignment.  For `[MC,*] = [MC,MR]`, `[MC,*] = [MC,*]` and
`[MC,*] = [VC,*]`, with a source satisfying its invariants and a destination the
assignment accepts, the assignment completes; a destination that is not viewing and not
constrained ends with the column alignment of the source (taken mod `r` for `[VC,*]`) and
the branch executed makes no `SendRecv`; a constrained destination keeps its column
alignment; in every case the height and width become those of the source and
`constrainedColAlignment` keeps its value. -/
theorem assignment_adopts (g : Grid) (MIN_COLL_MSG : Nat) (aux : Nat → Nat → Nat → T)
    (self : DistMatrix_MC_Star T) :
    (∀ A : DistMatrix_MC_MR T, A.Valid g → self.Accepts g A.height A.width →
      ∃ M, self.assign_MC_MR g MIN_COLL_MSG aux A = some M ∧
        (self.viewing = false → self.constrainedColAlignment = false →
          M.colAlignment = A.colAlignment ∧
          ∀ MRRank, MpiCall.SendRecv ∉ self.calls_MC_MR g A MRRank) ∧
        (self.constrainedColAlignment = true → M.colAlignment = self.colAlignment) ∧
        M.height = A.height ∧ M.width = A.width ∧
        M.constrainedColAlignment = self.constrainedColAlignment) ∧
    (∀ A : DistMatrix_MC_Star T, A.Valid g → self.Accepts g A.height A.width →
      ∃ M, self.assign_MC_Star g aux A = some M ∧
        (self.viewing = false → self.constrainedColAlignment = false →
          M.colAlignment = A.colAlignment ∧ MpiCall.SendRecv ∉ self.calls_MC_Star g A) ∧
        (self.constrainedColAlignment = true → M.colAlignment = self.colAlignment) ∧
        M.height = A.height ∧ M.width = A.width ∧
        M.constrainedColAlignment = self.constrainedColAlignment) ∧
    (∀ A : AbstractDistMatrix T, A.Valid_VC_Star g → self.Accepts g A.height A.width →
      ∃ M, self.assign_VC_Star g MIN_COLL_MSG aux A = some M ∧
        (self.viewing = false → self.constrainedColAlignment = false →
          M.colAlignment = A.colAlignment % g.Height ∧
          MpiCall.SendRecv ∉ self.calls_VC_Star g A) ∧
        (self.constrainedColAlignment = true → M.colAlignment = self.colAlignment) ∧
        M.height = A.height ∧ M.width = A.width ∧
        M.constrainedColAlignment = self.constrainedColAlignment) := by
  refine ⟨fun A hA hacc => ?_, fun A hA hacc => ?_, fun A hA hacc => ?_⟩
  · obtain ⟨e1, e2, e3, e4, e5⟩ := DistMatrix_MC_Star.adopt_accepts g self A hA.1 hacc
    obtain ⟨M, s, f1, f2, f3, -, f5, -⟩ :=
      assign_MC_MR_some g MIN_COLL_MSG aux self A e5.1 hA.1
    refine ⟨M, s, fun hv hcon => ?_, fun hcon => ?_, f1.trans e1, f2.trans e2, f5.trans e4⟩
    · rw [hv, hcon] at e3
      simp only [Bool.or_false, Bool.false_eq_true, if_false] at e3
      refine ⟨f3.trans e3, fun MRRank => ?_⟩
      unfold DistMatrix_MC_Star.calls_MC_MR
      simp only []
      rw [if_pos e3]
      split_ifs <;> simp
    · rw [hcon] at e3
      simp only [Bool.or_true, if_true] at e3
      exact f3.trans e3
  · obtain ⟨M, s, f1, f2, f3, -, f5, -⟩ := assign_MC_Star_local g aux self A hA hacc
    refine ⟨M, s, fun hv hcon => ?_, fun hcon => ?_, f1, f2, f5⟩
    · have e3 := (DistMatrix_MC_Star.adopt_MC_Star_spec g self A hA.1 hacc).2.2.1
      rw [hv, hcon] at f3 e3
      simp only [Bool.or_false, Bool.false_eq_true, if_false] at f3 e3
      refine ⟨f3, ?_⟩
      unfold DistMatrix_MC_Star.calls_MC_Star
      simp only []
      rw [if_pos e3]
      exact List.not_mem_nil _
    · rw [hcon] at f3
      simp only [Bool.or_true, if_true] at f3
      exact f3
  · obtain ⟨M, s, f1, f2, f3, -, f5, -⟩ :=
      assign_VC_Star_local g MIN_COLL_MSG aux self A hA hacc
    have hp : 0 < g.Height * g.Width := by have := hA.1; omega
    have hr : 0 < g.Height := Nat.pos_of_mul_pos_right hp
    refine ⟨M, s, fun hv hcon => ?_, fun hcon => ?_, f1, f2, f5⟩
    · have e3 := (DistMatrix_MC_Star.adopt_VC_Star_spec g self A hr hacc).2.2.1
      rw [hv, hcon] at f3 e3
      simp only [Bool.or_false, Bool.false_eq_true, if_false] at f3 e3
      refine ⟨f3, ?_⟩
      unfold DistMatrix_MC_Star.calls_VC_Star
      simp only []
      rw [if_pos e3]
      simp only [List.mem_singleton]
      exact fun h => MpiCall.noConfusion h
    · rw [hcon] at f3
      simp only [Bool.or_true, if_true] at f3
      exact f3

/-- A fresh matrix on the `2×2` grid adopts the column alignment `1` of the `[MC,*]`
example it is assigned. -/
theorem assignment_adopts_witness :
    demoStar.Valid ⟨2, 2⟩ ∧ demoFresh.Accepts ⟨2, 2⟩ demoStar.height demoStar.width ∧
    ∃ M, demoFresh.assign_MC_Star ⟨2, 2⟩ (fun _ _ _ => 0) demoStar = some M ∧
      M.colAlignment = 1 :=
  have h : demoStar.Valid ⟨2, 2⟩ :=
    ⟨⟨by decide, fun _ _ _ _ => rfl⟩, fun _ _ _ _ => ⟨rfl, rfl⟩⟩
  have hacc : demoFresh.Accepts ⟨2, 2⟩ demoStar.height demoStar.width :=
    ⟨fun hc => Bool.noConfusion hc, fun hv => Bool.noConfusion hv⟩
  ⟨h, hacc, by
    obtain ⟨M, h1, h2, -⟩ :=
      (assignment_adopts ⟨2, 2⟩ 0 (fun _ _ _ => 0) demoFresh).2.1 demoStar h hacc
    exact ⟨M, h1, (h2 rfl rfl).1⟩⟩

end Adoption

section AlignmentInvariant
variable {T : Type}

theorem guard_cases (RELEASE b : Bool) :
    (!RELEASE && !b) = true ∨ (RELEASE = true ∨ b = true) := by
  cases RELEASE <;> cases b <;> simp

/-- `AlignCols` with an argument inside `[0, r)` on an owning matrix keeps the invariant. -/
theorem DistMatrix_MC_Star.AlignCols_aligned (g : Grid) (RELEASE : Bool) (chk : Assertions T)
    (M : DistMatrix_MC_Star T) (hM : M.Aligned g) (hown : M.viewing = false) (a : Int)
    (h0 : 0 ≤ a) (h1 : a < g.Height) : (M.AlignCols g RELEASE chk a).buffer.Aligned g := by
  rcases guard_cases RELEASE (chk.FreeColAlignment M) with h | h
  · unfold DistMatrix_MC_Star.AlignCols
    rw [if_pos h]; exact hM
  · rw [DistMatrix_MC_Star.AlignCols_done g RELEASE chk M hown h a (Or.inr ⟨h0, h1⟩)]
    exact ⟨by show a.toNat < g.Height; omega, fun _ _ _ _ => rfl⟩

theorem DistMatrix_MC_Star.AlignWith_MC_MR_aligned (g : Grid) (RELEASE : Bool)
    (chk : Assertions T) (M : DistMatrix_MC_Star T) (hM : M.Aligned g)
    (hown : M.viewing = false) (A : DistMatrix_MC_MR T) (hA : A.Valid g) :
    (M.AlignWith_MC_MR RELEASE chk A).buffer.Aligned g := by
  rcases guard_cases RELEASE (chk.FreeColAlignment M) with h | h
  · unfold DistMatrix_MC_Star.AlignWith_MC_MR
    rw [if_pos h]; exact hM
  · rw [DistMatrix_MC_Star.AlignWith_MC_MR_done RELEASE chk M hown h]
    exact ⟨hA.1, fun row col hrow hcol => (hA.2.2 row col hrow hcol).1⟩

theorem DistMatrix_MC_Star.AlignWith_MC_Star_aligned (g : Grid) (RELEASE : Bool)
    (chk : Assertions T) (M : DistMatrix_MC_Star T) (hM : M.Aligned g)
    (hown : M.viewing = false) (A : DistMatrix_MC_Star T) (hA : A.Aligned g) :
    (M.AlignWith_MC_Star RELEASE chk A).buffer.Aligned g := by
  rcases guard_cases RELEASE (chk.FreeColAlignment M) with h | h
  · unfold DistMatrix_MC_Star.AlignWith_MC_Star
    rw [if_pos h]; exact hM
  · rw [DistMatrix_MC_Star.AlignWith_MC_Star_done RELEASE chk M hown h]
    exact hA

end AlignmentInvariant

section AlignmentInvariantClaim
variable {T : Type}

end AlignmentInvariantClaim

section LockedViews
variable {T : Type}

/-- The assertion `AssertNotLockedView` throws on a locked view in a build that runs it. -/
theorem locked_guard (M : DistMatrix_MC_Star T) (h : M.lockedView = true) :
    (!false && !M.AssertNotLockedView) = true := by
  simp [DistMatrix_MC_Star.AssertNotLockedView, h]

/-- The assertion `AssertNotLockedView` lets the call through in a `RELEASE` build and on a
matrix that is not a locked view. -/
theorem unlocked_guard (RELEASE : Bool) (M : DistMatrix_MC_Star T)
    (h : RELEASE = true ∨ M.lockedView = false) :
    (!RELEASE && !M.AssertNotLockedView) = false := by
  rcases h with h | h <;> simp [DistMatrix_MC_Star.AssertNotLockedView, h]

/-- The header of an assignment throws on a locked view in a build that runs it. -/
theorem locked_header (M : DistMatrix_MC_Star T) (h : M.lockedView = true)
    (heightOfA widthOfA : Nat) : M.assertAssignable false heightOfA widthOfA = false := by
  simp [DistMatrix_MC_Star.assertAssignable, DistMatrix_MC_Star.AssertNotLockedView, h]

/-- C21, as stated, fails in a build with `RELEASE` defined: no assertion runs, and
`SetToIdentity` and `MakeTrapezoidal` on the locked view of the example complete and
change entries of the viewed matrix. -/
theorem locked_view_release :
    demoLocked.lockedView = true ∧
    demoLocked.entry ⟨2, 2⟩ 0 0 0 = 0 ∧
    (∃ M, demoLocked.SetToIdentity ⟨2, 2⟩ true = .done M ∧ M.entry ⟨2, 2⟩ 0 0 0 = 1) ∧
    demoLocked.entry ⟨2, 2⟩ 0 0 1 = 1 ∧
    (∃ M, demoLocked.MakeTrapezoidal ⟨2, 2⟩ true Side.Left Shape.Lower 0 = .done M ∧
      M.entry ⟨2, 2⟩ 0 0 1 = 0) := by
  refine ⟨rfl, rfl, ⟨_, rfl, ?_⟩, rfl, ⟨_, rfl, ?_⟩⟩
  · decide
  · decide

/-- C21 (amended): in a build that runs the assertions (`RELEASE` not defined), on a
`[MC,*]` matrix with `lockedView = true` the operations `ResizeTo`, `MakeTrapezoidal`,
`ScaleTrapezoidal`, `SetToIdentity`, `SetToRandom`, `SumOverRow` and every assignment
`operator=` throw a precondition error at their first assertion and leave the matrix as
it was. -/
theorem locked_view_refuses [Semiring T] (g : Grid) (MIN_COLL_MSG : Nat)
    (M : DistMatrix_MC_Star T) (hlocked : M.lockedView = true) :
    (∀ height width, M.ResizeTo_call g false height width = .logicError M) ∧
    (∀ side shape offset, M.MakeTrapezoidal g false side shape offset = .logicError M) ∧
    (∀ alpha side shape offset,
      M.ScaleTrapezoidal g false alpha side shape offset = .logicError M) ∧
    M.SetToIdentity g false = .logicError M ∧
    (∀ draws aux, M.SetToRandom false draws aux = .logicError M) ∧
    (∀ aux, M.SumOverRow g false MIN_COLL_MSG aux = .logicError M) ∧
    (∀ aux A, M.call_MC_MR g false MIN_COLL_MSG aux A = .preconditionViolated M) ∧
    (∀ aux A, M.call_MC_Star g false aux A = .preconditionViolated M) ∧
    (∀ aux A, M.call_VC_Star g false MIN_COLL_MSG aux A = .preconditionViolated M) ∧
    (∀ A, M.call_Star_Star g false A = .preconditionViolated M) ∧
    (∀ A, M.call_MD_Star false A = .preconditionViolated M) ∧
    (∀ A, M.call_Star_MD false A = .preconditionViolated M) ∧
    (∀ aux heightOfA widthOfA A_MC_MR,
      M.call_via_MC_MR g false MIN_COLL_MSG aux heightOfA widthOfA A_MC_MR
        = .preconditionViolated M) ∧
    (∀ aux heightOfA widthOfA A_VC_Star,
      M.call_via_VC_Star g false MIN_COLL_MSG aux heightOfA widthOfA A_VC_Star
        = .preconditionViolated M) := by
  have hg := locked_guard M hlocked
  have hh := locked_header M hlocked
  refine ⟨fun _ _ => ?_, fun _ _ _ => ?_, fun _ _ _ _ => ?_, ?_, fun _ _ => ?_, fun _ => ?_,
    fun _ _ => ?_, fun _ _ => ?_, fun _ _ => ?_, fun _ => ?_, fun _ => ?_, fun _ => ?_,
    fun _ _ _ _ => ?_, fun _ _ _ _ => ?_⟩
  · unfold DistMatrix_MC_Star.ResizeTo_call; rw [if_pos hg]
  · unfold DistMatrix_MC_Star.MakeTrapezoidal; rw [if_pos hg]
  · unfold DistMatrix_MC_Star.ScaleTrapezoidal; rw [if_pos hg]
  · unfold DistMatrix_MC_Star.SetToIdentity; rw [if_pos hg]
  · unfold DistMatrix_MC_Star.SetToRandom; rw [if_pos hg]
  · unfold DistMatrix_MC_Star.SumOverRow; rw [if_pos hg]
  · unfold DistMatrix_MC_Star.call_MC_MR DistMatrix_MC_Star.assignCall
    rw [hh]; rfl
  · unfold DistMatrix_MC_Star.call_MC_Star DistMatrix_MC_Star.assignCall
    rw [hh]; rfl
  · unfold DistMatrix_MC_Star.call_VC_Star DistMatrix_MC_Star.assignCall
    rw [hh]; rfl
  · unfold DistMatrix_MC_Star.call_Star_Star DistMatrix_MC_Star.assignCall
    rw [hh]; rfl
  · unfold DistMatrix_MC_Star.call_MD_Star DistMatrix_MC_Star.call_MD
    rw [hh]; rfl
  · unfold DistMatrix_MC_Star.call_Star_MD DistMatrix_MC_Star.call_MD
    rw [hh]; rfl
  · unfold DistMatrix_MC_Star.call_via_MC_MR DistMatrix_MC_Star.assignCall
    rw [hh]; rfl
  · unfold DistMatrix_MC_Star.call_via_VC_Star DistMatrix_MC_Star.assignCall
    rw [hh]; rfl

/-- The locked view of the example refuses `SetToIdentity` and the assignment from a
`[MC,MR]` matrix in the checked build. -/
theorem locked_view_refuses_witness :
    demoLocked.lockedView = true ∧
    demoLocked.SetToIdentity ⟨2, 2⟩ false = .logicError demoLocked ∧
    demoLocked.call_MC_MR ⟨2, 2⟩ false 1 (fun _ _ _ => 0) demoSource
      = .preconditionViolated demoLocked :=
  ⟨rfl, (locked_view_refuses ⟨2, 2⟩ 1 demoLocked rfl).2.2.2.1,
    (locked_view_refuses ⟨2, 2⟩ 1 demoLocked rfl).2.2.2.2.2.2.1 _ _⟩

end LockedViews

section Flags
variable {T : Type}

/-- An assignment call leaves its destination as it was or as its body leaves it. -/
theorem assignCall_state (RELEASE : Bool) (self : DistMatrix_MC_Star T)
    (heightOfA widthOfA : Nat) (body : Option (DistMatrix_MC_Star T))
    (M' : DistMatrix_MC_Star T)
    (h : (self.assignCall RELEASE heightOfA widthOfA body).state = some M') :
    M' = self ∨ body = some M' := by
  unfold DistMatrix_MC_Star.assignCall at h
  split_ifs at h
  · cases body with
    | none => simp [Assigned.state] at h
    | some M1 =>
      simp only [Assigned.state, Option.some.injEq] at h
      exact Or.inr (by rw [h])
  · simp only [Assigned.state, Option.some.injEq] at h
    exact Or.inl h.symm

theorem adopt_flags (g : Grid) (self : DistMatrix_MC_Star T) (A : DistMatrix_MC_MR T) :
    (self.adopt g A).viewing = self.viewing ∧ (self.adopt g A).lockedView = self.lockedView := by
  unfold DistMatrix_MC_Star.adopt DistMatrix_MC_Star.ResizeTo
  split_ifs <;> exact ⟨rfl, rfl⟩

theorem adopt_MC_Star_flags (g : Grid) (self A : DistMatrix_MC_Star T) :
    (self.adopt_MC_Star g A).viewing = self.viewing ∧
    (self.adopt_MC_Star g A).lockedView = self.lockedView := by
  unfold DistMatrix_MC_Star.adopt_MC_Star DistMatrix_MC_Star.ResizeTo
  split_ifs <;> exact ⟨rfl, rfl⟩

theorem adopt_VC_Star_flags (g : Grid) (self : DistMatrix_MC_Star T)
    (A : AbstractDistMatrix T) :
    (self.adopt_VC_Star g A).viewing = self.viewing ∧
    (self.adopt_VC_Star g A).lockedView = self.lockedView := by
  unfold DistMatrix_MC_Star.adopt_VC_Star DistMatrix_MC_Star.ResizeTo
  split_ifs <;> exact ⟨rfl, rfl⟩

/-- The assignment `[MC,* ] = [MC,MR]` keeps the flags of its destination. -/
theorem assign_MC_MR_flags (g : Grid) (MIN_COLL_MSG : Nat) (aux : Nat → Nat → Nat → T)
    (self : DistMatrix_MC_Star T) (A : DistMatrix_MC_MR T) (M' : DistMatrix_MC_Star T)
    (h : self.assign_MC_MR g MIN_COLL_MSG aux A = some M') :
    M'.viewing = self.viewing ∧ M'.lockedView = self.lockedView := by
  unfold DistMatrix_MC_Star.assign_MC_MR at h
  simp only [] at h
  split_ifs at h <;> simp only [Option.some.injEq] at h <;> rw [← h] <;>
    exact adopt_flags g self A

/-- The assignment `[MC,* ] = [MC,* ]` keeps the flags of its destination. -/
theorem assign_MC_Star_flags (g : Grid) (aux : Nat → Nat → Nat → T)
    (self A : DistMatrix_MC_Star T) (M' : DistMatrix_MC_Star T)
    (h : self.assign_MC_Star g aux A = some M') :
    M'.viewing = self.viewing ∧ M'.lockedView = self.lockedView := by
  unfold DistMatrix_MC_Star.assign_MC_Star at h
  simp only [] at h
  split_ifs at h <;> simp only [Option.some.injEq] at h <;> rw [← h] <;>
    exact adopt_MC_Star_flags g self A

/-- The assignment `[MC,* ] = [VC,* ]` keeps the flags of its destination. -/
theorem assign_VC_Star_flags (g : Grid) (MIN_COLL_MSG : Nat) (aux : Nat → Nat → Nat → T)
    (self : DistMatrix_MC_Star T) (A : AbstractDistMatrix T) (M' : DistMatrix_MC_Star T)
    (h : self.assign_VC_Star g MIN_COLL_MSG aux A = some M') :
    M'.viewing = self.viewing ∧ M'.lockedView = self.lockedView := by
  unfold DistMatrix_MC_Star.assign_VC_Star at h
  simp only [] at h
  split_ifs at h <;> simp only [Option.some.injEq] at h <;> rw [← h] <;>
    exact adopt_VC_Star_flags g self A

/-- The assignment `[MC,* ] = [* ,* ]` keeps the flags of its destination. -/
theorem assign_Star_Star_flags (g : Grid) (self : DistMatrix_MC_Star T)
    (A : AbstractDistMatrix T) :
    (self.assign_Star_Star g A).viewing = self.viewing ∧
    (self.assign_Star_Star g A).lockedView = self.lockedView := by
  unfold DistMatrix_MC_Star.assign_Star_Star DistMatrix_MC_Star.ResizeTo
  simp only []
  split_ifs <;> exact ⟨rfl, rfl⟩

/-- The assignments to `[MC,* ]` from the diagonal distributions leave the destination as
it is. -/
theorem call_MD_state (RELEASE : Bool) (self : DistMatrix_MC_Star T)
    (A : AbstractDistMatrix T) : (self.call_MD RELEASE A).state = some self := by
  unfold DistMatrix_MC_Star.call_MD DistMatrix_MC_Star.assign_MD
  split_ifs <;> rfl

/-- A `View` variant that returns sets `viewing` and clears `lockedView`. -/
theorem step_view [Semiring T] (g : Grid) (chk : Assertions T)
    (M M' : DistMatrix_MC_Star T) (h : DistMatrix_MC_Star.Step g chk .View M M') :
    M'.viewing = true ∧ M'.lockedView = false := by
  cases h with
  | View R _ A _ h =>
    simp only [DistMatrix_MC_Star.View, DistMatrix_MC_Star.viewWhole] at h
    split_ifs at h; cases h; exact ⟨rfl, rfl⟩
  | View_sub R _ A _ i j height width h =>
    simp only [DistMatrix_MC_Star.View_sub, DistMatrix_MC_Star.viewBlock] at h
    split_ifs at h; cases h; exact ⟨rfl, rfl⟩
  | View1x2 R _ AL AR _ h =>
    simp only [DistMatrix_MC_Star.View1x2, DistMatrix_MC_Star.viewRow] at h
    split_ifs at h; cases h; exact ⟨rfl, rfl⟩
  | View2x1 R _ AT AB _ h =>
    simp only [DistMatrix_MC_Star.View2x1, DistMatrix_MC_Star.viewCol] at h
    split_ifs at h; cases h; exact ⟨rfl, rfl⟩
  | View2x2 R _ ATL ATR ABL ABR _ h =>
    simp only [DistMatrix_MC_Star.View2x2, DistMatrix_MC_Star.viewQuad] at h
    split_ifs at h; cases h; exact ⟨rfl, rfl⟩

/-- A `LockedView` variant that returns sets `viewing` and `lockedView`. -/
theorem step_lockedView [Semiring T] (g : Grid) (chk : Assertions T)
    (M M' : DistMatrix_MC_Star T) (h : DistMatrix_MC_Star.Step g chk .LockedView M M') :
    M'.viewing = true ∧ M'.lockedView = true := by
  cases h with
  | LockedView R _ A _ h =>
    simp only [DistMatrix_MC_Star.LockedView, DistMatrix_MC_Star.viewWhole] at h
    split_ifs at h; cases h; exact ⟨rfl, rfl⟩
  | LockedView_sub R _ A _ i j height width h =>
    simp only [DistMatrix_MC_Star.LockedView_sub, DistMatrix_MC_Star.viewBlock] at h
    split_ifs at h; cases h; exact ⟨rfl, rfl⟩
  | LockedView1x2 R _ AL AR _ h =>
    simp only [DistMatrix_MC_Star.LockedView1x2, DistMatrix_MC_Star.viewRow] at h
    split_ifs at h; cases h; exact ⟨rfl, rfl⟩
  | LockedView2x1 R _ AT AB _ h =>
    simp only [DistMatrix_MC_Star.LockedView2x1, DistMatrix_MC_Star.viewCol] at h
    split_ifs at h; cases h; exact ⟨rfl, rfl⟩
  | LockedView2x2 R _ ATL ATR ABL ABR _ h =>
    simp only [DistMatrix_MC_Star.LockedView2x2, DistMatrix_MC_Star.viewQuad] at h
    split_ifs at h; cases h; exact ⟨rfl, rfl⟩

/-- Every call that is not a view variant that returns keeps both flags. -/
theorem step_other [Semiring T] (g : Grid) (chk : Assertions T)
    (M M' : DistMatrix_MC_Star T) (h : DistMatrix_MC_Star.Step g chk .Other M M') :
    M'.viewing = M.viewing ∧ M'.lockedView = M.lockedView := by
  cases h with
  | View_throws R _ A _ h | LockedView_throws R _ A _ h =>
    simp only [DistMatrix_MC_Star.View, DistMatrix_MC_Star.LockedView,
      DistMatrix_MC_Star.viewWhole] at h
    split_ifs at h; cases h; exact ⟨rfl, rfl⟩
  | View_sub_throws R _ A _ i j height width h
  | LockedView_sub_throws R _ A _ i j height width h =>
    simp only [DistMatrix_MC_Star.View_sub, DistMatrix_MC_Star.LockedView_sub,
      DistMatrix_MC_Star.viewBlock] at h
    split_ifs at h; cases h; exact ⟨rfl, rfl⟩
  | View1x2_throws R _ AL AR _ h | LockedView1x2_throws R _ AL AR _ h =>
    simp only [DistMatrix_MC_Star.View1x2, DistMatrix_MC_Star.LockedView1x2,
      DistMatrix_MC_Star.viewRow] at h
    split_ifs at h; cases h; exact ⟨rfl, rfl⟩
  | View2x1_throws R _ AT AB _ h | LockedView2x1_throws R _ AT AB _ h =>
    simp only [DistMatrix_MC_Star.View2x1, DistMatrix_MC_Star.LockedView2x1,
      DistMatrix_MC_Star.viewCol] at h
    split_ifs at h; cases h; exact ⟨rfl, rfl⟩
  | View2x2_throws R _ ATL ATR ABL ABR _ h | LockedView2x2_throws R _ ATL ATR ABL ABR _ h =>
    simp only [DistMatrix_MC_Star.View2x2, DistMatrix_MC_Star.LockedView2x2,
      DistMatrix_MC_Star.viewQuad] at h
    split_ifs at h; cases h; exact ⟨rfl, rfl⟩
  | Align R _ a | AlignCols R _ a =>
    simp only [DistMatrix_MC_Star.Align, DistMatrix_MC_Star.AlignCols,
      DistMatrix_MC_Star.emptyLocal]
    split_ifs <;> exact ⟨rfl, rfl⟩
  | AlignWith_MC_MR R _ A | AlignWith_MC_Star R _ A | AlignColsWith_MC_MR R _ A
  | AlignColsWith_MC_Star R _ A =>
    simp only [DistMatrix_MC_Star.AlignColsWith_MC_MR, DistMatrix_MC_Star.AlignColsWith_MC_Star,
      DistMatrix_MC_Star.AlignWith_MC_MR, DistMatrix_MC_Star.AlignWith_MC_Star,
      DistMatrix_MC_Star.emptyLocal]
    split_ifs <;> exact ⟨rfl, rfl⟩
  | AlignWith_MR_MC R _ A | AlignWith_Star_MC R _ A | AlignWith_VC_Star R _ A
  | AlignWith_Star_VC R _ A | AlignColsWith_MR_MC R _ A | AlignColsWith_Star_MC R _ A
  | AlignColsWith_VC_Star R _ A | AlignColsWith_Star_VC R _ A =>
    simp only [DistMatrix_MC_Star.AlignColsWith_MR_MC, DistMatrix_MC_Star.AlignColsWith_Star_MC,
      DistMatrix_MC_Star.AlignColsWith_VC_Star, DistMatrix_MC_Star.AlignColsWith_Star_VC,
      DistMatrix_MC_Star.AlignWith_MR_MC, DistMatrix_MC_Star.AlignWith_Star_MC,
      DistMatrix_MC_Star.AlignWith_VC_Star, DistMatrix_MC_Star.AlignWith_Star_VC,
      DistMatrix_MC_Star.alignWithRows, DistMatrix_MC_Star.alignWithVector,
      DistMatrix_MC_Star.emptyLocal]
    split_ifs <;> exact ⟨rfl, rfl⟩
  | ResizeTo R _ height width =>
    simp only [DistMatrix_MC_Star.ResizeTo_call, DistMatrix_MC_Star.resizeLocal]
    split_ifs <;> exact ⟨rfl, rfl⟩
  | Get | Print => exact ⟨rfl, rfl⟩
  | Set R _ i j u =>
    simp only [DistMatrix_MC_Star.Set]
    split_ifs <;> exact ⟨rfl, rfl⟩
  | Update R _ i j u =>
    simp only [DistMatrix_MC_Star.Update]
    split_ifs <;> exact ⟨rfl, rfl⟩
  | MakeTrapezoidal R _ side shape offset =>
    simp only [DistMatrix_MC_Star.MakeTrapezoidal]
    split_ifs <;> exact ⟨rfl, rfl⟩
  | ScaleTrapezoidal R _ alpha side shape offset =>
    simp only [DistMatrix_MC_Star.ScaleTrapezoidal]
    split_ifs <;> exact ⟨rfl, rfl⟩
  | SetToIdentity R _ =>
    simp only [DistMatrix_MC_Star.SetToIdentity]
    split_ifs <;> exact ⟨rfl, rfl⟩
  | SetToRandom R _ draws aux =>
    simp only [DistMatrix_MC_Star.SetToRandom]
    split_ifs <;> exact ⟨rfl, rfl⟩
  | SumOverRow R _ MIN_COLL_MSG aux =>
    simp only [DistMatrix_MC_Star.SumOverRow]
    split_ifs <;> exact ⟨rfl, rfl⟩
  | call_MC_MR R _ _ MIN_COLL_MSG aux A h =>
    rcases assignCall_state _ _ _ _ _ _ h with h1 | h1
    · subst h1; exact ⟨rfl, rfl⟩
    · exact assign_MC_MR_flags _ _ _ _ _ _ h1
  | call_MC_Star R _ _ aux A h =>
    rcases assignCall_state _ _ _ _ _ _ h with h1 | h1
    · subst h1; exact ⟨rfl, rfl⟩
    · exact assign_MC_Star_flags _ _ _ _ _ h1
  | call_VC_Star R _ _ MIN_COLL_MSG aux A h =>
    rcases assignCall_state _ _ _ _ _ _ h with h1 | h1
    · subst h1; exact ⟨rfl, rfl⟩
    · exact assign_VC_Star_flags _ _ _ _ _ _ h1
  | call_Star_Star R _ _ A h =>
    rcases assignCall_state _ _ _ _ _ _ h with h1 | h1
    · subst h1; exact ⟨rfl, rfl⟩
    · simp only [Option.some.injEq] at h1
      subst h1; exact assign_Star_Star_flags _ _ _
  | call_MD_Star R _ _ A h | call_Star_MD R _ _ A h =>
    simp only [DistMatrix_MC_Star.call_MD_Star, DistMatrix_MC_Star.call_Star_MD,
      call_MD_state, Option.some.injEq] at h
    subst h; exact ⟨rfl, rfl⟩
  | call_via_MC_MR R _ _ MIN_COLL_MSG aux heightOfA widthOfA A h =>
    rcases assignCall_state _ _ _ _ _ _ h with h1 | h1
    · subst h1; exact ⟨rfl, rfl⟩
    · exact assign_MC_MR_flags _ _ _ _ _ _ h1
  | call_via_VC_Star R _ _ MIN_COLL_MSG aux heightOfA widthOfA A h =>
    rcases assignCall_state _ _ _ _ _ _ h with h1 | h1
    · subst h1; exact ⟨rfl, rfl⟩
    · exact assign_VC_Star_flags _ _ _ _ _ _ h1

/-- C22. `lockedView` implies `viewing` after every operation: a `View`, `View1x2`,
`View2x1` or `View2x2` that returns leaves `viewing = true` and `lockedView = false`, a
`LockedView` variant that returns leaves both `true`, every other call of `[MC,*]`
(alignment, resize, element access, bulk utilities, assignments, and a view variant that
throws) leaves both flags as they were, and so a matrix that starts with
`lockedView ⇒ viewing` keeps it through any sequence of calls. -/
theorem flags_invariant [Semiring T] (g : Grid) (chk : Assertions T) :
    (∀ M M', DistMatrix_MC_Star.Step g chk .View M M' →
      M'.viewing = true ∧ M'.lockedView = false) ∧
    (∀ M M', DistMatrix_MC_Star.Step g chk .LockedView M M' →
      M'.viewing = true ∧ M'.lockedView = true) ∧
    (∀ M M', DistMatrix_MC_Star.Step g chk .Other M M' →
      M'.viewing = M.viewing ∧ M'.lockedView = M.lockedView) ∧
    (∀ M M', Relation.ReflTransGen (fun a b => ∃ k, DistMatrix_MC_Star.Step g chk k a b) M M' →
      M.LockedImpliesViewing → M'.LockedImpliesViewing) := by
  refine ⟨step_view g chk, step_lockedView g chk, step_other g chk, fun M M' h hM => ?_⟩
  induction h with
  | refl => exact hM
  | tail _ hstep ih =>
    obtain ⟨k, hk⟩ := hstep
    intro hl
    cases k with
    | View => exact (step_view g chk _ _ hk).1
    | LockedView => exact (step_lockedView g chk _ _ hk).1
    | Other =>
      obtain ⟨h1, h2⟩ := step_other g chk _ _ hk
      rw [h1]; rw [h2] at hl; exact ih hl

/-- On the example: the locked view of `demoStar` has both flags set, `Set` keeps them, and
the invariant holds after the view followed by the write. -/
theorem flags_invariant_witness :
    (demoLocked.viewing = true ∧ demoLocked.lockedView = true) ∧
    ((demoLocked.Set ⟨2, 2⟩ true 0 0 5).buffer.viewing = demoLocked.viewing ∧
      (demoLocked.Set ⟨2, 2⟩ true 0 0 5).buffer.lockedView = demoLocked.lockedView) ∧
    (demoLocked.Set ⟨2, 2⟩ true 0 0 5).buffer.LockedImpliesViewing :=
  have hv : DistMatrix_MC_Star.Step ⟨2, 2⟩ demoChecks .LockedView demoFresh demoLocked :=
    .LockedView false demoFresh demoStar demoLocked rfl
  have hs : DistMatrix_MC_Star.Step ⟨2, 2⟩ demoChecks .Other demoLocked
      (demoLocked.Set ⟨2, 2⟩ true 0 0 5).buffer := .Set true demoLocked 0 0 5
  ⟨(flags_invariant ⟨2, 2⟩ demoChecks).2.1 _ _ hv,
    (flags_invariant ⟨2, 2⟩ demoChecks).2.2.1 _ _ hs,
    (flags_invariant ⟨2, 2⟩ demoChecks).2.2.2 demoFresh _
      ((Relation.ReflTransGen.single ⟨_, hv⟩).tail ⟨_, hs⟩)
      (fun h => Bool.noConfusion h)⟩

end Flags

section Unimplemented
variable {T : Type}

/-- C29, as stated, fails in a build that runs the assertions: on the locked view of the
example the header of `[MC,* ] = [MD,* ]` throws its precondition error before the
`throw` of "not yet implemented" is reached. -/
theorem assign_MD_locked :
    demoLocked.lockedView = true ∧
    demoLocked.call_MD_Star false demoVector = .preconditionViolated demoLocked ∧
    demoLocked.call_MD_Star false demoVector ≠ .unimplemented demoLocked ∧
    demoLocked.call_Star_MD false demoVector ≠ .unimplemented demoLocked := by
  refine ⟨rfl, rfl, ?_, ?_⟩
  · intro h
    have h2 : demoLocked.call_MD_Star false demoVector = .preconditionViolated demoLocked := rfl
    rw [h2] at h
    cases h
  · intro h
    have h2 : demoLocked.call_Star_MD false demoVector = .preconditionViolated demoLocked := rfl
    rw [h2] at h
    cases h

/-- C29 (amended): for every destination and every source, in either build,
`[MC,* ] = [MD,* ]` and `[MC,* ] = [* ,MD]` throw and leave the destination (dimensions,
alignment, flags, local tiles) as it was; the error is "not yet implemented" when the
header of the assignment passes, that is in a `RELEASE` build, or when the destination is
not a locked view and, if it is viewing, has the size of the source; otherwise it is the
precondition error of the header. -/
theorem assign_MD_unimplemented (RELEASE : Bool) (self : DistMatrix_MC_Star T)
    (A : AbstractDistMatrix T) :
    (self.call_MD_Star RELEASE A).state = some self ∧
    (self.call_Star_MD RELEASE A).state = some self ∧
    ((RELEASE = true ∨ (self.lockedView = false ∧
        (self.viewing = true → self.height = A.height ∧ self.width = A.width))) →
      self.call_MD_Star RELEASE A = .unimplemented self ∧
      self.call_Star_MD RELEASE A = .unimplemented self) ∧
    (¬ (RELEASE = true ∨ (self.lockedView = false ∧
        (self.viewing = true → self.height = A.height ∧ self.width = A.width))) →
      self.call_MD_Star RELEASE A = .preconditionViolated self ∧
      self.call_Star_MD RELEASE A = .preconditionViolated self) := by
  have hiff : self.assertAssignable RELEASE A.height A.width = true ↔
      (RELEASE = true ∨ (self.lockedView = false ∧
        (self.viewing = true → self.height = A.height ∧ self.width = A.width))) := by
    unfold DistMatrix_MC_Star.assertAssignable DistMatrix_MC_Star.AssertNotLockedView
      DistMatrix_MC_Star.AssertSameSize
    cases RELEASE <;> cases self.lockedView <;> cases self.viewing <;> simp
  refine ⟨call_MD_state RELEASE self A, call_MD_state RELEASE self A, fun h => ?_, fun h => ?_⟩
  · unfold DistMatrix_MC_Star.call_MD_Star DistMatrix_MC_Star.call_Star_MD
      DistMatrix_MC_Star.call_MD
    rw [if_pos (hiff.2 h)]
    exact ⟨rfl, rfl⟩
  · unfold DistMatrix_MC_Star.call_MD_Star DistMatrix_MC_Star.call_Star_MD
      DistMatrix_MC_Star.call_MD
    rw [if_neg (fun h1 => h (hiff.1 h1))]
    exact ⟨rfl, rfl⟩

/-- On the example: the owning matrix `demoStar` gets "not yet implemented" in the checked
build and stays as it was. -/
theorem assign_MD_unimplemented_witness :
    (demoStar.call_MD_Star false demoVector).state = some demoStar ∧
    demoStar.call_MD_Star false demoVector = .unimplemented demoStar :=
  ⟨(assign_MD_unimplemented false demoStar demoVector).1,
    ((assign_MD_unimplemented false demoStar demoVector).2.2.1
      (Or.inr ⟨rfl, fun h => Bool.noConfusion h⟩)).1⟩

end Unimplemented

section Resize
variable {T : Type}

/-- The local length of a rank counts the rows it owns. -/
theorem owned_rows_card (r a h rank : Nat) (hrank : rank < r) (ha : a < r) :
    ((Finset.range h).filter (fun i => (i + a) % r = rank)).card
      = LocalLength h (Shift rank a r) r := by
  have hr : 0 < r := by omega
  have himg : (Finset.range h).filter (fun i => (i + a) % r = rank)
      = (Finset.range (LocalLength h (Shift rank a r) r)).image
          (fun q => Shift rank a r + q * r) := by
    ext i
    simp only [Finset.mem_filter, Finset.mem_range, Finset.mem_image]
    constructor
    · rintro ⟨hi, hown⟩
      obtain ⟨q, hq⟩ := (owns_iff r a i rank hrank ha).2 hown.symm
      exact ⟨q, (lt_LocalLength_iff h _ r q hr).2 (by rw [← hq]; exact hi), hq.symm⟩
    · rintro ⟨q, hq, rfl⟩
      exact ⟨(lt_LocalLength_iff h _ r q hr).1 hq,
        ((owns_iff r a _ rank hrank ha).1 ⟨q, rfl⟩).symm⟩
  rw [himg, Finset.card_image_of_injective, Finset.card_range]
  intro q q' hqq
  simp only [] at hqq
  exact Nat.eq_of_mul_eq_mul_right hr (by omega)

/-- The local lengths of the `r` ranks add up to the global length. -/
theorem local_lengths_sum (r a h : Nat) (ha : a < r) :
    ∑ rank ∈ Finset.range r, LocalLength h (Shift rank a r) r = h := by
  have hr : 0 < r := by omega
  have h1 : (Finset.range h).card
      = ∑ rank ∈ Finset.range r, ((Finset.range h).filter (fun i => (i + a) % r = rank)).card :=
    Finset.card_eq_sum_card_fiberwise (fun i _ => Finset.mem_range.2 (Nat.mod_lt _ hr))
  rw [Finset.card_range] at h1
  exact (Finset.sum_congr rfl fun rank hrank =>
    (owned_rows_card r a h rank (Finset.mem_range.1 hrank) ha).symm).trans h1.symm

/-- C23. `ResizeTo` sizes the tile to the owned slice: for every aligned `[MC,*]` matrix
and every `h`, `w`, what `ResizeTo(h,w)` leaves has the global size `h×w`, the alignment it
had, and on each process of the grid a local tile of width `w` and of height the number of
rows `i` in `[0,h)` with `(i + colAlignment) mod r = MCRank`, so that the local heights of
the `r` ranks of a process column add up to `h`; and on an owning matrix the call returns
with that result. -/
theorem ResizeTo_owned_slice (g : Grid) (RELEASE : Bool) (M : DistMatrix_MC_Star T)
    (hM : M.Aligned g) (h w : Nat) :
    (M.ResizeTo g h w).height = h ∧ (M.ResizeTo g h w).width = w ∧
    (M.ResizeTo g h w).colAlignment = M.colAlignment ∧
    (∀ row col, row < g.Height → col < g.Width →
      (M.ResizeTo g h w).localWidth row col = w ∧
      (M.ResizeTo g h w).localHeight row col
        = ((Finset.range h).filter (fun i => (i + M.colAlignment) % g.Height = row)).card) ∧
    (∀ col, col < g.Width →
      ∑ row ∈ Finset.range g.Height, (M.ResizeTo g h w).localHeight row col = h) ∧
    (M.viewing = false → M.lockedView = false →
      M.ResizeTo_call g RELEASE h w = .done (M.ResizeTo g h w)) := by
  obtain ⟨ha, hshift⟩ := hM
  refine ⟨rfl, rfl, rfl, fun row col hrow hcol => ⟨rfl, ?_⟩, fun col hcol => ?_,
    fun hown hlock => ?_⟩
  · rw [owned_rows_card _ _ _ _ hrow ha, ← hshift row col hrow hcol]
    rfl
  · refine (Finset.sum_congr rfl fun row hrow => ?_).trans
      (local_lengths_sum g.Height M.colAlignment h ha)
    rw [← hshift row col (Finset.mem_range.1 hrow) hcol]
    rfl
  · unfold DistMatrix_MC_Star.ResizeTo_call DistMatrix_MC_Star.resizeLocal
    rw [if_neg (by rw [unlocked_guard RELEASE M (Or.inr hlock)]; exact Bool.false_ne_true)]
    simp only []
    rw [if_neg (by rw [hown]; exact Bool.false_ne_true)]
    rfl

/-- On the example: `demoStar`, with column alignment `1` on the `2×2` grid, resized to
`5×4`: the process row `0` owns the rows `1` and `3`, the process row `1` the rows `0`,
`2` and `4`. -/
theorem ResizeTo_owned_slice_witness :
    demoStar.Aligned ⟨2, 2⟩ ∧
    demoStar.ResizeTo_call ⟨2, 2⟩ false 5 4 = .done (demoStar.ResizeTo ⟨2, 2⟩ 5 4) ∧
    (demoStar.ResizeTo ⟨2, 2⟩ 5 4).localHeight 0 0 = 2 ∧
    (demoStar.ResizeTo ⟨2, 2⟩ 5 4).localHeight 1 0 = 3 ∧
    ∑ row ∈ Finset.range 2, (demoStar.ResizeTo ⟨2, 2⟩ 5 4).localHeight row 0 = 5 :=
  have hA : demoStar.Aligned ⟨2, 2⟩ := ⟨by decide, fun _ _ _ _ => rfl⟩
  ⟨hA, (ResizeTo_owned_slice ⟨2, 2⟩ false demoStar hA 5 4).2.2.2.2.2 rfl rfl,
    by decide, by decide,
    (ResizeTo_owned_slice ⟨2, 2⟩ false demoStar hA 5 4).2.2.2.2.1 0 (by decide)⟩

end Resize

section Trapezoid
variable {T : Type}

/-- A loop over columns whose body rewrites, in its own column, the rows that satisfy a
condition: afterwards the columns it has passed are rewritten there, once. -/
theorem column_loop (C : Nat → Nat → Prop) [∀ j i, Decidable (C j i)] (w : Nat → Nat → T → T)
    (cnt : Nat) :
    ∀ (lo : Nat) (L : Mat T) (i j : Nat),
      forLoop (fun j (L : Mat T) => fun i j' => if j' = j ∧ C j i then w j i (L i j') else L i j')
        cnt lo L i j
        = if lo ≤ j ∧ j < lo + cnt ∧ C j i then w j i (L i j) else L i j := by
  induction cnt with
  | zero => intro lo L i j; rw [if_neg (by omega)]; rfl
  | succ cnt ih =>
    intro lo L i j
    rw [forLoop, ih]
    by_cases hj : j = lo
    · subst hj
      rw [if_neg (by omega)]
      by_cases hc : C j i
      · rw [if_pos ⟨rfl, hc⟩, if_pos ⟨le_refl _, by omega, hc⟩]
      · rw [if_neg (fun h => hc h.2), if_neg (fun h => hc h.2.2)]
    · have hiff : (lo + 1 ≤ j ∧ j < lo + 1 + cnt ∧ C j i)
          ↔ (lo ≤ j ∧ j < lo + (cnt + 1) ∧ C j i) := by
        constructor <;> rintro ⟨a, b, c⟩ <;> exact ⟨by omega, by omega, c⟩
      have hb : (if j = lo ∧ C lo i then w lo i (L i j) else L i j) = L i j :=
        if_neg (fun h => hj h.1)
      rw [hb]
      exact if_congr hiff rfl rfl

/-- The closed form of `forRange` over columns. -/
theorem column_range (C : Nat → Nat → Prop) [∀ j i, Decidable (C j i)] (w : Nat → Nat → T → T)
    (n : Nat) (body : Nat → Mat T → Mat T)
    (hbody : ∀ j L, body j L
      = fun i j' => if j' = j ∧ C j i then w j i (L i j') else L i j')
    (L : Mat T) :
    forRange 0 n body L = fun i j => if j < n ∧ C j i then w j i (L i j) else L i j := by
  have hb : body = fun j (L : Mat T) => fun i j' =>
      if j' = j ∧ C j i then w j i (L i j') else L i j' := by
    funext j L; exact hbody j L
  funext i j
  unfold forRange
  rw [hb, column_loop C w (n - 0) 0 L i j]
  by_cases h : j < n ∧ C j i
  · rw [if_pos h, if_pos ⟨Nat.zero_le _, by omega, h.2⟩]
  · rw [if_neg h, if_neg]
    rintro ⟨-, a2, a3⟩
    exact h ⟨by omega, a3⟩

/-- What `MakeTrapezoidal` leaves when `AssertNotLockedView` lets it through: in each
column `j < width` of each local tile the rows the `memset` covers are zero, all else is
as before. -/
theorem MakeTrapezoidal_done [Zero T] (g : Grid) (RELEASE : Bool) (M : DistMatrix_MC_Star T)
    (hunl : RELEASE = true ∨ M.lockedView = false) (side : Side) (shape : Shape)
    (offset : Int) :
    M.MakeTrapezoidal g RELEASE side shape offset = .done { M with
      localMatrix := fun row col iLoc j =>
        if j < M.width ∧
          zeroedLocal side shape offset M.height M.width (M.colShift row col) g.Height
            (M.localHeight row col) iLoc j
        then 0 else M.localMatrix row col iLoc j } := by
  unfold DistMatrix_MC_Star.MakeTrapezoidal
  rw [if_neg (by rw [unlocked_guard RELEASE M hunl]; exact Bool.false_ne_true)]
  simp only []
  congr 2
  funext row col
  by_cases hs : shape = Shape.Lower
  · rw [if_pos hs]
    simp only [zeroedLocal, if_pos hs]
    refine column_range
      (fun j iLoc => (0 : Int) ≤ lastZeroRow side offset M.height M.width j ∧
        iLoc < RawLocalLength
          (min (iadd (lastZeroRow side offset M.height M.width j) 1) M.height).toNat
          (M.colShift row col) g.Height)
      (fun _ _ _ => 0) M.width _ (fun j L => ?_) _
    funext i j'
    by_cases h0 : lastZeroRow side offset M.height M.width j ≥ 0
    · rw [if_pos h0]
      unfold Mat.memsetCol
      by_cases h1 : j' = j ∧ 0 ≤ i ∧ i < 0 + RawLocalLength
          (min (iadd (lastZeroRow side offset M.height M.width j) 1) M.height).toNat
          (M.colShift row col) g.Height
      · rw [if_pos h1, if_pos ⟨h1.1, h0, by omega⟩]
      · rw [if_neg h1, if_neg]
        rintro ⟨a1, -, a3⟩
        exact h1 ⟨a1, Nat.zero_le _, by omega⟩
    · rw [if_neg h0, if_neg]
      rintro ⟨-, a2, -⟩
      exact h0 a2
  · rw [if_neg hs]
    simp only [zeroedLocal, if_neg hs]
    refine column_range
      (fun j iLoc => RawLocalLength
          (firstZeroRow side offset M.height M.width j).toNat
          (M.colShift row col) g.Height ≤ iLoc ∧ iLoc < M.localHeight row col)
      (fun _ _ _ => 0) M.width _ (fun j L => ?_) _
    funext i j'
    by_cases h0 : RawLocalLength
        (firstZeroRow side offset M.height M.width j).toNat
        (M.colShift row col) g.Height < M.localHeight row col
    · rw [if_pos h0]
      unfold Mat.memsetCol
      by_cases h1 : j' = j ∧ RawLocalLength
          (firstZeroRow side offset M.height M.width j).toNat
          (M.colShift row col) g.Height ≤ i ∧ i < RawLocalLength
          (firstZeroRow side offset M.height M.width j).toNat
          (M.colShift row col) g.Height + (M.localHeight row col - RawLocalLength
          (firstZeroRow side offset M.height M.width j).toNat
          (M.colShift row col) g.Height)
      · rw [if_pos h1, if_pos ⟨h1.1, h1.2.1, by omega⟩]
      · rw [if_neg h1, if_neg]
        rintro ⟨a1, a2, a3⟩
        exact h1 ⟨a1, a2, by omega⟩
    · rw [if_neg h0, if_neg]
      rintro ⟨-, a2, a3⟩
      omega

end Trapezoid

section TrapezoidRegion
variable {T : Type}

/-- Wrapped `int` arithmetic computes modulo `2^32`: the rows the offset arithmetic of
`MakeTrapezoidal` and `ScaleTrapezoidal` arrives at are the wrapped exact values. -/
theorem int32_rows (side : Side) (offset : Int) (height width j : Nat) :
    lastZeroRow side offset height width j = int32 (diagonalRow side offset height width j - 1) ∧
    iadd (lastZeroRow side offset height width j) 1
      = int32 (diagonalRow side offset height width j) ∧
    firstZeroRow side offset height width j
      = max (int32 (diagonalRow side offset height width j + 1)) 0 ∧
    lastRow side offset height width j = int32 (diagonalRow side offset height width j) ∧
    iadd (lastRow side offset height width j) 1
      = int32 (diagonalRow side offset height width j + 1) ∧
    firstRow side offset height width j
      = max (int32 (diagonalRow side offset height width j)) 0 := by
  refine ⟨?_, ?_, ?_, ?_, ?_, ?_⟩ <;>
    simp only [lastZeroRow, firstZeroRow, lastRow, firstRow, diagonalRow, iadd, isub, int32] <;>
    split_ifs <;> omega

/-- On a valid matrix the rows `MakeTrapezoidal` zeroes in a local column are those whose
global index lies in the region of the code, for every offset. -/
theorem wrappedRegion_local (side : Side) (shape : Shape) (offset : Int)
    (height width cs r lh iLoc j : Nat) (hr : 0 < r) (hlh : lh = LocalLength height cs r)
    (hi : iLoc < lh) :
    zeroedLocal side shape offset height width cs r lh iLoc j
      ↔ wrappedRegion side shape offset height width (cs + iLoc * r) j := by
  have hlt : cs + iLoc * r < height := by
    rw [hlh] at hi
    exact (lt_LocalLength_iff _ _ _ _ hr).1 hi
  obtain ⟨i, hidef⟩ : ∃ i, i = cs + iLoc * r := ⟨_, rfl⟩
  rw [← hidef] at hlt ⊢
  unfold zeroedLocal wrappedRegion
  cases shape with
  | Lower =>
    simp only [if_true]
    rw [RawLocalLength_eq, lt_LocalLength_iff _ _ _ _ hr, ← hidef]
    omega
  | Upper =>
    simp only [reduceCtorEq, if_false]
    rw [← not_lt, RawLocalLength_eq, lt_LocalLength_iff _ _ _ _ hr, ← hidef]
    constructor
    · rintro ⟨h1, -⟩; omega
    · intro h1; exact ⟨by omega, hi⟩

/-- In a column where the offset arithmetic stays inside `int` the region of the code is
the region of the spec. -/
theorem wrappedRegion_fits (side : Side) (shape : Shape) (offset : Int)
    (height width i j : Nat) (hi : i < height) (hfit : ColumnFits side offset height width j) :
    wrappedRegion side shape offset height width i j
      ↔ zeroRegion side shape offset height width i j := by
  obtain ⟨e1, e2, e3, -, -, -⟩ := int32_rows side offset height width j
  obtain ⟨f1, f2⟩ := hfit
  have hd : diagonalRow side offset height width j
      = if side = Side.Left then (j : Int) - offset else (j : Int) - offset + height - width :=
    rfl
  have w1 : int32 (diagonalRow side offset height width j - 1)
      = diagonalRow side offset height width j - 1 := by unfold int32; omega
  have w2 : int32 (diagonalRow side offset height width j)
      = diagonalRow side offset height width j := by unfold int32; omega
  have w3 : int32 (diagonalRow side offset height width j + 1)
      = diagonalRow side offset height width j + 1 := by unfold int32; omega
  rw [w1] at e1
  rw [w2] at e2
  rw [w3] at e3
  unfold wrappedRegion zeroRegion
  cases shape with
  | Lower =>
    simp only []
    rw [e2, e1]
    by_cases hs : side = Side.Left
    · rw [if_pos hs] at hd; simp only [if_pos hs]; omega
    · rw [if_neg hs] at hd; simp only [if_neg hs]; omega
  | Upper =>
    simp only []
    rw [e3]
    by_cases hs : side = Side.Left
    · rw [if_pos hs] at hd; simp only [if_pos hs]; omega
    · rw [if_neg hs] at hd; simp only [if_neg hs]; omega

/-- The region `Lower` with offset `k` zeroes is the one `Upper` with offset `k+1` keeps,
also where the offset arithmetic wraps. -/
theorem wrappedRegion_complement (side : Side) (k : Int) (height width i j : Nat)
    (hi : i < height) :
    wrappedRegion side Shape.Lower k height width i j
      ↔ ¬ wrappedRegion side Shape.Upper (k + 1) height width i j := by
  obtain ⟨e1, e2, -, -, -, -⟩ := int32_rows side k height width j
  obtain ⟨-, -, e3, -, -, -⟩ := int32_rows side (k + 1) height width j
  have hd : diagonalRow side (k + 1) height width j + 1 = diagonalRow side k height width j := by
    unfold diagonalRow
    split_ifs <;> omega
  rw [hd] at e3
  unfold wrappedRegion
  simp only []
  rw [e2, e1, e3]
  unfold int32
  omega

/-- The entries `MakeTrapezoidal` leaves on a valid matrix, for every offset: sizes,
alignment and shifts are kept, and a local or global entry is `0` inside the region of the
code and unchanged outside it. -/
theorem MakeTrapezoidal_entries [Zero T] (g : Grid) (RELEASE : Bool)
    (M : DistMatrix_MC_Star T) (hM : M.Valid g)
    (hunl : RELEASE = true ∨ M.lockedView = false) (side : Side) (shape : Shape)
    (offset : Int) :
    ∃ M', M.MakeTrapezoidal g RELEASE side shape offset = .done M' ∧
      M'.height = M.height ∧ M'.width = M.width ∧ M'.colAlignment = M.colAlignment ∧
      M'.colShift = M.colShift ∧ M'.localHeight = M.localHeight ∧
      M'.localWidth = M.localWidth ∧
      (∀ row col iLoc j, row < g.Height → col < g.Width → iLoc < M.localHeight row col →
        j < M.width →
        M'.localMatrix row col iLoc j
          = if wrappedRegion side shape offset M.height M.width
                (M.colShift row col + iLoc * g.Height) j then 0
            else M.localMatrix row col iLoc j) ∧
      (∀ col i j, col < g.Width → i < M.height → j < M.width →
        M'.entry g col i j
          = if wrappedRegion side shape offset M.height M.width i j then 0
            else M.entry g col i j) := by
  obtain ⟨⟨ha, hshift⟩, hloc⟩ := hM
  have hr : 0 < g.Height := by omega
  have hlocal : ∀ row col iLoc j, row < g.Height → col < g.Width →
      iLoc < M.localHeight row col → j < M.width →
      (if j < M.width ∧
          zeroedLocal side shape offset M.height M.width (M.colShift row col) g.Height
            (M.localHeight row col) iLoc j
        then 0 else M.localMatrix row col iLoc j)
        = if wrappedRegion side shape offset M.height M.width
              (M.colShift row col + iLoc * g.Height) j then 0
          else M.localMatrix row col iLoc j := by
    intro row col iLoc j hrow hcol hi hj
    have hz := wrappedRegion_local side shape offset M.height M.width (M.colShift row col)
      g.Height (M.localHeight row col) iLoc j hr (hloc row col hrow hcol).1 hi
    exact if_congr ⟨fun h => hz.1 h.2, fun h => ⟨hj, hz.2 h⟩⟩ rfl rfl
  refine ⟨_, MakeTrapezoidal_done g RELEASE M hunl side shape offset, rfl, rfl, rfl, rfl, rfl,
    rfl, hlocal, fun col i j hcol hi hj => ?_⟩
  have hown : (i + M.colAlignment) % g.Height < g.Height := Nat.mod_lt _ hr
  obtain ⟨-, -, o3, o4⟩ := owner_local g.Height M.colAlignment i M.height ha hi
  have hs := hshift _ col hown hcol
  unfold DistMatrix_MC_Star.entry
  simp only []
  rw [hlocal _ col _ j hown hcol (by rw [(hloc _ col hown hcol).1, hs]; exact o4) hj, hs, o3]

/-- C24, as stated, fails at the edge of `int`: `MakeTrapezoidal( Left, Lower, offset )`
with `offset = -2147483647` on the `3 × 2` example.  In column `1` the claim has
`lastZeroRow = j-offset-1 = 2147483647`, so the entry `(0,1)` lies in the region to be
zeroed; in the code `j-offset` wraps to `-2147483648`, `lastZeroRow` is `2147483647` and
`lastZeroRow+1` is `-2147483648` again, no row is zeroed and the entry keeps its value `1`.
Column `0`, where nothing wraps, is zeroed. -/
theorem MakeTrapezoidal_wraps :
    zeroRegion Side.Left Shape.Lower (-2147483647) 3 2 0 1 ∧
    demoStar.entry ⟨2, 2⟩ 0 0 1 = 1 ∧
    ∃ M', demoStar.MakeTrapezoidal ⟨2, 2⟩ false Side.Left Shape.Lower (-2147483647) = .done M' ∧
      M'.entry ⟨2, 2⟩ 0 0 1 = 1 ∧ M'.entry ⟨2, 2⟩ 0 0 0 = 0 := by
  refine ⟨by decide, rfl, _, rfl, ?_, ?_⟩ <;> decide

/-- C24 (amended). `MakeTrapezoidal` zeroes exactly the specified region of the global
matrix in every column where its offset arithmetic stays inside `int`.  For every grid,
every valid `[MC,*]` matrix (any alignment), side, shape and offset (negative or beyond the
matrix included) the call returns and keeps sizes, alignment and shifts; and in every
column `j` in which the row of the diagonal, `j-offset` for `Left` and `j-offset+h-w` for
`Right`, lies strictly between `INT_MIN` and `INT_MAX`, on every process the local entry of
an owned row `colShift + iLoc·r` is `0` when `(colShift + iLoc·r, j)` lies in the region
(`i ≤ lastZeroRow` for `Lower`, `i ≥ firstZeroRow` for `Upper`) and is unchanged otherwise;
so the global entry `(i,j)` becomes `0` in the region and keeps its value outside it.
Signed overflow is taken as the wrap modulo `2^32`. -/
theorem MakeTrapezoidal_region [Zero T] (g : Grid) (RELEASE : Bool)
    (M : DistMatrix_MC_Star T) (hM : M.Valid g)
    (hunl : RELEASE = true ∨ M.lockedView = false) (side : Side) (shape : Shape)
    (offset : Int) :
    ∃ M', M.MakeTrapezoidal g RELEASE side shape offset = .done M' ∧
      M'.height = M.height ∧ M'.width = M.width ∧ M'.colAlignment = M.colAlignment ∧
      M'.colShift = M.colShift ∧ M'.localHeight = M.localHeight ∧
      M'.localWidth = M.localWidth ∧
      (∀ row col iLoc j, row < g.Height → col < g.Width → iLoc < M.localHeight row col →
        j < M.width → ColumnFits side offset M.height M.width j →
        M'.localMatrix row col iLoc j
          = if zeroRegion side shape offset M.height M.width
                (M.colShift row col + iLoc * g.Height) j then 0
            else M.localMatrix row col iLoc j) ∧
      (∀ col i j, col < g.Width → i < M.height → j < M.width →
        ColumnFits side offset M.height M.width j →
        M'.entry g col i j
          = if zeroRegion side shape offset M.height M.width i j then 0
            else M.entry g col i j) := by
  obtain ⟨M', h0, h1, h2, h3, h4, h5, h6, h7, h8⟩ :=
    MakeTrapezoidal_entries g RELEASE M hM hunl side shape offset
  have hr : 0 < g.Height := by have := hM.1.1; omega
  refine ⟨M', h0, h1, h2, h3, h4, h5, h6, fun row col iLoc j hrow hcol hi hj hfit => ?_,
    fun col i j hcol hi hj hfit => ?_⟩
  · have hlt : M.colShift row col + iLoc * g.Height < M.height := by
      rw [(hM.2 row col hrow hcol).1] at hi
      exact (lt_LocalLength_iff _ _ _ _ hr).1 hi
    rw [h7 row col iLoc j hrow hcol hi hj]
    exact if_congr (wrappedRegion_fits side shape offset M.height M.width _ j hlt hfit) rfl rfl
  · rw [h8 col i j hcol hi hj]
    exact if_congr (wrappedRegion_fits side shape offset M.height M.width i j hi hfit) rfl rfl

/-- On the example: `MakeTrapezoidal( Left, Lower, 0 )` on `demoStar`, whose columns both
fit, zeroes the entry `(0,1)` above the diagonal and keeps the entry `(1,1)`. -/
theorem MakeTrapezoidal_region_witness :
    demoStar.Valid ⟨2, 2⟩ ∧
    ColumnFits Side.Left 0 demoStar.height demoStar.width 1 ∧
    ∃ M', demoStar.MakeTrapezoidal ⟨2, 2⟩ false Side.Left Shape.Lower 0 = .done M' ∧
      M'.entry ⟨2, 2⟩ 0 0 1 = 0 ∧ M'.entry ⟨2, 2⟩ 0 1 1 = 11 :=
  have hV : demoStar.Valid ⟨2, 2⟩ :=
    ⟨⟨by decide, fun _ _ _ _ => rfl⟩, fun _ _ _ _ => ⟨rfl, rfl⟩⟩
  have hF : ColumnFits Side.Left 0 demoStar.height demoStar.width 1 := by decide
  ⟨hV, hF, by
    obtain ⟨M', h1, -, -, -, -, -, -, -, h2⟩ :=
      MakeTrapezoidal_region ⟨2, 2⟩ false demoStar hV (Or.inr rfl) Side.Left Shape.Lower 0
    refine ⟨M', h1, ?_, ?_⟩
    · rw [h2 0 0 1 (by decide) (by decide) (by decide) hF]; decide
    · rw [h2 0 1 1 (by decide) (by decide) (by decide) hF]; decide⟩

end TrapezoidRegion

section TrapezoidIdempotence
variable {T : Type}

/-- C25. Trapezoidal idempotence: for every matrix, side, shape and offset `k` for which
`MakeTrapezoidal` is let through (`RELEASE`, or not a locked view), the call returns and a
second call with the same arguments returns the same matrix; and on a valid matrix
`MakeTrapezoidal(s, Lower, k)` and `MakeTrapezoidal(s, Upper, k+1)`, applied to two copies,
keep complementary sets of entries: every entry `(i,j)` is kept in exactly one of the two
copies and is zero in the other.  The sets are those the `int` arithmetic of the code
arrives at (signed overflow taken as the wrap modulo `2^32`), so this holds for every
offset, also where `j-k` leaves `int`. -/
theorem trapezoidal_idempotence [Zero T] (g : Grid) (RELEASE : Bool)
    (M : DistMatrix_MC_Star T) (hunl : RELEASE = true ∨ M.lockedView = false)
    (side : Side) (shape : Shape) (k : Int) :
    (∃ M', M.MakeTrapezoidal g RELEASE side shape k = .done M' ∧
      M'.MakeTrapezoidal g RELEASE side shape k = .done M') ∧
    (M.Valid g →
      ∃ L U, M.MakeTrapezoidal g RELEASE side Shape.Lower k = .done L ∧
        M.MakeTrapezoidal g RELEASE side Shape.Upper (k + 1) = .done U ∧
        ∀ col i j, col < g.Width → i < M.height → j < M.width →
          (¬ wrappedRegion side Shape.Lower k M.height M.width i j ∧
            wrappedRegion side Shape.Upper (k + 1) M.height M.width i j ∧
            L.entry g col i j = M.entry g col i j ∧ U.entry g col i j = 0) ∨
          (wrappedRegion side Shape.Lower k M.height M.width i j ∧
            ¬ wrappedRegion side Shape.Upper (k + 1) M.height M.width i j ∧
            L.entry g col i j = 0 ∧ U.entry g col i j = M.entry g col i j)) := by
  constructor
  · refine ⟨_, MakeTrapezoidal_done g RELEASE M hunl side shape k, ?_⟩
    have hext : ∀ (F G : Nat → Nat → Mat T), F = G →
        ({ M with localMatrix := F } : DistMatrix_MC_Star T) = { M with localMatrix := G } :=
      fun _ _ h => by rw [h]
    refine (MakeTrapezoidal_done g RELEASE _ ?_ side shape k).trans
      (congrArg Outcome.done (hext _ _ ?_))
    · exact hunl
    · funext row col iLoc j
      dsimp only
      split_ifs <;> rfl
  · intro hM
    obtain ⟨L, hL, -, -, -, -, -, -, -, eL⟩ :=
      MakeTrapezoidal_entries g RELEASE M hM hunl side Shape.Lower k
    obtain ⟨U, hU, -, -, -, -, -, -, -, eU⟩ :=
      MakeTrapezoidal_entries g RELEASE M hM hunl side Shape.Upper (k + 1)
    refine ⟨L, U, hL, hU, fun col i j hcol hi hj => ?_⟩
    rw [eL col i j hcol hi hj, eU col i j hcol hi hj]
    by_cases hz : wrappedRegion side Shape.Lower k M.height M.width i j
    · have hu := (wrappedRegion_complement side k M.height M.width i j hi).1 hz
      exact Or.inr ⟨hz, hu, by rw [if_pos hz], by rw [if_neg hu]⟩
    · have hu : wrappedRegion side Shape.Upper (k + 1) M.height M.width i j := by
        by_contra hn
        exact hz ((wrappedRegion_complement side k M.height M.width i j hi).2 hn)
      exact Or.inl ⟨hz, hu, by rw [if_neg hz], by rw [if_pos hu]⟩

/-- On the example: `demoStar` made lower trapezoidal twice is as once; with the offsets
`0` and `1` the entry `(0,1)` is zero in the lower copy and survives in the upper copy; and
with the offsets `-2147483647` and `-2147483646`, where `j-k` wraps in column `1`, the
entry `(1,1)` survives in the lower copy and is zero in the upper copy. -/
theorem trapezoidal_idempotence_witness :
    demoStar.Valid ⟨2, 2⟩ ∧
    (∃ M', demoStar.MakeTrapezoidal ⟨2, 2⟩ false Side.Left Shape.Lower 0 = .done M' ∧
      M'.MakeTrapezoidal ⟨2, 2⟩ false Side.Left Shape.Lower 0 = .done M') ∧
    (∃ L U, demoStar.MakeTrapezoidal ⟨2, 2⟩ false Side.Left Shape.Lower 0 = .done L ∧
      demoStar.MakeTrapezoidal ⟨2, 2⟩ false Side.Left Shape.Upper (0 + 1) = .done U ∧
      L.entry ⟨2, 2⟩ 0 0 1 = 0 ∧
      U.entry ⟨2, 2⟩ 0 0 1 = demoStar.entry ⟨2, 2⟩ 0 0 1) ∧
    ∃ L U,
      demoStar.MakeTrapezoidal ⟨2, 2⟩ false Side.Left Shape.Lower (-2147483647) = .done L ∧
      demoStar.MakeTrapezoidal ⟨2, 2⟩ false Side.Left Shape.Upper (-2147483647 + 1)
        = .done U ∧
      L.entry ⟨2, 2⟩ 0 1 1 = demoStar.entry ⟨2, 2⟩ 0 1 1 ∧
      U.entry ⟨2, 2⟩ 0 1 1 = 0 :=
  have hV : demoStar.Valid ⟨2, 2⟩ :=
    ⟨⟨by decide, fun _ _ _ _ => rfl⟩, fun _ _ _ _ => ⟨rfl, rfl⟩⟩
  ⟨hV,
    (trapezoidal_idempotence ⟨2, 2⟩ false demoStar (Or.inr rfl) Side.Left Shape.Lower 0).1, by
    obtain ⟨L, U, hL, hU, h⟩ :=
      (trapezoidal_idempotence ⟨2, 2⟩ false demoStar (Or.inr rfl) Side.Left Shape.Lower 0).2 hV
    refine ⟨L, U, hL, hU, ?_⟩
    rcases h 0 0 1 (by decide) (by decide) (by decide) with ⟨hz, -⟩ | ⟨-, -, h1, h2⟩
    · exact absurd (by decide) hz
    · exact ⟨h1, h2⟩, by
    obtain ⟨L, U, hL, hU, h⟩ :=
      (trapezoidal_idempotence ⟨2, 2⟩ false demoStar (Or.inr rfl) Side.Left Shape.Lower
        (-2147483647)).2 hV
    refine ⟨L, U, hL, hU, ?_⟩
    rcases h 0 1 1 (by decide) (by decide) (by decide) with ⟨-, -, h1, h2⟩ | ⟨hz, -⟩
    · exact ⟨h1, h2⟩
    · exact absurd hz (by decide)⟩

end TrapezoidIdempotence

section Scale
variable {T : Type}

/-- A loop over the rows `base + iLocal` of column `j` that rewrites each entry once. -/
theorem row_loop (j base : Nat) (w : T → T) (cnt : Nat) :
    ∀ (lo : Nat) (L : Mat T) (i j' : Nat),
      forLoop (fun iLocal (L1 : Mat T) => L1.set (base + iLocal) j (w (L1 (base + iLocal) j)))
        cnt lo L i j'
        = if j' = j ∧ base + lo ≤ i ∧ i < base + lo + cnt then w (L i j') else L i j' := by
  induction cnt with
  | zero => intro lo L i j'; rw [if_neg (by omega)]; rfl
  | succ cnt ih =>
    intro lo L i j'
    rw [forLoop, ih]
    unfold Mat.set
    by_cases h : i = base + lo ∧ j' = j
    · obtain ⟨h1, h2⟩ := h
      subst h1 h2
      rw [if_neg (by omega), if_pos ⟨rfl, rfl⟩, if_pos ⟨rfl, le_refl _, by omega⟩]
    · have hb : (if i = base + lo ∧ j' = j then w (L (base + lo) j) else L i j') = L i j' :=
        if_neg h
      rw [hb]
      refine if_congr ⟨?_, ?_⟩ rfl rfl
      · rintro ⟨a, b, c⟩; exact ⟨a, by omega, by omega⟩
      · rintro ⟨a, b, c⟩
        refine ⟨a, ?_, by omega⟩
        by_contra hn
        exact h ⟨by omega, a⟩

/-- What `ScaleTrapezoidal` leaves when `AssertNotLockedView` lets it through: in each
column `j < width` of each local tile the rows its inner loop covers are multiplied by
`alpha`, all else is as before. -/
theorem ScaleTrapezoidal_done [Mul T] (g : Grid) (RELEASE : Bool) (M : DistMatrix_MC_Star T)
    (hunl : RELEASE = true ∨ M.lockedView = false) (alpha : T) (side : Side) (shape : Shape)
    (offset : Int) :
    M.ScaleTrapezoidal g RELEASE alpha side shape offset = .done { M with
      localMatrix := fun row col iLoc j =>
        if j < M.width ∧
          scaledLocal side shape offset M.height M.width (M.colShift row col) g.Height
            (M.localHeight row col) iLoc j
        then M.localMatrix row col iLoc j * alpha else M.localMatrix row col iLoc j } := by
  unfold DistMatrix_MC_Star.ScaleTrapezoidal
  rw [if_neg (by rw [unlocked_guard RELEASE M hunl]; exact Bool.false_ne_true)]
  simp only []
  congr 2
  funext row col
  by_cases hs : shape = Shape.Upper
  · rw [if_pos hs]
    simp only [scaledLocal, if_pos hs]
    refine column_range
      (fun j iLoc => iLoc < RawLocalLength
          (min (iadd (lastRow side offset M.height M.width j) 1) M.height).toNat
          (M.colShift row col) g.Height)
      (fun _ _ x => x * alpha) M.width _ (fun j L => ?_) _
    funext i j'
    have hbody : (fun iLocal (L1 : Mat T) => L1.set iLocal j (L1 iLocal j * alpha))
        = (fun iLocal (L1 : Mat T) => L1.set (0 + iLocal) j (L1 (0 + iLocal) j * alpha)) := by
      funext iLocal L1
      rw [Nat.zero_add]
    unfold forRange
    rw [hbody, row_loop j 0 (fun x => x * alpha)]
    refine if_congr ⟨?_, ?_⟩ rfl rfl
    · rintro ⟨a, -, c⟩; exact ⟨a, by omega⟩
    · rintro ⟨a, c⟩; exact ⟨a, by omega, by omega⟩
  · rw [if_neg hs]
    simp only [scaledLocal, if_neg hs]
    refine column_range
      (fun j iLoc => RawLocalLength
          (firstRow side offset M.height M.width j).toNat
          (M.colShift row col) g.Height ≤ iLoc ∧ iLoc < M.localHeight row col)
      (fun _ _ x => x * alpha) M.width _ (fun j L => ?_) _
    funext i j'
    unfold forRange
    rw [row_loop j _ (fun x => x * alpha)]
    refine if_congr ⟨?_, ?_⟩ rfl rfl
    · rintro ⟨a, b, c⟩; exact ⟨a, by omega, by omega⟩
    · rintro ⟨a, b, c⟩; exact ⟨a, by omega, by omega⟩

/-- On a valid matrix the rows `ScaleTrapezoidal` scales in a local column are those whose
global index lies outside the region `MakeTrapezoidal` zeroes, for every offset. -/
theorem scaled_local (side : Side) (shape : Shape) (offset : Int)
    (height width cs r lh iLoc j : Nat) (hr : 0 < r) (hlh : lh = LocalLength height cs r)
    (hi : iLoc < lh) :
    scaledLocal side shape offset height width cs r lh iLoc j
      ↔ ¬ wrappedRegion side shape offset height width (cs + iLoc * r) j := by
  have hlt : cs + iLoc * r < height := by
    rw [hlh] at hi
    exact (lt_LocalLength_iff _ _ _ _ hr).1 hi
  obtain ⟨i, hidef⟩ : ∃ i, i = cs + iLoc * r := ⟨_, rfl⟩
  rw [← hidef] at hlt ⊢
  obtain ⟨e1, e2, e3, e4, e5, e6⟩ := int32_rows side offset height width j
  unfold scaledLocal wrappedRegion
  cases shape with
  | Upper =>
    simp only [if_true]
    rw [RawLocalLength_eq, lt_LocalLength_iff _ _ _ _ hr, ← hidef, e5, e3]
    omega
  | Lower =>
    simp only [reduceCtorEq, if_false]
    rw [← not_lt, RawLocalLength_eq, lt_LocalLength_iff _ _ _ _ hr, ← hidef, e6, e2, e1]
    unfold int32
    constructor
    · rintro ⟨h1, -⟩; omega
    · intro h1; exact ⟨by omega, hi⟩

/-- C26, as stated, fails: `ScaleTrapezoidal( 2, Left, Lower, 0 )` on the example leaves
the entry `(0,1)`, which `MakeTrapezoidal( Left, Lower, 0 )` sets to zero, as it is, and
doubles the entry `(1,0)`, which `MakeTrapezoidal` keeps. -/
theorem ScaleTrapezoidal_scales_kept :
    demoStar.entry ⟨2, 2⟩ 0 0 1 = 1 ∧ demoStar.entry ⟨2, 2⟩ 0 1 0 = 10 ∧
    (∃ Z, demoStar.MakeTrapezoidal ⟨2, 2⟩ true Side.Left Shape.Lower 0 = .done Z ∧
      Z.entry ⟨2, 2⟩ 0 0 1 = 0 ∧ Z.entry ⟨2, 2⟩ 0 1 0 = 10) ∧
    (∃ S, demoStar.ScaleTrapezoidal ⟨2, 2⟩ true 2 Side.Left Shape.Lower 0 = .done S ∧
      S.entry ⟨2, 2⟩ 0 0 1 = 1 ∧ S.entry ⟨2, 2⟩ 0 1 0 = 20) := by
  refine ⟨rfl, rfl, ⟨_, rfl, ?_, ?_⟩, ⟨_, rfl, ?_, ?_⟩⟩ <;> decide

/-- C26 (amended): `ScaleTrapezoidal` scales the trapezoid that `MakeTrapezoidal` keeps.
For every valid `[MC,*]` matrix, `α`, side, shape and offset, `ScaleTrapezoidal` and
`MakeTrapezoidal` with the same side, shape and offset both return, `ScaleTrapezoidal`
keeps sizes, alignment and shifts, and of every local entry of an owned row and every
global entry `(i,j)` one of two things holds: `MakeTrapezoidal` sets it to zero and
`ScaleTrapezoidal` leaves it unchanged, or `MakeTrapezoidal` keeps it and `ScaleTrapezoidal`
multiplies it by `α`.  The first happens in the region the `int` arithmetic of the code
arrives at (signed overflow taken as the wrap modulo `2^32`), which in every column where
the arithmetic stays inside `int` is the region of the spec. -/
theorem ScaleTrapezoidal_region [Zero T] [Mul T] (g : Grid) (RELEASE : Bool)
    (M : DistMatrix_MC_Star T) (hM : M.Valid g)
    (hunl : RELEASE = true ∨ M.lockedView = false) (alpha : T) (side : Side) (shape : Shape)
    (offset : Int) :
    ∃ S Z, M.ScaleTrapezoidal g RELEASE alpha side shape offset = .done S ∧
      M.MakeTrapezoidal g RELEASE side shape offset = .done Z ∧
      S.height = M.height ∧ S.width = M.width ∧ S.colAlignment = M.colAlignment ∧
      S.colShift = M.colShift ∧ S.localHeight = M.localHeight ∧
      S.localWidth = M.localWidth ∧
      (∀ row col iLoc j, row < g.Height → col < g.Width → iLoc < M.localHeight row col →
        j < M.width →
        (wrappedRegion side shape offset M.height M.width
            (M.colShift row col + iLoc * g.Height) j ∧
          Z.localMatrix row col iLoc j = 0 ∧
          S.localMatrix row col iLoc j = M.localMatrix row col iLoc j) ∨
        (¬ wrappedRegion side shape offset M.height M.width
            (M.colShift row col + iLoc * g.Height) j ∧
          Z.localMatrix row col iLoc j = M.localMatrix row col iLoc j ∧
          S.localMatrix row col iLoc j = M.localMatrix row col iLoc j * alpha)) ∧
      (∀ col i j, col < g.Width → i < M.height → j < M.width →
        (wrappedRegion side shape offset M.height M.width i j ∧
          Z.entry g col i j = 0 ∧ S.entry g col i j = M.entry g col i j) ∨
        (¬ wrappedRegion side shape offset M.height M.width i j ∧
          Z.entry g col i j = M.entry g col i j ∧
          S.entry g col i j = M.entry g col i j * alpha)) ∧
      (∀ i j, i < M.height → j < M.width → ColumnFits side offset M.height M.width j →
        (wrappedRegion side shape offset M.height M.width i j
          ↔ zeroRegion side shape offset M.height M.width i j)) := by
  obtain ⟨Z, hZ, -, -, -, -, -, -, z7, z8⟩ :=
    MakeTrapezoidal_entries g RELEASE M hM hunl side shape offset
  obtain ⟨⟨ha, hshift⟩, hloc⟩ := hM
  have hr : 0 < g.Height := by omega
  have hlocal : ∀ row col iLoc j, row < g.Height → col < g.Width →
      iLoc < M.localHeight row col → j < M.width →
      (if j < M.width ∧
          scaledLocal side shape offset M.height M.width (M.colShift row col) g.Height
            (M.localHeight row col) iLoc j
        then M.localMatrix row col iLoc j * alpha else M.localMatrix row col iLoc j)
        = if wrappedRegion side shape offset M.height M.width
              (M.colShift row col + iLoc * g.Height) j then M.localMatrix row col iLoc j
          else M.localMatrix row col iLoc j * alpha := by
    intro row col iLoc j hrow hcol hi hj
    have hz := scaled_local side shape offset M.height M.width (M.colShift row col)
      g.Height (M.localHeight row col) iLoc j hr (hloc row col hrow hcol).1 hi
    by_cases hzero : wrappedRegion side shape offset M.height M.width
        (M.colShift row col + iLoc * g.Height) j
    · rw [if_pos hzero, if_neg (fun h => hz.1 h.2 hzero)]
    · rw [if_neg hzero, if_pos ⟨hj, hz.2 hzero⟩]
  have hglobal : ∀ col i j, col < g.Width → i < M.height → j < M.width →
      DistMatrix_MC_Star.entry g
          ({ M with
            localMatrix := fun row col iLoc j =>
              if j < M.width ∧
                scaledLocal side shape offset M.height M.width (M.colShift row col) g.Height
                  (M.localHeight row col) iLoc j
              then M.localMatrix row col iLoc j * alpha else M.localMatrix row col iLoc j } :
            DistMatrix_MC_Star T) col i j
        = if wrappedRegion side shape offset M.height M.width i j then M.entry g col i j
          else M.entry g col i j * alpha := by
    intro col i j hcol hi hj
    have hown : (i + M.colAlignment) % g.Height < g.Height := Nat.mod_lt _ hr
    obtain ⟨-, -, o3, o4⟩ := owner_local g.Height M.colAlignment i M.height ha hi
    have hs := hshift _ col hown hcol
    unfold DistMatrix_MC_Star.entry
    simp only []
    rw [hlocal _ col _ j hown hcol (by rw [(hloc _ col hown hcol).1, hs]; exact o4) hj, hs, o3]
  refine ⟨_, Z, ScaleTrapezoidal_done g RELEASE M hunl alpha side shape offset, hZ, rfl, rfl,
    rfl, rfl, rfl, rfl, fun row col iLoc j hrow hcol hi hj => ?_,
    fun col i j hcol hi hj => ?_,
    fun i j hi hj hfit => wrappedRegion_fits side shape offset M.height M.width i j hi hfit⟩
  · have e := hlocal row col iLoc j hrow hcol hi hj
    by_cases hzero : wrappedRegion side shape offset M.height M.width
        (M.colShift row col + iLoc * g.Height) j
    · refine Or.inl ⟨hzero, ?_, ?_⟩
      · rw [z7 row col iLoc j hrow hcol hi hj, if_pos hzero]
      · exact e.trans (if_pos hzero)
    · refine Or.inr ⟨hzero, ?_, ?_⟩
      · rw [z7 row col iLoc j hrow hcol hi hj, if_neg hzero]
      · exact e.trans (if_neg hzero)
  · have e := hglobal col i j hcol hi hj
    by_cases hzero : wrappedRegion side shape offset M.height M.width i j
    · refine Or.inl ⟨hzero, ?_, ?_⟩
      · rw [z8 col i j hcol hi hj, if_pos hzero]
      · exact e.trans (if_pos hzero)
    · refine Or.inr ⟨hzero, ?_, ?_⟩
      · rw [z8 col i j hcol hi hj, if_neg hzero]
      · exact e.trans (if_neg hzero)

/-- On the example: `ScaleTrapezoidal( 2, Left, Lower, 0 )` on `demoStar` doubles the
entry `(1,0)` of the lower trapezoid, which `MakeTrapezoidal( Left, Lower, 0 )` keeps, and
leaves the entry `(0,1)` above it, which `MakeTrapezoidal` zeroes. -/
theorem ScaleTrapezoidal_region_witness :
    demoStar.Valid ⟨2, 2⟩ ∧
    ∃ S Z, demoStar.ScaleTrapezoidal ⟨2, 2⟩ false 2 Side.Left Shape.Lower 0 = .done S ∧
      demoStar.MakeTrapezoidal ⟨2, 2⟩ false Side.Left Shape.Lower 0 = .done Z ∧
      (Z.entry ⟨2, 2⟩ 0 1 0 = 10 ∧ S.entry ⟨2, 2⟩ 0 1 0 = 10 * 2) ∧
      (Z.entry ⟨2, 2⟩ 0 0 1 = 0 ∧ S.entry ⟨2, 2⟩ 0 0 1 = 1) :=
  have hV : demoStar.Valid ⟨2, 2⟩ :=
    ⟨⟨by decide, fun _ _ _ _ => rfl⟩, fun _ _ _ _ => ⟨rfl, rfl⟩⟩
  ⟨hV, by
    obtain ⟨S, Z, h1, h2, -, -, -, -, -, -, -, h3, -⟩ :=
      ScaleTrapezoidal_region ⟨2, 2⟩ false demoStar hV (Or.inr rfl) 2 Side.Left Shape.Lower 0
    refine ⟨S, Z, h1, h2, ?_, ?_⟩
    · rcases h3 0 1 0 (by decide) (by decide) (by decide) with ⟨hz, -⟩ | ⟨-, a, b⟩
      · exact absurd hz (by decide)
      · exact ⟨a, b⟩
    · rcases h3 0 0 1 (by decide) (by decide) (by decide) with ⟨-, a, b⟩ | ⟨hz, -⟩
      · exact ⟨a, b⟩
      · exact absurd (by decide) hz⟩

end Scale

section Identity
variable {T : Type}

/-- The loop of `SetToIdentity` writes the `1` of each local row it has passed whose
column index is below the width. -/
theorem identity_loop [One T] (cs r width : Nat) (cnt : Nat) :
    ∀ (lo : Nat) (L : Mat T) (i j : Nat),
      forLoop (fun iLocal (L : Mat T) =>
          if cs + iLocal * r < width then L.set iLocal (cs + iLocal * r) 1 else L) cnt lo L i j
        = if lo ≤ i ∧ i < lo + cnt ∧ cs + i * r < width ∧ j = cs + i * r then 1 else L i j := by
  induction cnt with
  | zero => intro lo L i j; rw [if_neg (by omega)]; rfl
  | succ cnt ih =>
    intro lo L i j
    rw [forLoop, ih]
    by_cases h : i = lo
    · subst h
      rw [if_neg (by omega)]
      by_cases hw : cs + i * r < width
      · rw [if_pos hw]
        unfold Mat.set
        by_cases hj : j = cs + i * r
        · rw [if_pos ⟨rfl, hj⟩, if_pos ⟨le_refl _, by omega, hw, hj⟩]
        · rw [if_neg (fun h => hj h.2), if_neg (fun h => hj h.2.2.2)]
      · rw [if_neg hw, if_neg (fun h => hw h.2.2.1)]
    · have hb : (if cs + lo * r < width then L.set lo (cs + lo * r) 1 else L) i j = L i j := by
        split_ifs
        · unfold Mat.set
          rw [if_neg (fun h1 => h h1.1)]
        · rfl
      rw [hb]
      refine if_congr ⟨?_, ?_⟩ rfl rfl
      · rintro ⟨a, b, c⟩; exact ⟨by omega, by omega, c⟩
      · rintro ⟨a, b, c⟩; exact ⟨by omega, by omega, c⟩

/-- What `SetToIdentity` leaves when `AssertNotLockedView` lets it through. -/
theorem SetToIdentity_done [Zero T] [One T] (g : Grid) (RELEASE : Bool)
    (M : DistMatrix_MC_Star T) (hunl : RELEASE = true ∨ M.lockedView = false) :
    M.SetToIdentity g RELEASE = .done { M with
      localMatrix := fun row col iLoc j =>
        if iLoc < M.localHeight row col ∧ M.colShift row col + iLoc * g.Height < M.width ∧
            j = M.colShift row col + iLoc * g.Height then 1
        else if iLoc < M.localHeight row col ∧ j < M.localWidth row col then 0
        else M.localMatrix row col iLoc j } := by
  unfold DistMatrix_MC_Star.SetToIdentity
  rw [if_neg (by rw [unlocked_guard RELEASE M hunl]; exact Bool.false_ne_true)]
  simp only []
  congr 2
  funext row col iLoc j
  unfold forRange
  rw [identity_loop]
  refine if_congr ⟨?_, ?_⟩ rfl rfl
  · rintro ⟨-, b, c⟩; exact ⟨by omega, c⟩
  · rintro ⟨b, c⟩; exact ⟨Nat.zero_le _, by omega, c⟩

/-- C27. `SetToIdentity` yields the global identity pattern: for every grid and every
valid `h×w` `[MC,*]` matrix (any alignment) that is let through (`RELEASE`, or not a locked
view), the call returns and keeps sizes, alignment and shifts; on every process the local
entry of row `iLoc` and column `j` of the tile is `1` when `j = colShift + iLoc·r` and `0`
otherwise, so the global entry `(i,j)` is `1` when `i = j` and `0` otherwise; and nothing
is written outside the tile: the `1` of a local row is written only when its column index
`colShift + iLoc·r` is below `w`. -/
theorem SetToIdentity_pattern [Zero T] [One T] (g : Grid) (RELEASE : Bool)
    (M : DistMatrix_MC_Star T) (hM : M.Valid g)
    (hunl : RELEASE = true ∨ M.lockedView = false) :
    ∃ M', M.SetToIdentity g RELEASE = .done M' ∧
      M'.height = M.height ∧ M'.width = M.width ∧ M'.colAlignment = M.colAlignment ∧
      M'.colShift = M.colShift ∧ M'.localHeight = M.localHeight ∧
      M'.localWidth = M.localWidth ∧
      (∀ row col iLoc j, row < g.Height → col < g.Width → iLoc < M.localHeight row col →
        j < M.width →
        M'.localMatrix row col iLoc j
          = if M.colShift row col + iLoc * g.Height = j then 1 else 0) ∧
      (∀ col i j, col < g.Width → i < M.height → j < M.width →
        M'.entry g col i j = if i = j then 1 else 0) ∧
      (∀ row col iLoc j, row < g.Height → col < g.Width →
        (M.localHeight row col ≤ iLoc ∨ M.width ≤ j) →
        M'.localMatrix row col iLoc j = M.localMatrix row col iLoc j) := by
  obtain ⟨⟨ha, hshift⟩, hloc⟩ := hM
  have hr : 0 < g.Height := by omega
  have hlocal : ∀ row col iLoc j, row < g.Height → col < g.Width →
      iLoc < M.localHeight row col → j < M.width →
      (if iLoc < M.localHeight row col ∧ M.colShift row col + iLoc * g.Height < M.width ∧
            j = M.colShift row col + iLoc * g.Height then (1 : T)
        else if iLoc < M.localHeight row col ∧ j < M.localWidth row col then 0
        else M.localMatrix row col iLoc j)
        = if M.colShift row col + iLoc * g.Height = j then 1 else 0 := by
    intro row col iLoc j hrow hcol hi hj
    by_cases hd : M.colShift row col + iLoc * g.Height = j
    · rw [if_pos hd, if_pos ⟨hi, by omega, hd.symm⟩]
    · rw [if_neg hd, if_neg (fun h => hd h.2.2.symm),
        if_pos ⟨hi, by rw [(hloc row col hrow hcol).2]; exact hj⟩]
  refine ⟨_, SetToIdentity_done g RELEASE M hunl, rfl, rfl, rfl, rfl, rfl, rfl, hlocal,
    fun col i j hcol hi hj => ?_, fun row col iLoc j hrow hcol hout => ?_⟩
  · have hown : (i + M.colAlignment) % g.Height < g.Height := Nat.mod_lt _ hr
    obtain ⟨-, -, o3, o4⟩ := owner_local g.Height M.colAlignment i M.height ha hi
    have hs := hshift _ col hown hcol
    unfold DistMatrix_MC_Star.entry
    simp only []
    rw [hlocal _ col _ j hown hcol (by rw [(hloc _ col hown hcol).1, hs]; exact o4) hj, hs, o3]
  · simp only []
    rw [if_neg, if_neg]
    · rintro ⟨a, b⟩
      rw [(hloc row col hrow hcol).2] at b
      omega
    · rintro ⟨a, b, c⟩
      omega

/-- On the example: `SetToIdentity` on `demoStar` leaves `1` at `(1,1)` and `0` at
`(2,1)`. -/
theorem SetToIdentity_pattern_witness :
    demoStar.Valid ⟨2, 2⟩ ∧
    ∃ M', demoStar.SetToIdentity ⟨2, 2⟩ false = .done M' ∧
      M'.entry ⟨2, 2⟩ 0 1 1 = 1 ∧ M'.entry ⟨2, 2⟩ 0 2 1 = 0 :=
  have hV : demoStar.Valid ⟨2, 2⟩ :=
    ⟨⟨by decide, fun _ _ _ _ => rfl⟩, fun _ _ _ _ => ⟨rfl, rfl⟩⟩
  ⟨hV, by
    obtain ⟨M', h1, -, -, -, -, -, -, -, h2, -⟩ :=
      SetToIdentity_pattern ⟨2, 2⟩ false demoStar hV (Or.inr rfl)
    refine ⟨M', h1, ?_, ?_⟩
    · rw [h2 0 1 1 (by decide) (by decide) (by decide)]; decide
    · rw [h2 0 2 1 (by decide) (by decide) (by decide)]; decide⟩

end Identity

section Random
variable {T : Type}

/-- The inner fill loop: `cnt` draws go to the consecutive places `off + lo, …`. -/
theorem fill_inner (off : Nat) (draws : Nat → T) (cnt : Nat) :
    ∀ (lo : Nat) (b : Nat → T) (n : Nat),
      forLoop (fun iLocal (s1 : (Nat → T) × Nat) =>
          (memcpy s1.1 (iLocal + off) (fun _ => draws s1.2) 1, s1.2 + 1)) cnt lo (b, n)
        = (fun t => if off + lo ≤ t ∧ t < off + lo + cnt then draws (n + (t - (off + lo)))
            else b t, n + cnt) := by
  induction cnt with
  | zero =>
    intro lo b n
    rw [forLoop]
    refine Prod.ext (funext fun t => ?_) rfl
    dsimp only
    rw [if_neg (by omega)]
  | succ cnt ih =>
    intro lo b n
    rw [forLoop, ih]
    refine Prod.ext (funext fun t => ?_) (by show n + 1 + cnt = n + (cnt + 1); omega)
    dsimp only
    rw [memcpy_apply]
    by_cases h1 : off + (lo + 1) ≤ t ∧ t < off + (lo + 1) + cnt
    · rw [if_pos h1, if_pos (by omega)]
      congr 1; omega
    · rw [if_neg h1]
      by_cases h2 : lo + off ≤ t ∧ t < lo + off + 1
      · rw [if_pos h2, if_pos (by omega)]
        congr 1; omega
      · rw [if_neg h2, if_neg (by omega)]

/-- The outer fill loop: the columns it has passed hold consecutive draws. -/
theorem fill_outer (lh : Nat) (draws : Nat → T) (cnt : Nat) :
    ∀ (lo : Nat) (b : Nat → T) (n : Nat),
      forLoop (fun j (s : (Nat → T) × Nat) =>
          forRange 0 lh
            (fun iLocal (s1 : (Nat → T) × Nat) =>
              (memcpy s1.1 (iLocal + j * lh) (fun _ => draws s1.2) 1, s1.2 + 1)) s) cnt lo (b, n)
        = (fun t => if lo * lh ≤ t ∧ t < lo * lh + cnt * lh then draws (n + (t - lo * lh))
            else b t, n + cnt * lh) := by
  induction cnt with
  | zero =>
    intro lo b n
    rw [forLoop]
    refine Prod.ext (funext fun t => ?_) (by show n = n + 0 * lh; omega)
    dsimp only
    rw [if_neg (by omega)]
  | succ cnt ih =>
    intro lo b n
    have hstep : forRange 0 lh
        (fun iLocal (s1 : (Nat → T) × Nat) =>
          (memcpy s1.1 (iLocal + lo * lh) (fun _ => draws s1.2) 1, s1.2 + 1)) (b, n)
        = (fun t => if lo * lh + 0 ≤ t ∧ t < lo * lh + 0 + (lh - 0)
            then draws (n + (t - (lo * lh + 0))) else b t, n + (lh - 0)) := by
      unfold forRange
      exact fill_inner (lo * lh) draws (lh - 0) 0 b n
    rw [forLoop, hstep, ih]
    have e1 : (lo + 1) * lh = lo * lh + lh := Nat.succ_mul lo lh
    have e2 : (cnt + 1) * lh = cnt * lh + lh := Nat.succ_mul cnt lh
    refine Prod.ext (funext fun t => ?_) (by show n + (lh - 0) + cnt * lh = n + (cnt + 1) * lh; omega)
    dsimp only
    by_cases h1 : (lo + 1) * lh ≤ t ∧ t < (lo + 1) * lh + cnt * lh
    · rw [if_pos h1, if_pos (by omega)]
      congr 1; omega
    · rw [if_neg h1]
      by_cases h2 : lo * lh + 0 ≤ t ∧ t < lo * lh + 0 + (lh - 0)
      · rw [if_pos h2, if_pos (by omega)]
        rfl
      · rw [if_neg h2, if_neg (by omega)]

/-- The fill loop of `SetToRandom` puts the draws, in their order, into the first
`width·localHeight` places of the buffer. -/
theorem fillRandom_get (width lh : Nat) (draws : Nat → T) (buffer : Nat → T) (t : Nat)
    (ht : t < width * lh) : fillRandom width lh draws buffer t = draws t := by
  have h := fill_outer lh draws (width - 0) 0 buffer 0
  unfold fillRandom
  unfold forRange at h ⊢
  rw [h]
  dsimp only
  rw [if_pos (by rw [Nat.zero_mul, Nat.zero_add, Nat.sub_zero]; exact ⟨Nat.zero_le _, ht⟩)]
  congr 1
  rw [Nat.zero_mul]; omega

/-- C28. `SetToRandom` produces identical replicas: for every stream of draws on each
process and every content of the scratch buffers, on a valid `[MC,*]` matrix that is let
through (`RELEASE`, or not a locked view) the call returns and keeps sizes, alignment and
shifts; on every process `(row, col)` of the grid the local entry `(iLoc, j)` of the tile
is the draw number `j·localHeight + iLoc` of the process `(row, 0)`, so the `c` processes
of a grid row hold the same tile; and the draws of the processes with `MRRank ≠ 0` have
no influence: with other draws there (and other scratch contents) the tiles are the
same. -/
theorem SetToRandom_replicas (g : Grid) (RELEASE : Bool) (draws aux : Nat → Nat → Nat → T)
    (M : DistMatrix_MC_Star T) (hM : M.Valid g)
    (hunl : RELEASE = true ∨ M.lockedView = false) :
    ∃ M', M.SetToRandom RELEASE draws aux = .done M' ∧
      M'.height = M.height ∧ M'.width = M.width ∧ M'.colAlignment = M.colAlignment ∧
      M'.colShift = M.colShift ∧ M'.localHeight = M.localHeight ∧
      M'.localWidth = M.localWidth ∧
      (∀ row col iLoc j, row < g.Height → col < g.Width → iLoc < M.localHeight row col →
        j < M.width →
        M'.localMatrix row col iLoc j = draws row 0 (j * M.localHeight row 0 + iLoc) ∧
        M'.localMatrix row col iLoc j = M'.localMatrix row 0 iLoc j) ∧
      (∀ draws' aux' : Nat → Nat → Nat → T, (∀ row n, draws' row 0 n = draws row 0 n) →
        ∃ M2, M.SetToRandom RELEASE draws' aux' = .done M2 ∧
          ∀ row col iLoc j, row < g.Height → col < g.Width → iLoc < M.localHeight row col →
            j < M.width → M2.localMatrix row col iLoc j = M'.localMatrix row col iLoc j) := by
  obtain ⟨⟨ha, hshift⟩, hloc⟩ := hM
  have hdone : ∀ d a : Nat → Nat → Nat → T, ∃ M', M.SetToRandom RELEASE d a = .done M' ∧
      M'.height = M.height ∧ M'.width = M.width ∧ M'.colAlignment = M.colAlignment ∧
      M'.colShift = M.colShift ∧ M'.localHeight = M.localHeight ∧
      M'.localWidth = M.localWidth ∧
      ∀ row col iLoc j, row < g.Height → col < g.Width → iLoc < M.localHeight row col →
        j < M.width →
        M'.localMatrix row col iLoc j = d row 0 (j * M.localHeight row 0 + iLoc) := by
    intro d a
    unfold DistMatrix_MC_Star.SetToRandom
    rw [if_neg (by rw [unlocked_guard RELEASE M hunl]; exact Bool.false_ne_true)]
    refine ⟨_, rfl, rfl, rfl, rfl, rfl, rfl, rfl, fun row col iLoc j hrow hcol hi hj => ?_⟩
    have h0 : 0 < g.Width := by omega
    have hlh : M.localHeight row col = M.localHeight row 0 := by
      rw [(hloc row col hrow hcol).1, (hloc row 0 hrow h0).1, hshift row col hrow hcol,
        hshift row 0 hrow h0]
    have hb : j * M.localHeight row col + iLoc < M.localHeight row col * M.width := by
      have h1 : (j + 1) * M.localHeight row col ≤ M.width * M.localHeight row col :=
        Nat.mul_le_mul_right _ hj
      rw [Nat.succ_mul] at h1
      rw [Nat.mul_comm (M.localHeight row col) M.width]
      omega
    simp only []
    rw [unpackPlain_get _ _ _ _ _ _ hi hj]
    simp only [Broadcast, if_pos hb, if_true]
    rw [fillRandom_get _ _ _ _ _ (by rw [← hlh, Nat.mul_comm M.width]; exact hb), hlh]
  obtain ⟨M', h1, h2, h3, h4, h5, h6, h7, h8⟩ := hdone draws aux
  refine ⟨M', h1, h2, h3, h4, h5, h6, h7, fun row col iLoc j hrow hcol hi hj => ?_,
    fun draws' aux' hd => ?_⟩
  · have h0 : 0 < g.Width := by omega
    have hlh : M.localHeight row col = M.localHeight row 0 := by
      rw [(hloc row col hrow hcol).1, (hloc row 0 hrow h0).1, hshift row col hrow hcol,
        hshift row 0 hrow h0]
    refine ⟨h8 row col iLoc j hrow hcol hi hj, ?_⟩
    rw [h8 row col iLoc j hrow hcol hi hj, h8 row 0 iLoc j hrow h0 (by rw [← hlh]; exact hi) hj]
  · obtain ⟨M2, k1, -, -, -, -, -, -, k8⟩ := hdone draws' aux'
    refine ⟨M2, k1, fun row col iLoc j hrow hcol hi hj => ?_⟩
    rw [k8 row col iLoc j hrow hcol hi hj, h8 row col iLoc j hrow hcol hi hj, hd]

/-- On the example: with the draws `1000·row + 100·col + n` the tiles of both processes of
grid row `1` of `demoStar` get the draws of the process `(1, 0)`. -/
theorem SetToRandom_replicas_witness :
    demoStar.Valid ⟨2, 2⟩ ∧
    ∃ M', demoStar.SetToRandom false (fun row col n => 1000 * row + 100 * col + n)
        (fun _ _ _ => 0) = .done M' ∧
      M'.localMatrix 1 1 1 1 = 1003 ∧ M'.localMatrix 1 1 1 1 = M'.localMatrix 1 0 1 1 :=
  have hV : demoStar.Valid ⟨2, 2⟩ :=
    ⟨⟨by decide, fun _ _ _ _ => rfl⟩, fun _ _ _ _ => ⟨rfl, rfl⟩⟩
  ⟨hV, by
    obtain ⟨M', h1, -, -, -, -, -, -, h2, -⟩ :=
      SetToRandom_replicas ⟨2, 2⟩ false (fun row col n => 1000 * row + 100 * col + n)
        (fun _ _ _ => 0) demoStar hV (Or.inr rfl)
    exact ⟨M', h1, (h2 1 1 1 1 (by decide) (by decide) (by decide) (by decide)).1,
      (h2 1 1 1 1 (by decide) (by decide) (by decide) (by decide)).2⟩⟩

end Random

section WidthOne
variable {T : Type}

/-- The general path of `[MC,*] = [MC,MR]` (pack, `AllGather`, unpack) completes for a
source of any width and fills every local tile of the destination with the global entries
of the source that the process owns. -/
theorem assign_MC_MR_general_local (g : Grid) (MIN_COLL_MSG : Nat) (aux : Nat → Nat → Nat → T)
    (self : DistMatrix_MC_Star T) (A : DistMatrix_MC_MR T) (hA : A.Valid g)
    (hview : self.viewing = false)
    (hself : self.constrainedColAlignment = true → self.Aligned g) :
    ∃ M, self.assign_MC_MR_general g MIN_COLL_MSG aux A = some M ∧
      M.height = A.height ∧ M.width = A.width ∧
      M.colAlignment
        = (if self.constrainedColAlignment then self.colAlignment else A.colAlignment) ∧
      ∀ row col, row < g.Height → col < g.Width →
        M.colShift row col = Shift row M.colAlignment g.Height ∧
        M.localHeight row col = LocalLength A.height (M.colShift row col) g.Height ∧
        ∀ iLoc j, iLoc < M.localHeight row col → j < M.width →
          M.localMatrix row col iLoc j
            = A.entry g (M.colShift row col + iLoc * g.Height) j := by
  have hAv := hA
  obtain ⟨haC, haR, hloc⟩ := hA
  have hr : 0 < g.Height := by omega
  have hc : 0 < g.Width := by omega
  obtain ⟨e1, e2, e3, e4, -, e6⟩ := DistMatrix_MC_Star.adopt_spec g self A haC hview hself
  obtain ⟨M0, hM0⟩ : ∃ M0, M0 = self.adopt g A := ⟨_, rfl⟩
  rw [← hM0] at e1 e2 e3 e4 e6
  unfold DistMatrix_MC_Star.assign_MC_MR_general
  simp only []
  rw [← hM0]
  -- the tile of the source on the process that holds the data for `row`
  have hAh : ∀ ρ k, ρ < g.Height → k < g.Width →
      A.localHeight ρ k = LocalLength A.height (Shift ρ A.colAlignment g.Height) g.Height := by
    intro ρ k h1 h2
    obtain ⟨a1, -, a3, -⟩ := hloc ρ k h1 h2
    rw [a3, a1]
  have hAw : ∀ ρ k, ρ < g.Height → k < g.Width →
      A.localWidth ρ k = LocalLength A.width (Shift k A.rowAlignment g.Width) g.Width := by
    intro ρ k h1 h2
    obtain ⟨-, a2, -, a4⟩ := hloc ρ k h1 h2
    rw [a4, a2]
  have hkj : ∀ j, (j + A.rowAlignment) % g.Width < g.Width := fun j => Nat.mod_lt _ hc
  have hjloc : ∀ j, j < A.width →
      j / g.Width < LocalLength A.width (Shift ((j + A.rowAlignment) % g.Width)
        A.rowAlignment g.Width) g.Width := by
    intro j hj
    rw [lt_LocalLength_iff _ _ _ _ hc, Shift_of_owner j _ _ hc haR, Nat.mul_comm,
      Nat.mod_add_div]
    exact hj
  by_cases hal : M0.colAlignment = A.colAlignment
  · rw [if_pos hal]
    refine ⟨_, rfl, e1, e2, e3, fun row col hrow hcol => ?_⟩
    obtain ⟨s1, s2⟩ := e6 row col hrow hcol
    refine ⟨s1, by rw [s2, s1], fun iLoc j hi hj => ?_⟩
    simp only [] at hi hj ⊢
    rw [e2] at hj
    rw [unpackColumns_get _ _ _ _ _ haR _ _ _ _ hi (by rw [e2]; exact hj)]
    have hk := hkj j
    obtain ⟨t1, t2⟩ := e6 row _ hrow hk
    have hlh : M0.localHeight row ((j + A.rowAlignment) % g.Width) = M0.localHeight row col := by
      rw [t2, s2]
    have hq := hjloc j hj
    have hbound : j / g.Width * M0.localHeight row col + iLoc
        < max (M0.localHeight row col * MaxLocalLength M0.width g.Width) MIN_COLL_MSG :=
      portion_bound _ _ _ _ _ _ hq (by rw [e2]; exact LocalLength_le_Max _ _ _) hi
        (Nat.le_max_left _ _)
    rw [Nat.add_assoc, AllGather_get _ _ _ _ _ _ hk hbound, ← hlh,
      packColumns_get _ _ _ _ _ _ (by rw [hAw row _ hrow hk]; exact hq) (by rw [hlh]; exact hi),
      s1, hal, DistMatrix_MC_MR.entry_at g A hAv row hrow]
  · rw [if_neg hal, sendRecvMatches_rotation g.Height M0.colAlignment A.colAlignment e4 haC]
    simp only [if_true]
    have hpart : ∀ row, row < g.Height →
        (row + g.Height + A.colAlignment - M0.colAlignment) % g.Height < g.Height ∧
        Shift ((row + g.Height + A.colAlignment - M0.colAlignment) % g.Height)
          A.colAlignment g.Height = Shift row M0.colAlignment g.Height :=
      fun row hrow => ⟨(rotation_partner row _ _ _ hrow e4 haC).1,
        (rotation_partner row _ _ _ hrow e4 haC).2.1⟩
    refine ⟨_, rfl, e1, e2, e3, fun row col hrow hcol => ?_⟩
    obtain ⟨s1, s2⟩ := e6 row col hrow hcol
    refine ⟨s1, by rw [s2, s1], fun iLoc j hi hj => ?_⟩
    simp only [] at hi hj ⊢
    rw [e2] at hj
    rw [unpackColumns_get _ _ _ _ _ haR _ _ _ _ hi (by rw [e2]; exact hj)]
    have hk := hkj j
    obtain ⟨p1, p2⟩ := hpart row hrow
    have hq := hjloc j hj
    have hlhA : A.localHeight ((row + g.Height + A.colAlignment - M0.colAlignment) % g.Height)
        ((j + A.rowAlignment) % g.Width) = M0.localHeight row col := by
      rw [hAh _ _ p1 hk, p2, s2]
    have hmax : M0.localHeight row col ≤ MaxLocalLength M0.height g.Height := by
      rw [s2, e1]; exact LocalLength_le_Max _ _ _
    have hbound : j / g.Width * M0.localHeight row col + iLoc
        < max (MaxLocalLength M0.height g.Height * MaxLocalLength M0.width g.Width)
            MIN_COLL_MSG := by
      have h1 := portion_bound _ _ _ _ (MaxLocalLength M0.width g.Width)
        (M0.localHeight row col * MaxLocalLength M0.width g.Width) hq
        (by rw [e2]; exact LocalLength_le_Max _ _ _) hi (le_refl _)
      have h2 : M0.localHeight row col * MaxLocalLength M0.width g.Width
          ≤ MaxLocalLength M0.height g.Height * MaxLocalLength M0.width g.Width :=
        Nat.mul_le_mul_right _ hmax
      have h3 := Nat.le_max_left
        (MaxLocalLength M0.height g.Height * MaxLocalLength M0.width g.Width) MIN_COLL_MSG
      omega
    rw [Nat.add_assoc ((j + A.rowAlignment) % g.Width * _)
      (j / g.Width * M0.localHeight row col) iLoc, AllGather_get _ _ _ _ _ _ hk hbound]
    simp only [SendRecv, if_pos hbound]
    rw [← hlhA,
      packColumns_get _ _ _ _ _ _ (by rw [hAw _ _ p1 hk]; exact hq) (by rw [hlhA]; exact hi),
      s1, ← p2, DistMatrix_MC_MR.entry_at g A hAv _ p1]

/-- C30. The width-1 specialization agrees with the general path: for every grid, every
valid `[MC,MR]` source of width `1` and every owning destination, whether it adopts the
column alignment of the source (the aligned case) or is constrained to another alignment
(the unaligned case), the assignment takes the broadcast path (after the `SendRecv` of the
unaligned case), it completes, the general pack / `AllGather` / unpack path on the same
input completes as well, and both leave the same sizes, alignment, shifts and, on every
process, the same local tile, whatever the scratch buffers held.  In the unaligned case
only the processes of the grid column `MRRank = A.RowAlignment` make the `SendRecv`; the
others call `Broadcast` alone. -/
theorem width_one_agrees (g : Grid) (MIN_COLL_MSG : Nat) (aux aux' : Nat → Nat → Nat → T)
    (self : DistMatrix_MC_Star T) (A : DistMatrix_MC_MR T) (hA : A.Valid g)
    (hview : self.viewing = false)
    (hself : self.constrainedColAlignment = true → self.Aligned g) (hw : A.width = 1) :
    (∀ MRRank, self.calls_MC_MR g A MRRank
      = if (self.adopt g A).colAlignment = A.colAlignment then [MpiCall.Broadcast]
        else if MRRank = A.rowAlignment then [MpiCall.SendRecv, MpiCall.Broadcast]
        else [MpiCall.Broadcast]) ∧
    ∃ M G, self.assign_MC_MR g MIN_COLL_MSG aux A = some M ∧
      self.assign_MC_MR_general g MIN_COLL_MSG aux' A = some G ∧
      M.height = G.height ∧ M.width = G.width ∧ M.colAlignment = G.colAlignment ∧
      ∀ row col, row < g.Height → col < g.Width →
        M.colShift row col = G.colShift row col ∧
        M.localHeight row col = G.localHeight row col ∧
        ∀ iLoc j, iLoc < M.localHeight row col → j < M.width →
          M.localMatrix row col iLoc j = G.localMatrix row col iLoc j := by
  constructor
  · intro MRRank
    unfold DistMatrix_MC_Star.calls_MC_MR
    simp only [hw, if_true]
  · obtain ⟨M, m1, m2, m3, m4, m5⟩ :=
      assign_MC_MR_local g MIN_COLL_MSG aux self A hA hview hself
    obtain ⟨G, g1, g2, g3, g4, g5⟩ :=
      assign_MC_MR_general_local g MIN_COLL_MSG aux' self A hA hview hself
    have hal : M.colAlignment = G.colAlignment := by rw [m4, g4]
    refine ⟨M, G, m1, g1, by rw [m2, g2], by rw [m3, g3], hal,
      fun row col hrow hcol => ?_⟩
    obtain ⟨a1, a2, a3⟩ := m5 row col hrow hcol
    obtain ⟨b1, b2, b3⟩ := g5 row col hrow hcol
    have hs : M.colShift row col = G.colShift row col := by rw [a1, b1, hal]
    have hh : M.localHeight row col = G.localHeight row col := by rw [a2, b2, hs]
    refine ⟨hs, hh, fun iLoc j hi hj => ?_⟩
    rw [a3 iLoc j hi hj, b3 iLoc j (by rw [← hh]; exact hi) (by rw [g3, ← m3]; exact hj), hs]

/-- On the example: the `3×1` source with alignments `(1,1)`, assigned to a destination
constrained to alignment `0` (the unaligned case) and to a fresh destination (the aligned
case), on the `2×2` grid. -/
theorem width_one_agrees_witness :
    demoColumn.Valid ⟨2, 2⟩ ∧ demoColumn.width = 1 ∧
    demoTarget.calls_MC_MR ⟨2, 2⟩ demoColumn 1 = [MpiCall.SendRecv, MpiCall.Broadcast] ∧
    demoTarget.calls_MC_MR ⟨2, 2⟩ demoColumn 0 = [MpiCall.Broadcast] ∧
    demoFresh.calls_MC_MR ⟨2, 2⟩ demoColumn 1 = [MpiCall.Broadcast] ∧
    (∃ M G, demoTarget.assign_MC_MR ⟨2, 2⟩ 1 (fun _ _ _ => 0) demoColumn = some M ∧
      demoTarget.assign_MC_MR_general ⟨2, 2⟩ 1 (fun _ _ _ => 7) demoColumn = some G ∧
      M.localMatrix 1 0 0 0 = G.localMatrix 1 0 0 0) ∧
    (∃ M G, demoFresh.assign_MC_MR ⟨2, 2⟩ 1 (fun _ _ _ => 0) demoColumn = some M ∧
      demoFresh.assign_MC_MR_general ⟨2, 2⟩ 1 (fun _ _ _ => 7) demoColumn = some G ∧
      M.localMatrix 1 0 0 0 = G.localMatrix 1 0 0 0) :=
  have hV : demoColumn.Valid ⟨2, 2⟩ :=
    ⟨by decide, by decide, fun _ _ _ _ => ⟨rfl, rfl, rfl, rfl⟩⟩
  ⟨hV, rfl, by decide, by decide, by decide, by
    obtain ⟨-, M, G, h1, h2, -, -, -, h3⟩ :=
      width_one_agrees ⟨2, 2⟩ 1 (fun _ _ _ => 0) (fun _ _ _ => 7) demoTarget demoColumn hV rfl
        (fun _ => ⟨by decide, fun _ _ _ _ => rfl⟩) rfl
    refine ⟨M, G, h1, h2, ?_⟩
    obtain ⟨-, hh, h4⟩ := h3 1 0 (by decide) (by decide)
    have e : some M = some _ := h1.symm.trans rfl
    refine h4 0 0 ?_ ?_
    · rw [Option.some.inj e]; decide
    · rw [Option.some.inj e]; decide, by
    obtain ⟨-, M, G, h1, h2, -, -, -, h3⟩ :=
      width_one_agrees ⟨2, 2⟩ 1 (fun _ _ _ => 0) (fun _ _ _ => 7) demoFresh demoColumn hV rfl
        (fun h => Bool.noConfusion h) rfl
    refine ⟨M, G, h1, h2, ?_⟩
    obtain ⟨-, hh, h4⟩ := h3 1 0 (by decide) (by decide)
    have e : some M = some _ := h1.symm.trans rfl
    refine h4 0 0 ?_ ?_
    · rw [Option.some.inj e]; decide
    · rw [Option.some.inj e]; decide⟩

end WidthOne

section UnpackOnce
variable {T : Type}

/-- The unpack loop of the all-gather leaves the entries outside the `lh × width` tile as
they are. -/
theorem unpackColumns_keep (c width lh aR ps : Nat) (haR : aR < c) (gathered : Nat → T)
    (M : Mat T) (i j : Nat) (h : ¬ (i < lh ∧ j < width)) :
    unpackColumns c width lh aR ps gathered M i j = M i j := by
  have h1 := unpack_outer c width lh aR ps haR gathered (c - 0) 0 M i j (by omega)
  rw [if_neg (fun h2 => h h2.1)] at h1
  exact h1

/-- C31. The all-gather unpack writes every destination column exactly once: for every
grid width `c ≥ 1`, source row alignment `a < c` and width `w`, the columns
`rowShift_k + jLocal·c` of block `k` (`rowShift_k = RawShift(k, a, c)`,
`jLocal < RawLocalLength(w, rowShift_k, c)`) lie in `[0,w)` and are owned by the source
process with `MRRank = k`; the map `(k, jLocal) ↦ rowShift_k + jLocal·c` is injective and
reaches every column of `[0,w)`; block `k` holds exactly the columns its process owns; and
the unpack loop writes column `j < w` of each local row once, from block `(j + a) mod c` at
local column `j / c`, and nothing outside the tile. -/
theorem unpack_exactly_once (c a w : Nat) (hc : 1 ≤ c) (ha : a < c) :
    (∀ k jLocal, k < c → jLocal < RawLocalLength w (RawShift k a c) c →
      RawShift k a c + jLocal * c < w ∧ (RawShift k a c + jLocal * c + a) % c = k) ∧
    (∀ k k' jLocal jLocal', k < c → k' < c →
      RawShift k a c + jLocal * c = RawShift k' a c + jLocal' * c → k = k' ∧ jLocal = jLocal') ∧
    (∀ j, j < w → ∃ k jLocal, k < c ∧ jLocal < RawLocalLength w (RawShift k a c) c ∧
      j = RawShift k a c + jLocal * c) ∧
    (∀ k j, k < c → j < w →
      ((j + a) % c = k ↔
        ∃ jLocal, jLocal < RawLocalLength w (RawShift k a c) c ∧
          j = RawShift k a c + jLocal * c)) ∧
    (∀ (lh ps : Nat) (gathered : Nat → T) (M : Mat T) (i j : Nat),
      (i < lh → j < w →
        unpackColumns c w lh a ps gathered M i j
          = gathered ((j + a) % c * ps + j / c * lh + i)) ∧
      (¬ (i < lh ∧ j < w) → unpackColumns c w lh a ps gathered M i j = M i j)) := by
  have hc0 : 0 < c := by omega
  have hown : ∀ k j, k < c → j < w →
      ((j + a) % c = k ↔
        ∃ jLocal, jLocal < RawLocalLength w (RawShift k a c) c ∧
          j = RawShift k a c + jLocal * c) := by
    intro k j hk hj
    constructor
    · intro h
      have hs : RawShift k a c = j % c := by
        rw [RawShift_eq_Shift, ← h]; exact Shift_of_owner j a c hc0 ha
      refine ⟨j / c, ?_, ?_⟩
      · rw [RawLocalLength_eq, lt_LocalLength_iff _ _ _ _ hc0, hs, Nat.mul_comm,
          Nat.mod_add_div]
        exact hj
      · rw [hs, Nat.mul_comm, Nat.mod_add_div]
    · rintro ⟨jLocal, -, rfl⟩
      exact Shift_owner k a c jLocal hk ha
  refine ⟨fun k jLocal hk hj => ?_, fun k k' jLocal jLocal' hk hk' h => ?_, fun j hj => ?_,
    hown, fun lh ps gathered M i j => ⟨fun hi hj => ?_, fun h => ?_⟩⟩
  · exact ⟨(lt_LocalLength_iff w _ c jLocal hc0).1 hj, Shift_owner k a c jLocal hk ha⟩
  · have hs : RawShift k a c < c := Shift_lt k a c hc0
    have hs' : RawShift k' a c < c := Shift_lt k' a c hc0
    have h1 := add_mul_mod_self (RawShift k a c) jLocal c hs
    have h2 := add_mul_mod_self (RawShift k' a c) jLocal' c hs'
    have h3 := add_mul_div_self (RawShift k a c) jLocal c hs
    have h4 := add_mul_div_self (RawShift k' a c) jLocal' c hs'
    rw [h] at h1 h3
    exact ⟨Shift_injective k k' a c hk hk' ha (h1.symm.trans h2), h3.symm.trans h4⟩
  · obtain ⟨jLocal, h1, h2⟩ := (hown ((j + a) % c) j (Nat.mod_lt _ hc0) hj).1 rfl
    exact ⟨(j + a) % c, jLocal, Nat.mod_lt _ hc0, h1, h2⟩
  · exact unpackColumns_get c w lh a ps ha gathered M i j hi hj
  · exact unpackColumns_keep c w lh a ps ha gathered M i j h

/-- On the example: grid width `2`, row alignment `1`, width `3`: block `0` holds the
column `1`, block `1` the columns `0` and `2`. -/
theorem unpack_exactly_once_witness :
    RawLocalLength 3 (RawShift 0 1 2) 2 = 1 ∧ RawLocalLength 3 (RawShift 1 1 2) 2 = 2 ∧
    RawShift 0 1 2 + 0 * 2 = 1 ∧ RawShift 1 1 2 + 1 * 2 = 2 ∧
    (RawShift 1 1 2 + 1 * 2 < 3 ∧ (RawShift 1 1 2 + 1 * 2 + 1) % 2 = 1) :=
  ⟨by decide, by decide, by decide, by decide,
    (unpack_exactly_once (T := Nat) 2 1 3 (by decide) (by decide)).1 1 1 (by decide)
      (by decide)⟩

end UnpackOnce

section Rotation

/-- C32. The rotation partners are correct: for every period `m ≥ 1`, rank and alignments
in `[0,m)`, the dividends of `sendRank` and `recvRank` are non-negative, so that the
truncating `%` of the source is the remainder of natural numbers the assignments are
modelled with; both partners lie in `[0,m)`, each is the inverse of the other, the
`SendRecv` calls of the `m` ranks match, and `Shift(recvRank, alignSrc, m)` is
`Shift(rank, alignDst, m)`, so the tile received was packed with the local height of the
receiver. -/
theorem rotation_partners (m rank alignDst alignSrc : Nat) (_hm : 1 ≤ m) (hrank : rank < m)
    (hD : alignDst < m) (hS : alignSrc < m) :
    (0 ≤ (rank : Int) + m + alignDst - alignSrc ∧ 0 ≤ (rank : Int) + m + alignSrc - alignDst) ∧
    sendRank rank m alignDst alignSrc = (((rank + m + alignDst - alignSrc) % m : Nat) : Int) ∧
    recvRank rank m alignDst alignSrc = (((rank + m + alignSrc - alignDst) % m : Nat) : Int) ∧
    (rank + m + alignDst - alignSrc) % m < m ∧ (rank + m + alignSrc - alignDst) % m < m ∧
    ((rank + m + alignDst - alignSrc) % m + m + alignSrc - alignDst) % m = rank ∧
    ((rank + m + alignSrc - alignDst) % m + m + alignDst - alignSrc) % m = rank ∧
    sendRecvMatches m (fun x => (x + m + alignDst - alignSrc) % m)
      (fun x => (x + m + alignSrc - alignDst) % m) = true ∧
    Shift ((rank + m + alignSrc - alignDst) % m) alignSrc m = Shift rank alignDst m ∧
    ∀ height, LocalLength height (Shift ((rank + m + alignSrc - alignDst) % m) alignSrc m) m
      = LocalLength height (Shift rank alignDst m) m := by
  obtain ⟨r1, r2, r3⟩ := rotation_partner rank m alignDst alignSrc hrank hD hS
  obtain ⟨s1, -, s3⟩ := rotation_partner rank m alignSrc alignDst hrank hS hD
  have e1 : ((rank : Int) + m + alignDst - alignSrc) = ((rank + m + alignDst - alignSrc : Nat) : Int) := by
    omega
  have e2 : ((rank : Int) + m + alignSrc - alignDst) = ((rank + m + alignSrc - alignDst : Nat) : Int) := by
    omega
  refine ⟨⟨by omega, by omega⟩, ?_, ?_, s1, r1, s3, r3,
    sendRecvMatches_rotation m alignDst alignSrc hD hS, r2, fun height => by rw [r2]⟩
  · unfold sendRank
    rw [e1, Int.tmod_eq_emod (Int.ofNat_nonneg _) (Int.ofNat_nonneg _), Int.natCast_mod]
  · unfold recvRank
    rw [e2, Int.tmod_eq_emod (Int.ofNat_nonneg _) (Int.ofNat_nonneg _), Int.natCast_mod]

/-- On the example: period `4`, rank `1`, destination alignment `3`, source alignment
`0`. -/
theorem rotation_partners_witness :
    sendRank 1 4 3 0 = 0 ∧ recvRank 1 4 3 0 = 2 ∧ Shift 2 0 4 = Shift 1 3 4 ∧
    ((1 + 4 + 0 - 3) % 4 + 4 + 3 - 0) % 4 = 1 :=
  ⟨by decide, by decide,
    (rotation_partners 4 1 3 0 (by decide) (by decide) (by decide) (by decide)).2.2.2.2.2.2.2.2.1,
    (rotation_partners 4 1 3 0 (by decide) (by decide) (by decide)
      (by decide)).2.2.2.2.2.2.1⟩

end Rotation

section Portion
variable {T : Type}

/-- Two loops whose bodies agree on the range of the counter compute the same. -/
theorem forLoop_congr {σ : Type} (f g : Nat → σ → σ) (cnt : Nat) :
    ∀ (lo : Nat) (s : σ), (∀ t, lo ≤ t → t < lo + cnt → ∀ s, f t s = g t s) →
      forLoop f cnt lo s = forLoop g cnt lo s := by
  induction cnt with
  | zero => intro lo s _; rfl
  | succ cnt ih =>
    intro lo s h
    rw [forLoop, forLoop, h lo (Nat.le_refl _) (by omega) s]
    exact ih (lo + 1) _ (fun t h1 h2 => h t (by omega) (by omega))

/-- The pack loop leaves the part of the buffer above its last column as it is. -/
theorem pack_above (s : Nat) (ALocal : Mat T) (c : Nat) :
    ∀ (lo : Nat) (b : Nat → T) (t : Nat), (lo + c) * s ≤ t →
      forLoop (fun jLocal b => memcpy b (jLocal * s) (ALocal.col jLocal) s) c lo b t = b t := by
  induction c with
  | zero => intro lo b t _; rfl
  | succ c ih =>
    intro lo b t ht
    have h1 : (lo + 1 + c) * s ≤ t := by rw [Nat.add_right_comm, Nat.add_assoc] at *; exact ht
    have h2 : (lo + 1) * s ≤ (lo + 1 + c) * s := Nat.mul_le_mul_right _ (by omega)
    rw [forLoop, ih (lo + 1) _ t h1, memcpy_apply, if_neg]
    rw [Nat.add_mul, Nat.one_mul] at h2
    omega

/-- Packing a tile of `lw` columns of `s` elements writes the first `lw·s` elements of the
buffer only. -/
theorem packColumns_above (s lw : Nat) (ALocal : Mat T) (b : Nat → T) (t : Nat)
    (h : lw * s ≤ t) : packColumns s lw ALocal b t = b t := by
  unfold packColumns forRange
  exact pack_above s ALocal (lw - 0) 0 b t (by rw [Nat.zero_add]; exact h)

/-- An index below the portion size, in block `k < c`, lies in the `c` gathered portions. -/
theorem block_index_bound (k c ps t : Nat) (hk : k < c) (ht : t < ps) : k * ps + t < c * ps := by
  have h1 : (k + 1) * ps ≤ c * ps := Nat.mul_le_mul_right _ hk
  rw [Nat.add_mul, Nat.one_mul] at h1
  omega

/-- The unpack loop of the all-gather reads the `c` gathered portions only. -/
theorem unpackColumns_congr (c width lh a ps : Nat) (G G2 : Nat → T) (M : Mat T)
    (hps : lh * MaxLocalLength width c ≤ ps) (h : ∀ t, t < c * ps → G t = G2 t) :
    unpackColumns c width lh a ps G M = unpackColumns c width lh a ps G2 M := by
  unfold unpackColumns forRange
  refine forLoop_congr _ _ _ _ _ (fun k _ hk M1 => ?_)
  dsimp only
  refine forLoop_congr _ _ _ _ _ (fun jLocal _ hj M2 => ?_)
  funext i j
  rw [Mat.memcpyCol_apply, Mat.memcpyCol_apply]
  have hj2 : jLocal < LocalLength width (RawShift k a c) c := by
    have := hj
    rw [RawLocalLength_eq] at this
    omega
  by_cases hcond : j = RawShift k a c + jLocal * c ∧ i < lh
  · rw [if_pos hcond, if_pos hcond, Nat.add_assoc]
    exact h _ (block_index_bound k c ps _ (by omega)
      (portion_bound jLocal lh i _ _ ps hj2 (LocalLength_le_Max width _ c) hcond.2 hps))
  · rw [if_neg hcond, if_neg hcond]

/-- The unpack loop of `[MC,* ] = [VC,* ]` reads the `c` gathered portions only. -/
theorem unpackRows_congr (r c height width colShift row al ps : Nat) (G G2 : Nat → T)
    (M : Mat T) (hps : MaxLocalLength height (r * c) * width ≤ ps)
    (h : ∀ t, t < c * ps → G t = G2 t) :
    unpackRows r c height width colShift row al ps G M
      = unpackRows r c height width colShift row al ps G2 M := by
  unfold unpackRows forRange
  refine forLoop_congr _ _ _ _ _ (fun k _ hk M1 => ?_)
  dsimp only
  refine forLoop_congr _ _ _ _ _ (fun j _ hj M2 => ?_)
  refine forLoop_congr _ _ _ _ _ (fun iLocal _ hi M3 => ?_)
  have hi2 : iLocal < LocalLength height (RawShift (row + r * k) al (r * c)) (r * c) := by
    have := hi
    rw [RawLocalLength_eq] at this
    omega
  rw [h _ (block_index_bound k c ps _ (by omega) ?_)]
  rw [Nat.add_comm iLocal, RawLocalLength_eq]
  refine portion_bound j _ iLocal width _ ps (by omega) (Nat.le_refl _) hi2 ?_
  exact (Nat.mul_le_mul_right _ (LocalLength_le_Max height _ (r * c))).trans hps

end Portion

section PortionClaim
variable {T : Type}

/-- The aligned all-gather branch of `[MC,* ] = [MC,MR]` works with the portion size
`portionSize_aligned`. -/
theorem assign_MC_MR_aligned_portion (g : Grid) (MIN_COLL_MSG : Nat)
    (aux : Nat → Nat → Nat → T) (self : DistMatrix_MC_Star T) (A : DistMatrix_MC_MR T)
    (hal : (self.adopt g A).colAlignment = A.colAlignment) (hw : A.width ≠ 1) :
    self.assign_MC_MR g MIN_COLL_MSG aux A
      = some { self.adopt g A with
          localMatrix := fun row col =>
            unpackColumns g.Width (self.adopt g A).width ((self.adopt g A).localHeight row col)
              A.rowAlignment
              (portionSize_aligned ((self.adopt g A).localHeight row col) (self.adopt g A).width
                g.Width MIN_COLL_MSG)
              (AllGather
                (fun k => packColumns ((self.adopt g A).localHeight row k) (A.localWidth row k)
                  (A.localMatrix row k) (aux row k))
                (portionSize_aligned ((self.adopt g A).localHeight row col)
                  (self.adopt g A).width g.Width MIN_COLL_MSG) g.Width
                (fun t => aux row col
                  (portionSize_aligned ((self.adopt g A).localHeight row col)
                    (self.adopt g A).width g.Width MIN_COLL_MSG + t)))
              ((self.adopt g A).localMatrix row col) } := by
  unfold DistMatrix_MC_Star.assign_MC_MR
  simp only [if_pos hal, if_neg hw]
  rfl

/-- The unaligned all-gather branch of `[MC,* ] = [MC,MR]` works with the portion size
`portionSize_unaligned`. -/
theorem assign_MC_MR_unaligned_portion (g : Grid) (MIN_COLL_MSG : Nat)
    (aux : Nat → Nat → Nat → T) (self : DistMatrix_MC_Star T) (A : DistMatrix_MC_MR T)
    (hal : (self.adopt g A).colAlignment ≠ A.colAlignment) (hw : A.width ≠ 1)
    (hm : sendRecvMatches g.Height
      (fun row => (row + g.Height + (self.adopt g A).colAlignment - A.colAlignment) % g.Height)
      (fun row => (row + g.Height + A.colAlignment - (self.adopt g A).colAlignment) % g.Height)
        = true) :
    self.assign_MC_MR g MIN_COLL_MSG aux A
      = some { self.adopt g A with
          localMatrix := fun row col =>
            unpackColumns g.Width (self.adopt g A).width ((self.adopt g A).localHeight row col)
              A.rowAlignment
              (portionSize_unaligned (self.adopt g A).height (self.adopt g A).width g.Height
                g.Width MIN_COLL_MSG)
              (AllGather
                (fun k => SendRecv
                  (packColumns
                    (A.localHeight
                      ((row + g.Height + A.colAlignment - (self.adopt g A).colAlignment)
                        % g.Height) k)
                    (A.localWidth
                      ((row + g.Height + A.colAlignment - (self.adopt g A).colAlignment)
                        % g.Height) k)
                    (A.localMatrix
                      ((row + g.Height + A.colAlignment - (self.adopt g A).colAlignment)
                        % g.Height) k)
                    (fun t => aux
                      ((row + g.Height + A.colAlignment - (self.adopt g A).colAlignment)
                        % g.Height) k
                      (portionSize_unaligned (self.adopt g A).height (self.adopt g A).width
                        g.Height g.Width MIN_COLL_MSG + t)))
                  (portionSize_unaligned (self.adopt g A).height (self.adopt g A).width g.Height
                    g.Width MIN_COLL_MSG)
                  (aux row k))
                (portionSize_unaligned (self.adopt g A).height (self.adopt g A).width g.Height
                  g.Width MIN_COLL_MSG) g.Width
                (packColumns (A.localHeight row col) (A.localWidth row col)
                  (A.localMatrix row col)
                  (fun t => aux row col
                    (portionSize_unaligned (self.adopt g A).height (self.adopt g A).width
                      g.Height g.Width MIN_COLL_MSG + t))))
              ((self.adopt g A).localMatrix row col) } := by
  unfold DistMatrix_MC_Star.assign_MC_MR
  simp only [if_neg hal, if_neg hw, if_pos hm]
  rfl

/-- The aligned branch of `[MC,* ] = [VC,* ]` works with the portion size
`portionSize_VC`. -/
theorem assign_VC_Star_aligned_portion (g : Grid) (MIN_COLL_MSG : Nat)
    (aux : Nat → Nat → Nat → T) (self : DistMatrix_MC_Star T) (A : AbstractDistMatrix T)
    (hal : (self.adopt_VC_Star g A).colAlignment = A.colAlignment % g.Height) :
    self.assign_VC_Star g MIN_COLL_MSG aux A
      = some { self.adopt_VC_Star g A with
          localMatrix := fun row col =>
            unpackRows g.Height g.Width (self.adopt_VC_Star g A).height
              (self.adopt_VC_Star g A).width ((self.adopt_VC_Star g A).colShift row col) row
              A.colAlignment
              (portionSize_VC (self.adopt_VC_Star g A).height (self.adopt_VC_Star g A).width
                (g.Height * g.Width) MIN_COLL_MSG)
              (AllGather
                (fun k => packColumns (A.localHeight row k) (self.adopt_VC_Star g A).width
                  (A.localMatrix row k) (aux row k))
                (portionSize_VC (self.adopt_VC_Star g A).height (self.adopt_VC_Star g A).width
                  (g.Height * g.Width) MIN_COLL_MSG) g.Width
                (fun t => aux row col
                  (portionSize_VC (self.adopt_VC_Star g A).height
                    (self.adopt_VC_Star g A).width (g.Height * g.Width) MIN_COLL_MSG + t)))
              ((self.adopt_VC_Star g A).localMatrix row col) } := by
  unfold DistMatrix_MC_Star.assign_VC_Star
  simp only [if_pos hal]
  rfl

/-- The unaligned branch of `[MC,* ] = [VC,* ]` works with the portion size
`portionSize_VC`. -/
theorem assign_VC_Star_unaligned_portion (g : Grid) (MIN_COLL_MSG : Nat)
    (aux : Nat → Nat → Nat → T) (self : DistMatrix_MC_Star T) (A : AbstractDistMatrix T)
    (hal : (self.adopt_VC_Star g A).colAlignment ≠ A.colAlignment % g.Height)
    (hm : sendRecvMatches (g.Height * g.Width)
      (fun rank => (rank + g.Height * g.Width + (self.adopt_VC_Star g A).colAlignment
        - A.colAlignment) % (g.Height * g.Width))
      (fun rank => (rank + g.Height * g.Width + A.colAlignment
        - (self.adopt_VC_Star g A).colAlignment) % (g.Height * g.Width)) = true) :
    ∃ gathered : Nat → Nat → Nat → T,
      self.assign_VC_Star g MIN_COLL_MSG aux A
        = some { self.adopt_VC_Star g A with
            localMatrix := fun row col =>
              unpackRows g.Height g.Width (self.adopt_VC_Star g A).height
                (self.adopt_VC_Star g A).width ((self.adopt_VC_Star g A).colShift row col) row
                (self.adopt_VC_Star g A).colAlignment
                (portionSize_VC (self.adopt_VC_Star g A).height (self.adopt_VC_Star g A).width
                  (g.Height * g.Width) MIN_COLL_MSG)
                (gathered row col) ((self.adopt_VC_Star g A).localMatrix row col) } := by
  unfold DistMatrix_MC_Star.assign_VC_Star
  simp only [if_neg hal, if_pos hm]
  exact ⟨_, rfl⟩

/-- C33. The portion size of every all-gather branch of `[MC,* ] = [MC,MR]` and
`[MC,* ] = [VC,* ]` is clamped and sufficient: for every height, width, grid shape
`r × c` with `c ≥ 1`, shifts and alignments, the portion size is at least `MIN_COLL_MSG`
and at least the number of elements a process packs; every index the pack loop writes and
the unpack loop reads, counted from the start of the scratch buffer, lies below
`(c+1)·portionSize`; packing leaves the buffer from `portionSize` on as it is, and the
unpack loops read the `c` gathered portions only.  The three parts are the aligned branch
of `[MC,* ] = [MC,MR]` (packed into `buffer[0]`, gathered at `buffer[portionSize]`), its
unaligned branch (packed and gathered at `buffer[portionSize]`), and both branches of
`[MC,* ] = [VC,* ]`. -/
theorem portion_sufficient (r c height width MIN_COLL_MSG : Nat) (hc : 1 ≤ c) :
    (∀ lh s a ps : Nat, ps = portionSize_aligned lh width c MIN_COLL_MSG →
      MIN_COLL_MSG ≤ ps ∧ LocalLength width s c * lh ≤ ps ∧
      (∀ jLocal i, jLocal < LocalLength width s c → i < lh →
        jLocal * lh + i < ps ∧ jLocal * lh + i < (c + 1) * ps) ∧
      (∀ k jLocal i, k < c → jLocal < RawLocalLength width (RawShift k a c) c → i < lh →
        k * ps + jLocal * lh + i < c * ps ∧
        ps + (k * ps + jLocal * lh + i) < (c + 1) * ps) ∧
      (∀ (ALocal : Mat T) (b : Nat → T) (t : Nat), ps ≤ t →
        packColumns lh (LocalLength width s c) ALocal b t = b t) ∧
      (∀ (G G2 : Nat → T) (M : Mat T), (∀ t, t < c * ps → G t = G2 t) →
        unpackColumns c width lh a ps G M = unpackColumns c width lh a ps G2 M)) ∧
    (∀ sSrc sRow sDst a ps : Nat, ps = portionSize_unaligned height width r c MIN_COLL_MSG →
      MIN_COLL_MSG ≤ ps ∧ LocalLength width sRow c * LocalLength height sSrc r ≤ ps ∧
      (∀ jLocal i, jLocal < LocalLength width sRow c → i < LocalLength height sSrc r →
        jLocal * LocalLength height sSrc r + i < ps ∧
        ps + (jLocal * LocalLength height sSrc r + i) < (c + 1) * ps) ∧
      (∀ k jLocal i, k < c → jLocal < RawLocalLength width (RawShift k a c) c →
        i < LocalLength height sDst r →
        k * ps + jLocal * LocalLength height sDst r + i < c * ps ∧
        ps + (k * ps + jLocal * LocalLength height sDst r + i) < (c + 1) * ps) ∧
      (∀ (ALocal : Mat T) (b : Nat → T) (t : Nat), ps ≤ t →
        packColumns (LocalLength height sSrc r) (LocalLength width sRow c) ALocal b t = b t) ∧
      (∀ (G G2 : Nat → T) (M : Mat T), (∀ t, t < c * ps → G t = G2 t) →
        unpackColumns c width (LocalLength height sDst r) a ps G M
          = unpackColumns c width (LocalLength height sDst r) a ps G2 M)) ∧
    (∀ sSrc colShift row al ps : Nat, ps = portionSize_VC height width (r * c) MIN_COLL_MSG →
      MIN_COLL_MSG ≤ ps ∧ width * LocalLength height sSrc (r * c) ≤ ps ∧
      (∀ j i, j < width → i < LocalLength height sSrc (r * c) →
        j * LocalLength height sSrc (r * c) + i < ps ∧
        ps + (j * LocalLength height sSrc (r * c) + i) < (c + 1) * ps) ∧
      (∀ k j iLocal, k < c → j < width →
        iLocal < RawLocalLength height (RawShift (row + r * k) al (r * c)) (r * c) →
        k * ps + (iLocal + j * RawLocalLength height (RawShift (row + r * k) al (r * c)) (r * c))
          < c * ps ∧
        ps + (k * ps
            + (iLocal + j * RawLocalLength height (RawShift (row + r * k) al (r * c)) (r * c)))
          < (c + 1) * ps) ∧
      (∀ (ALocal : Mat T) (b : Nat → T) (t : Nat), ps ≤ t →
        packColumns (LocalLength height sSrc (r * c)) width ALocal b t = b t) ∧
      (∀ (G G2 : Nat → T) (M : Mat T), (∀ t, t < c * ps → G t = G2 t) →
        unpackRows r c height width colShift row al ps G M
          = unpackRows r c height width colShift row al ps G2 M)) := by
  have hsucc : ∀ ps x : Nat, x < c * ps → ps + x < (c + 1) * ps := by
    intro ps x hx; rw [Nat.add_mul, Nat.one_mul]; omega
  have hone : ∀ ps x : Nat, x < ps → ps + x < (c + 1) * ps := by
    intro ps x hx
    have : 1 * ps ≤ c * ps := Nat.mul_le_mul_right _ hc
    rw [Nat.add_mul, Nat.one_mul]; omega
  have hzero : ∀ ps x : Nat, x < ps → x < (c + 1) * ps := fun ps x hx => by
    have := hone ps x hx; omega
  refine ⟨?_, ?_, ?_⟩
  · intro lh s a ps hps
    have h1 : lh * MaxLocalLength width c ≤ ps := by
      rw [hps]; exact le_max_left _ _
    have h2 : LocalLength width s c * lh ≤ ps := by
      rw [Nat.mul_comm]
      exact (Nat.mul_le_mul_left _ (LocalLength_le_Max width s c)).trans h1
    have hpack : ∀ jLocal i, jLocal < LocalLength width s c → i < lh → jLocal * lh + i < ps :=
      fun jLocal i hj hi =>
        portion_bound jLocal lh i _ _ ps hj (LocalLength_le_Max width s c) hi h1
    have hun : ∀ k jLocal i, k < c → jLocal < RawLocalLength width (RawShift k a c) c →
        i < lh → k * ps + jLocal * lh + i < c * ps := by
      intro k jLocal i hk hj hi
      rw [Nat.add_assoc]
      exact block_index_bound k c ps _ hk
        (portion_bound jLocal lh i _ _ ps hj (LocalLength_le_Max width _ c) hi h1)
    refine ⟨by rw [hps]; exact le_max_right _ _, h2,
      fun jLocal i hj hi => ⟨hpack jLocal i hj hi, hzero ps _ (hpack jLocal i hj hi)⟩,
      fun k jLocal i hk hj hi => ⟨hun k jLocal i hk hj hi, hsucc ps _ (hun k jLocal i hk hj hi)⟩,
      fun ALocal b t ht => packColumns_above lh _ ALocal b t (by omega),
      fun G G2 M h => unpackColumns_congr c width lh a ps G G2 M h1 h⟩
  · intro sSrc sRow sDst a ps hps
    have h0 : MaxLocalLength height r * MaxLocalLength width c ≤ ps := by
      rw [hps]; exact le_max_left _ _
    have h1 : ∀ s, LocalLength height s r * MaxLocalLength width c ≤ ps := fun s =>
      (Nat.mul_le_mul_right _ (LocalLength_le_Max height s r)).trans h0
    have h2 : LocalLength width sRow c * LocalLength height sSrc r ≤ ps := by
      rw [Nat.mul_comm]
      exact (Nat.mul_le_mul_left _ (LocalLength_le_Max width sRow c)).trans (h1 sSrc)
    have hpack : ∀ jLocal i, jLocal < LocalLength width sRow c → i < LocalLength height sSrc r →
        jLocal * LocalLength height sSrc r + i < ps :=
      fun jLocal i hj hi =>
        portion_bound jLocal _ i _ _ ps hj (LocalLength_le_Max width sRow c) hi (h1 sSrc)
    have hun : ∀ k jLocal i, k < c → jLocal < RawLocalLength width (RawShift k a c) c →
        i < LocalLength height sDst r →
        k * ps + jLocal * LocalLength height sDst r + i < c * ps := by
      intro k jLocal i hk hj hi
      rw [Nat.add_assoc]
      exact block_index_bound k c ps _ hk
        (portion_bound jLocal _ i _ _ ps hj (LocalLength_le_Max width _ c) hi (h1 sDst))
    refine ⟨by rw [hps]; exact le_max_right _ _, h2,
      fun jLocal i hj hi => ⟨hpack jLocal i hj hi, hone ps _ (hpack jLocal i hj hi)⟩,
      fun k jLocal i hk hj hi => ⟨hun k jLocal i hk hj hi, hsucc ps _ (hun k jLocal i hk hj hi)⟩,
      fun ALocal b t ht => packColumns_above _ _ ALocal b t (by omega),
      fun G G2 M h => unpackColumns_congr c width _ a ps G G2 M (h1 sDst) h⟩
  · intro sSrc colShift row al ps hps
    have h0 : MaxLocalLength height (r * c) * width ≤ ps := by
      rw [hps]; exact le_max_left _ _
    have h1 : ∀ s, LocalLength height s (r * c) * width ≤ ps := fun s =>
      (Nat.mul_le_mul_right _ (LocalLength_le_Max height s (r * c))).trans h0
    have h2 : width * LocalLength height sSrc (r * c) ≤ ps := by
      rw [Nat.mul_comm]; exact h1 sSrc
    have hpack : ∀ j i, j < width → i < LocalLength height sSrc (r * c) →
        j * LocalLength height sSrc (r * c) + i < ps :=
      fun j i hj hi => portion_bound j _ i width _ ps hj (Nat.le_refl _) hi (h1 sSrc)
    have hun : ∀ k j iLocal, k < c → j < width →
        iLocal < RawLocalLength height (RawShift (row + r * k) al (r * c)) (r * c) →
        k * ps + (iLocal + j * RawLocalLength height (RawShift (row + r * k) al (r * c)) (r * c))
          < c * ps := by
      intro k j iLocal hk hj hi
      rw [Nat.add_comm iLocal]
      exact block_index_bound k c ps _ hk
        (portion_bound j _ iLocal width _ ps hj (Nat.le_refl _) hi (h1 _))
    refine ⟨by rw [hps]; exact le_max_right _ _, h2,
      fun j i hj hi => ⟨hpack j i hj hi, hone ps _ (hpack j i hj hi)⟩,
      fun k j iLocal hk hj hi => ⟨hun k j iLocal hk hj hi, hsucc ps _ (hun k j iLocal hk hj hi)⟩,
      fun ALocal b t ht => packColumns_above _ _ ALocal b t (by omega),
      fun G G2 M h => unpackRows_congr r c height width colShift row al ps G G2 M h0 h⟩

/-- On the example: a `2 × 2` grid, a `5 × 3` matrix and `MIN_COLL_MSG = 1`: the unaligned
portion size is `3·2 = 6`, and the last element read by the unpack loop is element
`6 + 11 = 17` of the `18` requested. -/
theorem portion_sufficient_witness :
    portionSize_unaligned 5 3 2 2 1 = 6 ∧
    (1 * 6 + 1 * LocalLength 5 0 2 + 2 < 2 * 6 ∧
      6 + (1 * 6 + 1 * LocalLength 5 0 2 + 2) < (2 + 1) * 6) :=
  ⟨by decide,
    ((portion_sufficient (T := Nat) 2 2 5 3 1 (by decide)).2.1 0 0 0 1 6 (by decide)).2.2.2.1
      1 1 2 (by decide) (by decide) (by decide)⟩

end PortionClaim

section SumRow
variable {T : Type}

/-- The plain unpack loop leaves the entries outside the `lh × width` tile as they are. -/
theorem unpackPlain_keep (width lh : Nat) (recv : Nat → T) (M : Mat T) (i j : Nat)
    (h : ¬ (i < lh ∧ j < width)) : unpackPlain width lh recv M i j = M i j := by
  unfold unpackPlain forRange
  rw [unpackPlain_loop, if_neg (by omega)]

/-- The closed form of `SumOverRow` on a valid matrix that is not refused: inside the tile
of a process the sum over its grid row, outside what was there. -/
theorem SumOverRow_local [AddCommMonoid T] (g : Grid) (RELEASE : Bool) (MIN_COLL_MSG : Nat)
    (aux : Nat → Nat → Nat → T) (M : DistMatrix_MC_Star T) (hV : M.Valid g)
    (hunl : RELEASE = true ∨ M.lockedView = false) :
    ∃ L : Nat → Nat → Mat T,
      M.SumOverRow g RELEASE MIN_COLL_MSG aux = .done { M with localMatrix := L } ∧
      ∀ row col iLoc j, row < g.Height → col < g.Width →
        L row col iLoc j
          = if iLoc < M.localHeight row col ∧ j < M.localWidth row col then
              (Finset.range g.Width).sum (fun k => M.localMatrix row k iLoc j)
            else M.localMatrix row col iLoc j := by
  have hg : (!RELEASE && !M.AssertNotLockedView) = false := by
    unfold DistMatrix_MC_Star.AssertNotLockedView
    rcases hunl with h | h <;> rw [h] <;> simp
  refine ⟨_, by unfold DistMatrix_MC_Star.SumOverRow; rw [if_neg (by rw [hg]; exact Bool.false_ne_true)], ?_⟩
  intro row col iLoc j hrow hcol
  dsimp only
  by_cases h : iLoc < M.localHeight row col ∧ j < M.localWidth row col
  · rw [if_pos h, unpackPlain_get _ _ _ _ _ _ h.1 h.2]
    unfold AllReduce
    have hb : j * M.localHeight row col + iLoc
        < max (M.localHeight row col * M.localWidth row col) MIN_COLL_MSG :=
      lt_of_lt_of_le
        (portion_bound j _ iLoc _ _ _ h.2 (Nat.le_refl _) h.1 (Nat.le_refl _))
        (le_max_left _ _)
    rw [if_pos hb]
    refine Finset.sum_congr rfl (fun k hk => ?_)
    have hk2 : k < g.Width := Finset.mem_range.1 hk
    have e1 : M.localHeight row k = M.localHeight row col := by
      rw [(hV.2 row k hrow hk2).1, (hV.2 row col hrow hcol).1, hV.1.2 row k hrow hk2,
        hV.1.2 row col hrow hcol]
    have e2 : M.localWidth row k = M.localWidth row col := by
      rw [(hV.2 row k hrow hk2).2, (hV.2 row col hrow hcol).2]
    show packColumns (M.localHeight row k) (M.localWidth row k) (M.localMatrix row k)
      (aux row k) (j * M.localHeight row col + iLoc) = M.localMatrix row k iLoc j
    rw [e1, e2]
    exact packColumns_get _ _ _ _ j iLoc h.2 h.1
  · rw [if_neg h]
    exact unpackPlain_keep _ _ _ _ _ _ (fun h2 => h ⟨h2.1, h2.2⟩)

/-- C35. `SumOverRow` is an in-place all-reduce over the process row: on a valid `[MC,* ]`
matrix that the debug guard does not refuse, the call returns; only the local tiles
change; the local entry `(iLoc, j)` of each process becomes the sum, over the `c`
processes of its grid row, of their local entries `(iLoc, j)` before the call, so the
processes of a grid row end with the same tile; what lies outside the tile stays; and the
result on the grid depends neither on the content of the scratch buffer nor on the padding
`MIN_COLL_MSG` adds to it. -/
theorem SumOverRow_allreduce [AddCommMonoid T] (g : Grid) (RELEASE : Bool)
    (MIN_COLL_MSG : Nat) (aux : Nat → Nat → Nat → T) (M : DistMatrix_MC_Star T)
    (hV : M.Valid g) (hunl : RELEASE = true ∨ M.lockedView = false) :
    ∃ L : Nat → Nat → Mat T,
      M.SumOverRow g RELEASE MIN_COLL_MSG aux = .done { M with localMatrix := L } ∧
      (∀ row col iLoc j, row < g.Height → col < g.Width →
        iLoc < M.localHeight row col → j < M.localWidth row col →
        L row col iLoc j = (Finset.range g.Width).sum (fun k => M.localMatrix row k iLoc j)) ∧
      (∀ row col col2 iLoc j, row < g.Height → col < g.Width → col2 < g.Width →
        iLoc < M.localHeight row col → j < M.localWidth row col →
        L row col iLoc j = L row col2 iLoc j) ∧
      (∀ row col iLoc j, row < g.Height → col < g.Width →
        ¬ (iLoc < M.localHeight row col ∧ j < M.localWidth row col) →
        L row col iLoc j = M.localMatrix row col iLoc j) ∧
      (∀ (MIN2 : Nat) (aux2 : Nat → Nat → Nat → T) row col, row < g.Height → col < g.Width →
        (M.SumOverRow g RELEASE MIN2 aux2).buffer.localMatrix row col = L row col) := by
  obtain ⟨L, h1, h2⟩ := SumOverRow_local g RELEASE MIN_COLL_MSG aux M hV hunl
  have hsame : ∀ row col col2, row < g.Height → col < g.Width → col2 < g.Width →
      M.localHeight row col2 = M.localHeight row col ∧
        M.localWidth row col2 = M.localWidth row col := by
    intro row col col2 hrow hcol hcol2
    rw [(hV.2 row col2 hrow hcol2).1, (hV.2 row col hrow hcol).1, hV.1.2 row col2 hrow hcol2,
      hV.1.2 row col hrow hcol, (hV.2 row col2 hrow hcol2).2, (hV.2 row col hrow hcol).2]
    exact ⟨rfl, rfl⟩
  refine ⟨L, h1, ?_, ?_, ?_, ?_⟩
  · intro row col iLoc j hrow hcol hi hj
    rw [h2 row col iLoc j hrow hcol, if_pos ⟨hi, hj⟩]
  · intro row col col2 iLoc j hrow hcol hcol2 hi hj
    obtain ⟨e1, e2⟩ := hsame row col col2 hrow hcol hcol2
    rw [h2 row col iLoc j hrow hcol, h2 row col2 iLoc j hrow hcol2, if_pos ⟨hi, hj⟩,
      if_pos ⟨by rw [e1]; exact hi, by rw [e2]; exact hj⟩]
  · intro row col iLoc j hrow hcol h
    rw [h2 row col iLoc j hrow hcol, if_neg h]
  · intro MIN2 aux2 row col hrow hcol
    obtain ⟨L2, h3, h4⟩ := SumOverRow_local g RELEASE MIN2 aux2 M hV hunl
    rw [h3]
    funext iLoc j
    exact (h4 row col iLoc j hrow hcol).trans (h2 row col iLoc j hrow hcol).symm

/-- On the example: the `3 × 2` matrix `demoStar` on the `2 × 2` grid; the two processes of
grid row `0` hold `11` at the local position `(0,1)`, and both end with `22`. -/
theorem SumOverRow_allreduce_witness :
    demoStar.Valid ⟨2, 2⟩ ∧
    ∃ L : Nat → Nat → Mat Nat,
      demoStar.SumOverRow ⟨2, 2⟩ false 0 (fun _ _ _ => 7) = .done { demoStar with localMatrix := L } ∧
      L 0 0 0 1 = 22 ∧ L 0 1 0 1 = 22 := by
  have h : demoStar.Valid ⟨2, 2⟩ :=
    ⟨⟨by decide, fun _ _ _ _ => rfl⟩, fun _ _ _ _ => ⟨rfl, rfl⟩⟩
  obtain ⟨L, h1, h2, -⟩ :=
    SumOverRow_allreduce ⟨2, 2⟩ false 0 (fun _ _ _ => 7) demoStar h (Or.inr rfl)
  exact ⟨h, L, h1,
    (h2 0 0 0 1 (by decide) (by decide) (by decide) (by decide)).trans (by decide),
    (h2 0 1 0 1 (by decide) (by decide) (by decide) (by decide)).trans (by decide)⟩

end SumRow

section SubView
variable {T : Type}

/-- Two numbers less than a period apart with the same remainder are equal. -/
theorem eq_of_mod_eq_of_close (x y r : Nat) (h : x % r = y % r) (h1 : x < y + r)
    (h2 : y < x + r) : x = y := by
  rcases Nat.le_total x y with hxy | hxy
  · have hd : r ∣ y - x := (Nat.modEq_iff_dvd' hxy).1 h
    have := Nat.eq_zero_of_dvd_of_lt hd (by omega)
    omega
  · have hd : r ∣ x - y := (Nat.modEq_iff_dvd' hxy).1 h.symm
    have := Nat.eq_zero_of_dvd_of_lt hd (by omega)
    omega

/-- The first row of `[i, ∞)` that the process of grid row `row` owns in `A`, counted in
`A` through the local height before `i` and counted in the view through its shift. -/
theorem view_row_offset (r a i row : Nat) (hrow : row < r) (ha : a < r) :
    Shift row a r + LocalLength i (Shift row a r) r * r = i + Shift row ((a + i) % r) r := by
  have hr : 0 < r := by omega
  have hs : Shift row a r < r := Shift_lt row a r hr
  have hs2 : Shift row ((a + i) % r) r < r := Shift_lt row _ r hr
  have h1 := Shift_owner row a r (LocalLength i (Shift row a r) r) hrow ha
  have h2 := Shift_owner row ((a + i) % r) r 0 hrow (Nat.mod_lt _ hr)
  rw [Nat.zero_mul, Nat.add_zero, Nat.add_mod_mod] at h2
  have hlo : i ≤ Shift row a r + LocalLength i (Shift row a r) r * r := by
    have := (lt_LocalLength_iff i (Shift row a r) r (LocalLength i (Shift row a r) r) hr).not
    have h3 := this.1 (Nat.lt_irrefl _)
    omega
  have hhi : Shift row a r + LocalLength i (Shift row a r) r * r < i + r := by
    rcases Nat.eq_zero_or_pos (LocalLength i (Shift row a r) r) with h0 | h0
    · rw [h0, Nat.zero_mul]; omega
    · have h3 := (lt_LocalLength_iff i (Shift row a r) r
        (LocalLength i (Shift row a r) r - 1) hr).1 (by omega)
      have h4 : LocalLength i (Shift row a r) r * r
          = (LocalLength i (Shift row a r) r - 1) * r + r := by
        conv_lhs => rw [← Nat.sub_add_cancel h0]
        rw [Nat.add_mul, Nat.one_mul]
      omega
  have hmod : (Shift row a r + LocalLength i (Shift row a r) r * r) % r
      = (i + Shift row ((a + i) % r) r) % r := by
    have h5 : (Shift row a r + LocalLength i (Shift row a r) r * r + a) % r
        = (i + Shift row ((a + i) % r) r + a) % r := by
      exact h1.trans (h2.symm.trans (congrArg (fun z => z % r) (by omega)))
    exact Nat.ModEq.add_right_cancel' a h5
  exact eq_of_mod_eq_of_close _ _ r hmod (by omega) (by omega)

/-- C38. A sub-block view aliases the right elements: for a source `A` that satisfies its
invariants, a block with `i + height ≤ A.Height` and `j + width ≤ A.Width`, and a
destination the debug checks accept, `View( A, i, j, height, width )` returns and
`LockedView( A, i, j, height, width )` returns the same with `_lockedView` set; the view
has `colAlignment = (A.ColAlignment + i) mod r`; on each process of the grid the local
entry `(iLoc, b)` of the view is the local entry `(localHeightBefore + iLoc, j + b)` of
`A`, whose global row in `A` is `i + (colShift of the view + iLoc·r)`; the local height of
the view is the number of the rows `i + y`, `y < height`, that the process owns in `A`;
and the aliased entries lie inside the local tile of `A`. -/
theorem view_aliases (g : Grid) (RELEASE : Bool) (chk : Assertions T)
    (M A : DistMatrix_MC_Star T) (i j height width : Nat) (hA : A.Valid g)
    (hi : i + height ≤ A.height) (hj : j + width ≤ A.width)
    (hchk : RELEASE = true ∨ (chk.FreeColAlignment M && chk.NotStoringData M &&
      chk.ValidSubmatrix A i j height width) = true) :
    ∃ V : DistMatrix_MC_Star T,
      M.View_sub g RELEASE chk A i j height width = .done V ∧
      M.LockedView_sub g RELEASE chk A i j height width = .done { V with lockedView := true } ∧
      V.lockedView = false ∧
      V.colAlignment = (A.colAlignment + i) % g.Height ∧
      ∀ row col, row < g.Height → col < g.Width →
        (∀ iLoc b, V.localMatrix row col iLoc b
          = A.localMatrix row col (LocalLength i (A.colShift row col) g.Height + iLoc) (j + b)) ∧
        (∀ iLoc, A.colShift row col
            + (LocalLength i (A.colShift row col) g.Height + iLoc) * g.Height
          = i + (V.colShift row col + iLoc * g.Height)) ∧
        V.localHeight row col
          = ((Finset.range height).filter
              (fun y => (i + y + A.colAlignment) % g.Height = row)).card ∧
        V.localWidth row col = width ∧
        (∀ iLoc b, iLoc < V.localHeight row col → b < V.localWidth row col →
          LocalLength i (A.colShift row col) g.Height + iLoc < A.localHeight row col ∧
          j + b < A.localWidth row col) := by
  have hguard : (!RELEASE && !(chk.FreeColAlignment M && chk.NotStoringData M &&
      chk.ValidSubmatrix A i j height width)) = false := by
    rcases hchk with h | h <;> rw [h] <;> simp
  refine ⟨{ M with
      height := height
      width := width
      viewing := true
      lockedView := false
      colAlignment := (A.colAlignment + i) % g.Height
      colShift := fun row _ => Shift row ((A.colAlignment + i) % g.Height) g.Height
      localHeight := fun row _ =>
        LocalLength height (Shift row ((A.colAlignment + i) % g.Height) g.Height) g.Height
      localWidth := fun _ _ => width
      localMatrix := fun row col =>
        (A.localMatrix row col).view (LocalLength i (A.colShift row col) g.Height) j },
    ?_, ?_, rfl, rfl, ?_⟩
  · unfold DistMatrix_MC_Star.View_sub DistMatrix_MC_Star.viewBlock
    rw [if_neg (by rw [hguard]; exact Bool.false_ne_true)]
  · unfold DistMatrix_MC_Star.LockedView_sub DistMatrix_MC_Star.viewBlock
    rw [if_neg (by rw [hguard]; exact Bool.false_ne_true)]
  · intro row col hrow hcol
    have hr : 0 < g.Height := by omega
    have hs : A.colShift row col = Shift row A.colAlignment g.Height := hA.1.2 row col hrow hcol
    have hoff := view_row_offset g.Height A.colAlignment i row hrow hA.1.1
    have hrowEq : ∀ iLoc, A.colShift row col
          + (LocalLength i (A.colShift row col) g.Height + iLoc) * g.Height
        = i + (Shift row ((A.colAlignment + i) % g.Height) g.Height + iLoc * g.Height) := by
      intro iLoc
      rw [hs, Nat.add_mul]
      omega
    refine ⟨fun iLoc b => rfl, hrowEq, ?_, rfl, ?_⟩
    · show LocalLength height (Shift row ((A.colAlignment + i) % g.Height) g.Height) g.Height = _
      rw [← owned_rows_card g.Height ((A.colAlignment + i) % g.Height) height row hrow
        (Nat.mod_lt _ hr)]
      congr 1
      refine Finset.filter_congr (fun y _ => ?_)
      rw [Nat.add_mod_mod, show y + (A.colAlignment + i) = i + y + A.colAlignment by omega]
    · intro iLoc b hiLoc hb
      have h1 : iLoc < LocalLength height (Shift row ((A.colAlignment + i) % g.Height) g.Height)
          g.Height := hiLoc
      have h2 := (lt_LocalLength_iff _ _ _ _ hr).1 h1
      have h3 := hrowEq iLoc
      have hb2 : b < width := hb
      rw [(hA.2 row col hrow hcol).1, (hA.2 row col hrow hcol).2,
        lt_LocalLength_iff _ _ _ _ hr]
      omega

/-- On the example: the block of the rows `1, 2` and the column `1` of the `3 × 2` matrix
`demoStar` on the `2 × 2` grid: the process of grid row `1` owns the rows `0, 2` of
`demoStar`; its view has one local row, the local row `1` of `demoStar`, the global
row `2`. -/
theorem view_aliases_witness :
    demoStar.Valid ⟨2, 2⟩ ∧
    ∃ V : DistMatrix_MC_Star Nat,
      demoFresh.View_sub ⟨2, 2⟩ false demoChecks demoStar 1 1 2 1 = .done V ∧
      V.colAlignment = 0 ∧ V.localMatrix 1 0 0 0 = 21 ∧ V.localHeight 1 0 = 1 := by
  have h : demoStar.Valid ⟨2, 2⟩ :=
    ⟨⟨by decide, fun _ _ _ _ => rfl⟩, fun _ _ _ _ => ⟨rfl, rfl⟩⟩
  obtain ⟨V, h1, -, -, h2, h3⟩ :=
    view_aliases ⟨2, 2⟩ false demoChecks demoFresh demoStar 1 1 2 1 h (by decide) (by decide)
      (Or.inr rfl)
  obtain ⟨h4, -, h5, -⟩ := h3 1 0 (by decide) (by decide)
  exact ⟨h, V, h1, h2.trans (by decide), (h4 0 0).trans (by decide), h5.trans (by decide)⟩

end SubView

section ReplicaAgreement
variable {T : Type}

/-- A step that is local to the grid row keeps the replicas of a grid row equal. -/
theorem rowLocal_replicated (g : Grid) (M M2 : DistMatrix_MC_Star T) (h : M.RowLocal g M2)
    (hR : M.Replicated g) : M2.Replicated g := by
  obtain ⟨h1, h2, F, hF⟩ := h
  intro row col col2 iLoc j hrow hcol hcol2 hi hj
  rw [hF row col iLoc j hrow hcol, hF row col2 iLoc j hrow hcol2,
    hR row col col2 iLoc j hrow hcol hcol2 (by rw [← h1]; exact hi) (by rw [← h2]; exact hj)]

/-- Doing nothing is local to the grid row. -/
theorem rowLocal_refl (g : Grid) (M : DistMatrix_MC_Star T) : M.RowLocal g M :=
  ⟨rfl, rfl, fun _ _ _ x => x, fun _ _ _ _ _ _ => rfl⟩

/-- A new tile computed from the shift, the local height, the grid row, the position and
the old entry is local to the grid row: on a valid matrix the shift and the local height
are those of the grid row. -/
theorem rowLocal_of_rule (g : Grid) (M : DistMatrix_MC_Star T) (hV : M.Valid g)
    (E : Nat → Nat → Nat → Nat → Nat → T → T) (L : Nat → Nat → Mat T)
    (h : ∀ row col iLoc j, L row col iLoc j
      = E (M.colShift row col) (M.localHeight row col) row iLoc j (M.localMatrix row col iLoc j)) :
    M.RowLocal g { M with localMatrix := L } := by
  refine ⟨rfl, rfl, fun row iLoc j x =>
    E (Shift row M.colAlignment g.Height)
      (LocalLength M.height (Shift row M.colAlignment g.Height) g.Height) row iLoc j x, ?_⟩
  intro row col iLoc j hrow hcol
  show L row col iLoc j = _
  rw [h row col iLoc j, (hV.2 row col hrow hcol).1, hV.1.2 row col hrow hcol]

/-- A call that is refused by the locked-view guard leaves the matrix. -/
theorem refused_or_let_through (RELEASE : Bool) (M : DistMatrix_MC_Star T) :
    (RELEASE = false ∧ M.lockedView = true) ∨ (RELEASE = true ∨ M.lockedView = false) := by
  cases RELEASE <;> cases h : M.lockedView <;> simp

/-- `Set` is local to the grid row. -/
theorem Set_rowLocal (g : Grid) (RELEASE : Bool) (M : DistMatrix_MC_Star T) (hV : M.Valid g)
    (i j : Nat) (u : T) : M.RowLocal g (M.Set g RELEASE i j u).buffer := by
  unfold DistMatrix_MC_Star.Set
  by_cases hg : (!RELEASE && !M.AssertValidEntry i j) = true
  · rw [if_pos hg]; exact rowLocal_refl g M
  · rw [if_neg hg]
    refine rowLocal_of_rule g M hV
      (fun s _ row iLoc b x =>
        if row = (i + M.colAlignment) % g.Height ∧ iLoc = (i - s) / g.Height ∧ b = j then u
        else x) _ (fun row col iLoc b => ?_)
    by_cases h : row = (i + M.colAlignment) % g.Height
    · subst h
      rw [if_pos rfl]
      simp only [Mat.set, true_and]
    · rw [if_neg h]
      simp only [h, false_and, if_false]

/-- `Update` is local to the grid row. -/
theorem Update_rowLocal [Add T] (g : Grid) (RELEASE : Bool) (M : DistMatrix_MC_Star T)
    (hV : M.Valid g) (i j : Nat) (u : T) : M.RowLocal g (M.Update g RELEASE i j u).buffer := by
  unfold DistMatrix_MC_Star.Update
  by_cases hg : (!RELEASE && !M.AssertValidEntry i j) = true
  · rw [if_pos hg]; exact rowLocal_refl g M
  · rw [if_neg hg]
    refine rowLocal_of_rule g M hV
      (fun s _ row iLoc b x =>
        if row = (i + M.colAlignment) % g.Height ∧ iLoc = (i - s) / g.Height ∧ b = j then x + u
        else x) _ (fun row col iLoc b => ?_)
    by_cases h : row = (i + M.colAlignment) % g.Height
    · subst h
      rw [if_pos rfl]
      simp only [Mat.set, true_and]
      by_cases h2 : iLoc = (i - M.colShift ((i + M.colAlignment) % g.Height) col) / g.Height ∧ b = j
      · rw [if_pos h2, if_pos h2, h2.1, h2.2]
      · rw [if_neg h2, if_neg h2]
    · rw [if_neg h]
      simp only [h, false_and, if_false]

/-- `MakeTrapezoidal` is local to the grid row. -/
theorem MakeTrapezoidal_rowLocal [Zero T] (g : Grid) (RELEASE : Bool)
    (M : DistMatrix_MC_Star T) (hV : M.Valid g) (side : Side) (shape : Shape) (offset : Int) :
    M.RowLocal g (M.MakeTrapezoidal g RELEASE side shape offset).buffer := by
  rcases refused_or_let_through RELEASE M with ⟨h1, h2⟩ | hunl
  · unfold DistMatrix_MC_Star.MakeTrapezoidal
    rw [h1, if_pos (locked_guard M h2)]
    exact rowLocal_refl g M
  · rw [MakeTrapezoidal_done g RELEASE M hunl side shape offset]
    exact rowLocal_of_rule g M hV
      (fun s lh _ iLoc j x =>
        if j < M.width ∧
          zeroedLocal side shape offset M.height M.width s g.Height lh iLoc j
        then 0 else x) _ (fun _ _ _ _ => rfl)

/-- `ScaleTrapezoidal` is local to the grid row. -/
theorem ScaleTrapezoidal_rowLocal [Mul T] (g : Grid) (RELEASE : Bool)
    (M : DistMatrix_MC_Star T) (hV : M.Valid g) (alpha : T) (side : Side) (shape : Shape)
    (offset : Int) :
    M.RowLocal g (M.ScaleTrapezoidal g RELEASE alpha side shape offset).buffer := by
  rcases refused_or_let_through RELEASE M with ⟨h1, h2⟩ | hunl
  · unfold DistMatrix_MC_Star.ScaleTrapezoidal
    rw [h1, if_pos (locked_guard M h2)]
    exact rowLocal_refl g M
  · rw [ScaleTrapezoidal_done g RELEASE M hunl alpha side shape offset]
    exact rowLocal_of_rule g M hV
      (fun s lh _ iLoc j x =>
        if j < M.width ∧
          scaledLocal side shape offset M.height M.width s g.Height lh iLoc j
        then x * alpha else x) _ (fun _ _ _ _ => rfl)

/-- `SetToIdentity` is local to the grid row. -/
theorem SetToIdentity_rowLocal [Zero T] [One T] (g : Grid) (RELEASE : Bool)
    (M : DistMatrix_MC_Star T) (hV : M.Valid g) :
    M.RowLocal g (M.SetToIdentity g RELEASE).buffer := by
  rcases refused_or_let_through RELEASE M with ⟨h1, h2⟩ | hunl
  · unfold DistMatrix_MC_Star.SetToIdentity
    rw [h1, if_pos (locked_guard M h2)]
    exact rowLocal_refl g M
  · rw [SetToIdentity_done g RELEASE M hunl]
    refine ⟨rfl, rfl, fun row iLoc j x =>
        if iLoc < LocalLength M.height (Shift row M.colAlignment g.Height) g.Height ∧
            Shift row M.colAlignment g.Height + iLoc * g.Height < M.width ∧
            j = Shift row M.colAlignment g.Height + iLoc * g.Height then 1
        else if iLoc < LocalLength M.height (Shift row M.colAlignment g.Height) g.Height ∧
            j < M.width then 0
        else x, ?_⟩
    intro row col iLoc j hrow hcol
    show (if iLoc < M.localHeight row col ∧ M.colShift row col + iLoc * g.Height < M.width ∧
            j = M.colShift row col + iLoc * g.Height then (1 : T)
        else if iLoc < M.localHeight row col ∧ j < M.localWidth row col then 0
        else M.localMatrix row col iLoc j) = _
    rw [(hV.2 row col hrow hcol).1, (hV.2 row col hrow hcol).2, hV.1.2 row col hrow hcol]

/-- C39. Replica agreement is preserved: on a valid `[MC,* ]` matrix, `Set`, `Update`,
`MakeTrapezoidal`, `ScaleTrapezoidal` and `SetToIdentity`, called with the same arguments
on every process, are local to the grid row (the new local entry of a process is computed
from its `MCRank`, the position, the old entry and the arguments, never from its `MRRank`),
whether the call returns or throws; so if the processes of each grid row hold the same
tile before the call, they do after it. -/
theorem replicas_preserved [Semiring T] (g : Grid) (RELEASE : Bool)
    (M : DistMatrix_MC_Star T) (hV : M.Valid g) :
    ((∀ i j u, M.RowLocal g (M.Set g RELEASE i j u).buffer) ∧
      (∀ i j u, M.RowLocal g (M.Update g RELEASE i j u).buffer) ∧
      (∀ side shape offset, M.RowLocal g (M.MakeTrapezoidal g RELEASE side shape offset).buffer) ∧
      (∀ alpha side shape offset,
        M.RowLocal g (M.ScaleTrapezoidal g RELEASE alpha side shape offset).buffer) ∧
      M.RowLocal g (M.SetToIdentity g RELEASE).buffer) ∧
    (M.Replicated g →
      (∀ i j u, (M.Set g RELEASE i j u).buffer.Replicated g) ∧
      (∀ i j u, (M.Update g RELEASE i j u).buffer.Replicated g) ∧
      (∀ side shape offset, (M.MakeTrapezoidal g RELEASE side shape offset).buffer.Replicated g) ∧
      (∀ alpha side shape offset,
        (M.ScaleTrapezoidal g RELEASE alpha side shape offset).buffer.Replicated g) ∧
      (M.SetToIdentity g RELEASE).buffer.Replicated g) :=
  ⟨⟨fun i j u => Set_rowLocal g RELEASE M hV i j u,
      fun i j u => Update_rowLocal g RELEASE M hV i j u,
      fun side shape offset => MakeTrapezoidal_rowLocal g RELEASE M hV side shape offset,
      fun alpha side shape offset =>
        ScaleTrapezoidal_rowLocal g RELEASE M hV alpha side shape offset,
      SetToIdentity_rowLocal g RELEASE M hV⟩,
    fun hR =>
      ⟨fun i j u => rowLocal_replicated g M _ (Set_rowLocal g RELEASE M hV i j u) hR,
        fun i j u => rowLocal_replicated g M _ (Update_rowLocal g RELEASE M hV i j u) hR,
        fun side shape offset =>
          rowLocal_replicated g M _ (MakeTrapezoidal_rowLocal g RELEASE M hV side shape offset) hR,
        fun alpha side shape offset =>
          rowLocal_replicated g M _
            (ScaleTrapezoidal_rowLocal g RELEASE M hV alpha side shape offset) hR,
        rowLocal_replicated g M _ (SetToIdentity_rowLocal g RELEASE M hV) hR⟩⟩

/-- On the example: the processes of each grid row of `demoStar` hold the same tile, and
they do after `Set( 2, 1, 99 )` and after `SetToIdentity`. -/
theorem replicas_preserved_witness :
    demoStar.Valid ⟨2, 2⟩ ∧ demoStar.Replicated ⟨2, 2⟩ ∧
    (demoStar.Set ⟨2, 2⟩ false 2 1 99).buffer.Replicated ⟨2, 2⟩ ∧
    (demoStar.SetToIdentity ⟨2, 2⟩ false).buffer.Replicated ⟨2, 2⟩ :=
  have hV : demoStar.Valid ⟨2, 2⟩ :=
    ⟨⟨by decide, fun _ _ _ _ => rfl⟩, fun _ _ _ _ => ⟨rfl, rfl⟩⟩
  have hR : demoStar.Replicated ⟨2, 2⟩ := fun _ _ _ _ _ _ _ _ _ _ => rfl
  ⟨hV, hR, ((replicas_preserved ⟨2, 2⟩ false demoStar hV).2 hR).1 2 1 99,
    ((replicas_preserved ⟨2, 2⟩ false demoStar hV).2 hR).2.2.2.2⟩

end ReplicaAgreement

section StridedCopy
variable {T : Type}

/-- The inner copy loop of `[MC,* ] = [* ,* ]` writes the rows `lo, …, lo + cnt − 1` of
column `j`. -/
theorem copyRows_inner (j : Nat) (v : Nat → T) (cnt : Nat) :
    ∀ (lo : Nat) (M : Mat T) (a b : Nat),
      forLoop (fun iLocal (M1 : Mat T) => M1.set iLocal j (v iLocal)) cnt lo M a b
        = if b = j ∧ lo ≤ a ∧ a < lo + cnt then v a else M a b := by
  induction cnt with
  | zero => intro lo M a b; rw [if_neg (by omega)]; rfl
  | succ cnt ih =>
    intro lo M a b
    rw [forLoop, ih]
    by_cases h : b = j ∧ lo + 1 ≤ a ∧ a < lo + 1 + cnt
    · rw [if_pos h, if_pos ⟨h.1, by omega, by omega⟩]
    · rw [if_neg h]
      unfold Mat.set
      by_cases h2 : a = lo ∧ b = j
      · rw [if_pos h2, if_pos ⟨h2.2, by omega, by omega⟩, h2.1]
      · rw [if_neg h2, if_neg (by omega)]

/-- The copy loops of `[MC,* ] = [* ,* ]` over the columns `lo, …, lo + cnt − 1`. -/
theorem copyRows_outer (r cs lh : Nat) (AL : Mat T) (cnt : Nat) :
    ∀ (lo : Nat) (M : Mat T) (a b : Nat),
      forLoop (fun j (M : Mat T) =>
          forRange 0 lh (fun iLocal (M1 : Mat T) => M1.set iLocal j (AL (cs + iLocal * r) j)) M)
        cnt lo M a b
        = if (lo ≤ b ∧ b < lo + cnt) ∧ a < lh then AL (cs + a * r) b else M a b := by
  induction cnt with
  | zero => intro lo M a b; rw [if_neg (by omega)]; rfl
  | succ cnt ih =>
    intro lo M a b
    rw [forLoop, ih]
    by_cases h : (lo + 1 ≤ b ∧ b < lo + 1 + cnt) ∧ a < lh
    · rw [if_pos h, if_pos ⟨⟨by omega, by omega⟩, h.2⟩]
    · rw [if_neg h]
      unfold forRange
      rw [copyRows_inner lo (fun iLocal => AL (cs + iLocal * r) lo)]
      by_cases h2 : b = lo ∧ 0 ≤ a ∧ a < 0 + (lh - 0)
      · rw [if_pos h2, if_pos ⟨⟨by omega, by omega⟩, by omega⟩, h2.1]
      · rw [if_neg h2, if_neg (by omega)]

/-- The copy loops of `[MC,* ] = [* ,* ]`: inside the `lh × width` tile the strided rows of
the source, outside what was there. -/
theorem copyRows_get (r cs lh width : Nat) (AL M : Mat T) (a b : Nat) :
    copyRows r cs lh width AL M a b
      = if a < lh ∧ b < width then AL (cs + a * r) b else M a b := by
  unfold copyRows
  rw [forRange, copyRows_outer]
  exact if_congr ⟨fun h => ⟨h.2, by omega⟩, fun h => ⟨⟨Nat.zero_le _, by omega⟩, h.1⟩⟩ rfl rfl

/-- C40. Assignment from a fully replicated matrix is a local strided copy: for every grid
with `r ≥ 1`, every `[* ,* ]` source `A` and every `[MC,* ]` destination (a viewing one
valid and of the size of `A`), the destination keeps its alignment and shifts and takes
the size of `A`; on every process of the grid the local height is that of the slice of
the `A.Height` rows the process owns; the local entry `(iLoc, j)` of the tile is the
entry `(colShift + iLoc·r, j)` of the copy of `A` on the process, the entry of the one
replicated matrix when all the copies are the same; the row index `colShift + iLoc·r`
read from `A` is below `A.Height` for every `iLoc` below the local height; and nothing
outside the tile is written. -/
theorem assign_Star_Star_copy (g : Grid) (self : DistMatrix_MC_Star T)
    (A : AbstractDistMatrix T) (hr : 0 < g.Height)
    (hacc : self.viewing = true →
      self.Valid g ∧ self.height = A.height ∧ self.width = A.width) :
    (self.assign_Star_Star g A).colAlignment = self.colAlignment ∧
    (self.assign_Star_Star g A).constrainedColAlignment = self.constrainedColAlignment ∧
    (self.assign_Star_Star g A).colShift = self.colShift ∧
    (self.assign_Star_Star g A).height = A.height ∧
    (self.assign_Star_Star g A).width = A.width ∧
    ∀ row col, row < g.Height → col < g.Width →
      (self.assign_Star_Star g A).localHeight row col
        = LocalLength A.height (self.colShift row col) g.Height ∧
      (∀ iLoc j, iLoc < (self.assign_Star_Star g A).localHeight row col → j < A.width →
        (self.assign_Star_Star g A).localMatrix row col iLoc j
          = A.localMatrix row col (self.colShift row col + iLoc * g.Height) j ∧
        self.colShift row col + iLoc * g.Height < A.height ∧
        ∀ G : Mat T, (∀ row2 col2, row2 < g.Height → col2 < g.Width →
            A.localMatrix row2 col2 = G) →
          (self.assign_Star_Star g A).localMatrix row col iLoc j
            = G (self.colShift row col + iLoc * g.Height) j) ∧
      (∀ iLoc j, ¬ (iLoc < (self.assign_Star_Star g A).localHeight row col ∧ j < A.width) →
        (self.assign_Star_Star g A).localMatrix row col iLoc j
          = self.localMatrix row col iLoc j) := by
  by_cases hv : self.viewing = true
  · obtain ⟨hV, hh, hw⟩ := hacc hv
    have e0 : self.assign_Star_Star g A = { self with
        localMatrix := fun row col =>
          copyRows g.Height (self.colShift row col) (self.localHeight row col) self.width
            (A.localMatrix row col) (self.localMatrix row col) } := by
      unfold DistMatrix_MC_Star.assign_Star_Star
      simp only [if_pos hv]
    rw [e0]
    refine ⟨rfl, rfl, rfl, hh, hw, fun row col hrow hcol => ?_⟩
    have hlh : self.localHeight row col = LocalLength A.height (self.colShift row col) g.Height := by
      rw [(hV.2 row col hrow hcol).1, hh]
    refine ⟨hlh, fun iLoc j hi hj => ?_, fun iLoc j h => ?_⟩
    · have e : copyRows g.Height (self.colShift row col) (self.localHeight row col) self.width
          (A.localMatrix row col) (self.localMatrix row col) iLoc j
          = A.localMatrix row col (self.colShift row col + iLoc * g.Height) j := by
        rw [copyRows_get, if_pos ⟨hi, by rw [hw]; exact hj⟩]
      refine ⟨e, ?_, fun G hG => ?_⟩
      · exact (lt_LocalLength_iff _ _ _ _ hr).1 (by rw [← hlh]; exact hi)
      · rw [← hG row col hrow hcol]; exact e
    · show copyRows g.Height (self.colShift row col) (self.localHeight row col) self.width
          (A.localMatrix row col) (self.localMatrix row col) iLoc j = _
      rw [copyRows_get, if_neg (by rw [hw]; exact h)]
  · have e0 : self.assign_Star_Star g A = { self.ResizeTo g A.height A.width with
        localMatrix := fun row col =>
          copyRows g.Height (self.colShift row col)
            (LocalLength A.height (self.colShift row col) g.Height) A.width
            (A.localMatrix row col) (self.localMatrix row col) } := by
      unfold DistMatrix_MC_Star.assign_Star_Star
      simp only [if_neg hv]
      rfl
    rw [e0]
    refine ⟨rfl, rfl, rfl, rfl, rfl, fun row col hrow hcol => ⟨rfl, fun iLoc j hi hj => ?_,
      fun iLoc j h => ?_⟩⟩
    · have e : copyRows g.Height (self.colShift row col)
          (LocalLength A.height (self.colShift row col) g.Height) A.width
          (A.localMatrix row col) (self.localMatrix row col) iLoc j
          = A.localMatrix row col (self.colShift row col + iLoc * g.Height) j := by
        rw [copyRows_get, if_pos ⟨hi, hj⟩]
      refine ⟨e, ?_, fun G hG => ?_⟩
      · exact (lt_LocalLength_iff _ _ _ _ hr).1 hi
      · rw [← hG row col hrow hcol]; exact e
    · show copyRows g.Height (self.colShift row col)
          (LocalLength A.height (self.colShift row col) g.Height) A.width
          (A.localMatrix row col) (self.localMatrix row col) iLoc j = _
      have h3 : ¬ (iLoc < LocalLength A.height (self.colShift row col) g.Height ∧ j < A.width) :=
        fun h2 => h h2
      rw [copyRows_get, if_neg h3]

/-- On the example: the owning `3 × 2` matrix `demoStar` on the `2 × 2` grid, assigned from
a `5 × 2` matrix held in full by every process with entry `(i, j) = 10·i + j`: the process
`(1, 0)` has shift `0` and gets the rows `0, 2, 4`. -/
theorem assign_Star_Star_copy_witness :
    (demoStar.assign_Star_Star ⟨2, 2⟩
        { demoVector with localMatrix := fun _ _ i j => 10 * i + j }).localHeight 1 0 = 3 ∧
    (demoStar.assign_Star_Star ⟨2, 2⟩
        { demoVector with localMatrix := fun _ _ i j => 10 * i + j }).localMatrix 1 0 2 1
      = 41 := by
  obtain ⟨-, -, -, -, -, h⟩ :=
    assign_Star_Star_copy ⟨2, 2⟩ demoStar
      { demoVector with localMatrix := fun _ _ i j => 10 * i + j } (by decide)
      (fun h => absurd h (by decide))
  obtain ⟨h1, h2, -⟩ := h 1 0 (by decide) (by decide)
  exact ⟨h1.trans (by decide), ((h2 2 1 (by rw [h1]; decide) (by decide)).1).trans (by decide)⟩

end StridedCopy

section Tiling

/-- The number of blocks `⌈m/b⌉` of `m` remaining rows grows by one with one more block. -/
theorem ceil_div_step (b m : Nat) (hb : 0 < b) (hm : 0 < m) :
    (m + b - 1) / b = (m - b + b - 1) / b + 1 := by
  by_cases h : b ≤ m
  · have e : m + b - 1 = (m - b + b - 1) + b := by omega
    rw [e, Nat.add_div_right _ hb]
  · have e : m - b = 0 := by omega
    rw [e, Nat.zero_add, Nat.div_eq_of_lt (by omega : b - 1 < b)]
    exact Nat.div_eq_of_lt_le (by omega) (by omega)

/-- The iterations the block loop runs from `k`: their number, their block sizes and their
positions. -/
theorem blockVisits_spec (b n : Nat) (hb : 0 < b) :
    ∀ fuel k l, blockVisits b n fuel k = some l →
      l.length = (n - k + b - 1) / b ∧ (l.map Prod.snd).sum = n - k ∧
      ∀ t, t < l.length → l[t]? = some (k + t * b, min b (n - (k + t * b))) := by
  intro fuel
  induction fuel with
  | zero =>
    intro k l h
    rw [blockVisits] at h
    by_cases hk : k < n
    · rw [if_pos hk] at h; exact absurd h (by simp)
    · rw [if_neg hk] at h
      obtain rfl : [] = l := Option.some.inj h
      have e : n - k = 0 := by omega
      rw [e, Nat.zero_add, Nat.div_eq_of_lt (by omega : b - 1 < b)]
      exact ⟨rfl, rfl, fun t ht => absurd ht (by simp)⟩
  | succ fuel ih =>
    intro k l h
    rw [blockVisits] at h
    by_cases hk : k < n
    · rw [if_pos hk] at h
      cases hrec : blockVisits b n fuel (k + b) with
      | none => rw [hrec] at h; exact absurd h (by simp)
      | some l2 =>
        rw [hrec] at h
        obtain rfl : (k, min b (n - k)) :: l2 = l := Option.some.inj h
        obtain ⟨h1, h2, h3⟩ := ih (k + b) l2 hrec
        have e : n - (k + b) = n - k - b := by omega
        refine ⟨?_, ?_, ?_⟩
        · rw [List.length_cons, h1, e]
          exact (ceil_div_step b (n - k) hb (by omega)).symm
        · rw [List.map_cons, List.sum_cons, h2]
          show min b (n - k) + (n - (k + b)) = n - k
          omega
        · intro t ht
          cases t with
          | zero => simp
          | succ t =>
            rw [List.length_cons] at ht
            rw [List.getElem?_cons_succ, h3 t (by omega)]
            have e2 : k + b + t * b = k + (t + 1) * b := by rw [Nat.add_mul]; omega
            rw [e2]
    · rw [if_neg hk] at h
      obtain rfl : [] = l := Option.some.inj h
      have e : n - k = 0 := by omega
      rw [e, Nat.zero_add, Nat.div_eq_of_lt (by omega : b - 1 < b)]
      exact ⟨rfl, rfl, fun t ht => absurd ht (by simp)⟩

/-- The block loop ends when the iterations allowed reach the end of the diagonal. -/
theorem blockVisits_some (b n : Nat) :
    ∀ fuel k, n ≤ k + fuel * b → ∃ l, blockVisits b n fuel k = some l := by
  intro fuel
  induction fuel with
  | zero =>
    intro k h
    exact ⟨[], by rw [blockVisits, if_neg (by omega)]⟩
  | succ fuel ih =>
    intro k h
    by_cases hk : k < n
    · obtain ⟨l, hl⟩ := ih (k + b) (by rw [Nat.add_mul] at h; omega)
      exact ⟨_, by rw [blockVisits, if_pos hk, hl]; rfl⟩
    · exact ⟨[], by rw [blockVisits, if_neg hk]⟩

/-- The block loop does not end before the iterations reach the end of the diagonal. -/
theorem blockVisits_none (b n : Nat) :
    ∀ fuel k, k + fuel * b < n → blockVisits b n fuel k = none := by
  intro fuel
  induction fuel with
  | zero =>
    intro k h
    rw [blockVisits, if_pos (by omega)]
  | succ fuel ih =>
    intro k h
    rw [blockVisits, if_pos (by omega), ih (k + b) (by rw [Nat.add_mul] at h; omega)]
    rfl

/-- The block loop with an iteration that returns is the fold of the iteration over the
iterations `(k, nb)` of the loop. -/
theorem blockLoop_visits {F : Type} [Field F] (f : Nat → Nat → Mat F → Mat F) (b n : Nat) :
    ∀ fuel k A,
      blockLoop (fun k nb A => .done (f k nb A)) b n fuel k A
        = (blockVisits b n fuel k).map
            (fun l => .done (l.foldl (fun B p => f p.1 p.2 B) A)) := by
  intro fuel
  induction fuel with
  | zero =>
    intro k A
    rw [blockLoop, blockVisits]
    by_cases hk : k < n
    · rw [if_pos hk, if_pos hk]; rfl
    · rw [if_neg hk, if_neg hk]; rfl
  | succ fuel ih =>
    intro k A
    rw [blockLoop, blockVisits]
    by_cases hk : k < n
    · rw [if_pos hk, if_pos hk]
      show blockLoop _ b n fuel (k + b) (f k (min b (n - k)) A) = _
      rw [ih, Option.map_map]
      rfl
    · rw [if_neg hk, if_neg hk]; rfl

/-- The block loop of a blocked variant returns, with a result or with the exception of an
iteration, when the iterations allowed reach the end of the diagonal. -/
theorem blockLoop_returns {F : Type} [Field F] (iter : Nat → Nat → Mat F → Outcome (Mat F))
    (b n : Nat) :
    ∀ fuel k A, n ≤ k + fuel * b → ∃ o, blockLoop iter b n fuel k A = some o := by
  intro fuel
  induction fuel with
  | zero =>
    intro k A h
    exact ⟨_, by rw [blockLoop, if_neg (by omega)]⟩
  | succ fuel ih =>
    intro k A h
    by_cases hk : k < n
    · rw [blockLoop, if_pos hk]
      cases iter k (min b (n - k)) A with
      | done B => exact ih (k + b) B (by rw [Nat.add_mul] at h; omega)
      | logicError B => exact ⟨_, rfl⟩
    · exact ⟨_, by rw [blockLoop, if_neg hk]⟩

/-- The `⌈n/b⌉` blocks of size `b` cover `n`, and one block less does not. -/
theorem ceil_div_bounds (b n : Nat) (hb : 0 < b) :
    n ≤ (n + b - 1) / b * b ∧ ∀ t, t < (n + b - 1) / b → t * b < n := by
  have h1 := Nat.div_add_mod (n + b - 1) b
  have h2 := Nat.mod_lt (n + b - 1) hb
  rw [Nat.mul_comm] at h1
  refine ⟨by omega, fun t ht => ?_⟩
  have h3 : (t + 1) * b ≤ (n + b - 1) / b * b := Nat.mul_le_mul_right _ ht
  rw [Nat.add_mul] at h3
  omega

/-- Every view of an iteration `(k, nb)` with `k + nb ≤ n` lies inside the matrix. -/
theorem blockViews_inside (n k nb : Nat) (h : k + nb ≤ n) :
    ∀ v ∈ blockViews n k nb, v.Inside n := by
  intro v hv
  simp only [blockViews, List.mem_cons, List.mem_singleton, List.not_mem_nil, or_false] at hv
  rcases hv with rfl | rfl | rfl | rfl | rfl | rfl | rfl | rfl | rfl | rfl | rfl <;>
    simp only [ViewArgs.Inside, LVar2.A10, LVar2.A11, LVar2.A20, LVar2.A21, LVar2.distA21,
      UVar3.A11, UVar3.A12, UVar3.A22, ReverseUVar3.A00, ReverseUVar3.A01,
      ReverseUVar3.A11] <;> omega

/-- C34. The block loop of every blocked Cholesky variant tiles the diagonal: for every
`n` and blocksize `b ≥ 1` the loop `for( k=0; k<n; k+=b )` ends after exactly `⌈n/b⌉`
iterations (that many suffice, fewer do not); iteration `t` is at `k = t·b` with
`nb = min(b, n−k)`; each iteration has `k < n`, `1 ≤ nb ≤ b` and `k + nb ≤ n`, so that
`n−(k+nb)` is non-negative; every view taken by the serial and the distributed `LVar2`,
`UVar3` and `ReverseUVar3` lies inside the `n × n` matrix; the block sizes sum to `n`; the
loop of the drivers with an iteration that returns is the fold of the iteration over these
`(k, nb)`, and with any iteration the serial drivers return after at most `⌈n/b⌉`
iterations. -/
theorem block_loop_tiles (n b : Nat) (hb : 1 ≤ b) :
    ∃ l : List (Nat × Nat),
      blockVisits b n ((n + b - 1) / b) 0 = some l ∧
      (∀ fuel, fuel < (n + b - 1) / b → blockVisits b n fuel 0 = none) ∧
      l.length = (n + b - 1) / b ∧
      (∀ t, t < l.length → l[t]? = some (t * b, min b (n - t * b))) ∧
      (∀ p ∈ l, p.1 < n ∧ p.2 = min b (n - p.1) ∧ 1 ≤ p.2 ∧ p.2 ≤ b ∧ p.1 + p.2 ≤ n ∧
        (0 : Int) ≤ (n : Int) - ((p.1 : Int) + (p.2 : Int)) ∧
        ∀ v ∈ blockViews n p.1 p.2, v.Inside n) ∧
      (l.map Prod.snd).sum = n ∧
      (∀ (F : Type) [Field F] (f : Nat → Nat → Mat F → Mat F) (A : Mat F),
        blockLoop (fun k nb A => .done (f k nb A)) b n ((n + b - 1) / b) 0 A
          = some (.done (l.foldl (fun B p => f p.1 p.2 B) A))) ∧
      (∀ (F R : Type) [Field F] [LinearOrderedField R] (S : Scalars F R) (Trsm : TrsmKernel F)
          (LVar3Unb : Nat → Mat F → Outcome (Mat F)) (A : Mat F),
        (∃ o, LVar2 S Trsm LVar3Unb b n A ((n + b - 1) / b) = some o) ∧
        (∃ o, UVar3 S Trsm b n A ((n + b - 1) / b) = some o) ∧
        (∃ o, ReverseUVar3 S Trsm b n A ((n + b - 1) / b) = some o)) := by
  have hb0 : 0 < b := hb
  obtain ⟨hcover, hless⟩ := ceil_div_bounds b n hb0
  obtain ⟨l, hl⟩ := blockVisits_some b n ((n + b - 1) / b) 0 (by omega)
  obtain ⟨h1, h2, h3⟩ := blockVisits_spec b n hb0 _ 0 l hl
  rw [Nat.sub_zero] at h1 h2
  have hidx : ∀ t, t < l.length → l[t]? = some (t * b, min b (n - t * b)) := by
    intro t ht
    rw [h3 t ht, Nat.zero_add]
  refine ⟨l, hl, fun fuel hf => ?_, h1, hidx, fun p hp => ?_, h2, fun F _ f A => ?_,
    fun F R _ _ S Trsm LVar3Unb A => ⟨?_, ?_, ?_⟩⟩
  · refine blockVisits_none b n fuel 0 ?_
    have h4 : (fuel + 1) * b ≤ (n + b - 1) / b * b := Nat.mul_le_mul_right _ hf
    have h5 := hless fuel hf
    omega
  · obtain ⟨t, hpt⟩ := List.mem_iff_getElem?.1 hp
    have ht : t < l.length := by
      by_contra hge
      rw [List.getElem?_eq_none (by omega)] at hpt
      exact absurd hpt (by simp)
    have h6 := hidx t ht
    rw [hpt] at h6
    obtain rfl : p = (t * b, min b (n - t * b)) := Option.some.inj h6
    have h7 := hless t (by rw [← h1]; exact ht)
    have h8 : t * b + min b (n - t * b) ≤ n := by omega
    refine ⟨h7, rfl, by show 1 ≤ min b (n - t * b); omega,
      by show min b (n - t * b) ≤ b; omega, h8, ?_, blockViews_inside n _ _ h8⟩
    show (0 : Int) ≤ (n : Int) - (((t * b : Nat) : Int) + ((min b (n - t * b) : Nat) : Int))
    omega
  · rw [blockLoop_visits, hl]; rfl
  · exact blockLoop_returns _ b n _ 0 A (by omega)
  · exact blockLoop_returns _ b n _ 0 A (by omega)
  · exact blockLoop_returns _ b n _ 0 A (by omega)

/-- On the example `n = 7`, `b = 3`: three iterations, at `k = 0, 3, 6` with
`nb = 3, 3, 1`. -/
theorem block_loop_tiles_witness :
    blockVisits 3 7 ((7 + 3 - 1) / 3) 0 = some [(0, 3), (3, 3), (6, 1)] ∧
    blockVisits 3 7 2 0 = none :=
  ⟨by decide, (block_loop_tiles 7 3 (by decide)).choose_spec.2.1 2 (by decide)⟩

end Tiling

section ReverseSlip
open scoped ComplexOrder

/-- The matrix `[[2,1,1],[1,2,1],[1,1,1]]` is Hermitian positive definite. -/
theorem hpd3_posDef : (hpd3.toMatrix 3).PosDef := by
  refine ⟨?_, fun x hx => ?_⟩
  · ext i k; fin_cases i <;> fin_cases k <;> simp [Mat.toMatrix, hpd3, Matrix.conjTranspose_apply]
  · have hx2 : x 0 ≠ 0 ∨ x 1 ≠ 0 ∨ x 2 ≠ 0 := by
      by_contra h
      push_neg at h
      apply hx
      ext i; fin_cases i
      · exact h.1
      · exact h.2.1
      · exact h.2.2
    have hpos : 0 < x 0 * x 0 + x 1 * x 1 + (x 0 + x 1 + x 2) * (x 0 + x 1 + x 2) := by
      by_cases h0 : x 0 = 0
      · by_cases h1 : x 1 = 0
        · have h2 : x 2 ≠ 0 := by
            rcases hx2 with h | h | h
            · exact absurd h0 h
            · exact absurd h1 h
            · exact h
          rw [h0, h1]
          simp only [mul_zero, zero_add]
          exact mul_self_pos.2 h2
        · nlinarith [mul_self_pos.2 h1, mul_self_nonneg (x 0),
            mul_self_nonneg (x 0 + x 1 + x 2)]
      · nlinarith [mul_self_pos.2 h0, mul_self_nonneg (x 1),
          mul_self_nonneg (x 0 + x 1 + x 2)]
    simp [Matrix.dotProduct, Matrix.mulVec, Fin.sum_univ_three, Mat.toMatrix, hpd3]
    nlinarith [hpos]

/-- `ReverseUVar3Unb` on `[[2,1,1],[1,2,1],[1,1,1]]` leaves the factor
`[[1,0,1],[0,1,1],[0,0,1]]` in the upper triangle: `0` at `(0,1)` and `1` at `(0,2)`. -/
theorem ReverseUVar3Unb_hpd3 :
    ∃ V, ReverseUVar3Unb (exact ℝ) 3 hpd3 = .done V ∧ V 0 1 = 0 ∧ V 0 2 = 1 := by
  have h1 : ReverseUVar3Unb.run (exact ℝ) 3 1 hpd3
      = .done (ReverseUVar3Unb.after (exact ℝ) 2 1 hpd3) := by
    rw [ReverseUVar3Unb.rev_run_succ, ReverseUVar3Unb.run, Outcome.andThen_done,
      ReverseUVar3Unb.rev_iter_eq]
    simp [hpd3]
  have hp1 : ReverseUVar3Unb.after (exact ℝ) 2 1 hpd3 1 1 = 1 := by
    simp [ReverseUVar3Unb.after, hpd3]; norm_num
  have h2 : ReverseUVar3Unb.run (exact ℝ) 3 2 hpd3
      = .done (ReverseUVar3Unb.after (exact ℝ) 1 1
          (ReverseUVar3Unb.after (exact ℝ) 2 1 hpd3)) := by
    rw [ReverseUVar3Unb.rev_run_succ, h1, Outcome.andThen_done, ReverseUVar3Unb.rev_iter_eq]
    simp [hp1]
  have hp2 : ReverseUVar3Unb.after (exact ℝ) 1 1
      (ReverseUVar3Unb.after (exact ℝ) 2 1 hpd3) 0 0 = 1 := by
    simp [ReverseUVar3Unb.after, hpd3]; norm_num
  have h3 : ReverseUVar3Unb (exact ℝ) 3 hpd3
      = .done (ReverseUVar3Unb.after (exact ℝ) 0 1
          (ReverseUVar3Unb.after (exact ℝ) 1 1
            (ReverseUVar3Unb.after (exact ℝ) 2 1 hpd3))) := by
    rw [ReverseUVar3Unb, ReverseUVar3Unb.rev_run_succ, h2, Outcome.andThen_done,
      ReverseUVar3Unb.rev_iter_eq]
    simp [hp2]
  refine ⟨_, h3, ?_, ?_⟩
  · simp [ReverseUVar3Unb.after, hpd3]
  · simp [ReverseUVar3Unb.after, hpd3]

/-- `ReverseUVar3Unb` on the trailing block `[[2,1],[1,1]]` of `hpd3` leaves
`[[1,1],[·,1]]`. -/
theorem ReverseUVar3Unb_hpd3_block :
    ∃ V, ReverseUVar3Unb (exact ℝ) 2 (hpd3.view 1 1) = .done V ∧
      V 0 0 = 1 ∧ V 0 1 = 1 ∧ V 1 1 = 1 := by
  have h1 : ReverseUVar3Unb.run (exact ℝ) 2 1 (hpd3.view 1 1)
      = .done (ReverseUVar3Unb.after (exact ℝ) 1 1 (hpd3.view 1 1)) := by
    rw [ReverseUVar3Unb.rev_run_succ, ReverseUVar3Unb.run, Outcome.andThen_done,
      ReverseUVar3Unb.rev_iter_eq]
    simp [hpd3, Mat.view]
  have hp1 : ReverseUVar3Unb.after (exact ℝ) 1 1 (hpd3.view 1 1) 0 0 = 1 := by
    simp [ReverseUVar3Unb.after, hpd3, Mat.view]; norm_num
  have h2 : ReverseUVar3Unb (exact ℝ) 2 (hpd3.view 1 1)
      = .done (ReverseUVar3Unb.after (exact ℝ) 0 1
          (ReverseUVar3Unb.after (exact ℝ) 1 1 (hpd3.view 1 1))) := by
    rw [ReverseUVar3Unb, ReverseUVar3Unb.rev_run_succ, h1, Outcome.andThen_done,
      ReverseUVar3Unb.rev_iter_eq]
    simp [hp1]
  refine ⟨_, h2, ?_, ?_, ?_⟩
  · simp [ReverseUVar3Unb.after]
  · simp [ReverseUVar3Unb.after, hpd3, Mat.view]
  · simp [ReverseUVar3Unb.after]

/-- An iteration of the serial `ReverseUVar3` whose kernel call returns `V`. -/
theorem ReverseUVar3.iter_done {F R : Type} [Field F] [LinearOrderedField R]
    (S : Scalars F R) (Trsm : TrsmKernel F) (n k nb : Nat) (A V : Mat F)
    (h : ReverseUVar3Unb S nb (A.view (n - (k + nb)) (n - (k + nb))) = .done V) :
    ReverseUVar3.iter S Trsm n k nb A
      = .done
        (((A.store (n - (k + nb)) (n - (k + nb)) nb nb V).store 0 (n - (k + nb))
            (n - (k + nb)) nb
            (Trsm .RIGHT .UPPER .NORMAL .NON_UNIT 1 (n - (k + nb)) nb
              ((A.store (n - (k + nb)) (n - (k + nb)) nb nb V).view (n - (k + nb))
                (n - (k + nb)))
              ((A.store (n - (k + nb)) (n - (k + nb)) nb nb V).view 0 (n - (k + nb))))).store
          0 0 (n - (k + nb)) (n - (k + nb))
          (Herk S .UPPER .NORMAL (-1) (n - (k + nb)) nb
            (((A.store (n - (k + nb)) (n - (k + nb)) nb nb V).store 0 (n - (k + nb))
              (n - (k + nb)) nb
              (Trsm .RIGHT .UPPER .NORMAL .NON_UNIT 1 (n - (k + nb)) nb
                ((A.store (n - (k + nb)) (n - (k + nb)) nb nb V).view (n - (k + nb))
                  (n - (k + nb)))
                ((A.store (n - (k + nb)) (n - (k + nb)) nb nb V).view 0
                  (n - (k + nb))))).view 0 (n - (k + nb)))
            1
            (((A.store (n - (k + nb)) (n - (k + nb)) nb nb V).store 0 (n - (k + nb))
              (n - (k + nb)) nb
              (Trsm .RIGHT .UPPER .NORMAL .NON_UNIT 1 (n - (k + nb)) nb
                ((A.store (n - (k + nb)) (n - (k + nb)) nb nb V).view (n - (k + nb))
                  (n - (k + nb)))
                ((A.store (n - (k + nb)) (n - (k + nb)) nb nb V).view 0
                  (n - (k + nb))))).view 0 0))) := by
  unfold ReverseUVar3.iter
  simp only [ReverseUVar3.A00, ReverseUVar3.A01, ReverseUVar3.A11, Mat.sub, Mat.put,
    Outcome.put, h, Outcome.store, Outcome.andThen_done]

/-- C37. The blocked serial `ReverseUVar3` departs from its unblocked kernel: on the
Hermitian positive definite `A = [[2,1,1],[1,2,1],[1,1,1]]` with blocksize `2`, in exact
arithmetic and with every `Trsm` that solves the triangular systems of the kernel table
(the substitution `trsm` is one), `ReverseUVar3Unb(A)` returns and leaves `0` at `(0,1)`
and `1` at `(0,2)`, and `ReverseUVar3(A)` returns and leaves `1` at `(0,1)` and `0` at
`(0,2)`: the call `Trsm( RIGHT, UPPER, NORMAL, … )` leaves `A01·U11⁻¹` where the factor
`V` with `V·Vᴴ = A` has `A01·U11⁻ᴴ`. -/
theorem ReverseUVar3_departs :
    (hpd3.toMatrix 3).PosDef ∧ TrsmSolves (exact ℝ) (trsm (exact ℝ)) ∧
    (∃ V, ReverseUVar3Unb (exact ℝ) 3 hpd3 = .done V ∧ V 0 1 = 0 ∧ V 0 2 = 1) ∧
    ∀ Trsm : TrsmKernel ℝ, TrsmSolves (exact ℝ) Trsm → ∀ fuel, 2 ≤ fuel →
      ∃ B, ReverseUVar3 (exact ℝ) Trsm 2 3 hpd3 fuel = some (.done B) ∧
        B 0 1 = 1 ∧ B 0 2 = 0 := by
  refine ⟨hpd3_posDef, trsm_solves, ReverseUVar3Unb_hpd3, fun Trsm hT fuel hfuel => ?_⟩
  obtain ⟨f, rfl⟩ : ∃ f, fuel = f + 1 + 1 := ⟨fuel - 2, by omega⟩
  obtain ⟨V, hV, v00, v01, v11⟩ := ReverseUVar3Unb_hpd3_block
  have hiter1 := ReverseUVar3.iter_done (exact ℝ) Trsm 3 0 2 hpd3 V hV
  generalize hB1 : (((hpd3.store (3 - (0 + 2)) (3 - (0 + 2)) 2 2 V).store 0 (3 - (0 + 2))
      (3 - (0 + 2)) 2
      (Trsm .RIGHT .UPPER .NORMAL .NON_UNIT 1 (3 - (0 + 2)) 2
        ((hpd3.store (3 - (0 + 2)) (3 - (0 + 2)) 2 2 V).view (3 - (0 + 2)) (3 - (0 + 2)))
        ((hpd3.store (3 - (0 + 2)) (3 - (0 + 2)) 2 2 V).view 0 (3 - (0 + 2))))).store
    0 0 (3 - (0 + 2)) (3 - (0 + 2))
    (Herk (exact ℝ) .UPPER .NORMAL (-1) (3 - (0 + 2)) 2
      (((hpd3.store (3 - (0 + 2)) (3 - (0 + 2)) 2 2 V).store 0 (3 - (0 + 2))
        (3 - (0 + 2)) 2
        (Trsm .RIGHT .UPPER .NORMAL .NON_UNIT 1 (3 - (0 + 2)) 2
          ((hpd3.store (3 - (0 + 2)) (3 - (0 + 2)) 2 2 V).view (3 - (0 + 2)) (3 - (0 + 2)))
          ((hpd3.store (3 - (0 + 2)) (3 - (0 + 2)) 2 2 V).view 0 (3 - (0 + 2))))).view 0
        (3 - (0 + 2)))
      1
      (((hpd3.store (3 - (0 + 2)) (3 - (0 + 2)) 2 2 V).store 0 (3 - (0 + 2))
        (3 - (0 + 2)) 2
        (Trsm .RIGHT .UPPER .NORMAL .NON_UNIT 1 (3 - (0 + 2)) 2
          ((hpd3.store (3 - (0 + 2)) (3 - (0 + 2)) 2 2 V).view (3 - (0 + 2)) (3 - (0 + 2)))
          ((hpd3.store (3 - (0 + 2)) (3 - (0 + 2)) 2 2 V).view 0 (3 - (0 + 2))))).view 0 0)))
    = B1 at hiter1
  -- the entries of the first row after the first block
  have hdiag : ∀ p, p < 2 → (hpd3.store 1 1 2 2 V).view 1 1 p p ≠ 0 := by
    intro p hp
    rw [Mat.view_apply, Mat.store_inside _ 1 1 2 2 V p p hp hp]
    rcases (by omega : p = 0 ∨ p = 1) with rfl | rfl
    · rw [v00]; exact one_ne_zero
    · rw [v11]; exact one_ne_zero
  have hx0 := hT.2.2 1 2 _ ((hpd3.store 1 1 2 2 V).view 0 1) hdiag 0 0 (by decide) (by decide)
  have hx1 := hT.2.2 1 2 _ ((hpd3.store 1 1 2 2 V).view 0 1) hdiag 0 1 (by decide) (by decide)
  have a00 : (hpd3.store 1 1 2 2 V).view 1 1 0 0 = 1 := by
    rw [Mat.view_apply, Mat.store_inside _ 1 1 2 2 V 0 0 (by decide) (by decide), v00]
  have a01 : (hpd3.store 1 1 2 2 V).view 1 1 0 1 = 1 := by
    rw [Mat.view_apply, Mat.store_inside _ 1 1 2 2 V 0 1 (by decide) (by decide), v01]
  have a11 : (hpd3.store 1 1 2 2 V).view 1 1 1 1 = 1 := by
    rw [Mat.view_apply, Mat.store_inside _ 1 1 2 2 V 1 1 (by decide) (by decide), v11]
  have b0 : (hpd3.store 1 1 2 2 V).view 0 1 0 0 = 1 := by
    rw [Mat.view_apply, Mat.store_outside _ _ _ _ _ _ _ _ (by omega)]
    simp [hpd3]
  have b1 : (hpd3.store 1 1 2 2 V).view 0 1 0 1 = 1 := by
    rw [Mat.view_apply, Mat.store_outside _ _ _ _ _ _ _ _ (by omega)]
    simp [hpd3]
  have c00 : (hpd3.store 1 1 2 2 V) 0 0 = 2 := by
    rw [Mat.store_outside _ _ _ _ _ _ _ _ (by omega)]
    simp [hpd3]
  rw [Finset.sum_range_one, a00, b0, mul_one] at hx0
  rw [Finset.sum_range_succ, Finset.sum_range_one, a01, a11, b1, hx0, mul_one, mul_one] at hx1
  have hx1b : Trsm .RIGHT .UPPER .NORMAL .NON_UNIT 1 1 2 ((hpd3.store 1 1 2 2 V).view 1 1)
      ((hpd3.store 1 1 2 2 V).view 0 1) 0 1 = 0 := by linarith
  have e01 : B1 0 1 = 1 := by
    rw [← hB1, Mat.store_outside _ _ _ _ _ _ _ _ (by omega)]
    exact (Mat.store_inside _ 0 1 1 2 _ 0 0 (by decide) (by decide)).trans hx0
  have e02 : B1 0 2 = 0 := by
    rw [← hB1, Mat.store_outside _ _ _ _ _ _ _ _ (by omega)]
    exact (Mat.store_inside _ 0 1 1 2 _ 0 1 (by decide) (by decide)).trans hx1b
  have e00 : B1 0 0 = 1 := by
    rw [← hB1]
    refine (Mat.store_inside _ 0 0 1 1 _ 0 0 (by decide) (by decide)).trans ?_
    have p0 : ∀ X : Mat ℝ, ((hpd3.store 1 1 2 2 V).store 0 1 1 2 X).view 0 1 0 0 = X 0 0 :=
      fun X => Mat.store_inside _ 0 1 1 2 X 0 0 (by decide) (by decide)
    have p1 : ∀ X : Mat ℝ, ((hpd3.store 1 1 2 2 V).store 0 1 1 2 X).view 0 1 0 1 = X 0 1 :=
      fun X => Mat.store_inside _ 0 1 1 2 X 0 1 (by decide) (by decide)
    have p2 : ∀ X : Mat ℝ, ((hpd3.store 1 1 2 2 V).store 0 1 1 2 X).view 0 0 0 0 = 2 := by
      intro X
      rw [Mat.view_apply, Mat.store_outside _ _ _ _ _ _ _ _ (by omega)]
      exact c00
    show Herk (exact ℝ) .UPPER .NORMAL (-1) 1 2 _ 1 _ 0 0 = 1
    unfold Herk
    rw [if_pos ⟨⟨by decide, by decide⟩, by decide⟩, Finset.sum_range_succ,
      Finset.sum_range_one]
    simp only [Orientation.op, exact_Conj, p0, p1, p2, hx0, hx1b]
    norm_num
  -- the second block
  have hV2 : ReverseUVar3Unb (exact ℝ) 1 (B1.view (3 - (2 + 1)) (3 - (2 + 1)))
      = .done (ReverseUVar3Unb.after (exact ℝ) 0 1 (B1.view 0 0)) := by
    rw [ReverseUVar3Unb, ReverseUVar3Unb.rev_run_succ, ReverseUVar3Unb.run,
      Outcome.andThen_done, ReverseUVar3Unb.rev_iter_eq]
    simp [Mat.view, e00]
  have hiter2 := ReverseUVar3.iter_done (exact ℝ) Trsm 3 2 1 B1 _ hV2
  simp only [Nat.reduceAdd, Nat.reduceSub, Mat.store_empty_height] at hiter2
  refine ⟨B1.store 0 0 1 1 (ReverseUVar3Unb.after (exact ℝ) 0 1 (B1.view 0 0)), ?_, ?_, ?_⟩
  · rw [ReverseUVar3, blockLoop, if_pos (by decide), show min 2 (3 - 0) = 2 by decide, hiter1]
    show blockLoop _ 2 3 (f + 1) (0 + 2) B1 = _
    rw [blockLoop, if_pos (by decide), show min 2 (3 - (0 + 2)) = 1 by decide, hiter2]
    exact blockLoop_past _ 2 3 f _ _ (by decide)
  · rw [Mat.store_outside _ _ _ _ _ _ _ _ (by omega)]; exact e01
  · rw [Mat.store_outside _ _ _ _ _ _ _ _ (by omega)]; exact e02

end ReverseSlip

section Refinement
open scoped ComplexOrder
variable {K : Type} [RCLike K]

/-- An outcome that did not fail is a result. -/
theorem Outcome.done_of_not_failed {α : Type} (o : Outcome α) (h : o.failed = false) :
    ∃ B, o = .done B := by
  cases o with
  | done B => exact ⟨B, rfl⟩
  | logicError B => exact absurd h (by simp [Outcome.failed])

/-- An outcome that failed is an exception. -/
theorem Outcome.logicError_of_failed {α : Type} (o : Outcome α) (h : o.failed = true) :
    ∃ B, o = .logicError B := by
  cases o with
  | done B => exact absurd h (by simp [Outcome.failed])
  | logicError B => exact ⟨B, rfl⟩

/-- The Schur complement at `(a, b)` reads the rows `0..j-1` of the factor only. -/
theorem schur_congr (H G G2 : Mat K) (j a b : Nat)
    (h : ∀ q, q < j → G q a = G2 q a ∧ G q b = G2 q b) :
    schur H G j a b = schur H G2 j a b := by
  unfold schur
  congr 1
  refine Finset.sum_congr rfl fun q hq => ?_
  rw [Finset.mem_range] at hq
  rw [(h q hq).1, (h q hq).2]

/-- A successful iteration `j` of `UVar3Unb`, with a positive real part of the pivot,
carries the relation to the input from `j` to `j + 1`. -/
theorem UVar3Unb.rel_step {n j : Nat} {A0 A : Mat K} (hj : j < n)
    (hI : UVar3Unb.Rel n A0 A j) (hpos : 0 < RCLike.re (A j j)) :
    UVar3Unb.Rel n A0
      (UVar3Unb.after (exact K) n j ((Real.sqrt (RCLike.re (A j j)) : ℝ) : K) A) (j + 1) := by
  obtain ⟨hE, hD, hT, hF⟩ := hI
  have hα : 0 < Real.sqrt (RCLike.re (A j j)) := Real.sqrt_pos.2 hpos
  set α : K := ((Real.sqrt (RCLike.re (A j j)) : ℝ) : K) with hα'
  have hα0 : α ≠ 0 := by rw [hα']; exact_mod_cast hα.ne'
  have hcα : (starRingEnd K) α = α := by rw [hα']; exact RCLike.conj_ofReal _
  have hrow : ∀ q, q < j → ∀ i, UVar3Unb.after (exact K) n j α A q i = A q i := by
    intro q hq i
    unfold UVar3Unb.after
    rw [if_neg (by omega), if_neg (by omega), if_neg (by omega)]
  have hjj : UVar3Unb.after (exact K) n j α A j j = α := by
    unfold UVar3Unb.after; rw [if_pos ⟨rfl, rfl⟩]
  have hji : ∀ i, j < i → i < n → UVar3Unb.after (exact K) n j α A j i = A j i / α := by
    intro i h1 h2
    unfold UVar3Unb.after
    rw [if_neg (by omega), if_pos ⟨rfl, h1, h2⟩]
  have hsum : ∀ (m : Nat) (a b : Nat), m ≤ j →
      ∑ q ∈ Finset.range m, (starRingEnd K) (UVar3Unb.after (exact K) n j α A q a)
          * UVar3Unb.after (exact K) n j α A q b
        = ∑ q ∈ Finset.range m, (starRingEnd K) (A q a) * A q b := by
    intro m a b hm
    refine Finset.sum_congr rfl fun q hq => ?_
    rw [Finset.mem_range] at hq
    rw [hrow q (by omega), hrow q (by omega)]
  have hschur : ∀ (m : Nat) (a b : Nat), m ≤ j →
      schur A0 (UVar3Unb.after (exact K) n j α A) m a b = schur A0 A m a b :=
    fun m a b hm => schur_congr A0 _ A m a b
      (fun q hq => ⟨hrow q (by omega) a, hrow q (by omega) b⟩)
  refine ⟨fun p hp i h1 h2 => ?_, fun p hp => ?_, fun i k h1 h2 h3 => ?_, fun i k h => ?_⟩
  · by_cases hpj : p < j
    · rw [hsum (p + 1) p i (by omega)]
      exact hE p hpj i h1 h2
    · have hpe : p = j := by omega
      subst hpe
      rw [Finset.sum_range_succ, hsum p p i (le_refl _), hjj, hcα]
      have hTi := hT p i (le_refl _) (by omega) h2
      simp only [Elemental.schur] at hTi
      rw [hji i (by omega) h2, mul_div_cancel₀ _ hα0, hTi]; ring
  · by_cases hpj : p < j
    · obtain ⟨d, hd, hde, hdd⟩ := hD p hpj
      exact ⟨d, hd, by rw [hrow p hpj]; exact hde, by rw [hschur p p p (by omega)]; exact hdd⟩
    · have hpe : p = j := by omega
      subst hpe
      refine ⟨_, hα, hjj, ?_⟩
      rw [hschur p p p (le_refl _), ← hT p p (le_refl _) (le_refl _) hj]
      exact Real.mul_self_sqrt hpos.le
  · have hik : UVar3Unb.after (exact K) n j α A i k
        = A i k - (starRingEnd K) (A j i / α) * (A j k / α) := by
      unfold UVar3Unb.after
      rw [if_neg (by omega), if_neg (by omega), if_pos ⟨by omega, h2, h3⟩]
      rfl
    simp only [Elemental.schur]
    rw [Finset.sum_range_succ, hsum j i k (le_refl _), hji i (by omega) (by omega),
      hji k (by omega) h3, hik, hT i k (by omega) h2 h3]
    simp only [Elemental.schur]
    ring
  · rw [← hF i k h]
    unfold UVar3Unb.after
    rw [if_neg (by omega), if_neg (by omega), if_neg (by omega)]

/-- A prefix of the outer loop of `UVar3Unb` that runs through establishes the relation to
the input. -/
theorem UVar3Unb.rel_run (n : Nat) (A0 : Mat K) :
    ∀ j, j ≤ n → ∀ B, UVar3Unb.run (exact K) n j A0 = .done B → UVar3Unb.Rel n A0 B j := by
  intro j
  induction j with
  | zero =>
    intro _ B hB
    obtain rfl : A0 = B := Outcome.done.inj hB
    refine ⟨fun p hp => absurd hp (by omega), fun p hp => absurd hp (by omega), ?_,
      fun _ _ _ => rfl⟩
    intro i k _ _ _
    simp [Elemental.schur]
  | succ j ih =>
    intro hj B hB
    rw [UVar3Unb.run_succ] at hB
    cases hrun : UVar3Unb.run (exact K) n j A0 with
    | logicError C => rw [hrun] at hB; exact absurd hB (by simp [Outcome.andThen])
    | done C =>
      rw [hrun, Outcome.andThen_done, UVar3Unb.iter_eq] at hB
      by_cases hneg : (exact K).RealPart (C j j) ≤ 0
      · rw [if_pos hneg] at hB; exact absurd hB (by simp)
      · rw [if_neg hneg] at hB
        obtain rfl := Outcome.done.inj hB
        exact UVar3Unb.rel_step (by omega) (ih (by omega) C hrun) (by simpa using hneg)

/-- The relation to the input determines the rows `0..j-1` of the factor. -/
theorem UVar3Unb.rel_rows {n j : Nat} {A0 A B : Mat K}
    (hA : UVar3Unb.Rel n A0 A j) (hB : UVar3Unb.Rel n A0 B j) :
    ∀ p, p < j → ∀ i, p ≤ i → i < n → A p i = B p i := by
  obtain ⟨hEA, hDA, -, -⟩ := hA
  obtain ⟨hEB, hDB, -, -⟩ := hB
  intro p
  induction p using Nat.strong_induction_on with
  | _ p ih =>
    intro hp
    have hsum : ∀ i, p ≤ i → i < n →
        ∑ q ∈ Finset.range p, (starRingEnd K) (A q p) * A q i
          = ∑ q ∈ Finset.range p, (starRingEnd K) (B q p) * B q i := by
      intro i h1 h2
      refine Finset.sum_congr rfl fun q hq => ?_
      rw [Finset.mem_range] at hq
      rw [ih q hq (by omega) p (by omega) (by omega), ih q hq (by omega) i (by omega) h2]
    obtain ⟨dA, hdA, hdeA, hddA⟩ := hDA p hp
    obtain ⟨dB, hdB, hdeB, hddB⟩ := hDB p hp
    have hdiag : ∀ hpn : p < n, dA = dB := by
      intro hpn
      have e : schur A0 A p p p = schur A0 B p p p := by
        unfold schur
        rw [hsum p (le_refl _) hpn]
      rw [e, ← hddB] at hddA
      exact (mul_self_inj hdA.le hdB.le).1 hddA
    intro i h1 h2
    have hd := hdiag (by omega)
    by_cases hip : i = p
    · subst hip
      rw [hdeA, hdeB, hd]
    · have eA := hEA p hp i (by omega) h2
      have eB := hEB p hp i (by omega) h2
      rw [Finset.sum_range_succ, hdeA] at eA
      rw [Finset.sum_range_succ, hsum i h1 h2 |>.symm, hdeB, ← hd] at eB
      have hne : (starRingEnd K) ((dA : ℝ) : K) ≠ 0 := by
        rw [RCLike.conj_ofReal]; exact_mod_cast hdA.ne'
      have : (starRingEnd K) ((dA : ℝ) : K) * A p i = (starRingEnd K) ((dA : ℝ) : K) * B p i := by
        have h3 := eA.trans eB.symm
        exact add_left_cancel h3
      exact mul_left_cancel₀ hne this

/-- The relation to the input determines the state: two states of `UVar3Unb` before
iteration `j` that are related to the same input are the same matrix. -/
theorem UVar3Unb.rel_unique {n j : Nat} {A0 A B : Mat K}
    (hA : UVar3Unb.Rel n A0 A j) (hB : UVar3Unb.Rel n A0 B j) : A = B := by
  have hrows := UVar3Unb.rel_rows hA hB
  funext i k
  by_cases h : i ≤ k ∧ k < n
  · by_cases hij : i < j
    · exact hrows i hij k h.1 h.2
    · rw [hA.2.2.1 i k (by omega) h.1 h.2, hB.2.2.1 i k (by omega) h.1 h.2]
      exact schur_congr A0 A B j i k
        (fun q hq => ⟨hrows q hq i (by omega) (by omega), hrows q hq k (by omega) h.2⟩)
  · rw [hA.2.2.2 i k h, hB.2.2.2 i k h]

end Refinement

section Refinement2
open scoped ComplexOrder
variable {K : Type} [RCLike K]

/-- Inside the diagonal block that starts at `k`, iteration `k + c` of `UVar3Unb` on the
`n×n` matrix does what iteration `c` of `UVar3Unb` on the `nb×nb` block does. -/
theorem UVar3Unb.after_block (n k nb c : Nat) (hk : k + nb ≤ n) (α : K) (G V : Mat K)
    (h : ∀ a b, a < nb → b < nb → G (k + a) (k + b) = V a b) (hc : c < nb) :
    ∀ a b, a < nb → b < nb →
      UVar3Unb.after (exact K) n (k + c) α G (k + a) (k + b)
        = UVar3Unb.after (exact K) nb c α V a b := by
  intro a b ha hb
  unfold UVar3Unb.after
  by_cases h1 : a = c ∧ b = c
  · rw [if_pos (by omega), if_pos h1]
  · rw [if_neg (by omega), if_neg h1]
    by_cases h2 : a = c ∧ c < b ∧ b < nb
    · rw [if_pos (by omega), if_pos h2, h c b hc hb]
    · rw [if_neg (by omega), if_neg h2]
      by_cases h3 : c < a ∧ a ≤ b ∧ b < nb
      · rw [if_pos (by omega), if_pos h3, h a b ha hb, h c a hc ha, h c b hc hb]
      · rw [if_neg (by omega), if_neg h3, h a b ha hb]

/-- After the iterations `0..k-1` have run through and left `A`, the iterations
`k..k+c-1` of `UVar3Unb` on the whole matrix throw exactly when the first `c` iterations
of `UVar3Unb` on the diagonal block of `A` at `k` throw, and otherwise leave the same
block. -/
theorem UVar3Unb.run_block (n k nb : Nat) (hk : k + nb ≤ n) (A0 A : Mat K)
    (hA : UVar3Unb.run (exact K) n k A0 = .done A) :
    ∀ c, c ≤ nb →
      (UVar3Unb.run (exact K) n (k + c) A0).failed
          = (UVar3Unb.run (exact K) nb c (A.view k k)).failed ∧
      ∀ G V, UVar3Unb.run (exact K) n (k + c) A0 = .done G →
        UVar3Unb.run (exact K) nb c (A.view k k) = .done V →
        ∀ a b, a < nb → b < nb → G (k + a) (k + b) = V a b := by
  intro c
  induction c with
  | zero =>
    intro _
    rw [Nat.add_zero, hA]
    refine ⟨rfl, fun G V hG hV a b _ _ => ?_⟩
    obtain rfl := Outcome.done.inj hG
    obtain rfl : A.view k k = V := Outcome.done.inj hV
    rfl
  | succ c ih =>
    intro hc
    obtain ⟨hf, hent⟩ := ih (by omega)
    rw [show k + (c + 1) = (k + c) + 1 from rfl, UVar3Unb.run_succ, UVar3Unb.run_succ]
    cases hG : UVar3Unb.run (exact K) n (k + c) A0 with
    | logicError G =>
      rw [hG] at hf
      obtain ⟨V, hV⟩ := Outcome.logicError_of_failed _ hf.symm
      rw [hV]
      exact ⟨rfl, fun G2 V2 h _ => absurd h (by simp [Outcome.andThen])⟩
    | done G =>
      rw [hG] at hf
      obtain ⟨V, hV⟩ := Outcome.done_of_not_failed _ hf.symm
      have hGV := hent G V hG hV
      rw [hV, Outcome.andThen_done, Outcome.andThen_done, UVar3Unb.iter_eq, UVar3Unb.iter_eq,
        hGV c c (by omega) (by omega)]
      by_cases hneg : (exact K).RealPart (V c c) ≤ 0
      · rw [if_pos hneg, if_pos hneg]
        exact ⟨rfl, fun G2 V2 h _ => absurd h (by simp)⟩
      · rw [if_neg hneg, if_neg hneg]
        refine ⟨rfl, fun G2 V2 h2 h3 a b ha hb => ?_⟩
        obtain rfl := Outcome.done.inj h2
        obtain rfl := Outcome.done.inj h3
        exact UVar3Unb.after_block n k nb c hk _ G V hGV (by omega) a b ha hb

/-- An iteration of the serial `UVar3` whose kernel call throws, throws. -/
theorem UVar3.iter_failed (Trsm : TrsmKernel K) (n k nb : Nat) (A V : Mat K)
    (h : UVar3Unb (exact K) nb (A.view k k) = .logicError V) :
    ∃ B, UVar3.iter (exact K) Trsm n k nb A = .logicError B := by
  unfold UVar3.iter
  simp only [UVar3.A11, Mat.sub, Outcome.put, h, Outcome.store]
  exact ⟨_, rfl⟩

/-- An iteration of the serial `UVar3` on a state related to the input, whose kernel call
returns, returns and leaves a state related to the input at `k + nb`. -/
theorem UVar3.rel_block_step {Trsm : TrsmKernel K} (hT : TrsmSolves (exact K) Trsm)
    {n k nb : Nat} {A0 A U1 : Mat K} (hk : k + nb ≤ n) (hI : UVar3Unb.Rel n A0 A k)
    (hU1 : UVar3Unb (exact K) nb (A.view k k) = .done U1) :
    ∃ B, UVar3.iter (exact K) Trsm n k nb A = .done B ∧ UVar3Unb.Rel n A0 B (k + nb) := by
  obtain ⟨hE, hD, hTr, hF⟩ := hI
  obtain ⟨hE1, hD1l, -, hF1⟩ := UVar3Unb.rel_run nb (A.view k k) nb (le_refl _) U1 hU1
  have hD1 : ∀ p, p < nb → ∃ d : ℝ, 0 < d ∧ U1 p p = (d : K) := by
    intro p hp
    obtain ⟨d, hd, hde, -⟩ := hD1l p hp
    exact ⟨d, hd, hde⟩
  set Sc : Mat K := schur A0 A k with hSc
  have hScv : ∀ i c, Sc i c = A0 i c - ∑ q ∈ Finset.range k, (starRingEnd K) (A q i) * A q c :=
    fun i c => rfl
  obtain ⟨A1, hA1⟩ : ∃ A1 : Mat K, A1 = A.store k k nb nb U1 := ⟨_, rfl⟩
  have a1 : ∀ a b, a < nb → b < nb → A1 (k + a) (k + b) = U1 a b := by
    intro a b ha hb
    rw [hA1, Mat.store_inside _ _ _ _ _ _ _ _ ha hb]
  have a2 : ∀ i j, ¬ ((k ≤ i ∧ i < k + nb) ∧ (k ≤ j ∧ j < k + nb)) → A1 i j = A i j := by
    intro i j hij
    rw [hA1, Mat.store_outside _ _ _ _ _ _ _ _ hij]
  -- after `Trsm`
  obtain ⟨X, hX⟩ : ∃ X : Mat K, X = Trsm .LEFT .UPPER .ADJOINT .NON_UNIT 1 nb (n - (k + nb))
      (A1.view k k) (A1.view k (k + nb)) := ⟨_, rfl⟩
  have hdiag : ∀ p, p < nb → (A1.view k k) p p ≠ 0 := by
    intro p hp
    obtain ⟨d, hd, hde⟩ := hD1 p hp
    rw [Mat.view_apply, a1 p p hp hp, hde]
    exact_mod_cast hd.ne'
  have x1 : ∀ a c, a < nb → c < n - (k + nb) →
      ∑ p ∈ Finset.range (a + 1), (starRingEnd K) (U1 p a) * X p c
        = Sc (k + a) (k + nb + c) := by
    intro a c ha hc
    have := hT.2.1 nb (n - (k + nb)) (A1.view k k) (A1.view k (k + nb)) hdiag a c ha hc
    rw [← hX] at this
    simp only [exact_Conj, Mat.view_apply] at this
    rw [a2 _ _ (by omega), hTr (k + a) (k + nb + c) (by omega) (by omega) (by omega)] at this
    rw [← this]
    refine Finset.sum_congr rfl fun p hp => ?_
    rw [Finset.mem_range] at hp
    rw [a1 p a (by omega) ha]
  obtain ⟨A2, hA2⟩ : ∃ A2 : Mat K, A2 = A1.store k (k + nb) nb (n - (k + nb)) X := ⟨_, rfl⟩
  have b1 : ∀ a c, a < nb → c < n - (k + nb) → A2 (k + a) (k + nb + c) = X a c := by
    intro a c ha hc
    rw [hA2, Mat.store_inside _ _ _ _ _ _ _ _ ha hc]
  have b2 : ∀ i j, ¬ ((k ≤ i ∧ i < k + nb) ∧ (k + nb ≤ j ∧ j < k + nb + (n - (k + nb)))) →
      A2 i j = A1 i j := by
    intro i j hij
    rw [hA2, Mat.store_outside _ _ _ _ _ _ _ _ hij]
  -- after `Herk`
  obtain ⟨A3, hA3⟩ : ∃ A3 : Mat K, A3 = A2.store (k + nb) (k + nb) (n - (k + nb)) (n - (k + nb))
      (Herk (exact K) .UPPER .ADJOINT (-1) (n - (k + nb)) nb (A2.view k (k + nb)) 1
        (A2.view (k + nb) (k + nb))) := ⟨_, rfl⟩
  have c1 : ∀ a b, a ≤ b → b < n - (k + nb) →
      A3 (k + nb + a) (k + nb + b)
        = Sc (k + nb + a) (k + nb + b) - ∑ p ∈ Finset.range nb, (starRingEnd K) (X p a) * X p b := by
    intro a b hab hb
    rw [hA3, Mat.store_inside _ _ _ _ _ _ _ _ (by omega) hb]
    simp only [Herk, UpperOrLower.has, Orientation.op, Mat.view_apply, exact_Conj]
    rw [if_pos ⟨⟨by omega, hb⟩, by simpa using hab⟩, b2 _ _ (by omega), a2 _ _ (by omega),
      hTr (k + nb + a) (k + nb + b) (by omega) (by omega) (by omega)]
    have : ∑ p ∈ Finset.range nb, (starRingEnd K) (A2 (k + p) (k + nb + a))
          * (starRingEnd K) ((starRingEnd K) (A2 (k + p) (k + nb + b)))
        = ∑ p ∈ Finset.range nb, (starRingEnd K) (X p a) * X p b := by
      refine Finset.sum_congr rfl fun p hp => ?_
      rw [Finset.mem_range] at hp
      rw [b1 p a hp (by omega), b1 p b hp hb, RCLike.conj_conj]
    rw [this]
    ring
  have c2 : ∀ i j, ¬ ((k + nb ≤ i ∧ i < k + nb + (n - (k + nb)))
      ∧ (k + nb ≤ j ∧ j < k + nb + (n - (k + nb)))) → A3 i j = A2 i j := by
    intro i j hij
    rw [hA3, Mat.store_outside _ _ _ _ _ _ _ _ hij]
  have hiter : UVar3.iter (exact K) Trsm n k nb A = .done A3 := by
    unfold UVar3.iter
    simp only [UVar3.A11, UVar3.A12, UVar3.A22, Mat.put, Mat.sub, Outcome.put]
    rw [show UVar3Unb (exact K) nb (A.view k k) = .done U1 from hU1]
    simp only [Outcome.store, Outcome.andThen]
    rw [← hA1, ← hX, ← hA2, ← hA3]
  -- the rows of the result
  have rAbove : ∀ q, q < k → ∀ i, A3 q i = A q i := by
    intro q hq i
    rw [c2 _ _ (by omega), b2 _ _ (by omega), a2 _ _ (by omega)]
  have rBlock : ∀ a b, a < nb → b < nb → A3 (k + a) (k + b) = U1 a b := by
    intro a b ha hb
    rw [c2 _ _ (by omega), b2 _ _ (by omega), a1 a b ha hb]
  have rRight : ∀ a c, a < nb → c < n - (k + nb) → A3 (k + a) (k + nb + c) = X a c := by
    intro a c ha hc
    rw [c2 _ _ (by omega), b1 a c ha hc]
  have hsumAbove : ∀ i j, ∑ q ∈ Finset.range k, (starRingEnd K) (A3 q i) * A3 q j
      = ∑ q ∈ Finset.range k, (starRingEnd K) (A q i) * A q j := by
    intro i j
    refine Finset.sum_congr rfl fun q hq => ?_
    rw [Finset.mem_range] at hq
    rw [rAbove q hq, rAbove q hq]
  have hFrame : ∀ i j, ¬ (i ≤ j ∧ j < n) → A3 i j = A i j := by
    intro i j hij
    by_cases hreg : (k + nb ≤ i ∧ i < k + nb + (n - (k + nb)))
        ∧ (k + nb ≤ j ∧ j < k + nb + (n - (k + nb)))
    · obtain ⟨a, rfl⟩ : ∃ a, i = k + nb + a := ⟨i - (k + nb), by omega⟩
      obtain ⟨b, rfl⟩ : ∃ b, j = k + nb + b := ⟨j - (k + nb), by omega⟩
      rw [hA3, Mat.store_inside _ _ _ _ _ _ _ _ (by omega) (by omega)]
      simp only [Herk, UpperOrLower.has]
      rw [if_neg (by simp only [decide_eq_true_eq]; omega), Mat.view_apply,
        b2 _ _ (by omega), a2 _ _ (by omega)]
    · rw [c2 _ _ hreg, b2 _ _ (by omega)]
      by_cases hblk : (k ≤ i ∧ i < k + nb) ∧ (k ≤ j ∧ j < k + nb)
      · obtain ⟨a, rfl⟩ : ∃ a, i = k + a := ⟨i - k, by omega⟩
        obtain ⟨b, rfl⟩ : ∃ b, j = k + b := ⟨j - k, by omega⟩
        rw [a1 a b (by omega) (by omega), hF1 a b (by omega), Mat.view_apply]
      · exact a2 _ _ hblk
  refine ⟨A3, hiter, fun p hp i h1 h2 => ?_, fun p hp => ?_, fun i j h1 h2 h3 => ?_,
    fun i j hij => ?_⟩
  · by_cases hpk : p < k
    · rw [← hE p hpk i h1 h2]
      refine Finset.sum_congr rfl fun q hq => ?_
      rw [Finset.mem_range] at hq
      rw [rAbove q (by omega), rAbove q (by omega)]
    · obtain ⟨a, rfl⟩ : ∃ a, p = k + a := ⟨p - k, by omega⟩
      have ha : a < nb := by omega
      rw [show k + a + 1 = k + (a + 1) by ring, Finset.sum_range_add, hsumAbove]
      have h2nd : ∑ q ∈ Finset.range (a + 1),
          (starRingEnd K) (A3 (k + q) (k + a)) * A3 (k + q) i = Sc (k + a) i := by
        by_cases hi : i < k + nb
        · obtain ⟨b, rfl⟩ : ∃ b, i = k + b := ⟨i - k, by omega⟩
          rw [← hTr (k + a) (k + b) (by omega) (by omega) (by omega), ← Mat.view_apply A k k a b,
            ← hE1 a ha b (by omega) (by omega)]
          refine Finset.sum_congr rfl fun q hq => ?_
          rw [Finset.mem_range] at hq
          rw [rBlock q a (by omega) ha, rBlock q b (by omega) (by omega)]
        · obtain ⟨c, rfl⟩ : ∃ c, i = k + nb + c := ⟨i - (k + nb), by omega⟩
          rw [← x1 a c ha (by omega)]
          refine Finset.sum_congr rfl fun q hq => ?_
          rw [Finset.mem_range] at hq
          rw [rBlock q a (by omega) ha, rRight q c (by omega) (by omega)]
      rw [h2nd, hScv]
      ring
  · by_cases hpk : p < k
    · obtain ⟨d, hd, hde, hdd⟩ := hD p hpk
      refine ⟨d, hd, by rw [rAbove p hpk]; exact hde, ?_⟩
      rw [hdd]
      congr 1
      exact (schur_congr A0 A3 A p p p
        (fun q hq => ⟨rAbove q (by omega) p, rAbove q (by omega) p⟩)).symm
    · obtain ⟨a, rfl⟩ : ∃ a, p = k + a := ⟨p - k, by omega⟩
      have ha : a < nb := by omega
      obtain ⟨d, hd, hde, hdd⟩ := hD1l a ha
      refine ⟨d, hd, by rw [rBlock a a ha ha]; exact hde, ?_⟩
      rw [hdd]
      congr 1
      simp only [schur]
      rw [Finset.sum_range_add, hsumAbove, Mat.view_apply,
        hTr (k + a) (k + a) (by omega) (le_refl _) (by omega), hScv]
      have : ∑ q ∈ Finset.range a, (starRingEnd K) (A3 (k + q) (k + a)) * A3 (k + q) (k + a)
          = ∑ q ∈ Finset.range a, (starRingEnd K) (U1 q a) * U1 q a := by
        refine Finset.sum_congr rfl fun q hq => ?_
        rw [Finset.mem_range] at hq
        rw [rBlock q a (by omega) ha]
      rw [this]
      ring
  · obtain ⟨a, rfl⟩ : ∃ a, i = k + nb + a := ⟨i - (k + nb), by omega⟩
    obtain ⟨b, rfl⟩ : ∃ b, j = k + nb + b := ⟨j - (k + nb), by omega⟩
    rw [c1 a b (by omega) (by omega)]
    simp only [schur]
    rw [Finset.sum_range_add, hsumAbove, hScv]
    have : ∑ q ∈ Finset.range nb, (starRingEnd K) (A3 (k + q) (k + nb + a)) * A3 (k + q) (k + nb + b)
        = ∑ p ∈ Finset.range nb, (starRingEnd K) (X p a) * X p b := by
      refine Finset.sum_congr rfl fun q hq => ?_
      rw [Finset.mem_range] at hq
      rw [rRight q a hq (by omega), rRight q b hq (by omega)]
    rw [this]
    ring
  · rw [hFrame i j hij]; exact hF i j hij

end Refinement2

section Refinement3
open scoped ComplexOrder
variable {K : Type} [RCLike K]

/-- The block loop of the serial `UVar3`, entered at `k` with the state the iterations
`0..k-1` of `UVar3Unb` leave, returns, throws exactly when `UVar3Unb` throws and otherwise
leaves the matrix `UVar3Unb` leaves. -/
theorem UVar3.loop_refines {Trsm : TrsmKernel K} (hT : TrsmSolves (exact K) Trsm)
    (n bsize : Nat) (A0 : Mat K) :
    ∀ fuel k A, n ≤ k + fuel * bsize →
      UVar3Unb.run (exact K) n (min k n) A0 = .done A →
      ∃ o, blockLoop (UVar3.iter (exact K) Trsm n) bsize n fuel k A = some o ∧
        o.failed = (UVar3Unb (exact K) n A0).failed ∧
        ∀ U, UVar3Unb (exact K) n A0 = .done U → o = .done U := by
  intro fuel
  induction fuel with
  | zero =>
    intro k A hk hA
    rw [Nat.min_eq_right (by omega)] at hA
    refine ⟨.done A, blockLoop_past _ _ _ _ _ _ (by omega), ?_, ?_⟩
    · rw [UVar3Unb, hA]
    · intro U hU
      rw [UVar3Unb, hA] at hU
      exact hU
  | succ fuel ih =>
    intro k A hk hA
    by_cases hkn : k < n
    · rw [Nat.min_eq_left (by omega)] at hA
      have hnb : k + min bsize (n - k) ≤ n := by omega
      have hblock := UVar3Unb.run_block n k (min bsize (n - k)) hnb A0 A hA
        (min bsize (n - k)) (le_refl _)
      rw [blockLoop, if_pos hkn]
      cases hloc : UVar3Unb (exact K) (min bsize (n - k)) (A.view k k) with
      | done V =>
        obtain ⟨B, hB, hRel⟩ := UVar3.rel_block_step hT hnb
          (UVar3Unb.rel_run n A0 k (by omega) A hA) hloc
        have hf : (UVar3Unb.run (exact K) n (k + min bsize (n - k)) A0).failed = false := by
          rw [hblock.1]
          show (UVar3Unb (exact K) (min bsize (n - k)) (A.view k k)).failed = false
          rw [hloc]; rfl
        obtain ⟨G, hG⟩ := Outcome.done_of_not_failed _ hf
        have hGB : G = B :=
          UVar3Unb.rel_unique (UVar3Unb.rel_run n A0 _ hnb G hG) hRel
        rw [hGB] at hG
        rw [hB]
        refine ih (k + bsize) B (by rw [Nat.add_mul] at hk; omega) ?_
        rw [show min (k + bsize) n = k + min bsize (n - k) by omega]
        exact hG
      | logicError V =>
        obtain ⟨B, hB⟩ := UVar3.iter_failed Trsm n k (min bsize (n - k)) A V hloc
        have hf : (UVar3Unb.run (exact K) n (k + min bsize (n - k)) A0).failed = true := by
          rw [hblock.1]
          show (UVar3Unb (exact K) (min bsize (n - k)) (A.view k k)).failed = true
          rw [hloc]; rfl
        obtain ⟨G, hG⟩ := Outcome.logicError_of_failed _ hf
        have hall : UVar3Unb (exact K) n A0 = .logicError G :=
          UVar3Unb.run_logicError (exact K) n A0 G _ hG n hnb
        rw [hB]
        refine ⟨_, rfl, by rw [hall]; rfl, fun U hU => ?_⟩
        rw [hall] at hU
        exact absurd hU (by simp)
    · rw [Nat.min_eq_right (by omega)] at hA
      refine ⟨.done A, blockLoop_past _ _ _ _ _ _ (by omega), ?_, ?_⟩
      · rw [UVar3Unb, hA]
      · intro U hU
        rw [UVar3Unb, hA] at hU
        exact hU

/-- C36. The blocked serial `UVar3` refines the unblocked kernel: in exact real or complex
arithmetic, with `Herk` of the kernel table and a `Trsm` that solves the triangular
systems, for every `n`, every `n×n` matrix `A` (Hermitian positive definite or not) and
every blocksize `≥ 1`, `UVar3(A)` returns within `⌈n/bsize⌉` iterations of its loop; it
throws exactly when `UVar3Unb(A)` throws; and when it does not, it leaves the matrix that
`UVar3Unb(A)` leaves, the same upper triangle and the strict lower triangle of `A`. -/
theorem UVar3_refines (K : Type) [RCLike K] (Trsm : TrsmKernel K)
    (hT : TrsmSolves (exact K) Trsm) (n bsize : Nat) (hb : 1 ≤ bsize) (A : Mat K)
    (fuel : Nat) (hf : (n + bsize - 1) / bsize ≤ fuel) :
    ∃ o, UVar3 (exact K) Trsm bsize n A fuel = some o ∧
      (o.failed = true ↔ (UVar3Unb (exact K) n A).failed = true) ∧
      (∀ U, UVar3Unb (exact K) n A = .done U → o = .done U) ∧
      (∀ B, o = .done B →
        UVar3Unb (exact K) n A = .done B ∧ ∀ i k, k < i → B i k = A i k) := by
  have hcover : n ≤ fuel * bsize :=
    (ceil_div_bounds bsize n hb).1.trans (Nat.mul_le_mul_right _ hf)
  obtain ⟨o, ho, hfail, hdone⟩ := UVar3.loop_refines hT n bsize A fuel 0 A (by omega)
    (by rw [Nat.zero_min]; rfl)
  refine ⟨o, ho, by rw [hfail], hdone, fun B hB => ?_⟩
  have hnf : (UVar3Unb (exact K) n A).failed = false := by rw [← hfail, hB]; rfl
  obtain ⟨U, hU⟩ := Outcome.done_of_not_failed _ hnf
  have hUB : U = B := by
    have := hdone U hU
    rw [hB] at this
    exact (Outcome.done.inj this).symm
  rw [hUB] at hU
  refine ⟨hU, fun i k hik => ?_⟩
  have := UVar3Unb.run_lower (exact K) n A i k hik n
  rw [show UVar3Unb.run (exact K) n n A = UVar3Unb (exact K) n A from rfl, hU] at this
  exact this

/-- Instance: the real matrix `[[25,20],[20,25]]` with blocksize `1`, two iterations, and
the substitution `trsm`. -/
theorem UVar3_refines_witness :
    TrsmSolves (exact ℝ) (trsm (exact ℝ)) ∧
    ∃ o, UVar3 (exact ℝ) (trsm (exact ℝ)) 1 2 hpd2 2 = some o ∧
      (o.failed = true ↔ (UVar3Unb (exact ℝ) 2 hpd2).failed = true) ∧
      (∀ U, UVar3Unb (exact ℝ) 2 hpd2 = .done U → o = .done U) :=
  ⟨trsm_solves, by
    obtain ⟨o, h1, h2, h3, -⟩ :=
      UVar3_refines ℝ (trsm (exact ℝ)) trsm_solves 2 1 (le_refl _) hpd2 2 (by decide)
    exact ⟨o, h1, h2, h3⟩⟩

end Refinement3

section UnitBlocks
open scoped ComplexOrder
variable {K : Type} [RCLike K]

/-- Once an iteration of `ReverseUVar3Unb` has thrown, the later iterations do not run. -/
theorem ReverseUVar3Unb.rev_run_logicError {F R : Type} [Field F] [LinearOrderedField R]
    (S : Scalars F R) (n : Nat) (A B : Mat F) (j : Nat)
    (h : ReverseUVar3Unb.run S n j A = .logicError B) :
    ∀ c, j ≤ c → ReverseUVar3Unb.run S n c A = .logicError B := by
  intro c hc
  induction c with
  | zero =>
    have : j = 0 := by omega
    subst this; exact h
  | succ c ih =>
    by_cases hj : j = c + 1
    · subst hj; exact h
    · rw [ReverseUVar3Unb.rev_run_succ, ih (by omega)]; rfl

/-- With blocksize `1` an iteration of the serial `ReverseUVar3` on a positive pivot is the
iteration of the unblocked kernel on that pivot: the `1×1` block `A11` becomes the real root
`α`, `Trsm( RIGHT, UPPER, NORMAL )` divides the column above it by `α`, and `Herk`
subtracts the outer product of that column from the upper triangle of `A00`. -/
theorem ReverseUVar3.iter_unit (Trsm : TrsmKernel K) (hT : TrsmSolves (exact K) Trsm)
    (n k : Nat) (A : Mat K) (hpos : ¬ RCLike.re (A (n - (k + 1)) (n - (k + 1))) ≤ 0) :
    ReverseUVar3.iter (exact K) Trsm n k 1 A
      = ReverseUVar3Unb.iter (exact K) (n - (k + 1)) A := by
  rw [ReverseUVar3Unb.rev_iter_eq, if_neg (by simpa using hpos)]
  obtain ⟨α, hα⟩ : ∃ α : K, α = (exact K).ofBase ((exact K).Sqrt
      ((exact K).RealPart (A (n - (k + 1)) (n - (k + 1))))) := ⟨_, rfl⟩
  rw [← hα]
  have hα0 : α ≠ 0 := by
    rw [hα]
    simp only [exact_ofBase, exact_Sqrt, exact_RealPart]
    have h0 : 0 < Real.sqrt (RCLike.re (A (n - (k + 1)) (n - (k + 1)))) :=
      Real.sqrt_pos.2 (not_le.1 hpos)
    exact_mod_cast h0.ne'
  have hV : ReverseUVar3Unb (exact K) 1 (A.view (n - (k + 1)) (n - (k + 1)))
      = .done (ReverseUVar3Unb.after (exact K) 0 α (A.view (n - (k + 1)) (n - (k + 1)))) := by
    rw [ReverseUVar3Unb, ReverseUVar3Unb.rev_run_succ, ReverseUVar3Unb.run,
      Outcome.andThen_done, ReverseUVar3Unb.rev_iter_eq]
    show (if (exact K).RealPart (A (n - (k + 1)) (n - (k + 1))) ≤ 0 then _ else _) = _
    rw [if_neg (by simpa using hpos), hα]
    rfl
  rw [ReverseUVar3.iter_done (exact K) Trsm n k 1 A _ hV]
  refine congrArg Outcome.done ?_
  clear hV hα hpos
  generalize n - (k + 1) = m
  obtain ⟨B1, hB1⟩ : ∃ B1 : Mat K,
      B1 = A.store m m 1 1 (ReverseUVar3Unb.after (exact K) 0 α (A.view m m)) := ⟨_, rfl⟩
  rw [← hB1]
  have b1 : ∀ i j, B1 i j = if i = m ∧ j = m then α else A i j := by
    intro i j
    rw [hB1, Mat.store_apply]
    by_cases h : i = m ∧ j = m
    · obtain ⟨rfl, rfl⟩ := h
      rw [if_pos (by omega), if_pos ⟨rfl, rfl⟩, Nat.sub_self]
      simp [ReverseUVar3Unb.after]
    · rw [if_neg (by omega), if_neg h]
  obtain ⟨X, hX⟩ : ∃ X : Mat K,
      X = Trsm .RIGHT .UPPER .NORMAL .NON_UNIT 1 m 1 (B1.view m m) (B1.view 0 m) := ⟨_, rfl⟩
  rw [← hX]
  have hx : ∀ i, i < m → X i 0 = A i m / α := by
    intro i hi
    have hd : ∀ p, p < 1 → (B1.view m m) p p ≠ 0 := by
      intro p hp
      obtain rfl : p = 0 := by omega
      rw [Mat.view_apply, Nat.add_zero, b1, if_pos ⟨rfl, rfl⟩]
      exact hα0
    have h := hT.2.2 m 1 (B1.view m m) (B1.view 0 m) hd i 0 hi (by decide)
    rw [Finset.sum_range_one, ← hX, Mat.view_apply, Mat.view_apply, Nat.add_zero, Nat.zero_add,
      b1, if_pos ⟨rfl, rfl⟩, b1, if_neg (by omega)] at h
    rw [eq_div_iff hα0]
    exact h
  obtain ⟨B2, hB2⟩ : ∃ B2 : Mat K, B2 = B1.store 0 m m 1 X := ⟨_, rfl⟩
  rw [← hB2]
  have b2 : ∀ i j, B2 i j = if i < m ∧ j = m then A i m / α
      else if i = m ∧ j = m then α else A i j := by
    intro i j
    rw [hB2, Mat.store_apply]
    by_cases h : i < m ∧ j = m
    · obtain ⟨h1, rfl⟩ := h
      rw [if_pos (by omega), if_pos ⟨h1, rfl⟩, Nat.sub_zero, Nat.sub_self, hx i h1]
    · rw [if_neg (by omega), if_neg h, b1]
  funext i j
  rw [Mat.store_apply]
  unfold ReverseUVar3Unb.after
  by_cases hin : i < m ∧ j < m
  · obtain ⟨hi, hj⟩ := hin
    rw [if_pos (by omega), Nat.sub_zero, Nat.sub_zero, if_neg (by omega), if_neg (by omega)]
    unfold Herk
    by_cases hij : i ≤ j
    · rw [if_pos ⟨⟨hi, hj⟩, by simp [UpperOrLower.has, hij]⟩, if_pos ⟨hij, hj⟩,
        Finset.sum_range_one]
      simp only [Orientation.op, Mat.view_apply, Nat.zero_add, Nat.add_zero, exact_Conj]
      rw [b2 i m, if_pos ⟨hi, rfl⟩, b2 j m, if_pos ⟨hj, rfl⟩, b2 i j, if_neg (by omega),
        if_neg (by omega)]
      ring
    · rw [if_neg (by simp [UpperOrLower.has, hij]), if_neg (by omega), Mat.view_apply,
        Nat.zero_add, Nat.zero_add, b2, if_neg (by omega), if_neg (by omega)]
  · rw [if_neg (by omega), b2]
    by_cases h2 : i < m ∧ j = m
    · obtain ⟨h2, rfl⟩ := h2
      simp [h2, h2.ne]
    · by_cases h1 : i = m ∧ j = m
      · obtain ⟨rfl, rfl⟩ := h1
        simp
      · simp only [if_neg h2, if_neg h1]
        rw [if_neg (by omega), if_neg (by omega)]

/-- With blocksize `1` the serial `ReverseUVar3` continues a run of the unblocked kernel:
if `ReverseUVar3Unb` goes through on `A0` and leaves `V`, the block loop started at `k` on
the matrix the first `k` unblocked iterations leave returns `V`. -/
theorem ReverseUVar3.loop_unit (Trsm : TrsmKernel K) (hT : TrsmSolves (exact K) Trsm)
    (n : Nat) (A0 V : Mat K) (hV : ReverseUVar3Unb (exact K) n A0 = .done V) :
    ∀ fuel k A, k ≤ n → n ≤ k + fuel → ReverseUVar3Unb.run (exact K) n k A0 = .done A →
      blockLoop (ReverseUVar3.iter (exact K) Trsm n) 1 n fuel k A = some (.done V) := by
  have hend : ∀ k A, k ≤ n → ¬ k < n → ReverseUVar3Unb.run (exact K) n k A0 = .done A →
      A = V := by
    intro k A h1 h2 hA
    obtain rfl : k = n := by omega
    have h3 : ReverseUVar3Unb.run (exact K) k k A0 = .done V := hV
    rw [hA] at h3
    exact Outcome.done.inj h3
  intro fuel
  induction fuel with
  | zero =>
    intro k A hk hfuel hA
    have hkn : ¬ k < n := by omega
    rw [blockLoop, if_neg hkn, hend k A hk hkn hA]
  | succ fuel ih =>
    intro k A hk hfuel hA
    by_cases hkn : k < n
    · have hrun : ReverseUVar3Unb.run (exact K) n (k + 1) A0
          = ReverseUVar3Unb.iter (exact K) (n - (k + 1)) A := by
        rw [ReverseUVar3Unb.rev_run_succ, hA, Outcome.andThen_done,
          show n - 1 - k = n - (k + 1) by omega]
      have hpos : ¬ RCLike.re (A (n - (k + 1)) (n - (k + 1))) ≤ 0 := by
        intro hle
        rw [ReverseUVar3Unb.rev_iter_eq, if_pos (by simpa using hle)] at hrun
        have h3 := ReverseUVar3Unb.rev_run_logicError (exact K) n A0 A (k + 1) hrun n
          (by omega)
        have h4 : ReverseUVar3Unb.run (exact K) n n A0 = .done V := hV
        rw [h3] at h4
        exact Outcome.noConfusion h4
      have hiter := ReverseUVar3.iter_unit Trsm hT n k A hpos
      rw [ReverseUVar3Unb.rev_iter_eq, if_neg (by simpa using hpos)] at hiter hrun
      rw [blockLoop, if_pos hkn, show min 1 (n - k) = 1 by omega, hiter]
      exact ih (k + 1) _ (by omega) (by omega) hrun
    · rw [blockLoop, if_neg hkn, hend k A hk hkn hA]

/-- C4, amended. In exact real or complex arithmetic, for every Hermitian positive
definite `A`: for every blocksize `≥ 1` the serial `UVar3` runs through and leaves the
upper triangle `U` with `Uᴴ·U = A`; with blocksize `1` and with a blocksize of at least `n`
(one block) the serial `ReverseUVar3` runs through and leaves an upper triangle `V` with
`V·Vᴴ = A`. -/
theorem UVar3_ReverseUVar3_factor (K : Type) [RCLike K] (Trsm : TrsmKernel K)
    (hT : TrsmSolves (exact K) Trsm) (n bsize : Nat) (hb : 1 ≤ bsize) (A : Mat K)
    (hA : (A.toMatrix n).PosDef) (fuel : Nat) (hf : n ≤ fuel) :
    (∃ U, UVar3 (exact K) Trsm bsize n A fuel = some (.done U) ∧
      (U.upper n).conjTranspose * U.upper n = A.toMatrix n) ∧
    (bsize = 1 ∨ n ≤ bsize →
      ∃ V, ReverseUVar3 (exact K) Trsm bsize n A fuel = some (.done V) ∧
        V.upper n * (V.upper n).conjTranspose = A.toMatrix n) := by
  have hPD := PDOn.of_posDef hA
  constructor
  · have h0 : UVar3Unb.Inv n A A (min 0 n) := by
      rw [Nat.zero_min]
      refine ⟨fun j hj => absurd hj (by omega), fun j hj => absurd hj (by omega), ?_⟩
      intro i k _ _ _
      simp [schur]
    obtain ⟨U, hU, hI⟩ := blockLoop_inv (UVar3.iter (exact K) Trsm n) bsize n hb
      (fun k B => UVar3Unb.Inv n A B k)
      (fun k B hk hI => UVar3.uvar3_inv_step hT hPD (by omega) hI) fuel 0 A (by omega) h0
    exact ⟨U, hU, UVar3Unb.inv_final hPD hI⟩
  · intro hn
    obtain ⟨V, hV, hVV⟩ := ReverseUVar3Unb_posDef hPD
    rcases hn with h1 | hn
    · subst h1
      exact ⟨V, ReverseUVar3.loop_unit Trsm hT n A V hV fuel 0 A (Nat.zero_le _) (by omega) rfl,
        hVV⟩
    · rcases Nat.eq_zero_or_pos n with h0 | h0
      · subst h0
        exact ⟨A, blockLoop_past _ _ _ _ _ _ (le_refl _), by ext i; exact i.elim0⟩
      · refine ⟨A.store 0 0 n n V, ?_, ?_⟩
        · rw [ReverseUVar3_single _ _ n bsize hn h0 _ fuel (by omega), hV]; rfl
        · rw [Mat.upper_store]; exact hVV

/-- Instance: the real matrix `[[25,20],[20,25]]` with blocksize `1` for `UVar3` and with
the blocksizes `1` and `2` for `ReverseUVar3`. -/
theorem UVar3_ReverseUVar3_factor_witness :
    TrsmSolves (exact ℝ) (trsm (exact ℝ)) ∧ (hpd2.toMatrix 2).PosDef ∧
    (∃ U, UVar3 (exact ℝ) (trsm (exact ℝ)) 1 2 hpd2 2 = some (.done U) ∧
      (U.upper 2).conjTranspose * U.upper 2 = hpd2.toMatrix 2) ∧
    (∃ V, ReverseUVar3 (exact ℝ) (trsm (exact ℝ)) 1 2 hpd2 2 = some (.done V) ∧
      V.upper 2 * (V.upper 2).conjTranspose = hpd2.toMatrix 2) ∧
    (∃ V, ReverseUVar3 (exact ℝ) (trsm (exact ℝ)) 2 2 hpd2 2 = some (.done V) ∧
      V.upper 2 * (V.upper 2).conjTranspose = hpd2.toMatrix 2) :=
  ⟨trsm_solves, hpd2_posDef,
    (UVar3_ReverseUVar3_factor ℝ (trsm (exact ℝ)) trsm_solves 2 1 (le_refl _) hpd2
      hpd2_posDef 2 (le_refl _)).1,
    (UVar3_ReverseUVar3_factor ℝ (trsm (exact ℝ)) trsm_solves 2 1 (le_refl _) hpd2
      hpd2_posDef 2 (le_refl _)).2 (Or.inl rfl),
    (UVar3_ReverseUVar3_factor ℝ (trsm (exact ℝ)) trsm_solves 2 2 (by decide) hpd2
      hpd2_posDef 2 (le_refl _)).2 (Or.inr (le_refl _))⟩

end UnitBlocks

end Elemental
